import Mathlib

/-!
# Control-flow-graph construction of `cfg/CFG.cc`

A shallow embedding of the CFG builder (`CFG::buildFor`, `CFG::walk`, the edge
helpers), of the two topological sorts, of `CFG::dealias` and of
`CFG::fillInBlockArguments`, followed by theorems about them.

Conventions of the embedding.

* A `core::SymbolRef` is its `_id`, a natural number; `0` is the symbol that does
  not exist (`SymbolRef::exists()` is `_id != 0`).
* A `BasicBlock *` is the index of the block in `CFG::basicBlocks`; `BasicBlock::id`
  is that same index (`CFG::freshBlock`), so it is not stored. A pointer that may be
  null is an `Option Nat`.
* `std::unordered_set` and `std::unordered_map` are lists without repeated
  elements, respectively association lists without repeated keys. The source never
  observes their iteration order except through results that are sorted afterwards.
* Source locations (`loc`) and inferred types (`tpe`) of bindings are not modelled:
  no code of this file reads them.
* A run ends in `Except.error` when the source raises (`Error::check`,
  `Error::raise`), when it dereferences a null or dangling pointer, or when the
  model runs out of fuel.
-/

namespace ruby_typer

/-- Why a run did not return. -/
inductive Err where
  /-- `Error::check` failed or `Error::raise` was called. -/
  | raise
  /-- A null or out-of-range pointer or index was dereferenced. -/
  | undefined
  /-- The model ran out of fuel (never the case for the fuel used below). -/
  | fuel
deriving DecidableEq, Repr

deriving instance DecidableEq for Except

namespace core

/-- The `_id` of a `core::SymbolRef`. -/
abbrev SymbolRef := Nat

/-- The `_id` of a `core::NameRef`. -/
abbrev NameRef := Nat

/-- Modelled from the spec: `SymbolRef::exists()`, false exactly for the default
symbol reference, whose `_id` is `0` ("`cond` is unset"). -/
def SymbolRef.symbolExists (s : SymbolRef) : Bool := s != 0

/-- Modelled from the spec: the attributes of a symbol which this file consults
(`name`, `owner`, `arguments()`, `isLocalVariable()`, `isSyntheticTemporary(ctx)`,
`minLoops`). -/
structure Symbol where
  name : NameRef := 0
  owner : SymbolRef := 0
  arguments : List SymbolRef := []
  isLocalVariable : Bool := false
  isSyntheticTemporary : Bool := false
  minLoops : Int := 2147483647
deriving DecidableEq, Repr, Inhabited

/-- Modelled from the spec: names handed to `newTemporary`
(`core::Names::whileTemp()` and the like). -/
def Names.whileTemp : NameRef := 1
/-- Modelled from the spec: `core::Names::ifTemp()`. -/
def Names.ifTemp : NameRef := 2
/-- Modelled from the spec: `core::Names::statTemp()`. -/
def Names.statTemp : NameRef := 3
/-- Modelled from the spec: `core::Names::returnTemp()`. -/
def Names.returnTemp : NameRef := 4
/-- Modelled from the spec: `core::Names::returnMethodTemp()`. -/
def Names.returnMethodTemp : NameRef := 5
/-- Modelled from the spec: `core::Names::selfMethodTemp()`. -/
def Names.selfMethodTemp : NameRef := 6
/-- Modelled from the spec: `core::Names::blockReturnTemp()`. -/
def Names.blockReturnTemp : NameRef := 7

/-- Modelled from the spec: the symbol table of the global compilation context.
The symbols with `_id` below `GlobalState.firstUserId` are the fixed ones every
table starts with (the non-existing symbol and the sentinels); `symbols` holds the
others, the symbol with `_id = firstUserId + i` at position `i`. -/
structure GlobalState where
  symbols : List Symbol
deriving DecidableEq, Repr

/-- Number of fixed symbols at the start of every table. -/
def GlobalState.firstUserId : Nat := 5

/-- Modelled from the spec: sentinel symbol `defn_todo`. -/
def GlobalState.defn_todo : SymbolRef := 1
/-- Modelled from the spec: sentinel symbol `defn_cfg_never`. -/
def GlobalState.defn_cfg_never : SymbolRef := 2
/-- Modelled from the spec: sentinel symbol `defn_cfg_always`. -/
def GlobalState.defn_cfg_always : SymbolRef := 3
/-- Modelled from the spec: sentinel symbol `defn_cfg_block_call`. -/
def GlobalState.defn_cfg_block_call : SymbolRef := 4

/-- Modelled from the spec: `what.info(ctx)`. The fixed symbols are neither local
variables nor synthetic temporaries. -/
def GlobalState.info (gs : GlobalState) (what : SymbolRef) : Symbol :=
  if what < GlobalState.firstUserId then {}
  else gs.symbols.getD (what - GlobalState.firstUserId) {}

/-- Modelled from the spec: `ctx.state.newTemporary(kind, name, owner)` mints a fresh
symbol, a local variable that is a synthetic temporary, tagged with `name`; its
`minLoops` starts at the large sentinel. -/
def GlobalState.newTemporary (gs : GlobalState) (name : NameRef) (owner : SymbolRef) :
    SymbolRef × GlobalState :=
  (GlobalState.firstUserId + gs.symbols.length,
    { symbols := gs.symbols ++
        [{ name := name, owner := owner, isLocalVariable := true,
           isSyntheticTemporary := true }] })

/-- Assignment `what.info(ctx).minLoops = v`. -/
def GlobalState.setMinLoops (gs : GlobalState) (what : SymbolRef) (v : Int) : GlobalState :=
  if what < GlobalState.firstUserId then gs
  else { symbols := gs.symbols.modify (fun s => { s with minLoops := v })
                      (what - GlobalState.firstUserId) }

end core

open core

namespace ast

mutual
/-- The AST node kinds `CFG::walk` distinguishes; `NotHandled` stands for a node of
any other kind. Field names are those the source reads. -/
inductive Expression where
  | While (cond body : Expression)
  | Return (expr : Expression)
  | If (cond thenp elsep : Expression)
  | IntLit (value : Int)
  | FloatLit (value : Nat)
  | StringLit (value : NameRef)
  | BoolLit (value : Bool)
  | ConstantLit (cnst : NameRef)
  | Ident (symbol : SymbolRef)
  | Self (claz : SymbolRef)
  | Assign (lhs rhs : Expression)
  | InsSeq (stats : List Expression) (expr : Expression)
  | Send (recv : Expression) (fn : NameRef) (args : List Expression) (block : Option Block)
  | BareBlock (block : Block)
  | NotHandled (kind : Nat)
/-- An `ast::Block`: formal arguments and body. -/
inductive Block where
  | mk (args : List Expression) (body : Expression)
end

/-- An `ast::MethodDef`: the method symbol and its body. -/
structure MethodDef where
  symbol : SymbolRef
  rhs : Expression

end ast

namespace cfg

/-- The closed set of instruction kinds. -/
inductive Instruction where
  | Ident (what : SymbolRef)
  | Alias (what : SymbolRef)
  | Send (recv : SymbolRef) (fn : NameRef) (args : List SymbolRef)
  | Super (args : List SymbolRef)
  | Return (what : SymbolRef)
  | NamedArg (name : NameRef) (value : SymbolRef)
  | LoadArg (receiver : SymbolRef) (method : NameRef) (arg : Int)
  | Self (claz : SymbolRef)
  | IntLit (value : Int)
  | FloatLit (value : Nat)
  | StringLit (value : NameRef)
  | BoolLit (value : Bool)
  | Nil
  | ArraySplat (what : SymbolRef)
  | HashSplat (what : SymbolRef)
  | NotSupported (why : String)
deriving DecidableEq, Repr

/-- A `Binding`: `bind := value`. -/
structure Binding where
  bind : SymbolRef
  value : Instruction
deriving DecidableEq, Repr

/-- The terminator of a block. -/
structure BlockExit where
  cond : SymbolRef := 0
  thenb : Option Nat := none
  elseb : Option Nat := none
deriving DecidableEq, Repr

/-- A `BasicBlock`. -/
structure BasicBlock where
  args : List SymbolRef := []
  exprs : List Binding := []
  bexit : BlockExit := {}
  backEdges : List Nat := []
  outerLoops : Int := 0
  flags : Nat := 0
deriving DecidableEq, Repr

/-- A `CFG`. -/
structure CFG where
  symbol : SymbolRef := 0
  basicBlocks : List BasicBlock := []
  forwardsTopoSort : List (Option Nat) := []
  backwardsTopoSort : List (Option Nat) := []
deriving DecidableEq, Repr

/-- `CFG::FORWARD_TOPO_SORT_VISITED`. -/
def CFG.FORWARD_TOPO_SORT_VISITED : Nat := 1 <<< 0
/-- `CFG::BACKWARD_TOPO_SORT_VISITED`. -/
def CFG.BACKWARD_TOPO_SORT_VISITED : Nat := 1 <<< 1

/-- `entry()`: the block `basicBlocks[0]`. -/
def CFG.entry : Nat := 0
/-- `deadBlock()`: the block `basicBlocks[1]`. -/
def CFG.deadBlock : Nat := 1

/-- Dereference of a block pointer. -/
def CFG.block (c : CFG) (p : Nat) : Except Err BasicBlock :=
  match c.basicBlocks[p]? with
  | some b => .ok b
  | none => .error .undefined

/-- Dereference of a pointer that may be null. -/
def deref (p : Option Nat) : Except Err Nat :=
  match p with
  | some b => .ok b
  | none => .error .undefined

/-- In-place update of the block `p` points to. -/
def CFG.update (c : CFG) (p : Nat) (f : BasicBlock → BasicBlock) : Except Err CFG :=
  if p < c.basicBlocks.length then
    .ok { c with basicBlocks := c.basicBlocks.modify f p }
  else .error .undefined

/-- `bb->exprs.emplace_back(bind, loc, value)`. -/
def CFG.emplace (c : CFG) (p : Nat) (bind : SymbolRef) (value : Instruction) : Except Err CFG :=
  c.update p (fun b => { b with exprs := b.exprs ++ [⟨bind, value⟩] })

/-- `bb->backEdges.push_back(from)`. -/
def CFG.pushBackEdge (c : CFG) (p : Nat) (fromBB : Nat) : Except Err CFG :=
  c.update p (fun b => { b with backEdges := b.backEdges ++ [fromBB] })

/-- `CFG::freshBlock` (lines 403-410): returns the new block and the grown graph. -/
def CFG.freshBlock (c : CFG) (outerLoops : Int) : Nat × CFG :=
  (c.basicBlocks.length,
    { c with basicBlocks := c.basicBlocks ++ [{ outerLoops := outerLoops }] })

/-- The constructor `CFG::CFG` (lines 412-418). -/
def CFG.new : CFG :=
  let c1 := (CFG.freshBlock {} 0).2
  let c2 := (CFG.freshBlock c1 0).2
  let dead : BlockExit :=
    { cond := GlobalState.defn_cfg_never, thenb := some CFG.deadBlock, elseb := some CFG.deadBlock }
  { c2 with basicBlocks := c2.basicBlocks.modify (fun b => { b with bexit := dead }) CFG.deadBlock }

/-- `conditionalJump` (lines 420-429). -/
def conditionalJump (fromBB : Nat) (cond : SymbolRef) (thenb elseb : Nat) (inWhat : CFG) :
    Except Err CFG :=
  if fromBB ≠ CFG.deadBlock then do
    let fb ← inWhat.block fromBB
    if fb.bexit.cond.symbolExists then throw Err.raise
    let c ← inWhat.update fromBB
      (fun b => { b with bexit := { cond := cond, thenb := some thenb, elseb := some elseb } })
    let c ← c.pushBackEdge thenb fromBB
    c.pushBackEdge elseb fromBB
  else pure inWhat

/-- `unconditionalJump` (lines 431-439). -/
def unconditionalJump (fromBB toBB : Nat) (inWhat : CFG) : Except Err CFG :=
  if fromBB ≠ CFG.deadBlock then do
    let fb ← inWhat.block fromBB
    if fb.bexit.cond.symbolExists then throw Err.raise
    let c ← inWhat.update fromBB
      (fun b => { b with bexit := { cond := GlobalState.defn_cfg_always,
                                    thenb := some toBB, elseb := some toBB } })
    c.pushBackEdge toBB fromBB
  else pure inWhat

/-- `jumpToDead` (lines 441-450). -/
def jumpToDead (fromBB : Nat) (inWhat : CFG) : Except Err CFG :=
  let db := CFG.deadBlock
  if fromBB ≠ db then do
    let fb ← inWhat.block fromBB
    if fb.bexit.cond.symbolExists then throw Err.raise
    let c ← inWhat.update fromBB
      (fun b => { b with bexit := { cond := GlobalState.defn_cfg_never,
                                    thenb := some db, elseb := some db } })
    c.pushBackEdge db fromBB
  else pure inWhat

/-- The mutable surroundings of `CFG::walk`: the global state behind `ctx`, the graph
`inWhat` under construction and the `aliases` map of `CFG::buildFor`. -/
structure BuildState where
  gs : GlobalState
  inWhat : CFG
  aliases : List (SymbolRef × SymbolRef) := []
deriving DecidableEq, Repr

/-- `ctx.state.newTemporary(core::UniqueNameKind::CFG, name, inWhat.symbol)`. -/
def BuildState.newTemporary (st : BuildState) (name : NameRef) : SymbolRef × BuildState :=
  let r := st.gs.newTemporary name st.inWhat.symbol
  (r.1, { st with gs := r.2 })

/-- `inWhat.freshBlock(outerLoops)`. -/
def BuildState.freshBlock (st : BuildState) (outerLoops : Int) : Nat × BuildState :=
  let r := st.inWhat.freshBlock outerLoops
  (r.1, { st with inWhat := r.2 })

/-- Runs a graph update on the graph under construction. -/
def BuildState.onCFG (st : BuildState) (f : CFG → Except Err CFG) : Except Err BuildState := do
  let c ← f st.inWhat
  pure { st with inWhat := c }

/-- `m[k] = v` on a `std::unordered_map` keyed by symbols. -/
def mapSet {β : Type} (m : List (SymbolRef × β)) (k : SymbolRef) (v : β) : List (SymbolRef × β) :=
  match m with
  | [] => [(k, v)]
  | (k1, v1) :: rest => if k1 = k then (k, v) :: rest else (k1, v1) :: mapSet rest k v

/-- `m.find(k)` on a `std::unordered_map` keyed by symbols. -/
def mapFind {β : Type} (m : List (SymbolRef × β)) (k : SymbolRef) : Option β :=
  match m with
  | [] => none
  | (k1, v1) :: rest => if k1 = k then some v1 else mapFind rest k

/-- `global2Local` (lines 452-464). -/
def global2Local (what : SymbolRef) (st : BuildState) : SymbolRef × BuildState :=
  let info := st.gs.info what
  if !info.isLocalVariable then
    let aliasSym : SymbolRef := (mapFind st.aliases what).getD 0
    if !aliasSym.symbolExists then
      let r := st.newTemporary info.name
      (r.1, { r.2 with aliases := mapSet r.2.aliases what r.1 })
    else
      (aliasSym, st)
  else
    (what, st)

/-- The loop of lines 601-610: a `LoadArg` binding in `bodyBlock` for every block
formal that is an `Ident`; `i` is the position of the first formal of `args`. -/
def loadBlockArgs (recv : SymbolRef) (fn : NameRef) (bodyBlock : Nat) :
    List ast.Expression → Int → CFG → Except Err CFG
  | [], _, c => pure c
  | arg :: rest, i, c =>
    match arg with
    | .Ident symbol => do
      let c ← c.emplace bodyBlock symbol (.LoadArg recv fn i)
      loadBlockArgs recv fn bodyBlock rest (i + 1) c
    | _ => loadBlockArgs recv fn bodyBlock rest (i + 1) c

/-- Lines 560-568: the symbol an `Assign` stores into, the local of the left-hand
side when that is an `Ident` and `defn_todo` otherwise. -/
def assignTarget (lhs : ast.Expression) (st : BuildState) : SymbolRef × BuildState :=
  match lhs with
  | .Ident symbol => global2Local symbol st
  | _ => (GlobalState.defn_todo, st)

/-- The check `Error::check(!current->bexit.cond.exists())` of line 476. -/
def checkUnset (c : CFG) (current : Nat) : Except Err Unit := do
  let cur ← c.block current
  if cur.bexit.cond.symbolExists then throw Err.raise
  pure ()

mutual
/-- `CFG::walk` (lines 469-643). `typecase` runs the first handler whose parameter
type the node can be cast to, so a bare `ast::Block` reaches the `ast::Expression`
handler of line 630, which precedes that of line 635. -/
def CFG.walk : ast.Expression → Nat → SymbolRef → Int → BuildState →
    Except Err (Nat × BuildState)
  | .While cond body, current, target, loops, st => do
    checkUnset st.inWhat current
    let (headerBlock, st) := st.freshBlock (loops + 1)
    let st ← st.onCFG (unconditionalJump current headerBlock)
    let (condSym, st) := st.newTemporary Names.whileTemp
    let (headerEnd, st) ← CFG.walk cond headerBlock condSym (loops + 1) st
    let (bodyBlock, st) := st.freshBlock (loops + 1)
    let (continueBlock, st) := st.freshBlock loops
    let st ← st.onCFG (conditionalJump headerEnd condSym bodyBlock continueBlock)
    let (bodySym, st) := st.newTemporary Names.statTemp
    let (body, st) ← CFG.walk body bodyBlock bodySym (loops + 1) st
    let st ← st.onCFG (unconditionalJump body headerBlock)
    let st ← st.onCFG (fun c => c.emplace continueBlock target .Nil)
    pure (continueBlock, st)
  | .Return expr, current, target, loops, st => do
    checkUnset st.inWhat current
    let (retSym, st) := st.newTemporary Names.returnTemp
    let (cont, st) ← CFG.walk expr current retSym loops st
    let st ← st.onCFG (fun c => c.emplace cont target (.Return retSym))
    let st ← st.onCFG (jumpToDead cont)
    pure (CFG.deadBlock, st)
  | .If cond thenp elsep, current, target, loops, st => do
    checkUnset st.inWhat current
    let (ifSym, st) := st.newTemporary Names.ifTemp
    if !ifSym.symbolExists then throw Err.raise
    let (thenBlock, st) := st.freshBlock loops
    let (elseBlock, st) := st.freshBlock loops
    let (cont, st) ← CFG.walk cond current ifSym loops st
    let st ← st.onCFG (conditionalJump cont ifSym thenBlock elseBlock)
    let (thenEnd, st) ← CFG.walk thenp thenBlock target loops st
    let (elseEnd, st) ← CFG.walk elsep elseBlock target loops st
    if thenEnd ≠ CFG.deadBlock ∨ elseEnd ≠ CFG.deadBlock then
      if thenEnd = CFG.deadBlock then
        pure (elseEnd, st)
      else if thenEnd = CFG.deadBlock then
        pure (thenEnd, st)
      else do
        let (ret, st) := st.freshBlock loops
        let st ← st.onCFG (unconditionalJump thenEnd ret)
        let st ← st.onCFG (unconditionalJump elseEnd ret)
        pure (ret, st)
    else
      pure (CFG.deadBlock, st)
  | .IntLit value, current, target, _, st => do
    checkUnset st.inWhat current
    let st ← st.onCFG (fun c => c.emplace current target (.IntLit value))
    pure (current, st)
  | .FloatLit value, current, target, _, st => do
    checkUnset st.inWhat current
    let st ← st.onCFG (fun c => c.emplace current target (.FloatLit value))
    pure (current, st)
  | .StringLit value, current, target, _, st => do
    checkUnset st.inWhat current
    let st ← st.onCFG (fun c => c.emplace current target (.StringLit value))
    pure (current, st)
  | .BoolLit value, current, target, _, st => do
    checkUnset st.inWhat current
    let st ← st.onCFG (fun c => c.emplace current target (.BoolLit value))
    pure (current, st)
  | .ConstantLit _, current, _, _, st => do
    checkUnset st.inWhat current
    throw Err.raise
  | .Ident symbol, current, target, _, st => do
    checkUnset st.inWhat current
    let (what, st) := global2Local symbol st
    let st ← st.onCFG (fun c => c.emplace current target (.Ident what))
    pure (current, st)
  | .Self claz, current, target, _, st => do
    checkUnset st.inWhat current
    let st ← st.onCFG (fun c => c.emplace current target (.Self claz))
    pure (current, st)
  | .Assign lhs rhs, current, target, loops, st => do
    checkUnset st.inWhat current
    let (lhsSym, st) := assignTarget lhs st
    let (rhsCont, st) ← CFG.walk rhs current lhsSym loops st
    let st ← st.onCFG (fun c => c.emplace rhsCont target (.Ident lhsSym))
    pure (rhsCont, st)
  | .InsSeq stats expr, current, target, loops, st => do
    checkUnset st.inWhat current
    let (current, st) ← CFG.walkStats stats current loops st
    CFG.walk expr current target loops st
  | .Send recvE fn argsE block, current, target, loops, st => do
    checkUnset st.inWhat current
    let (recv, st) := st.newTemporary Names.statTemp
    let (current, st) ← CFG.walk recvE current recv loops st
    let (current, args, st) ← CFG.walkArgs argsE current loops [] st
    match block with
    | some (.mk blockArgs blockBody) => do
      let (headerBlock, st) := st.freshBlock (loops + 1)
      let (postBlock, st) := st.freshBlock loops
      let (bodyBlock, st) := st.freshBlock (loops + 1)
      let st ← st.onCFG (loadBlockArgs recv fn bodyBlock blockArgs 0)
      let st ← st.onCFG
        (conditionalJump headerBlock GlobalState.defn_cfg_block_call bodyBlock postBlock)
      let st ← st.onCFG (unconditionalJump current headerBlock)
      let (blockrv, st) := st.newTemporary Names.blockReturnTemp
      let (blockLast, st) ← CFG.walk blockBody bodyBlock blockrv (loops + 1) st
      let st ← st.onCFG (unconditionalJump blockLast headerBlock)
      let st ← st.onCFG (fun c => c.emplace postBlock target (.Send recv fn args))
      pure (postBlock, st)
    | none => do
      let st ← st.onCFG (fun c => c.emplace current target (.Send recv fn args))
      pure (current, st)
  | .BareBlock _, current, target, _, st => do
    checkUnset st.inWhat current
    let st ← st.onCFG (fun c => c.emplace current target (.NotSupported ""))
    pure (current, st)
  | .NotHandled _, current, target, _, st => do
    checkUnset st.inWhat current
    let st ← st.onCFG (fun c => c.emplace current target (.NotSupported ""))
    pure (current, st)
/-- The loop of lines 574-578 over the statements of an `InsSeq`. -/
def CFG.walkStats : List ast.Expression → Nat → Int → BuildState →
    Except Err (Nat × BuildState)
  | [], current, _, st => pure (current, st)
  | exp :: rest, current, loops, st => do
    let (temp, st) := st.newTemporary Names.statTemp
    let (current, st) ← CFG.walk exp current temp loops st
    CFG.walkStats rest current loops st
/-- The loop of lines 588-594 over the arguments of a `Send`; `args` collects the
temporaries. -/
def CFG.walkArgs : List ast.Expression → Nat → Int → List SymbolRef → BuildState →
    Except Err (Nat × List SymbolRef × BuildState)
  | [], current, _, args, st => pure (current, args, st)
  | exp :: rest, current, loops, args, st => do
    let (temp, st) := st.newTemporary Names.statTemp
    let (current, st) ← CFG.walk exp current temp loops st
    CFG.walkArgs rest current loops (args ++ [temp]) st
end

/-! ## Topological sorts (lines 288-354) -/

/-- The state threaded through a topological sort: the graph (for the visited
flags), the `target` vector and `nextFree`. -/
abbrev SortState := CFG × List (Option Nat) × Nat

/-- `target[nextFree] = currentBB; nextFree + 1`. -/
def storeBlock (s : SortState) (currentBB : Nat) : Except Err SortState :=
  if s.2.2 < s.2.1.length then
    pure (s.1, s.2.1.set s.2.2 (some currentBB), s.2.2 + 1)
  else throw Err.undefined

/-- `CFG::topoSortFwd` (lines 288-299); `fuel` bounds the depth of the recursion. -/
def CFG.topoSortFwd : Nat → SortState → Option Nat → Except Err SortState
  | 0, _, _ => throw Err.fuel
  | fuel + 1, s, currentBB => do
    let p ← deref currentBB
    let bb ← s.1.block p
    if bb.flags &&& CFG.FORWARD_TOPO_SORT_VISITED ≠ 0 then
      pure s
    else do
      let c ← s.1.update p (fun b => { b with flags := b.flags ||| CFG.FORWARD_TOPO_SORT_VISITED })
      let s ← CFG.topoSortFwd fuel (c, s.2) bb.bexit.thenb
      let s ← CFG.topoSortFwd fuel s bb.bexit.elseb
      storeBlock s p

/-- The loops `while (i < backEdges.size()) { nextFree = topoSortBwd(..., backEdges[i]); i++; }`
of lines 323-326 and 328-331, over the back edges that are left. -/
def visitEdges (visit : SortState → Nat → Except Err SortState) :
    List Nat → SortState → Except Err SortState
  | [], s => pure s
  | e :: rest, s => do
    let s ← visit s e
    visitEdges visit rest s

/-- The loop of lines 316-319 over the predecessors in outer loops; returns how many
it visited (`i`), the back edges that are left and the state. -/
def visitOuterEdges (visit : SortState → Nat → Except Err SortState) (outerLoops : Int) :
    List Nat → Nat → SortState → Except Err (Nat × List Nat × SortState)
  | [], i, s => pure (i, [], s)
  | e :: rest, i, s => do
    let eb ← s.1.block e
    if outerLoops > eb.outerLoops then do
      let s ← visit s e
      visitOuterEdges visit outerLoops rest (i + 1) s
    else pure (i, e :: rest, s)

/-- `CFG::topoSortBwd` (lines 301-337); `fuel` bounds the depth of the recursion. -/
def CFG.topoSortBwd : Nat → SortState → Option Nat → Except Err SortState
  | 0, _, _ => throw Err.fuel
  | fuel + 1, s, currentBB => do
    let p ← deref currentBB
    let bb ← s.1.block p
    if bb.flags &&& CFG.BACKWARD_TOPO_SORT_VISITED ≠ 0 then
      pure s
    else do
      let c ← s.1.update p (fun b => { b with flags := b.flags ||| CFG.BACKWARD_TOPO_SORT_VISITED })
      let visit := fun (s : SortState) (e : Nat) => CFG.topoSortBwd fuel s (some e)
      let (i, rest, s) ← visitOuterEdges visit bb.outerLoops bb.backEdges 0 (c, s.2)
      if i > 0 then do
        let s ← storeBlock s p
        visitEdges visit rest s
      else do
        let s ← visitEdges visit rest s
        storeBlock s p

/-- `outerLoops` of the block a back edge points to. -/
def CFG.outerLoopsOf (c : CFG) (p : Nat) : Int :=
  (c.basicBlocks.getD p {}).outerLoops

/-- `target.resize(n)` on a vector of block pointers. -/
def resizeTarget (target : List (Option Nat)) (n : Nat) : List (Option Nat) :=
  (target ++ List.replicate (n - target.length) none).take n

/-- The `std::sort` of lines 342-343; elements with equal keys keep their order. -/
def sortBackEdges (c : CFG) (backEdges : List Nat) : List Nat :=
  backEdges.insertionSort (fun a b => c.outerLoopsOf a ≤ c.outerLoopsOf b)

/-- `CFG::fillInTopoSorts` (lines 339-354). The recursion of either sort enters a
block at most once, so `basicBlocks.size() + 1` levels of fuel are enough. -/
def CFG.fillInTopoSorts (c : CFG) : Except Err CFG := do
  let sorted := c.basicBlocks.map (fun bb => { bb with backEdges := sortBackEdges c bb.backEdges })
  let c : CFG := { c with basicBlocks := sorted }
  let n := c.basicBlocks.length
  let target1 := resizeTarget c.forwardsTopoSort n
  let (c, target1, _) ← CFG.topoSortFwd (n + 1) (c, target1, 0) (some CFG.entry)
  let c : CFG := { c with forwardsTopoSort := target1 }
  let target2 := resizeTarget c.backwardsTopoSort n
  let (c, target2, _) ← CFG.topoSortBwd (n + 1) (c, target2, 0) (some CFG.deadBlock)
  pure { c with backwardsTopoSort := target2 }

/-! ## Dealiasing (lines 22-104) -/

/-- `maybeDealias` (lines 22-33). -/
def maybeDealias (gs : GlobalState) (what : SymbolRef) (aliases : List (SymbolRef × SymbolRef)) :
    SymbolRef :=
  if (gs.info what).isSyntheticTemporary then
    match mapFind aliases what with
    | some v => v
    | none => what
  else what

/-- The loop of lines 53-65: drops from `current` the entries `other` maps to a
different symbol. -/
def dropConflicts (current other : List (SymbolRef × SymbolRef)) : List (SymbolRef × SymbolRef) :=
  current.filter (fun el =>
    match mapFind other el.1 with
    | some v => v = el.2
    | none => true)

/-- The loop of lines 73-79: drops the entries whose right-hand side is `bind`. -/
def dropStale (current : List (SymbolRef × SymbolRef)) (bind : SymbolRef) :
    List (SymbolRef × SymbolRef) :=
  current.filter (fun el => el.2 ≠ bind)

/-- The rewriting of operands of lines 81-96. -/
def dealiasOperands (gs : GlobalState) (current : List (SymbolRef × SymbolRef)) :
    Instruction → Instruction
  | .Ident what => .Ident (maybeDealias gs what current)
  | .Send recv fn args =>
    .Send (maybeDealias gs recv current) fn (args.map (fun arg => maybeDealias gs arg current))
  | .Super args => .Super (args.map (fun arg => maybeDealias gs arg current))
  | .Return what => .Return (maybeDealias gs what current)
  | .NamedArg name value => .NamedArg name (maybeDealias gs value current)
  | v => v

/-- The body of the loop over the bindings of a block (lines 68-102). -/
def dealiasBinding (gs : GlobalState) (current : List (SymbolRef × SymbolRef)) (b : Binding) :
    Binding × List (SymbolRef × SymbolRef) :=
  let v1 : Instruction :=
    match b.value with
    | .Ident what => .Ident (maybeDealias gs what current)
    | v => v
  let current := dropStale current b.bind
  let v2 := dealiasOperands gs current v1
  let current :=
    match v2 with
    | .Ident what => mapSet current b.bind what
    | _ => current
  (⟨b.bind, v2⟩, current)

/-- The loop over the bindings of a block (lines 68-102). -/
def dealiasBindings (gs : GlobalState) :
    List Binding → List (SymbolRef × SymbolRef) → List Binding × List (SymbolRef × SymbolRef)
  | [], current => ([], current)
  | b :: rest, current =>
    let r := dealiasBinding gs current b
    let rs := dealiasBindings gs rest r.2
    (r.1 :: rs.1, rs.2)

/-- Reads `outAliases[bb->id]`. -/
def aliasesAt (outAliases : List (List (SymbolRef × SymbolRef))) (p : Nat) :
    Except Err (List (SymbolRef × SymbolRef)) :=
  match outAliases[p]? with
  | some m => pure m
  | none => throw Err.undefined

/-- The loop of lines 51-66 over the predecessors; `current` is `outAliases[bb->id]`
itself, so a block that is its own predecessor is compared with `current`. -/
def mergeParents (outAliases : List (List (SymbolRef × SymbolRef))) (bb : Nat) :
    List Nat → List (SymbolRef × SymbolRef) → Except Err (List (SymbolRef × SymbolRef))
  | [], current => pure current
  | parent :: rest, current => do
    let other ← if parent = bb then pure current else aliasesAt outAliases parent
    mergeParents outAliases bb rest (dropConflicts current other)

/-- The body of the loop of `CFG::dealias` for one block (lines 44-103): `current`,
which is `outAliases[bb->id]`, starts as the map of `backEdges[0]` when there is a
predecessor and as it is otherwise. -/
def dealiasBlock (gs : GlobalState) (s : CFG × List (List (SymbolRef × SymbolRef))) (bb : Nat) :
    Except Err (CFG × List (List (SymbolRef × SymbolRef))) :=
  if bb = CFG.deadBlock then pure s
  else do
    let b ← s.1.block bb
    let _ ← aliasesAt s.2 bb
    let current ← aliasesAt s.2 (b.backEdges.headD bb)
    let current ← mergeParents s.2 bb b.backEdges current
    let r := dealiasBindings gs b.exprs current
    let c ← s.1.update bb (fun b => { b with exprs := r.1 })
    pure (c, s.2.set bb r.2)

/-- The loop of `CFG::dealias` over `backwardsTopoSort` (line 43). -/
def dealiasLoop (gs : GlobalState) :
    List (Option Nat) → CFG × List (List (SymbolRef × SymbolRef)) →
      Except Err (CFG × List (List (SymbolRef × SymbolRef)))
  | [], s => pure s
  | bb :: rest, s => do
    let p ← deref bb
    let s ← dealiasBlock gs s p
    dealiasLoop gs rest s

/-- `CFG::dealias` (lines 39-104). -/
def CFG.dealias (gs : GlobalState) (c : CFG) : Except Err CFG := do
  let outAliases : List (List (SymbolRef × SymbolRef)) := List.replicate c.basicBlocks.length []
  let r ← dealiasLoop gs c.backwardsTopoSort (c, outAliases)
  pure r.1

/-! ## Block arguments (lines 106-286) -/

/-- `set.insert(x)` on a `std::unordered_set`. -/
def setInsert {α : Type} [DecidableEq α] (s : List α) (x : α) : List α :=
  if x ∈ s then s else s ++ [x]

/-- `set.insert(first, last)` on a `std::unordered_set`. -/
def setInsertAll {α : Type} [DecidableEq α] (s : List α) (xs : List α) : List α :=
  xs.foldl setInsert s

/-- `m[k].insert(bb)` on a map from symbols to sets of blocks. -/
def mapInsert (m : List (SymbolRef × List Nat)) (k : SymbolRef) (bb : Nat) :
    List (SymbolRef × List Nat) :=
  mapSet m k (setInsert ((mapFind m k).getD []) bb)

/-- The operands lines 124-141 record as read by an instruction. -/
def instructionReads : Instruction → List SymbolRef
  | .Ident what => [what]
  | .Send recv _ args => recv :: args
  | .Super args => args
  | .Return what => [what]
  | .NamedArg _ value => [value]
  | .LoadArg receiver _ _ => [receiver]
  | _ => []

/-- The maps `reads` and `writes` of lines 118-119. -/
abbrev ReadsWrites := List (SymbolRef × List Nat) × List (SymbolRef × List Nat)

/-- The body of the loop over the bindings (lines 123-141). -/
def collectBinding (bb : Nat) (rw : ReadsWrites) (bind : Binding) : ReadsWrites :=
  let writes := mapInsert rw.2 bind.bind bb
  let reads := (instructionReads bind.value).foldl (fun r what => mapInsert r what bb) rw.1
  (reads, writes)

/-- The body of the loop over the blocks (lines 122-145). -/
def collectBlock (bb : Nat) (b : BasicBlock) (rw : ReadsWrites) : ReadsWrites :=
  let rw := b.exprs.foldl (collectBinding bb) rw
  if b.bexit.cond ≠ GlobalState.defn_cfg_never ∧ b.bexit.cond ≠ GlobalState.defn_cfg_always then
    (mapInsert rw.1 b.bexit.cond bb, rw.2)
  else rw

/-- The loop of lines 121-146; `bb` is the index of the first block of the list. -/
def collectBlocks : List BasicBlock → Nat → ReadsWrites → ReadsWrites
  | [], _, rw => rw
  | b :: rest, bb, rw => collectBlocks rest (bb + 1) (collectBlock bb b rw)

/-- The body of the loops of lines 148-160 and 162-174 for one symbol. -/
def lowerMinLoops (c : CFG) (gs : GlobalState) (what : SymbolRef) (blocks : List Nat) :
    GlobalState :=
  if !(gs.info what).isLocalVariable then gs
  else blocks.foldl (fun gs bb =>
    if (gs.info what).minLoops > c.outerLoopsOf bb then gs.setMinLoops what (c.outerLoopsOf bb)
    else gs) gs

/-- The loops of lines 148-160 and 162-174 over a map. -/
def lowerAllMinLoops (c : CFG) (m : List (SymbolRef × List Nat)) (gs : GlobalState) :
    GlobalState :=
  m.foldl (fun gs pair => lowerMinLoops c gs pair.1 pair.2) gs

/-- The instruction kinds of lines 184-193. -/
def isRemovable : Instruction → Bool
  | .Ident _ => true
  | .ArraySplat _ => true
  | .HashSplat _ => true
  | .BoolLit _ => true
  | .StringLit _ => true
  | .IntLit _ => true
  | .FloatLit _ => true
  | .Self _ => true
  | .LoadArg _ _ _ => true
  | .NamedArg _ _ => true
  | _ => false

/-- The loop of lines 178-201 over the bindings of one block. -/
def removeDeadVariables (reads : List (SymbolRef × List Nat)) (exprs : List Binding) :
    List Binding :=
  exprs.filter (fun bind => !((mapFind reads bind.bind).isNone && isRemovable bind.value))

/-- The loop of lines 207-215; returns the entries of `reads` as they are left and
the map `writes`. -/
def pruneReads : List (SymbolRef × List Nat) → List (SymbolRef × List Nat) → ReadsWrites
  | [], writes => ([], writes)
  | (k, rds) :: rest, writes =>
    let wts := (mapFind writes k).getD []
    let sameBlock : Bool :=
      match rds, wts with
      | [r], [w] => r = w
      | _, _ => false
    let r := pruneReads rest (mapSet writes k (if sameBlock then [] else wts))
    ((k, if sameBlock || wts.isEmpty then [] else rds) :: r.1, r.2)

/-- `by_block[bb->id].insert(what)` for every `bb` of `blocks`. -/
def insertByBlock (what : SymbolRef) (blocks : List Nat) (byBlock : List (List SymbolRef)) :
    List (List SymbolRef) :=
  blocks.foldl (fun acc bb => acc.modify (fun s => setInsert s what) bb) byBlock

/-- The loop of lines 217-228 over `writes`; the state is `reads_by_block` and
`writes_by_block`. -/
def fillByBlock (reads : List (SymbolRef × List Nat)) :
    List (SymbolRef × List Nat) → List (List SymbolRef) × List (List SymbolRef) →
      List (List SymbolRef) × List (List SymbolRef)
  | [], s => s
  | (k, wts) :: rest, s =>
    let rds := (mapFind reads k).getD []
    let wts := if rds.isEmpty then [] else wts
    fillByBlock reads rest (insertByBlock k rds s.1, insertByBlock k wts s.2)

/-- `reads_by_block` and `writes_by_block` as lines 204-228 leave them, from the
maps `reads` and `writes` of lines 118-146. -/
def byBlock (n : Nat) (rw : ReadsWrites) : List (List SymbolRef) × List (List SymbolRef) :=
  let pruned := pruneReads rw.1 rw.2
  fillByBlock pruned.1 pruned.2 (List.replicate n [], List.replicate n [])

/-- Reads `sets[bb->id]`. -/
def setAt (sets : List (List SymbolRef)) (p : Nat) : Except Err (List SymbolRef) :=
  match sets[p]? with
  | some s => pure s
  | none => throw Err.undefined

/-- `upper_bounds[bb->id].insert(upper_bounds[succ->id].begin(), ...)` guarded by
`succ != deadBlock()` (lines 239-246). -/
def addSuccessor (ub : List (List SymbolRef)) (p : Nat) (succ : Option Nat) :
    Except Err (List (List SymbolRef)) :=
  if succ ≠ some CFG.deadBlock then do
    let t ← deref succ
    let other ← setAt ub t
    let own ← setAt ub p
    pure (ub.set p (setInsertAll own other))
  else pure ub

/-- The body of the loop of lines 236-248 for one entry of `forwardsTopoSort`. -/
def forwardStep (c : CFG) (readsByBlock : List (List SymbolRef))
    (s : List (List SymbolRef) × Bool) (bb : Option Nat) :
    Except Err (List (List SymbolRef) × Bool) := do
  let p ← deref bb
  let b ← c.block p
  let own ← setAt s.1 p
  let sz := own.length
  let rds ← setAt readsByBlock p
  let ub := s.1.set p (setInsertAll own rds)
  let ub ← addSuccessor ub p b.bexit.thenb
  let ub ← addSuccessor ub p b.bexit.elseb
  let own ← setAt ub p
  pure (ub, s.2 || (own.length != sz))

/-- The loop of lines 260-264 over the back edges of a block. -/
def addPredecessors (p : Nat) : List Nat → List (List SymbolRef) →
    Except Err (List (List SymbolRef))
  | [], ub => pure ub
  | edge :: rest, ub =>
    if edge ≠ CFG.deadBlock then do
      let other ← setAt ub edge
      let own ← setAt ub p
      addPredecessors p rest (ub.set p (setInsertAll own other))
    else addPredecessors p rest ub

/-- The body of the loop of lines 256-266 for one entry of `backwardsTopoSort`. -/
def backwardStep (c : CFG) (writesByBlock : List (List SymbolRef))
    (s : List (List SymbolRef) × Bool) (bb : Option Nat) :
    Except Err (List (List SymbolRef) × Bool) := do
  let p ← deref bb
  let b ← c.block p
  let own ← setAt s.1 p
  let sz := own.length
  let wts ← setAt writesByBlock p
  let ub := s.1.set p (setInsertAll own wts)
  let ub ← addPredecessors p b.backEdges ub
  let own ← setAt ub p
  pure (ub, s.2 || (own.length != sz))

/-- One run of a `for` loop inside `while (changed)`: `changed` starts false. -/
def sweep (step : List (List SymbolRef) × Bool → Option Nat →
      Except Err (List (List SymbolRef) × Bool)) :
    List (Option Nat) → List (List SymbolRef) × Bool → Except Err (List (List SymbolRef) × Bool)
  | [], s => pure s
  | bb :: rest, s => do
    let s ← step s bb
    sweep step rest s

/-- The loops `while (changed)` of lines 234-249 and 254-267; `fuel` bounds the
number of sweeps. -/
def fixpoint (step : List (List SymbolRef) × Bool → Option Nat →
      Except Err (List (List SymbolRef) × Bool)) (order : List (Option Nat)) :
    Nat → List (List SymbolRef) → Except Err (List (List SymbolRef))
  | 0, _ => throw Err.fuel
  | fuel + 1, ub => do
    let r ← sweep step order (ub, false)
    if r.2 then fixpoint step order fuel r.1 else pure r.1

/-- Number of sweeps after which a `while (changed)` loop has stopped: every sweep
but the last adds a symbol of `byBlock` to the set of some block. -/
def sweepBound (n : Nat) (byBlock : List (List SymbolRef)) : Nat :=
  n * (byBlock.map List.length).sum + 1

/-- The loop of lines 270-283 for the block `p`. -/
def combineBounds (ub1 ub2 : List (List SymbolRef)) (p : Nat) (b : BasicBlock) :
    Except Err BasicBlock := do
  let set2 ← setAt ub2 p
  let set1 ← setAt ub1 p
  let args := b.args ++ set1.filter (fun el => el ∈ set2)
  pure { b with args := args.insertionSort (fun x y => x ≤ y) }

/-- The loop of lines 270-283; `p` is the index of the first block of the list. -/
def combineAll (ub1 ub2 : List (List SymbolRef)) : List BasicBlock → Nat →
    Except Err (List BasicBlock)
  | [], _ => pure []
  | b :: rest, p => do
    let b ← combineBounds ub1 ub2 p b
    let rest ← combineAll ub1 ub2 rest (p + 1)
    pure (b :: rest)

/-- `CFG::fillInBlockArguments` (lines 106-286). -/
def CFG.fillInBlockArguments (gs : GlobalState) (c : CFG) : Except Err (GlobalState × CFG) := do
  if c.basicBlocks.length < 2 then throw Err.undefined
  let n := c.basicBlocks.length
  let rw := collectBlocks c.basicBlocks 0 ([], [])
  let gs := lowerAllMinLoops c rw.1 gs
  let gs := lowerAllMinLoops c rw.2 gs
  let pruned := c.basicBlocks.map (fun b => { b with exprs := removeDeadVariables rw.1 b.exprs })
  let c : CFG := { c with basicBlocks := pruned }
  let by_block := byBlock n rw
  let upper_bounds1 ← fixpoint (forwardStep c by_block.1) c.forwardsTopoSort
    (sweepBound n by_block.1) (List.replicate n [])
  let upper_bounds2 ← fixpoint (backwardStep c by_block.2) c.backwardsTopoSort
    (sweepBound n by_block.2) (List.replicate n [])
  let blocks ← combineAll upper_bounds1 upper_bounds2 c.basicBlocks 0
  pure (gs, { c with basicBlocks := blocks })

/-! ## `CFG::buildFor` (lines 358-401) -/

/-- The loop of lines 372-375; `i` is the position of the first argument of the list. -/
def loadArguments (selfSym : SymbolRef) (methodName : NameRef) :
    List SymbolRef → Int → CFG → Except Err CFG
  | [], _, c => pure c
  | argSym :: rest, i, c => do
    let c ← c.emplace CFG.entry argSym (.LoadArg selfSym methodName i)
    loadArguments selfSym methodName rest (i + 1) c

/-- The loop of lines 385-390: marks the locals and collects the `Alias` bindings. -/
def aliasBindings : List (SymbolRef × SymbolRef) → GlobalState → List Binding × GlobalState
  | [], gs => ([], gs)
  | (global, loc) :: rest, gs =>
    let r := aliasBindings rest (gs.setMinLoops loc (-1))
    (⟨loc, .Alias global⟩ :: r.1, r.2)

/-- Lines 358-395 of `CFG::buildFor`: the graph before the three passes. -/
def CFG.buildGraph (gs : GlobalState) (md : ast.MethodDef) : Except Err (GlobalState × CFG) := do
  let res : CFG := { CFG.new with symbol := md.symbol }
  let (retSym, gs) := gs.newTemporary Names.returnMethodTemp md.symbol
  let (selfSym, gs) := gs.newTemporary Names.selfMethodTemp md.symbol
  let entry := CFG.entry
  let res ← res.emplace entry selfSym (.Self (gs.info md.symbol).owner)
  let methodName := (gs.info md.symbol).name
  let res ← loadArguments selfSym methodName (gs.info md.symbol).arguments 0 res
  let (cont, st) ← CFG.walk md.rhs entry retSym 0 { gs := gs, inWhat := res, aliases := [] }
  let (retSym1, st) := st.newTemporary Names.returnMethodTemp
  let st ← st.onCFG (fun c => c.emplace cont retSym1 (.Return retSym))
  let st ← st.onCFG (jumpToDead cont)
  let r := aliasBindings st.aliases st.gs
  let aliasesPrefix := r.1.insertionSort (fun l r => l.bind ≤ r.bind)
  let res ← st.inWhat.update entry (fun b => { b with exprs := aliasesPrefix ++ b.exprs })
  pure (r.2, res)

/-- `CFG::buildFor` (lines 358-401). -/
def CFG.buildFor (gs : GlobalState) (md : ast.MethodDef) : Except Err (GlobalState × CFG) := do
  let (gs, res) ← CFG.buildGraph gs md
  let res ← res.fillInTopoSorts
  let res ← res.dealias gs
  res.fillInBlockArguments gs

/-! ## Notions the statements below are phrased in -/

/-- `build(method)`: the graph `CFG::buildFor` returns. -/
def build (gs : GlobalState) (md : ast.MethodDef) : Except Err CFG := do
  let r ← CFG.buildFor gs md
  pure r.2

/-- The block a pointer points to, for statements about graphs whose pointers are
valid. -/
def CFG.blockAt (c : CFG) (p : Nat) : BasicBlock := c.basicBlocks.getD p {}

/-- The instruction has `s` among its operands: `Ident.what`, `Send.recv` or an
argument, a `Super` argument, `Return.what`, `NamedArg.value`, `LoadArg.receiver`. -/
def Instruction.hasOperand (s : SymbolRef) : Instruction → Prop
  | .Ident what => what = s
  | .Send recv _ args => recv = s ∨ s ∈ args
  | .Super args => s ∈ args
  | .Return what => what = s
  | .NamedArg _ value => value = s
  | .LoadArg receiver _ _ => receiver = s
  | _ => False

/-- The terminator of the block is a real conditional on `s`. -/
def BasicBlock.branchesOn (b : BasicBlock) (s : SymbolRef) : Prop :=
  b.bexit.cond ≠ GlobalState.defn_cfg_never ∧ b.bexit.cond ≠ GlobalState.defn_cfg_always ∧
    b.bexit.cond = s

/-- The block reads `s`: in a binding operand or as a real conditional terminator. -/
def BasicBlock.readsSym (b : BasicBlock) (s : SymbolRef) : Prop :=
  (∃ bind ∈ b.exprs, bind.value.hasOperand s) ∨ b.branchesOn s

/-- Some block of the graph reads `s`. -/
def CFG.isRead (c : CFG) (s : SymbolRef) : Prop :=
  ∃ b ∈ c.basicBlocks, b.readsSym s

/-- The side-effect-free instruction kinds: `Ident`, `ArraySplat`, `HashSplat`,
`BoolLit`, `StringLit`, `IntLit`, `FloatLit`, `Self`, `LoadArg`, `NamedArg`. -/
def Instruction.sideEffectFree : Instruction → Prop
  | .Ident _ => True
  | .ArraySplat _ => True
  | .HashSplat _ => True
  | .BoolLit _ => True
  | .StringLit _ => True
  | .IntLit _ => True
  | .FloatLit _ => True
  | .Self _ => True
  | .LoadArg _ _ _ => True
  | .NamedArg _ _ => True
  | .Alias _ => False
  | .Send _ _ _ => False
  | .Super _ => False
  | .Return _ => False
  | .Nil => False
  | .NotSupported _ => False

/-- A binding dead-store elimination drops from a graph `c`: its value is
side-effect-free and nothing in `c` reads its `bind`. -/
def CFG.drops (c : CFG) (bind : Binding) : Prop :=
  bind.value.sideEffectFree ∧ ¬ c.isRead bind.bind

/-- `reads_by_block` as `fillInBlockArguments` computes it for `c`: the reads of each
block that are left after escape pruning. -/
def CFG.readsByBlock (c : CFG) : List (List SymbolRef) :=
  (byBlock c.basicBlocks.length (collectBlocks c.basicBlocks 0 ([], []))).1

/-- `writes_by_block` as `fillInBlockArguments` computes it for `c`: the writes of each
block that are left after escape pruning. -/
def CFG.writesByBlock (c : CFG) : List (List SymbolRef) :=
  (byBlock c.basicBlocks.length (collectBlocks c.basicBlocks 0 ([], []))).2

/-- The map `reads` of line 118 as the loop of lines 121-146 leaves it. -/
def CFG.readsMap (c : CFG) : List (SymbolRef × List Nat) :=
  (collectBlocks c.basicBlocks 0 ([], [])).1

/-- The graph after the loop of lines 176-202. -/
def CFG.afterRemoval (c : CFG) : CFG :=
  { c with basicBlocks :=
      c.basicBlocks.map (fun b => { b with exprs := removeDeadVariables c.readsMap b.exprs }) }

/-- The instruction kinds that are retained even when their result is dead: `Send`,
`Super`, `Return`, `Alias`, `NotSupported` and `Nil`. -/
def Instruction.alwaysRetained : Instruction → Prop
  | .Send _ _ _ => True
  | .Super _ => True
  | .Return _ => True
  | .Alias _ => True
  | .NotSupported _ => True
  | .Nil => True
  | _ => False

/-- Every set of the vector is free of repetitions. -/
def AllNodup (sets : List (List SymbolRef)) : Prop := ∀ s ∈ sets, s.Nodup

/-! ## Notions for the two data-flow loops -/

/-- Number of elements of all the sets together. -/
def totalSize (ub : List (List SymbolRef)) : Nat := (ub.map List.length).sum

/-- The least family of sets that holds `base[p]` at `p` and, at `p`, the set at every
`d` of `deps p`. -/
inductive Reaches (base : List (List SymbolRef)) (deps : Nat → List Nat) :
    Nat → SymbolRef → Prop where
  | here (p : Nat) (s : SymbolRef) : s ∈ base.getD p [] → Reaches base deps p s
  | step (p d : Nat) (s : SymbolRef) : d ∈ deps p → Reaches base deps d s →
      Reaches base deps p s

/-- The set at `p` already holds `base[p]` and the sets at `deps p`. -/
def Closed (base : List (List SymbolRef)) (deps : Nat → List Nat)
    (ub : List (List SymbolRef)) (p : Nat) : Prop :=
  ∀ s, (s ∈ base.getD p [] ∨ ∃ d ∈ deps p, s ∈ ub.getD d []) → s ∈ ub.getD p []

/-- What one step of a data-flow loop does at a valid block `p`: it appends to the set
at `p` the symbols of `base[p]` and of the sets at `deps p` that were missing, and
raises `changed` when there were any. -/
def StepSpec (step : List (List SymbolRef) × Bool → Option Nat →
      Except Err (List (List SymbolRef) × Bool))
    (n : Nat) (base : List (List SymbolRef)) (deps : Nat → List Nat) : Prop :=
  ∀ (ub : List (List SymbolRef)) (ch : Bool) (p : Nat), ub.length = n → p < n →
    ∃ extra : List SymbolRef,
      step (ub, ch) (some p) = .ok (ub.set p (ub.getD p [] ++ extra), ch || !extra.isEmpty) ∧
      (∀ x ∈ extra, x ∈ base.getD p [] ∨ ∃ d ∈ deps p, x ∈ ub.getD d []) ∧
      ((ub.getD p []).Nodup → (ub.getD p [] ++ extra).Nodup) ∧
      (∀ x, (x ∈ base.getD p [] ∨ ∃ d ∈ deps p, x ∈ ub.getD d []) → x ∈ ub.getD p [] ++ extra)

/-- The successors `forwardStep` merges into a block: `thenb` and `elseb`, the dead
block left out. -/
def CFG.forwardDeps (c : CFG) (p : Nat) : List Nat :=
  ((c.blockAt p).bexit.thenb.toList ++ (c.blockAt p).bexit.elseb.toList).filter
    (fun t => t ≠ CFG.deadBlock)

/-- The predecessors `backwardStep` merges into a block: `backEdges`, the dead block
left out. -/
def CFG.backwardDeps (c : CFG) (p : Nat) : List Nat :=
  (c.blockAt p).backEdges.filter (fun q => q ≠ CFG.deadBlock)

/-- Every pointer of the graph points to a block of the graph, and the dead block
exists. -/
def CFG.WellLinked (c : CFG) : Prop :=
  2 ≤ c.basicBlocks.length ∧
  ∀ b ∈ c.basicBlocks,
    (∃ t e, b.bexit.thenb = some t ∧ b.bexit.elseb = some e ∧
      t < c.basicBlocks.length ∧ e < c.basicBlocks.length) ∧
    ∀ q ∈ b.backEdges, q < c.basicBlocks.length

/-- The sort lists every block: its entries are blocks of the graph and every block is
among them. -/
def CFG.ListsEveryBlock (c : CFG) (order : List (Option Nat)) : Prop :=
  (∀ x ∈ order, ∃ p, x = some p ∧ p < c.basicBlocks.length) ∧
  ∀ p < c.basicBlocks.length, some p ∈ order

/-- Every symbol of every set is in the least family. -/
def Sound (base : List (List SymbolRef)) (deps : Nat → List Nat)
    (ub : List (List SymbolRef)) : Prop :=
  ∀ q s, s ∈ ub.getD q [] → Reaches base deps q s

/-- The entries of the sort are blocks of a graph with `n` blocks. -/
def ValidOrder (n : Nat) (order : List (Option Nat)) : Prop :=
  ∀ x ∈ order, ∃ p, x = some p ∧ p < n

/-- `FlowsTo c p q`: `q` is reachable from `p` along `thenb`/`elseb` edges without
entering the dead block (`q` may be `p` itself). -/
inductive CFG.FlowsTo (c : CFG) : Nat → Nat → Prop where
  | refl (p : Nat) : CFG.FlowsTo c p p
  | step (p t q : Nat) :
      ((c.blockAt p).bexit.thenb = some t ∨ (c.blockAt p).bexit.elseb = some t) →
      t ≠ CFG.deadBlock → CFG.FlowsTo c t q → CFG.FlowsTo c p q

/-- `ComesFrom c p q`: `q` is `p` or reaches `p` along `backEdges` through blocks other
than the dead block. -/
inductive CFG.ComesFrom (c : CFG) : Nat → Nat → Prop where
  | refl (p : Nat) : CFG.ComesFrom c p p
  | step (p d q : Nat) : d ∈ (c.blockAt p).backEdges → d ≠ CFG.deadBlock →
      CFG.ComesFrom c d q → CFG.ComesFrom c p q

/-- `ReachedBy c p q`: `q` is `p` or reaches `p` along `backEdges`, the dead block
allowed on the way. -/
inductive CFG.ReachedBy (c : CFG) : Nat → Nat → Prop where
  | refl (p : Nat) : CFG.ReachedBy c p p
  | step (p d q : Nat) : d ∈ (c.blockAt p).backEdges →
      CFG.ReachedBy c d q → CFG.ReachedBy c p q

/-- The equation `UB1[B] = reads(B) ∪ UB1[thenb(B)] ∪ UB1[elseb(B)]`, a successor that
is the dead block contributing nothing. -/
def CFG.UB1Equation (c : CFG) (X : Nat → SymbolRef → Prop) : Prop :=
  ∀ p < c.basicBlocks.length, ∀ s, X p s ↔
    (s ∈ c.readsByBlock.getD p [] ∨
      (∃ t, (c.blockAt p).bexit.thenb = some t ∧ t ≠ CFG.deadBlock ∧ X t s) ∨
      (∃ e, (c.blockAt p).bexit.elseb = some e ∧ e ≠ CFG.deadBlock ∧ X e s))

/-- The equation `UB2[B] = writes(B) ∪ ⋃ UB2[P]` over the `P` of `backEdges(B)`, a
predecessor that is the dead block contributing nothing. -/
def CFG.UB2Equation (c : CFG) (X : Nat → SymbolRef → Prop) : Prop :=
  ∀ p < c.basicBlocks.length, ∀ s, X p s ↔
    (s ∈ c.writesByBlock.getD p [] ∨
      ∃ q ∈ (c.blockAt p).backEdges, q ≠ CFG.deadBlock ∧ X q s)

/-- The equation `UB2[B] = writes(B) ∪ ⋃ UB2[P]` over all the `P` of `backEdges(B)`. -/
def CFG.UB2EquationAllEdges (c : CFG) (X : Nat → SymbolRef → Prop) : Prop :=
  ∀ p < c.basicBlocks.length, ∀ s, X p s ↔
    (s ∈ c.writesByBlock.getD p [] ∨ ∃ q ∈ (c.blockAt p).backEdges, X q s)

/-- `X` solves the equation and lies below every solution, on the blocks of a graph
with `n` blocks. -/
def LeastSolution (n : Nat) (E : (Nat → SymbolRef → Prop) → Prop)
    (X : Nat → SymbolRef → Prop) : Prop :=
  E X ∧ ∀ Y, E Y → ∀ p < n, ∀ s, X p s → Y p s

/-! ## Concrete methods and graphs -/

/-- A symbol table with a class (`_id` 5), a method with one parameter (`_id` 6, the
parameter is `_id` 7) and two user local variables (`_id` 7 and 8). -/
def Scenario.gs : GlobalState :=
  { symbols := [
      { name := 100 },
      { name := 101, owner := 5, arguments := [7] },
      { name := 102, owner := 6, isLocalVariable := true },
      { name := 103, owner := 6, isLocalVariable := true }] }

/-- The class that owns the method. -/
def Scenario.owner : SymbolRef := 5
/-- The method. -/
def Scenario.method : SymbolRef := 6
/-- The name of the method. -/
def Scenario.methodName : NameRef := 101
/-- The parameter of the method, a user local variable. -/
def Scenario.param : SymbolRef := 7
/-- A second user local variable. -/
def Scenario.loc : SymbolRef := 8

/-- Scenario S1, `def f(x); y = x; y; end`. -/
def S1.md : ast.MethodDef :=
  { symbol := Scenario.method,
    rhs := .InsSeq [.Assign (.Ident Scenario.loc) (.Ident Scenario.param)]
      (.Ident Scenario.loc) }

/-- The graph `build` returns for S1. -/
def S1.cfg : CFG :=
  { symbol := 6,
    basicBlocks := [
      { exprs := [⟨10, .Self 5⟩, ⟨7, .LoadArg 10 101 0⟩, ⟨8, .Ident 7⟩, ⟨12, .Return 8⟩],
        bexit := ⟨2, some 1, some 1⟩, flags := 3 },
      { bexit := ⟨2, some 1, some 1⟩, backEdges := [0], flags := 3 }],
    forwardsTopoSort := [some 1, some 0],
    backwardsTopoSort := [some 0, some 1] }

/-- The shape scenario S1 is said to have: `self := Self(owner)`,
`x := LoadArg(self, f, 0)`, `retTmp := Return(x)` in the entry block, which jumps to
the dead block and has no `args`. -/
def S1.Claimed (c : CFG) : Prop :=
  ∃ selfSym retTmp : SymbolRef,
    (c.blockAt CFG.entry).exprs =
      [⟨selfSym, .Self Scenario.owner⟩,
       ⟨Scenario.param, .LoadArg selfSym Scenario.methodName 0⟩,
       ⟨retTmp, .Return Scenario.param⟩] ∧
    (c.blockAt CFG.entry).bexit =
      ⟨GlobalState.defn_cfg_never, some CFG.deadBlock, some CFG.deadBlock⟩ ∧
    (c.blockAt CFG.entry).args = []

/-- Scenario S5, `def m(c); if c then x = 1 else x = 2 end; x end`. -/
def S5.md : ast.MethodDef :=
  { symbol := Scenario.method,
    rhs := .InsSeq
      [.If (.Ident Scenario.param) (.Assign (.Ident Scenario.loc) (.IntLit 1))
        (.Assign (.Ident Scenario.loc) (.IntLit 2))]
      (.Ident Scenario.loc) }

/-- The graph of S5 when `fillInBlockArguments` starts. -/
def S5.graph : CFG :=
  { symbol := 6,
    basicBlocks := [
      { exprs := [⟨10, .Self 5⟩, ⟨7, .LoadArg 10 101 0⟩, ⟨12, .Ident 7⟩],
        bexit := ⟨12, some 2, some 3⟩, flags := 3 },
      { bexit := ⟨2, some 1, some 1⟩, backEdges := [4], flags := 3 },
      { exprs := [⟨8, .IntLit 1⟩, ⟨11, .Ident 8⟩],
        bexit := ⟨3, some 4, some 4⟩, backEdges := [0], flags := 3 },
      { exprs := [⟨8, .IntLit 2⟩, ⟨11, .Ident 8⟩],
        bexit := ⟨3, some 4, some 4⟩, backEdges := [0], flags := 3 },
      { exprs := [⟨9, .Ident 8⟩, ⟨13, .Return 8⟩],
        bexit := ⟨2, some 1, some 1⟩, backEdges := [2, 3], flags := 3 }],
    forwardsTopoSort := [some 1, some 4, some 2, some 3, some 0],
    backwardsTopoSort := [some 0, some 2, some 3, some 4, some 1] }

/-- The graph `build` returns for S5. -/
def S5.cfg : CFG :=
  { symbol := 6,
    basicBlocks := [
      { exprs := [⟨10, .Self 5⟩, ⟨7, .LoadArg 10 101 0⟩, ⟨12, .Ident 7⟩],
        bexit := ⟨12, some 2, some 3⟩, flags := 3 },
      { bexit := ⟨2, some 1, some 1⟩, backEdges := [4], flags := 3 },
      { args := [8], exprs := [⟨8, .IntLit 1⟩],
        bexit := ⟨3, some 4, some 4⟩, backEdges := [0], flags := 3 },
      { args := [8], exprs := [⟨8, .IntLit 2⟩],
        bexit := ⟨3, some 4, some 4⟩, backEdges := [0], flags := 3 },
      { args := [8], exprs := [⟨13, .Return 8⟩],
        bexit := ⟨2, some 1, some 1⟩, backEdges := [2, 3], flags := 3 }],
    forwardsTopoSort := [some 1, some 4, some 2, some 3, some 0],
    backwardsTopoSort := [some 0, some 2, some 3, some 4, some 1] }

/-- A symbol table without user symbols. -/
def Scenario.noSymbols : GlobalState := { symbols := [] }

/-- A graph in which the dead block writes symbol 7 and is listed among the
predecessors of block 2, which reads symbol 7. -/
def DeadPredecessor.graph : CFG :=
  { basicBlocks := [
      { bexit := ⟨3, some 2, some 2⟩ },
      { exprs := [⟨7, .IntLit 1⟩], bexit := ⟨2, some 1, some 1⟩, backEdges := [2] },
      { exprs := [⟨8, .Ident 7⟩], bexit := ⟨2, some 1, some 1⟩, backEdges := [0, 1] }],
    forwardsTopoSort := [some 1, some 2, some 0],
    backwardsTopoSort := [some 0, some 2, some 1] }

/-- What `fillInBlockArguments` makes of `DeadPredecessor.graph`. -/
def DeadPredecessor.result : CFG :=
  { basicBlocks := [
      { bexit := ⟨3, some 2, some 2⟩ },
      { exprs := [⟨7, .IntLit 1⟩], bexit := ⟨2, some 1, some 1⟩, backEdges := [2] },
      { exprs := [], bexit := ⟨2, some 1, some 1⟩, backEdges := [0, 1] }],
    forwardsTopoSort := [some 1, some 2, some 0],
    backwardsTopoSort := [some 0, some 2, some 1] }

/-- The shape the entry block of S1 has: `self := Self(owner)`,
`x := LoadArg(self, f, 0)`, `y := Ident(x)`, `retTmp := Return(y)`, a jump to the dead
block and no `args`. -/
def S1.Shape (c : CFG) : Prop :=
  ∃ selfSym retTmp : SymbolRef,
    (c.blockAt CFG.entry).exprs =
      [⟨selfSym, .Self Scenario.owner⟩,
       ⟨Scenario.param, .LoadArg selfSym Scenario.methodName 0⟩,
       ⟨Scenario.loc, .Ident Scenario.param⟩,
       ⟨retTmp, .Return Scenario.loc⟩] ∧
    (c.blockAt CFG.entry).bexit =
      ⟨GlobalState.defn_cfg_never, some CFG.deadBlock, some CFG.deadBlock⟩ ∧
    (c.blockAt CFG.entry).args = []

/-- A method `def f(x); x; 1; end`: the statement `x` reads the parameter into a
temporary nothing reads. -/
def UnusedRead.md : ast.MethodDef :=
  { symbol := Scenario.method, rhs := .InsSeq [.Ident Scenario.param] (.IntLit 1) }

/-- The graph `build` returns for `UnusedRead.md`. -/
def UnusedRead.cfg : CFG :=
  { symbol := 6,
    basicBlocks := [
      { exprs := [⟨10, .Self 5⟩, ⟨7, .LoadArg 10 101 0⟩, ⟨9, .IntLit 1⟩, ⟨12, .Return 9⟩],
        bexit := ⟨2, some 1, some 1⟩, flags := 3 },
      { bexit := ⟨2, some 1, some 1⟩, backEdges := [0], flags := 3 }],
    forwardsTopoSort := [some 1, some 0],
    backwardsTopoSort := [some 0, some 1] }

/-- A method `def f(x); 1; end` that does not use its parameter. -/
def UnusedParam.md : ast.MethodDef :=
  { symbol := Scenario.method, rhs := .IntLit 1 }

/-- The graph `build` returns for `UnusedParam.md`. -/
def UnusedParam.cfg : CFG :=
  { symbol := 6,
    basicBlocks := [
      { exprs := [⟨10, .Self 5⟩, ⟨9, .IntLit 1⟩, ⟨11, .Return 9⟩],
        bexit := ⟨2, some 1, some 1⟩, flags := 3 },
      { bexit := ⟨2, some 1, some 1⟩, backEdges := [0], flags := 3 }],
    forwardsTopoSort := [some 1, some 0],
    backwardsTopoSort := [some 0, some 1] }

/-- The name `foo`. -/
def Scenario.foo : NameRef := 200

/-- Scenario S6, `def n(a); a.foo(a = "2", if c then a = true else a = nil end) end`,
with `a` the parameter and `c` the second local; `nil` has no node of its own among
the expressions `walk` recognises. -/
def S6.md : ast.MethodDef :=
  { symbol := Scenario.method,
    rhs := .Send (.Ident Scenario.param) Scenario.foo
      [.Assign (.Ident Scenario.param) (.StringLit 300),
       .If (.Ident Scenario.loc) (.Assign (.Ident Scenario.param) (.BoolLit true))
         (.Assign (.Ident Scenario.param) (.NotHandled 0))] none }

/-- The graph of S6 after `dealias`. -/
def S6.dealiased : CFG :=
  { symbol := 6,
    basicBlocks := [
      { exprs := [⟨10, .Self 5⟩, ⟨7, .LoadArg 10 101 0⟩, ⟨11, .Ident 7⟩,
          ⟨7, .StringLit 300⟩, ⟨12, .Ident 7⟩, ⟨14, .Ident 8⟩],
        bexit := ⟨14, some 2, some 3⟩, flags := 3 },
      { bexit := ⟨2, some 1, some 1⟩, backEdges := [4], flags := 3 },
      { exprs := [⟨7, .BoolLit true⟩, ⟨13, .Ident 7⟩],
        bexit := ⟨3, some 4, some 4⟩, backEdges := [0], flags := 3 },
      { exprs := [⟨7, .NotSupported ""⟩, ⟨13, .Ident 7⟩],
        bexit := ⟨3, some 4, some 4⟩, backEdges := [0], flags := 3 },
      { exprs := [⟨9, .Send 11 200 [12, 7]⟩, ⟨15, .Return 9⟩],
        bexit := ⟨2, some 1, some 1⟩, backEdges := [2, 3], flags := 3 }],
    forwardsTopoSort := [some 1, some 4, some 2, some 3, some 0],
    backwardsTopoSort := [some 0, some 2, some 3, some 4, some 1] }

/-- A synthetic temporary of the method of the scenarios, tagged `name`. -/
def Scenario.temp (name : NameRef) : Symbol :=
  { name := name, owner := Scenario.method, isLocalVariable := true,
    isSyntheticTemporary := true }

/-- The symbol table of S6 after the walk: the symbols of `Scenario.gs`, then the
temporaries in the order they were minted (`_id` 9 to 15). -/
def S6.symbols : GlobalState :=
  { symbols := Scenario.gs.symbols ++
      [Scenario.temp Names.returnMethodTemp, Scenario.temp Names.selfMethodTemp,
       Scenario.temp Names.statTemp, Scenario.temp Names.statTemp,
       Scenario.temp Names.statTemp, Scenario.temp Names.ifTemp,
       Scenario.temp Names.returnMethodTemp] }

/-- A method `def f(x); if x then y = x else 2 end end`: only the then-arm copies. -/
def MergeAliases.md : ast.MethodDef :=
  { symbol := Scenario.method,
    rhs := .If (.Ident Scenario.param) (.Assign (.Ident Scenario.loc) (.Ident Scenario.param))
      (.IntLit 2) }

/-- The symbol table after the walk of `MergeAliases.md` (temporaries `_id` 9 to 12). -/
def MergeAliases.symbols : GlobalState :=
  { symbols := Scenario.gs.symbols ++
      [Scenario.temp Names.returnMethodTemp, Scenario.temp Names.selfMethodTemp,
       Scenario.temp Names.ifTemp, Scenario.temp Names.returnMethodTemp] }

/-- The graph of `MergeAliases.md` when `dealias` starts; block 4 is the merge block,
with the arm blocks 2 and 3 as predecessors. -/
def MergeAliases.graph : CFG :=
  { symbol := 6,
    basicBlocks := [
      { exprs := [⟨10, .Self 5⟩, ⟨7, .LoadArg 10 101 0⟩, ⟨11, .Ident 7⟩],
        bexit := ⟨11, some 2, some 3⟩, flags := 3 },
      { bexit := ⟨2, some 1, some 1⟩, backEdges := [4], flags := 3 },
      { exprs := [⟨8, .Ident 7⟩, ⟨9, .Ident 8⟩],
        bexit := ⟨3, some 4, some 4⟩, backEdges := [0], flags := 3 },
      { exprs := [⟨9, .IntLit 2⟩],
        bexit := ⟨3, some 4, some 4⟩, backEdges := [0], flags := 3 },
      { exprs := [⟨12, .Return 9⟩],
        bexit := ⟨2, some 1, some 1⟩, backEdges := [2, 3], flags := 3 }],
    forwardsTopoSort := [some 1, some 4, some 2, some 3, some 0],
    backwardsTopoSort := [some 0, some 2, some 3, some 4, some 1] }

/-- The exit maps `outAliases` when the loop of `dealias` reaches the merge block. -/
def MergeAliases.exits : List (List (SymbolRef × SymbolRef)) :=
  [[(11, 7)], [], [(11, 7), (8, 7), (9, 8)], [(11, 7)], []]

/-- The state of `dealias` after the merge block: its `Return` reads `y`. -/
def MergeAliases.after : CFG × List (List (SymbolRef × SymbolRef)) :=
  ({ MergeAliases.graph with
      basicBlocks := MergeAliases.graph.basicBlocks.set 4
        { exprs := [⟨12, .Return 8⟩],
          bexit := ⟨2, some 1, some 1⟩, backEdges := [2, 3], flags := 3 } },
   [[(11, 7)], [], [(11, 7), (8, 7), (9, 8)], [(11, 7)], [(11, 7), (8, 7), (9, 8)]])

/-- The symbol table of S5 after the walk: the symbols of `Scenario.gs`, then the
temporaries in the order they were minted (`_id` 9 to 13). -/
def S5.symbols : GlobalState :=
  { symbols := Scenario.gs.symbols ++
      [Scenario.temp Names.returnMethodTemp, Scenario.temp Names.selfMethodTemp,
       Scenario.temp Names.statTemp, Scenario.temp Names.ifTemp,
       Scenario.temp Names.returnMethodTemp] }

/-- The symbol table of S5 after `fillInBlockArguments`: every local variable occurs
in a block at depth 0. -/
def S5.lowered : GlobalState :=
  { symbols := [
      { name := 100 },
      { name := 101, owner := 5, arguments := [7] },
      { name := 102, owner := 6, isLocalVariable := true, minLoops := 0 },
      { name := 103, owner := 6, isLocalVariable := true, minLoops := 0 },
      { Scenario.temp Names.returnMethodTemp with minLoops := 0 },
      { Scenario.temp Names.selfMethodTemp with minLoops := 0 },
      { Scenario.temp Names.statTemp with minLoops := 0 },
      { Scenario.temp Names.ifTemp with minLoops := 0 },
      { Scenario.temp Names.returnMethodTemp with minLoops := 0 }] }

/-- A new graph whose entry block got the binding `9 := IntLit 1`. -/
def Leaf.cfg : CFG :=
  { basicBlocks := [
      { exprs := [⟨9, .IntLit 1⟩] },
      { bexit := ⟨GlobalState.defn_cfg_never, some CFG.deadBlock, some CFG.deadBlock⟩ }] }

/-- A method whose body reads a symbol that is not a local variable, the class of
`_id` 5: `def f; C; end`. -/
def GlobalRead.md : ast.MethodDef :=
  { symbol := Scenario.method, rhs := .Ident Scenario.owner }

/-- The graph `build` returns for `GlobalRead.md`. -/
def GlobalRead.cfg : CFG :=
  { symbol := 6,
    basicBlocks := [
      { exprs := [⟨11, .Alias 5⟩, ⟨10, .Self 5⟩, ⟨12, .Return 11⟩],
        bexit := ⟨2, some 1, some 1⟩, flags := 3 },
      { bexit := ⟨2, some 1, some 1⟩, backEdges := [0], flags := 3 }],
    forwardsTopoSort := [some 1, some 0],
    backwardsTopoSort := [some 0, some 1] }

/-! ## Notions for the passes and the walk -/

/-- The two graphs differ at most in the visited flags of their blocks. -/
def OnlyFlags (c c2 : CFG) : Prop :=
  c2.basicBlocks.length = c.basicBlocks.length ∧
  ∀ p, ({ c2.blockAt p with flags := 0 } : BasicBlock) = { c.blockAt p with flags := 0 }

/-- The graph before the three passes of `CFG::buildFor`, then sorted and
dealiased: the graph `fillInBlockArguments` starts from. -/
def CFG.buildDealiased (gs : GlobalState) (md : ast.MethodDef) :
    Except Err (GlobalState × CFG) := do
  let (gs, res) ← CFG.buildGraph gs md
  let res ← res.fillInTopoSorts
  let res ← res.dealias gs
  pure (gs, res)

/-- The instruction `v2` is `v` with, at most, other operand symbols in the fields
`dealias` rewrites. -/
def Instruction.Rewritten (v v2 : Instruction) : Prop :=
  match v with
  | .Ident _ => ∃ w, v2 = .Ident w
  | .Send _ fn args => ∃ r args2, v2 = .Send r fn args2 ∧ args2.length = args.length
  | .Super args => ∃ args2, v2 = .Super args2 ∧ args2.length = args.length
  | .Return _ => ∃ w, v2 = .Return w
  | .NamedArg name _ => ∃ w, v2 = .NamedArg name w
  | v => v2 = v

/-- The binding `b2` binds the symbol of `b` to a rewritten instruction. -/
def Binding.Rewritten (b b2 : Binding) : Prop :=
  b2.bind = b.bind ∧ b.value.Rewritten b2.value

/-- The two graphs differ at most in operand symbols of their bindings. -/
def OnlyOperands (c c2 : CFG) : Prop :=
  c2.basicBlocks.length = c.basicBlocks.length ∧
  ∀ p, ({ c2.blockAt p with exprs := [] } : BasicBlock) = { c.blockAt p with exprs := [] } ∧
    List.Forall₂ Binding.Rewritten (c.blockAt p).exprs (c2.blockAt p).exprs

/-- The invariant of a graph under construction: the dead block is there with its
terminator; a block without terminator has no successors; the successors of a block
with terminator are blocks of the graph; and a block `P` occurs in the `backEdges` of
`S` once if `P` is not the dead block and `S` is a successor of `P`, and not at all
otherwise. -/
def CFG.Good (c : CFG) : Prop :=
  2 ≤ c.basicBlocks.length ∧
  (c.blockAt CFG.deadBlock).bexit =
    ⟨GlobalState.defn_cfg_never, some CFG.deadBlock, some CFG.deadBlock⟩ ∧
  (∀ p, (c.blockAt p).bexit.cond = 0 →
    (c.blockAt p).bexit.thenb = none ∧ (c.blockAt p).bexit.elseb = none) ∧
  (∀ p, (c.blockAt p).bexit.cond ≠ 0 →
    ∃ t e, (c.blockAt p).bexit.thenb = some t ∧ (c.blockAt p).bexit.elseb = some e ∧
      t < c.basicBlocks.length ∧ e < c.basicBlocks.length) ∧
  (∀ s p, s < c.basicBlocks.length →
    (c.blockAt s).backEdges.count p =
      if p ≠ CFG.deadBlock ∧
        ((c.blockAt p).bexit.thenb = some s ∨ (c.blockAt p).bexit.elseb = some s)
      then 1 else 0)

/-- The graph is good and the blocks without terminator are exactly those of `opened`
(the dead block, which has a terminator, may be listed). -/
def CFG.OpenAt (c : CFG) (opened : List Nat) : Prop :=
  c.Good ∧ (∀ p ∈ opened, p < c.basicBlocks.length) ∧
  ∀ p < c.basicBlocks.length,
    ((c.blockAt p).bexit.cond = 0 ↔ (p ∈ opened ∧ p ≠ CFG.deadBlock))

/-- The graph `c2` has the blocks of `c`, with bindings appended at most, and maybe
more blocks. -/
def Grows (c c2 : CFG) : Prop :=
  c.basicBlocks.length ≤ c2.basicBlocks.length ∧
  ∀ p < c.basicBlocks.length, ∃ extra, (c2.blockAt p).exprs = (c.blockAt p).exprs ++ extra

/-- The graph `c2` is `c` after block `fromBB` got the terminator `cond`, `thenb`,
`elseb` and was pushed on the `backEdges` of the blocks of `targets`. -/
def Linked (c c2 : CFG) (fromBB : Nat) (cond : SymbolRef) (thenb elseb : Nat)
    (targets : List Nat) : Prop :=
  c2.basicBlocks.length = c.basicBlocks.length ∧
  ∀ q, c2.blockAt q =
    { c.blockAt q with
      bexit := if q = fromBB then ⟨cond, some thenb, some elseb⟩ else (c.blockAt q).bexit,
      backEdges := (c.blockAt q).backEdges ++ List.replicate (targets.count q) fromBB }

/-- What a run of `walk` from `current`, returning `ret`, has done to the graph: the
blocks without terminator are the same, with `ret` in the place of `current`; the
blocks that were there have kept their bindings, followed by new ones at most; and
`ret` is `current`, a new block or the dead block. -/
def WalkPost (st st2 : BuildState) (current ret : Nat) (k : List Nat) : Prop :=
  st2.inWhat.OpenAt (ret :: k) ∧ Grows st.inWhat st2.inWhat ∧
    (ret = current ∨ st.inWhat.basicBlocks.length ≤ ret ∨ ret = CFG.deadBlock)

/-- The bindings `arg_i := LoadArg(selfSym, methodName, i)` for the formals `args`,
`i` being the position of the first of them. -/
def loadArgBindings (selfSym : SymbolRef) (methodName : NameRef) :
    List SymbolRef → Int → List Binding
  | [], _ => []
  | argSym :: rest, i =>
    ⟨argSym, .LoadArg selfSym methodName i⟩ :: loadArgBindings selfSym methodName rest (i + 1)

/-- The state `buildFor` has minted its two temporaries in (lines 361-364). -/
def preludeState (gs : GlobalState) (md : ast.MethodDef) : GlobalState :=
  ((gs.newTemporary Names.returnMethodTemp md.symbol).2.newTemporary
    Names.selfMethodTemp md.symbol).2

/-- The temporary `selfSym` of `buildFor` (line 363). -/
def preludeSelf (gs : GlobalState) (md : ast.MethodDef) : SymbolRef :=
  ((gs.newTemporary Names.returnMethodTemp md.symbol).2.newTemporary
    Names.selfMethodTemp md.symbol).1

/-- The entry prelude of `buildFor` (lines 368-375): `self := Self(owner)`, then
`arg_i := LoadArg(self, methodName, i)` for every formal, in order. -/
def prelude (gs : GlobalState) (md : ast.MethodDef) : List Binding :=
  ⟨preludeSelf gs md, .Self ((preludeState gs md).info md.symbol).owner⟩ ::
    loadArgBindings (preludeSelf gs md) ((preludeState gs md).info md.symbol).name
      ((preludeState gs md).info md.symbol).arguments 0

/-- The entry prelude as it is said to be in every graph `build` returns: the entry
block contains `self := Self(owner)` and, after it and in parameter order,
`arg_i := LoadArg(self, methodName, i)` for every formal parameter. -/
def HasPrelude (gs : GlobalState) (md : ast.MethodDef) (c : CFG) : Prop :=
  ∃ selfSym : SymbolRef,
    List.Sublist
      (⟨selfSym, .Self (gs.info md.symbol).owner⟩ ::
        loadArgBindings selfSym (gs.info md.symbol).name (gs.info md.symbol).arguments 0)
      (c.blockAt CFG.entry).exprs

/-- The alias map `current` of `dealias` for block `bb` as the loop over the bindings
(lines 68-102) finds it: the map of `backEdges[0]` (lines 47-49) after the loop over
the predecessors (lines 51-66). -/
def startAliases (s : CFG × List (List (SymbolRef × SymbolRef))) (bb : Nat) :
    Except Err (List (SymbolRef × SymbolRef)) := do
  let b ← s.1.block bb
  let current ← aliasesAt s.2 (b.backEdges.headD bb)
  mergeParents s.2 bb b.backEdges current

/-- The state of `dealias` when its loop reaches position `n` of `backwardsTopoSort`:
the graph and `outAliases`. -/
def CFG.dealiasUpTo (gs : GlobalState) (c : CFG) (n : Nat) :
    Except Err (CFG × List (List (SymbolRef × SymbolRef))) :=
  dealiasLoop gs (c.backwardsTopoSort.take n) (c, List.replicate c.basicBlocks.length [])

/-- The graph of `buildFor` after `fillInTopoSorts`: the graph `dealias` starts from. -/
def CFG.buildSorted (gs : GlobalState) (md : ast.MethodDef) :
    Except Err (GlobalState × CFG) := do
  let (gs, res) ← CFG.buildGraph gs md
  let res ← res.fillInTopoSorts
  pure (gs, res)

/-- The operand `w2` stands where `w` stood, and is `w` itself unless `w` is a
synthetic temporary. -/
def PlainKept (gs : GlobalState) (w w2 : SymbolRef) : Prop :=
  (gs.info w).isSyntheticTemporary = false → w2 = w

/-- The instruction `v2` is `v` with, in the operand positions `Ident.what`,
`Send.recv`, `Send.args[i]`, `Super.args[i]`, `Return.what` and `NamedArg.value`,
the same symbol wherever `v` has a symbol that is not a synthetic temporary. -/
def Instruction.PlainKept (gs : GlobalState) (v v2 : Instruction) : Prop :=
  match v with
  | .Ident w => ∃ w2, v2 = .Ident w2 ∧ cfg.PlainKept gs w w2
  | .Send r fn args => ∃ r2 args2, v2 = .Send r2 fn args2 ∧ cfg.PlainKept gs r r2 ∧
      List.Forall₂ (cfg.PlainKept gs) args args2
  | .Super args => ∃ args2, v2 = .Super args2 ∧ List.Forall₂ (cfg.PlainKept gs) args args2
  | .Return w => ∃ w2, v2 = .Return w2 ∧ cfg.PlainKept gs w w2
  | .NamedArg name w => ∃ w2, v2 = .NamedArg name w2 ∧ cfg.PlainKept gs w w2
  | v => v2 = v

/-- The binding `b2` binds the symbol of `b` to an instruction that kept the operands
of `b` that are not synthetic temporaries. -/
def Binding.PlainKept (gs : GlobalState) (b b2 : Binding) : Prop :=
  b2.bind = b.bind ∧ b.value.PlainKept gs b2.value

/-- The two graphs have the same `symbol` and the same two sorts. -/
def SameHeader (c c2 : CFG) : Prop :=
  c2.symbol = c.symbol ∧ c2.forwardsTopoSort = c.forwardsTopoSort ∧
    c2.backwardsTopoSort = c.backwardsTopoSort

/-- A node of a kind outside the set `walk` recognises: any other `ast::Expression`
and a bare `ast::Block`, which reach the handler of line 630. -/
def Unrecognised : ast.Expression → Prop
  | .NotHandled _ => True
  | .BareBlock _ => True
  | _ => False

/-- The block writes `s`: it has a binding whose `bind` is `s`. -/
def BasicBlock.writesSym (b : BasicBlock) (s : SymbolRef) : Prop :=
  ∃ bind ∈ b.exprs, bind.bind = s

/-- The number `m` is the minimum of `a` and of the numbers that satisfy `S`. -/
def IsMinOf (m a : Int) (S : Int → Prop) : Prop :=
  m ≤ a ∧ (∀ x, S x → m ≤ x) ∧ (m = a ∨ S m)

/-- The number `x` is the `outerLoops` of a block of `c` that reads `s` (in a binding
operand or as a real conditional terminator) or writes `s`. -/
def CFG.touchDepth (c : CFG) (s : SymbolRef) (x : Int) : Prop :=
  ∃ bb < c.basicBlocks.length,
    ((c.blockAt bb).readsSym s ∨ (c.blockAt bb).writesSym s) ∧ (c.blockAt bb).outerLoops = x

/-- The map `m` has block `bb` in the set of key `k`. -/
def Mentions (m : List (SymbolRef × List Nat)) (k : SymbolRef) (bb : Nat) : Prop :=
  ∃ B, mapFind m k = some B ∧ bb ∈ B

/-- The map `writes` of line 119 as the loop of lines 121-146 leaves it. -/
def CFG.writesMap (c : CFG) : List (SymbolRef × List Nat) :=
  (collectBlocks c.basicBlocks 0 ([], [])).2

/-- The graph `c2` has the blocks of `c`, maybe more, and every block of `c` other
than `cur` has the terminator it had; so has the dead block in any case. -/
def KeepsExits (c c2 : CFG) (cur : Nat) : Prop :=
  c.basicBlocks.length ≤ c2.basicBlocks.length ∧
  ∀ p < c.basicBlocks.length, (p ≠ cur ∨ p = CFG.deadBlock) →
    (c2.blockAt p).bexit = (c.blockAt p).bexit

/-- The two graphs have the same number of blocks and the same terminators. -/
def SameExits (c c2 : CFG) : Prop :=
  c2.basicBlocks.length = c.basicBlocks.length ∧
  ∀ p, (c2.blockAt p).bexit = (c.blockAt p).bexit

/-- What a run of `walk` from `current`, returning `ret`, leaves: the terminators of
the other blocks as they were, and `ret` either the dead block or a block without
terminator that is `current` or a new block. -/
def Handed (st st2 : BuildState) (current ret : Nat) : Prop :=
  KeepsExits st.inWhat st2.inWhat current ∧
  (ret = CFG.deadBlock ∨
    (ret < st2.inWhat.basicBlocks.length ∧ (st2.inWhat.blockAt ret).bexit.cond = 0 ∧
      (ret = current ∨ st.inWhat.basicBlocks.length ≤ ret)))

/-- The two graphs differ at most in terminators and `backEdges`. -/
def OnlyEdges (c c2 : CFG) : Prop :=
  c2.basicBlocks.length = c.basicBlocks.length ∧ SameHeader c c2 ∧
  ∀ p, (c2.blockAt p).exprs = (c.blockAt p).exprs ∧ (c2.blockAt p).args = (c.blockAt p).args ∧
    (c2.blockAt p).outerLoops = (c.blockAt p).outerLoops ∧
    (c2.blockAt p).flags = (c.blockAt p).flags

/-- Lines 359-377 of `CFG::buildFor`: the prelude and the walk of the body; returns
the block the walk handed back and the state it left, the alias map included. -/
def CFG.buildWalk (gs : GlobalState) (md : ast.MethodDef) : Except Err (Nat × BuildState) := do
  let res : CFG := { CFG.new with symbol := md.symbol }
  let (retSym, gs) := gs.newTemporary Names.returnMethodTemp md.symbol
  let (selfSym, gs) := gs.newTemporary Names.selfMethodTemp md.symbol
  let entry := CFG.entry
  let res ← res.emplace entry selfSym (.Self (gs.info md.symbol).owner)
  let methodName := (gs.info md.symbol).name
  let res ← loadArguments selfSym methodName (gs.info md.symbol).arguments 0 res
  CFG.walk md.rhs entry retSym 0 { gs := gs, inWhat := res, aliases := [] }

/-- The instruction is an `Alias`. -/
def Instruction.isAlias : Instruction → Prop
  | .Alias _ => True
  | _ => False

/-- No binding of the graph is an `Alias`. -/
def CFG.NoAlias (c : CFG) : Prop :=
  ∀ p, ∀ b ∈ (c.blockAt p).exprs, ¬ b.value.isAlias

/-- The locals of the alias map are pairwise distinct symbols of the table. -/
def BuildState.AliasesFresh (st : BuildState) : Prop :=
  (st.aliases.map Prod.snd).Nodup ∧
  ∀ kv ∈ st.aliases, kv.2 < GlobalState.firstUserId + st.gs.symbols.length

/-- The graph as a call left it, with how the call ended: also a call that raises
leaves a graph behind. -/
abbrev Outcome := CFG × Except Err Unit

/-- The statement `bb->backEdges.push_back(from)` run on a graph that stays behind. -/
def pushBackEdgeThen (p fromBB : Nat) (c : CFG) (k : CFG → Outcome) : Outcome :=
  match c.pushBackEdge p fromBB with
  | .ok c2 => k c2
  | .error e => (c, .error e)

/-- The statements `Error::check(!from->bexit.cond.exists()); from->bexit = ...` that
the three edge helpers begin with, run on a graph that stays behind. -/
def setExitThen (fromBB : Nat) (exit : BlockExit) (c : CFG) (k : CFG → Outcome) : Outcome :=
  match c.block fromBB with
  | .error e => (c, .error e)
  | .ok fb =>
    if fb.bexit.cond.symbolExists then (c, .error Err.raise)
    else
      match c.update fromBB (fun b => { b with bexit := exit }) with
      | .ok c2 => k c2
      | .error e => (c, .error e)

/-- `conditionalJump` (lines 420-429), keeping the graph when it raises. -/
def conditionalJumpOutcome (fromBB : Nat) (cond : SymbolRef) (thenb elseb : Nat) (inWhat : CFG) :
    Outcome :=
  if fromBB ≠ CFG.deadBlock then
    setExitThen fromBB { cond := cond, thenb := some thenb, elseb := some elseb } inWhat
      (pushBackEdgeThen thenb fromBB · (pushBackEdgeThen elseb fromBB · (fun c => (c, .ok ()))))
  else (inWhat, .ok ())

/-- `unconditionalJump` (lines 431-439), keeping the graph when it raises. -/
def unconditionalJumpOutcome (fromBB toBB : Nat) (inWhat : CFG) : Outcome :=
  if fromBB ≠ CFG.deadBlock then
    setExitThen fromBB
      { cond := GlobalState.defn_cfg_always, thenb := some toBB, elseb := some toBB } inWhat
      (pushBackEdgeThen toBB fromBB · (fun c => (c, .ok ())))
  else (inWhat, .ok ())

/-- `jumpToDead` (lines 441-450), keeping the graph when it raises. -/
def jumpToDeadOutcome (fromBB : Nat) (inWhat : CFG) : Outcome :=
  let db := CFG.deadBlock
  if fromBB ≠ db then
    setExitThen fromBB { cond := GlobalState.defn_cfg_never, thenb := some db, elseb := some db }
      inWhat (pushBackEdgeThen db fromBB · (fun c => (c, .ok ())))
  else (inWhat, .ok ())

/-- What a call that keeps the graph hands to its caller: the graph when it
returned, the error when it did not. -/
def Outcome.result (o : Outcome) : Except Err CFG :=
  match o.2 with
  | .ok _ => .ok o.1
  | .error e => .error e

/-- The block `from` is not the dead block and has a terminator already. -/
def CFG.Terminated (c : CFG) (fromBB : Nat) : Prop :=
  fromBB ≠ CFG.deadBlock ∧ (c.blockAt fromBB).bexit.cond.symbolExists = true

/-- What is said of an edge helper `f` with the block `from`, `g` being `f` keeping
the graph when it raises: `f` raises exactly when `from` is not the dead block and
has a terminator already, the graph is then as it was, and with the dead block for
`from` the call returns and the graph is as it was. -/
def RaisesWhenTerminated (f : CFG → Except Err CFG) (g : CFG → Outcome) (fromBB : Nat)
    (c : CFG) : Prop :=
  (g c).result = f c ∧
  (f c = .error Err.raise ↔ c.Terminated fromBB) ∧
  (f c = .error Err.raise → (g c).1 = c) ∧
  (fromBB = CFG.deadBlock → f c = .ok c ∧ g c = (c, .ok ()))

/-- Every symbol of every set is a symbol of `base` at that block or of the set at one
of its `deps`. -/
def Justified (base : List (List SymbolRef)) (deps : Nat → List Nat)
    (ub : List (List SymbolRef)) : Prop :=
  ∀ q s, s ∈ ub.getD q [] → s ∈ base.getD q [] ∨ ∃ d ∈ deps q, s ∈ ub.getD d []

/-- Every set of `ub2` holds the symbols of the set of `ub` at the same block. -/
def GrowsTo (ub ub2 : List (List SymbolRef)) : Prop :=
  ∀ q s, s ∈ ub.getD q [] → s ∈ ub2.getD q []

/-- The loop `while (changed)` of lines 230-250 as `fillInBlockArguments` runs it on
`c`. -/
def CFG.upperBounds1 (c : CFG) : Except Err (List (List SymbolRef)) :=
  fixpoint (forwardStep c.afterRemoval c.readsByBlock) c.forwardsTopoSort
    (sweepBound c.basicBlocks.length c.readsByBlock) (List.replicate c.basicBlocks.length [])

/-- The loop `while (changed)` of lines 252-267 as `fillInBlockArguments` runs it on
`c`. -/
def CFG.upperBounds2 (c : CFG) : Except Err (List (List SymbolRef)) :=
  fixpoint (backwardStep c.afterRemoval c.writesByBlock) c.backwardsTopoSort
    (sweepBound c.basicBlocks.length c.writesByBlock) (List.replicate c.basicBlocks.length [])

/-- The equation `UB1[B] = reads(B) ∪ UB1[thenb(B)] ∪ UB1[elseb(B)]` at the block `p`,
a successor that is the dead block contributing nothing. -/
def CFG.UB1At (c : CFG) (X : Nat → SymbolRef → Prop) (p : Nat) : Prop :=
  ∀ s, X p s ↔
    (s ∈ c.readsByBlock.getD p [] ∨
      (∃ t, (c.blockAt p).bexit.thenb = some t ∧ t ≠ CFG.deadBlock ∧ X t s) ∨
      (∃ e, (c.blockAt p).bexit.elseb = some e ∧ e ≠ CFG.deadBlock ∧ X e s))

/-- The equation `UB2[B] = writes(B) ∪ ⋃ UB2[P]` over the `P` of `backEdges(B)` at the
block `p`, a predecessor that is the dead block contributing nothing. -/
def CFG.UB2At (c : CFG) (X : Nat → SymbolRef → Prop) (p : Nat) : Prop :=
  ∀ s, X p s ↔
    (s ∈ c.writesByBlock.getD p [] ∨
      ∃ q ∈ (c.blockAt p).backEdges, q ≠ CFG.deadBlock ∧ X q s)

/-- The equation `UB2[B] = writes(B) ∪ ⋃ UB2[P]` over all the `P` of `backEdges(B)` at
the block `p`. -/
def CFG.UB2AllEdgesAt (c : CFG) (X : Nat → SymbolRef → Prop) (p : Nat) : Prop :=
  ∀ s, X p s ↔ (s ∈ c.writesByBlock.getD p [] ∨ ∃ q ∈ (c.blockAt p).backEdges, X q s)

/-- What is said of a loop `while (changed)` that sweeps `order` with `step` over `n`
sets: a sweep returns, with sets that hold what they held, the same sets when it
leaves `changed` false and more symbols in all when it raises it. -/
def SweepsGrow (step : List (List SymbolRef) × Bool → Option Nat →
      Except Err (List (List SymbolRef) × Bool)) (order : List (Option Nat)) (n : Nat) : Prop :=
  ∀ ub : List (List SymbolRef), ub.length = n →
    ∃ ub2 ch, sweep step order (ub, false) = .ok (ub2, ch) ∧ ub2.length = n ∧
      GrowsTo ub ub2 ∧ (ch = false → ub2 = ub) ∧ (ch = true → totalSize ub < totalSize ub2)

/-- The state of `upper_bounds2` for `DeadPredecessor.graph` when the loop stops. -/
def DeadPredecessor.upperBounds2 : List (List SymbolRef) := [[], [7], []]

/-- The run returned or raised: it dereferenced no null or out-of-range pointer and
did not run out of fuel. -/
def Settles {α : Type} (r : Except Err α) : Prop :=
  (∃ a, r = .ok a) ∨ r = .error Err.raise

/-- Lines 359-376 of `CFG::buildFor`: the symbol to return into and the state in
which the walk of the body starts. -/
def CFG.buildStart (gs : GlobalState) (md : ast.MethodDef) : Except Err (SymbolRef × BuildState) := do
  let res : CFG := { CFG.new with symbol := md.symbol }
  let (retSym, gs) := gs.newTemporary Names.returnMethodTemp md.symbol
  let (selfSym, gs) := gs.newTemporary Names.selfMethodTemp md.symbol
  let entry := CFG.entry
  let res ← res.emplace entry selfSym (.Self (gs.info md.symbol).owner)
  let methodName := (gs.info md.symbol).name
  let res ← loadArguments selfSym methodName (gs.info md.symbol).arguments 0 res
  pure (retSym, { gs := gs, inWhat := res, aliases := [] })

/-- The method `def f; return 1; 2; end`, whose first statement lowers to the dead
block. -/
def AfterReturn.md : ast.MethodDef :=
  { symbol := Scenario.method, rhs := .InsSeq [.Return (.IntLit 1)] (.IntLit 2) }

/-- A literal (`IntLit`, `FloatLit`, `StringLit`, `BoolLit`), `Self` or `Ident` node. -/
def IsLeaf : ast.Expression → Prop
  | .IntLit _ | .FloatLit _ | .StringLit _ | .BoolLit _ | .Self _ | .Ident _ => True
  | _ => False

/-- The instruction the handlers of lines 533-558 bind for a literal, `Self` or
`Ident` node, and the state after: an `Ident` goes through `global2Local`. -/
def leafValue : ast.Expression → BuildState → Instruction × BuildState
  | .IntLit value, st => (.IntLit value, st)
  | .FloatLit value, st => (.FloatLit value, st)
  | .StringLit value, st => (.StringLit value, st)
  | .BoolLit value, st => (.BoolLit value, st)
  | .Self claz, st => (.Self claz, st)
  | .Ident symbol, st => let r := global2Local symbol st; (.Ident r.1, r.2)
  | _, st => (.NotSupported "", st)

/-- What is said of the operands of a `Send`: a binding `t := a` for each operand `a`,
in order, each `t` a temporary minted for it right before `a` is lowered. -/
def operandBindings : List ast.Expression → BuildState → List Binding × BuildState
  | [], st => ([], st)
  | a :: rest, st =>
    let t := st.newTemporary Names.statTemp
    let v := leafValue a t.2
    let r := operandBindings rest v.2
    (⟨t.1, v.1⟩ :: r.1, r.2)

/-- The graph `c` with the bindings `bs` appended to the block `p`. -/
def CFG.appended (c : CFG) (p : Nat) (bs : List Binding) : CFG :=
  { c with basicBlocks := c.basicBlocks.modify (fun b => { b with exprs := b.exprs ++ bs }) p }

/-- The instruction `v` is the one that stands for the leaf `a`: the literal or `Self`
with the same field, an `Ident` for an `Ident`. -/
def LowersTo : ast.Expression → Instruction → Prop
  | .IntLit value, v => v = .IntLit value
  | .FloatLit value, v => v = .FloatLit value
  | .StringLit value, v => v = .StringLit value
  | .BoolLit value, v => v = .BoolLit value
  | .Self claz, v => v = .Self claz
  | .Ident _, v => ∃ w, v = .Ident w
  | _, _ => False

/-- The symbol is not in the table `gs` and is, in the table `gs2`, a synthetic
temporary tagged `statTemp`. -/
def FreshStatTemp (gs gs2 : GlobalState) (t : SymbolRef) : Prop :=
  GlobalState.firstUserId + gs.symbols.length ≤ t ∧
  t < GlobalState.firstUserId + gs2.symbols.length ∧
  (gs2.info t).name = Names.statTemp ∧ (gs2.info t).isSyntheticTemporary = true

/-! ## Notions for the topological sorts -/

/-- The successors of a block: `thenb` and `elseb`, those that are not null. -/
def CFG.succs (c : CFG) (p : Nat) : List Nat :=
  (c.blockAt p).bexit.thenb.toList ++ (c.blockAt p).bexit.elseb.toList

/-- `Reach c p q`: `q` is `p` or is reachable from `p` along `thenb`/`elseb` edges. -/
inductive CFG.Reach (c : CFG) : Nat → Nat → Prop where
  | refl (p : Nat) : CFG.Reach c p p
  | step (p t q : Nat) : t ∈ c.succs p → CFG.Reach c t q → CFG.Reach c p q

/-- What is said of the order `topoSortFwd` stores blocks in, the depth-first
post-order from `p` over the blocks that are not in `visited`: the post-order from
`thenb`, then the post-order from `elseb` over what is left, then the block itself.
`fuel` bounds the depth. -/
def CFG.postOrder (c : CFG) : Nat → List Nat → Option Nat → List Nat
  | 0, _, _ => []
  | _ + 1, _, none => []
  | fuel + 1, visited, some p =>
    if p ∈ visited then []
    else
      let o1 := CFG.postOrder c fuel (p :: visited) (c.blockAt p).bexit.thenb
      let o2 := CFG.postOrder c fuel (o1 ++ p :: visited) (c.blockAt p).bexit.elseb
      o1 ++ o2 ++ [p]

/-- The block has the flag `FORWARD_TOPO_SORT_VISITED`. -/
def CFG.fwdVisited (c : CFG) (p : Nat) : Bool :=
  (c.blockAt p).flags &&& CFG.FORWARD_TOPO_SORT_VISITED != 0

/-- The vector `target` after the blocks of `out` were stored from index `nextFree` on. -/
def writeAt (target : List (Option Nat)) (nextFree : Nat) (out : List Nat) : List (Option Nat) :=
  target.take nextFree ++ out.map some ++ target.drop (nextFree + out.length)

/-- The number of blocks of the graph that are not in `visited`. -/
def CFG.unvisited (c : CFG) (visited : List Nat) : Nat :=
  ((List.range c.basicBlocks.length).filter (fun q => q ∉ visited)).length

/-- Every block has two successors and they are blocks of the graph. -/
def CFG.SuccsValid (c : CFG) : Prop :=
  ∀ q < c.basicBlocks.length, ∃ t e, (c.blockAt q).bexit.thenb = some t ∧
    (c.blockAt q).bexit.elseb = some e ∧ t < c.basicBlocks.length ∧ e < c.basicBlocks.length

/-- The graph `c2` has the blocks of `c`, maybe more; every block of `c` has the
`outerLoops` it had, every block of `c` but the dead block the `backEdges` it had, and
every block of `c` but `cur` and the dead block the bindings it had. -/
def Untouched (c c2 : CFG) (cur : Nat) : Prop :=
  c.basicBlocks.length ≤ c2.basicBlocks.length ∧
  ∀ p < c.basicBlocks.length,
    (c2.blockAt p).outerLoops = (c.blockAt p).outerLoops ∧
    (p ≠ CFG.deadBlock → (c2.blockAt p).backEdges = (c.blockAt p).backEdges) ∧
    (p ≠ cur → p ≠ CFG.deadBlock → (c2.blockAt p).exprs = (c.blockAt p).exprs)

/-- What is said of the graph `g` that the lowering of a `While` leaves: `current` is
the block the walk started in, `header`, `body` and `cont` are the three blocks it
created and `bodyEnd` is the block the walk of the body handed back. -/
def WhileShape (g : CFG) (current header body cont bodyEnd : Nat) (target : SymbolRef)
    (loops : Int) : Prop :=
  (g.blockAt header).outerLoops = loops + 1 ∧
  (g.blockAt body).outerLoops = loops + 1 ∧
  (g.blockAt cont).outerLoops = loops ∧
  (g.blockAt current).bexit = ⟨GlobalState.defn_cfg_always, some header, some header⟩ ∧
  (bodyEnd ≠ CFG.deadBlock →
    (g.blockAt bodyEnd).bexit = ⟨GlobalState.defn_cfg_always, some header, some header⟩) ∧
  (g.blockAt header).backEdges =
    (if bodyEnd = CFG.deadBlock then [current] else [current, bodyEnd]) ∧
  (g.blockAt cont).exprs = [⟨target, .Nil⟩]

mutual
/-- Among the nodes `walk` lowers there is no `While` and no `Send` with a block (the
left-hand side of an `Assign` and the inside of a bare `Block` are not lowered). -/
def LoopFree : ast.Expression → Prop
  | .While _ _ => False
  | .Return expr => LoopFree expr
  | .If cond thenp elsep => LoopFree cond ∧ LoopFree thenp ∧ LoopFree elsep
  | .Assign _ rhs => LoopFree rhs
  | .InsSeq stats expr => LoopFreeList stats ∧ LoopFree expr
  | .Send recv _ args none => LoopFree recv ∧ LoopFreeList args
  | .Send _ _ _ (some _) => False
  | _ => True
/-- `LoopFree` for every node of the list. -/
def LoopFreeList : List ast.Expression → Prop
  | [] => True
  | e :: rest => LoopFree e ∧ LoopFreeList rest
end

/-- `T` lists the blocks other than the dead block that have a terminator, none of
them a successor of itself or of a block later in the list. -/
def CFG.Ordered (c : CFG) (T : List Nat) : Prop :=
  (∀ p, p ∈ T ↔ (p ≠ CFG.deadBlock ∧ (c.blockAt p).bexit.cond ≠ 0)) ∧
  T.Pairwise (fun a b => a ∉ c.succs b) ∧
  ∀ p ∈ T, p ∉ c.succs p

/-- In the list `l` an occurrence of `y` comes before an occurrence of `x`. -/
def Before {α : Type} (l : List α) (y x : α) : Prop :=
  ∃ l1 l2, l = l1 ++ l2 ∧ y ∈ l1 ∧ x ∈ l2

/-- The blocks with a terminator can be listed in the way of `CFG.Ordered`. -/
def CFG.Loopless (c : CFG) : Prop := ∃ T, c.Ordered T

/-- The graph as it is before `fillInTopoSorts`: `forwardsTopoSort` is empty and no
block has a flag. -/
def CFG.Unsorted (c : CFG) : Prop :=
  c.forwardsTopoSort = [] ∧ ∀ p, (c.blockAt p).flags = 0

/-! ## Sets and maps -/

theorem mapFind_mapSet {β : Type} (m : List (SymbolRef × β)) (k : SymbolRef) (v : β)
    (k2 : SymbolRef) :
    mapFind (mapSet m k v) k2 = if k = k2 then some v else mapFind m k2 := by
  induction m with
  | nil => simp [mapSet, mapFind]
  | cons hd tl ih =>
    obtain ⟨k1, v1⟩ := hd
    by_cases h1 : k1 = k
    · subst h1
      by_cases h2 : k1 = k2 <;> simp [mapSet, mapFind, h2]
    · by_cases h2 : k1 = k2
      · subst h2
        simp [mapSet, mapFind, h1, Ne.symm h1]
      · simp [mapSet, mapFind, h1, h2, ih]

theorem mem_setInsert {α : Type} [DecidableEq α] (s : List α) (x y : α) :
    y ∈ setInsert s x ↔ y ∈ s ∨ y = x := by
  unfold setInsert
  split
  · constructor
    · intro h; exact Or.inl h
    · rintro (h | h)
      · exact h
      · subst h; assumption
  · simp

theorem nodup_setInsert {α : Type} [DecidableEq α] (s : List α) (x : α) (h : s.Nodup) :
    (setInsert s x).Nodup := by
  unfold setInsert
  split
  · exact h
  · rename_i hx
    rw [List.nodup_append]
    refine ⟨h, List.nodup_singleton x, ?_⟩
    intro a ha hb
    simp at hb
    subst hb
    exact hx ha

/-- What `insert(first, last)` does to a set: it appends the new elements. -/
theorem setInsertAll_eq_append {α : Type} [DecidableEq α] (xs s : List α) :
    ∃ extra, setInsertAll s xs = s ++ extra ∧ (∀ x ∈ extra, x ∈ xs ∧ x ∉ s) ∧
      (s.Nodup → (s ++ extra).Nodup) ∧ (∀ x ∈ xs, x ∈ s ∨ x ∈ extra) := by
  induction xs generalizing s with
  | nil => exact ⟨[], by simp [setInsertAll]⟩
  | cons x rest ih =>
    obtain ⟨extra, h1, h2, h3, h4⟩ := ih (setInsert s x)
    have hstep : setInsertAll s (x :: rest) = setInsertAll (setInsert s x) rest := by
      simp [setInsertAll]
    by_cases hx : x ∈ s
    · have hs : setInsert s x = s := by simp [setInsert, hx]
      rw [hs] at h1 h2 h3 h4
      refine ⟨extra, by rw [hstep, hs, h1], ?_, h3, ?_⟩
      · intro y hy
        exact ⟨List.mem_cons_of_mem _ (h2 y hy).1, (h2 y hy).2⟩
      · intro y hy
        rcases List.mem_cons.mp hy with h | h
        · subst h; exact Or.inl hx
        · exact h4 y h
    · have hs : setInsert s x = s ++ [x] := by simp [setInsert, hx]
      rw [hs] at h1 h2 h3 h4
      refine ⟨x :: extra, by rw [hstep, hs, h1]; simp, ?_, ?_, ?_⟩
      · intro y hy
        rcases List.mem_cons.mp hy with h | h
        · subst h; exact ⟨List.mem_cons_self _ _, hx⟩
        · have := h2 y h
          refine ⟨List.mem_cons_of_mem _ this.1, ?_⟩
          intro hys
          exact this.2 (List.mem_append_left _ hys)
      · intro hn
        have : (s ++ [x]).Nodup := by
          rw [← hs]; exact nodup_setInsert s x hn
        have := h3 this
        simpa using this
      · intro y hy
        rcases List.mem_cons.mp hy with h | h
        · subst h; exact Or.inr (List.mem_cons_self _ _)
        · rcases h4 y h with h5 | h5
          · rcases List.mem_append.mp h5 with h6 | h6
            · exact Or.inl h6
            · simp at h6; subst h6; exact Or.inr (List.mem_cons_self _ _)
          · exact Or.inr (List.mem_cons_of_mem _ h5)

theorem mem_setInsertAll {α : Type} [DecidableEq α] (xs s : List α) (y : α) :
    y ∈ setInsertAll s xs ↔ y ∈ s ∨ y ∈ xs := by
  obtain ⟨extra, h1, h2, _, h4⟩ := setInsertAll_eq_append xs s
  rw [h1, List.mem_append]
  constructor
  · rintro (h | h)
    · exact Or.inl h
    · exact Or.inr (h2 y h).1
  · rintro (h | h)
    · exact Or.inl h
    · exact h4 y h

theorem nodup_setInsertAll {α : Type} [DecidableEq α] (xs s : List α) (h : s.Nodup) :
    (setInsertAll s xs).Nodup := by
  obtain ⟨extra, h1, _, h3, _⟩ := setInsertAll_eq_append xs s
  rw [h1]
  exact h3 h

/-! ## Structure of `fillInBlockArguments` -/

theorem fillInBlockArguments_ok {gs gs2 : GlobalState} {c c2 : CFG}
    (h : c.fillInBlockArguments gs = .ok (gs2, c2)) :
    2 ≤ c.basicBlocks.length ∧
    ∃ ub1 ub2 blocks,
      fixpoint (forwardStep c.afterRemoval c.readsByBlock) c.forwardsTopoSort
        (sweepBound c.basicBlocks.length c.readsByBlock)
        (List.replicate c.basicBlocks.length []) = .ok ub1 ∧
      fixpoint (backwardStep c.afterRemoval c.writesByBlock) c.backwardsTopoSort
        (sweepBound c.basicBlocks.length c.writesByBlock)
        (List.replicate c.basicBlocks.length []) = .ok ub2 ∧
      combineAll ub1 ub2 c.afterRemoval.basicBlocks 0 = .ok blocks ∧
      c2 = { c.afterRemoval with basicBlocks := blocks } := by
  unfold CFG.fillInBlockArguments at h
  by_cases hn : c.basicBlocks.length < 2
  · simp [hn, throw, throwThe, MonadExceptOf.throw, bind, Except.bind] at h
  · simp only [hn, if_false, bind, Except.bind, pure, Except.pure] at h
    refine ⟨by omega, ?_⟩
    split at h
    · cases h
    · rename_i ub1 h1
      split at h
      · cases h
      · rename_i ub2 h2
        split at h
        · cases h
        · rename_i blocks h3
          cases h
          exact ⟨ub1, ub2, blocks, h1, h2, h3, rfl⟩

theorem combineAll_spec (ub1 ub2 : List (List SymbolRef)) :
    ∀ (bs : List BasicBlock) (p : Nat) (bs2 : List BasicBlock),
      combineAll ub1 ub2 bs p = .ok bs2 →
      bs2.length = bs.length ∧
      ∀ i b, bs[i]? = some b → ∃ s1 s2, ub1[p + i]? = some s1 ∧ ub2[p + i]? = some s2 ∧
        bs2[i]? = some { b with args :=
          (b.args ++ s1.filter (fun el => el ∈ s2)).insertionSort (fun x y => x ≤ y) } := by
  intro bs
  induction bs with
  | nil =>
    intro p bs2 h
    simp [combineAll, pure, Except.pure] at h
    subst h
    simp
  | cons b rest ih =>
    intro p bs2 h
    simp only [combineAll, combineBounds, setAt, bind, Except.bind, pure, Except.pure] at h
    split at h
    · cases h
    · rename_i b2 hb2
      split at hb2
      · cases hb2
      · rename_i s2 hs2
        split at hb2
        · cases hb2
        · rename_i s1 hs1
          split at h
          · cases h
          · rename_i rest2 hrest
            cases h
            cases hb2
            obtain ⟨hlen, hi⟩ := ih (p + 1) rest2 hrest
            refine ⟨by simp [hlen], ?_⟩
            intro i b0 hb0
            cases i with
            | zero =>
              simp at hb0
              subst hb0
              refine ⟨s1, s2, ?_, ?_, by simp⟩
              · revert hs1; split <;> simp_all
              · revert hs2; split <;> simp_all
            | succ j =>
              simp at hb0
              obtain ⟨t1, t2, h1, h2, h3⟩ := hi j b0 hb0
              refine ⟨t1, t2, ?_, ?_, by simpa using h3⟩
              · rw [← h1]; congr 1; omega
              · rw [← h2]; congr 1; omega

theorem mapFind_mapInsert_none (m : List (SymbolRef × List Nat)) (k : SymbolRef) (bb : Nat)
    (k2 : SymbolRef) :
    mapFind (mapInsert m k bb) k2 = none ↔ k ≠ k2 ∧ mapFind m k2 = none := by
  unfold mapInsert
  rw [mapFind_mapSet]
  by_cases h : k = k2 <;> simp [h]

theorem mapFind_foldl_mapInsert_none (bb : Nat) (ws : List SymbolRef) :
    ∀ (m : List (SymbolRef × List Nat)) (k : SymbolRef),
      mapFind (ws.foldl (fun r what => mapInsert r what bb) m) k = none ↔
        k ∉ ws ∧ mapFind m k = none := by
  induction ws with
  | nil => intro m k; simp
  | cons w rest ih =>
    intro m k
    simp only [List.foldl_cons, ih, mapFind_mapInsert_none, List.mem_cons, not_or]
    constructor
    · rintro ⟨h1, h2, h3⟩
      exact ⟨⟨fun h => h2 h.symm, h1⟩, h3⟩
    · rintro ⟨⟨h1, h2⟩, h3⟩
      exact ⟨h2, fun h => h1 h.symm, h3⟩

theorem mem_instructionReads (v : Instruction) (s : SymbolRef) :
    s ∈ instructionReads v ↔ v.hasOperand s := by
  cases v <;> simp [instructionReads, Instruction.hasOperand, eq_comm]

theorem isRemovable_iff (v : Instruction) : isRemovable v = true ↔ v.sideEffectFree := by
  cases v <;> simp [isRemovable, Instruction.sideEffectFree]

theorem collectBindings_reads_none (bb : Nat) (exprs : List Binding) :
    ∀ (rw : ReadsWrites) (k : SymbolRef),
      mapFind (exprs.foldl (collectBinding bb) rw).1 k = none ↔
        (∀ bind ∈ exprs, ¬ bind.value.hasOperand k) ∧ mapFind rw.1 k = none := by
  induction exprs with
  | nil => intro rw k; simp
  | cons b rest ih =>
    intro rw k
    simp only [List.foldl_cons, ih, collectBinding, mapFind_foldl_mapInsert_none,
      mem_instructionReads, List.mem_cons, forall_eq_or_imp]
    tauto

theorem collectBlock_reads_none (bb : Nat) (b : BasicBlock) (rw : ReadsWrites) (k : SymbolRef) :
    mapFind (collectBlock bb b rw).1 k = none ↔ ¬ b.readsSym k ∧ mapFind rw.1 k = none := by
  unfold collectBlock BasicBlock.readsSym BasicBlock.branchesOn
  split
  · rename_i hc
    simp only [mapFind_mapInsert_none, collectBindings_reads_none]
    constructor
    · rintro ⟨h1, h2, h3⟩
      refine ⟨?_, h3⟩
      rintro (⟨bind, hb, hop⟩ | ⟨_, _, h⟩)
      · exact h2 bind hb hop
      · exact h1 h
    · rintro ⟨h1, h2⟩
      refine ⟨?_, ?_, h2⟩
      · intro h
        exact h1 (Or.inr ⟨hc.1, hc.2, h⟩)
      · intro bind hb hop
        exact h1 (Or.inl ⟨bind, hb, hop⟩)
  · rename_i hc
    simp only [collectBindings_reads_none]
    constructor
    · rintro ⟨h2, h3⟩
      refine ⟨?_, h3⟩
      rintro (⟨bind, hb, hop⟩ | ⟨h4, h5, _⟩)
      · exact h2 bind hb hop
      · exact hc ⟨h4, h5⟩
    · rintro ⟨h1, h2⟩
      refine ⟨?_, h2⟩
      intro bind hb hop
      exact h1 (Or.inl ⟨bind, hb, hop⟩)

theorem collectBlocks_reads_none (bs : List BasicBlock) :
    ∀ (bb : Nat) (rw : ReadsWrites) (k : SymbolRef),
      mapFind (collectBlocks bs bb rw).1 k = none ↔
        (∀ b ∈ bs, ¬ b.readsSym k) ∧ mapFind rw.1 k = none := by
  induction bs with
  | nil => intro bb rw k; simp [collectBlocks]
  | cons b rest ih =>
    intro bb rw k
    simp only [collectBlocks, ih, collectBlock_reads_none, List.mem_cons, forall_eq_or_imp]
    tauto

/-- The map `reads` has no entry for exactly the symbols nothing in the graph reads. -/
theorem readsMap_none_iff (c : CFG) (k : SymbolRef) :
    mapFind c.readsMap k = none ↔ ¬ c.isRead k := by
  unfold CFG.readsMap CFG.isRead
  rw [collectBlocks_reads_none]
  simp [mapFind]

/-- The loop of lines 178-201 keeps exactly the bindings that are not dropped. -/
theorem removeDeadVariables_mem (c : CFG) (exprs : List Binding) (bind : Binding) :
    bind ∈ removeDeadVariables c.readsMap exprs ↔ bind ∈ exprs ∧ ¬ c.drops bind := by
  unfold removeDeadVariables CFG.drops
  rw [List.mem_filter]
  have h1 := readsMap_none_iff c bind.bind
  have h2 := isRemovable_iff bind.value
  constructor
  · rintro ⟨hm, hk⟩
    refine ⟨hm, ?_⟩
    rintro ⟨hs, hr⟩
    have : mapFind c.readsMap bind.bind = none := h1.mpr hr
    simp [this, h2.mpr hs] at hk
  · rintro ⟨hm, hk⟩
    refine ⟨hm, ?_⟩
    by_cases hr : mapFind c.readsMap bind.bind = none
    · by_cases hs : isRemovable bind.value = true
      · exact absurd ⟨h2.mp hs, h1.mp hr⟩ hk
      · simp [hs]
    · cases hf : mapFind c.readsMap bind.bind with
      | none => exact absurd hf hr
      | some v => simp

theorem setAt_ok {sets : List (List SymbolRef)} {p : Nat} {s : List SymbolRef}
    (h : setAt sets p = .ok s) : sets[p]? = some s := by
  unfold setAt at h
  split at h
  · rename_i s2 hs
    simp [pure, Except.pure] at h
    rw [hs, h]
  · cases h

theorem setAt_of_getElem? {sets : List (List SymbolRef)} {p : Nat} {s : List SymbolRef}
    (h : sets[p]? = some s) : setAt sets p = .ok s := by
  simp [setAt, h, pure, Except.pure]

theorem AllNodup_set {sets : List (List SymbolRef)} (h : AllNodup sets) (p : Nat)
    (s : List SymbolRef) (hs : s.Nodup) : AllNodup (sets.set p s) := by
  intro t ht
  rcases List.mem_or_eq_of_mem_set ht with h1 | h1
  · exact h t h1
  · subst h1; exact hs

theorem AllNodup_get {sets : List (List SymbolRef)} (h : AllNodup sets) {p : Nat}
    {s : List SymbolRef} (hs : sets[p]? = some s) : s.Nodup :=
  h s (List.getElem?_mem hs)

theorem AllNodup_replicate (n : Nat) : AllNodup (List.replicate n []) := by
  intro s hs
  rw [List.mem_replicate] at hs
  rw [hs.2]
  exact List.nodup_nil

theorem addSuccessor_nodup {ub ub2 : List (List SymbolRef)} {p : Nat} {succ : Option Nat}
    (hn : AllNodup ub) (h : addSuccessor ub p succ = .ok ub2) : AllNodup ub2 := by
  unfold addSuccessor at h
  split at h
  · simp only [bind, Except.bind, pure, Except.pure] at h
    split at h
    · cases h
    · split at h
      · cases h
      · rename_i other _
        split at h
        · cases h
        · rename_i own hown
          cases h
          exact AllNodup_set hn p _ (nodup_setInsertAll _ _ (AllNodup_get hn (setAt_ok hown)))
  · simp [pure, Except.pure] at h
    subst h
    exact hn

theorem addPredecessors_nodup (p : Nat) (edges : List Nat) :
    ∀ {ub ub2 : List (List SymbolRef)}, AllNodup ub →
      addPredecessors p edges ub = .ok ub2 → AllNodup ub2 := by
  induction edges with
  | nil =>
    intro ub ub2 hn h
    simp [addPredecessors, pure, Except.pure] at h
    subst h
    exact hn
  | cons e rest ih =>
    intro ub ub2 hn h
    unfold addPredecessors at h
    split at h
    · simp only [bind, Except.bind] at h
      split at h
      · cases h
      · split at h
        · cases h
        · rename_i own hown
          exact ih (AllNodup_set hn p _
            (nodup_setInsertAll _ _ (AllNodup_get hn (setAt_ok hown)))) h
    · exact ih hn h

theorem forwardStep_nodup {c : CFG} {rbb : List (List SymbolRef)}
    {s s2 : List (List SymbolRef) × Bool} {bb : Option Nat}
    (hn : AllNodup s.1) (h : forwardStep c rbb s bb = .ok s2) : AllNodup s2.1 := by
  unfold forwardStep at h
  simp only [bind, Except.bind, pure, Except.pure] at h
  split at h
  · cases h
  · split at h
    · cases h
    · split at h
      · cases h
      · rename_i own hown
        split at h
        · cases h
        · split at h
          · cases h
          · rename_i ub1 h1
            split at h
            · cases h
            · rename_i ub2 h2
              split at h
              · cases h
              · cases h
                exact addSuccessor_nodup (addSuccessor_nodup (AllNodup_set hn _ _
                  (nodup_setInsertAll _ _ (AllNodup_get hn (setAt_ok hown)))) h1) h2

theorem backwardStep_nodup {c : CFG} {wbb : List (List SymbolRef)}
    {s s2 : List (List SymbolRef) × Bool} {bb : Option Nat}
    (hn : AllNodup s.1) (h : backwardStep c wbb s bb = .ok s2) : AllNodup s2.1 := by
  unfold backwardStep at h
  simp only [bind, Except.bind, pure, Except.pure] at h
  split at h
  · cases h
  · split at h
    · cases h
    · split at h
      · cases h
      · rename_i own hown
        split at h
        · cases h
        · split at h
          · cases h
          · rename_i ub1 h1
            split at h
            · cases h
            · cases h
              exact addPredecessors_nodup _ _ (AllNodup_set hn _ _
                (nodup_setInsertAll _ _ (AllNodup_get hn (setAt_ok hown)))) h1

theorem sweep_nodup {step : List (List SymbolRef) × Bool → Option Nat →
      Except Err (List (List SymbolRef) × Bool)}
    (hstep : ∀ s s2 bb, AllNodup s.1 → step s bb = .ok s2 → AllNodup s2.1)
    (order : List (Option Nat)) :
    ∀ {s s2 : List (List SymbolRef) × Bool}, AllNodup s.1 →
      sweep step order s = .ok s2 → AllNodup s2.1 := by
  induction order with
  | nil =>
    intro s s2 hn h
    simp [sweep, pure, Except.pure] at h
    subst h
    exact hn
  | cons bb rest ih =>
    intro s s2 hn h
    simp only [sweep, bind, Except.bind] at h
    split at h
    · cases h
    · rename_i s1 h1
      exact ih (hstep _ _ _ hn h1) h

theorem fixpoint_nodup {step : List (List SymbolRef) × Bool → Option Nat →
      Except Err (List (List SymbolRef) × Bool)}
    (hstep : ∀ s s2 bb, AllNodup s.1 → step s bb = .ok s2 → AllNodup s2.1)
    (order : List (Option Nat)) (fuel : Nat) :
    ∀ {ub ub2 : List (List SymbolRef)}, AllNodup ub →
      fixpoint step order fuel ub = .ok ub2 → AllNodup ub2 := by
  induction fuel with
  | zero =>
    intro ub ub2 _ h
    simp [fixpoint, throw, throwThe, MonadExceptOf.throw] at h
  | succ k ih =>
    intro ub ub2 hn h
    simp only [fixpoint, bind, Except.bind] at h
    split at h
    · cases h
    · rename_i r hr
      have hr2 : AllNodup r.1 := sweep_nodup hstep order (s := (ub, false)) hn hr
      split at h
      · exact ih hr2 h
      · simp [pure, Except.pure] at h
        subst h
        exact hr2

theorem afterRemoval_getElem? (c : CFG) (p : Nat) :
    c.afterRemoval.basicBlocks[p]? =
      (c.basicBlocks[p]?).map
        (fun b => { b with exprs := removeDeadVariables c.readsMap b.exprs }) := by
  simp [CFG.afterRemoval, List.getElem?_map]

/-- What `fillInBlockArguments` leaves in every block: the bindings that survive the
removal of dead variables, and as `args` the sorted old `args` followed by the
symbols of both upper bounds. -/
theorem fillInBlockArguments_blocks {gs gs2 : GlobalState} {c c2 : CFG}
    (h : c.fillInBlockArguments gs = .ok (gs2, c2)) :
    c2.basicBlocks.length = c.basicBlocks.length ∧
    c2.forwardsTopoSort = c.forwardsTopoSort ∧
    c2.backwardsTopoSort = c.backwardsTopoSort ∧
    ∃ ub1 ub2,
      fixpoint (forwardStep c.afterRemoval c.readsByBlock) c.forwardsTopoSort
        (sweepBound c.basicBlocks.length c.readsByBlock)
        (List.replicate c.basicBlocks.length []) = .ok ub1 ∧
      fixpoint (backwardStep c.afterRemoval c.writesByBlock) c.backwardsTopoSort
        (sweepBound c.basicBlocks.length c.writesByBlock)
        (List.replicate c.basicBlocks.length []) = .ok ub2 ∧
      ∀ (p : Nat) (b : BasicBlock), c.basicBlocks[p]? = some b →
        ∃ s1 s2, ub1[p]? = some s1 ∧ ub2[p]? = some s2 ∧
          c2.basicBlocks[p]? = some { b with
            exprs := removeDeadVariables c.readsMap b.exprs,
            args := (b.args ++ s1.filter (fun el => el ∈ s2)).insertionSort
              (fun x y => x ≤ y) } := by
  obtain ⟨_, ub1, ub2, blocks, h1, h2, h3, h4⟩ := fillInBlockArguments_ok h
  obtain ⟨hlen, hi⟩ := combineAll_spec ub1 ub2 _ _ _ h3
  subst h4
  refine ⟨?_, rfl, rfl, ub1, ub2, h1, h2, ?_⟩
  · simp [hlen, CFG.afterRemoval]
  · intro p b hb
    have hb2 := afterRemoval_getElem? c p
    rw [hb] at hb2
    obtain ⟨s1, s2, hs1, hs2, hres⟩ := hi p _ hb2
    simp only [Nat.zero_add] at hs1 hs2
    exact ⟨s1, s2, hs1, hs2, hres⟩

/-- C10: dead-store elimination in `fillInBlockArguments` leaves in every block exactly
the sub-sequence, in the original order, of the bindings that are not dropped, where a
binding is dropped if and only if its value is side-effect-free (`Ident`, `ArraySplat`,
`HashSplat`, `BoolLit`, `StringLit`, `IntLit`, `FloatLit`, `Self`, `LoadArg`,
`NamedArg`) and its `bind` is read nowhere in the graph as it stood before any removal;
in particular `Send`, `Super`, `Return`, `Alias`, `NotSupported` and `Nil` bindings are
never dropped. -/
theorem fillInBlockArguments_dead_store_elimination (gs gs2 : GlobalState) (c c2 : CFG)
    (h : c.fillInBlockArguments gs = .ok (gs2, c2)) :
    c2.basicBlocks.length = c.basicBlocks.length ∧
    ∃ keep : Binding → Bool, (∀ bind, keep bind = true ↔ ¬ c.drops bind) ∧
      ∀ (p : Nat) (b : BasicBlock), c.basicBlocks[p]? = some b →
        ∃ b2, c2.basicBlocks[p]? = some b2 ∧ b2.exprs = b.exprs.filter keep ∧
          ∀ bind ∈ b.exprs, bind.value.alwaysRetained → bind ∈ b2.exprs := by
  obtain ⟨hlen, _, _, ub1, ub2, _, _, hb⟩ := fillInBlockArguments_blocks h
  refine ⟨hlen, fun bind => !((mapFind c.readsMap bind.bind).isNone && isRemovable bind.value),
    ?_, ?_⟩
  · intro bind
    have := removeDeadVariables_mem c [bind] bind
    simp only [removeDeadVariables, List.mem_filter, List.mem_singleton, true_and] at this
    exact this
  · intro p b hp
    obtain ⟨s1, s2, _, _, hres⟩ := hb p b hp
    refine ⟨_, hres, rfl, ?_⟩
    intro bind hmem hret
    show bind ∈ removeDeadVariables c.readsMap b.exprs
    rw [removeDeadVariables_mem]
    refine ⟨hmem, ?_⟩
    rintro ⟨hs, _⟩
    revert hs hret
    cases bind.value <;> simp [Instruction.sideEffectFree, Instruction.alwaysRetained]

/-- C9: after `fillInBlockArguments`, run on blocks whose `args` start empty, the
`args` of every block are sorted strictly ascending by symbol id, hence hold no symbol
twice. -/
theorem fillInBlockArguments_args_sorted (gs gs2 : GlobalState) (c c2 : CFG)
    (hargs : ∀ b ∈ c.basicBlocks, b.args = [])
    (h : c.fillInBlockArguments gs = .ok (gs2, c2)) :
    ∀ b2 ∈ c2.basicBlocks, b2.args.Sorted (· < ·) ∧ b2.args.Nodup := by
  obtain ⟨hlen, _, _, ub1, ub2, h1, _, hb⟩ := fillInBlockArguments_blocks h
  have hn1 : AllNodup ub1 :=
    fixpoint_nodup (fun _ _ _ => forwardStep_nodup) _ _ (AllNodup_replicate _) h1
  intro b2 hb2
  obtain ⟨p, hp⟩ := List.getElem?_of_mem hb2
  have hlt : p < c.basicBlocks.length := by
    rw [← hlen]
    exact (List.getElem?_eq_some_iff.mp hp).1
  obtain ⟨s1, s2, hs1, _, hres⟩ := hb p _ (List.getElem?_eq_getElem hlt)
  rw [hp] at hres
  have hb2eq := Option.some.inj hres
  have harg : (c.basicBlocks[p]).args = [] := hargs _ (List.getElem_mem hlt)
  have hnd : (s1.filter (fun el => el ∈ s2)).Nodup := (AllNodup_get hn1 hs1).filter _
  have hargs2 : b2.args = (s1.filter (fun el => el ∈ s2)).insertionSort (fun x y => x ≤ y) := by
    rw [hb2eq]
    simp [harg]
  have hnd2 : b2.args.Nodup := by
    rw [hargs2]
    exact (List.perm_insertionSort _ _).nodup_iff.mpr hnd
  refine ⟨List.Sorted.lt_of_le ?_ hnd2, hnd2⟩
  rw [hargs2]
  exact List.sorted_insertionSort (· ≤ ·) _

/-! ## The data-flow loops reach the least fixed point -/

theorem getD_set_sets (ub : List (List SymbolRef)) (p q : Nat) (v : List SymbolRef) :
    (ub.set p v).getD q [] = if p = q ∧ p < ub.length then v else ub.getD q [] := by
  simp only [List.getD_eq_getElem?_getD, List.getElem?_set]
  by_cases h : p = q
  · subst h
    by_cases h2 : p < ub.length
    · simp [h2]
    · simp [h2, List.getElem?_eq_none (Nat.le_of_not_lt h2)]
  · simp [h]

theorem setAt_getD {ub : List (List SymbolRef)} {p : Nat} (h : p < ub.length) :
    setAt ub p = .ok (ub.getD p []) := by
  apply setAt_of_getElem?
  simp [List.getD_eq_getElem?_getD, List.getElem?_eq_getElem h]

theorem totalSize_set (ub : List (List SymbolRef)) (p : Nat) (extra : List SymbolRef)
    (h : p < ub.length) :
    totalSize (ub.set p (ub.getD p [] ++ extra)) = totalSize ub + extra.length := by
  induction ub generalizing p with
  | nil => simp at h
  | cons hd tl ih =>
    cases p with
    | zero => simp [totalSize]; omega
    | succ k =>
      have hk : k < tl.length := by simpa using h
      have := ih k hk
      simp only [totalSize, List.set_cons_succ, List.map_cons, List.sum_cons,
        List.getD_cons_succ] at this ⊢
      omega

theorem set_getD_self (ub : List (List SymbolRef)) (p : Nat) :
    ub.set p (ub.getD p [] ++ []) = ub := by
  induction ub generalizing p with
  | nil => simp
  | cons hd tl ih =>
    cases p with
    | zero => simp
    | succ k => simpa using ih k

theorem Reaches_mem_flatten {base : List (List SymbolRef)} {deps : Nat → List Nat} {p : Nat}
    {s : SymbolRef} (h : Reaches base deps p s) : s ∈ base.flatten := by
  induction h with
  | here p s hs =>
    rw [List.mem_flatten]
    by_cases hp : p < base.length
    · refine ⟨base[p], List.getElem_mem hp, ?_⟩
      simpa [List.getD_eq_getElem?_getD, List.getElem?_eq_getElem hp] using hs
    · simp [List.getD_eq_getElem?_getD, List.getElem?_eq_none (Nat.le_of_not_lt hp)] at hs
  | step p d s _ _ ih => exact ih

theorem AllNodup_getD {ub : List (List SymbolRef)} (h : AllNodup ub) (p : Nat) :
    (ub.getD p []).Nodup := by
  by_cases hp : p < ub.length
  · have : ub.getD p [] = ub[p] := by
      simp [List.getD_eq_getElem?_getD, List.getElem?_eq_getElem hp]
    rw [this]
    exact h _ (List.getElem_mem hp)
  · simp [List.getD_eq_getElem?_getD, List.getElem?_eq_none (Nat.le_of_not_lt hp)]

/-- One sweep of a data-flow loop over a valid order. -/
theorem sweep_spec {step : List (List SymbolRef) × Bool → Option Nat →
      Except Err (List (List SymbolRef) × Bool)}
    {n : Nat} {base : List (List SymbolRef)} {deps : Nat → List Nat}
    (hstep : StepSpec step n base deps) (order : List (Option Nat)) :
    ValidOrder n order → ∀ (ub : List (List SymbolRef)) (ch : Bool), ub.length = n →
      ∃ ub2 ch2, sweep step order (ub, ch) = .ok (ub2, ch2) ∧ ub2.length = n ∧
        (AllNodup ub → AllNodup ub2) ∧
        (Sound base deps ub → Sound base deps ub2) ∧
        totalSize ub ≤ totalSize ub2 ∧
        (ch = true → ch2 = true) ∧
        (ch = false → ch2 = true → totalSize ub < totalSize ub2) ∧
        (ch2 = false → ub2 = ub ∧ ∀ p, some p ∈ order → Closed base deps ub p) := by
  induction order with
  | nil =>
    intro _ ub ch hlen
    refine ⟨ub, ch, by simp [sweep, pure, Except.pure], hlen, id, id, le_refl _, id, ?_, ?_⟩
    · intro h1 h2; rw [h1] at h2; cases h2
    · intro _; exact ⟨rfl, by simp⟩
  | cons x rest ih =>
    intro hv ub ch hlen
    obtain ⟨p, hx, hp⟩ := hv x (List.mem_cons_self _ _)
    subst hx
    obtain ⟨extra, hs, hsrc, hnd, hcompl⟩ := hstep ub ch p hlen hp
    have hlen1 : (ub.set p (ub.getD p [] ++ extra)).length = n := by simp [hlen]
    obtain ⟨ub2, ch2, hsw, hlen2, hnd2, hsound2, hsize, hmono, hstrict, hclosed⟩ :=
      ih (fun y hy => hv y (List.mem_cons_of_mem _ hy))
        (ub.set p (ub.getD p [] ++ extra)) (ch || !extra.isEmpty) hlen1
    have hsz1 : totalSize (ub.set p (ub.getD p [] ++ extra)) = totalSize ub + extra.length :=
      totalSize_set ub p extra (by omega)
    refine ⟨ub2, ch2, ?_, hlen2, ?_, ?_, by omega, ?_, ?_, ?_⟩
    · simp only [sweep, bind, Except.bind, hs]
      exact hsw
    · intro h
      exact hnd2 (AllNodup_set h p _ (hnd (AllNodup_getD h p)))
    · intro h
      apply hsound2
      intro q s hsq
      rw [getD_set_sets] at hsq
      split at hsq
      · rename_i hpq
        obtain ⟨hpq, _⟩ := hpq
        subst hpq
        rcases List.mem_append.mp hsq with h1 | h1
        · exact h p s h1
        · rcases hsrc s h1 with h2 | ⟨d, hd, h2⟩
          · exact Reaches.here p s h2
          · exact Reaches.step p d s hd (h d s h2)
      · exact h q s hsq
    · intro hch
      exact hmono (by simp [hch])
    · intro hch hch2
      cases hex : extra with
      | nil =>
        have := hstrict (by simp [hch, hex]) hch2
        omega
      | cons a l =>
        have hl : extra.length = l.length + 1 := by rw [hex]; simp
        omega
    · intro hch2
      have hch1 : (ch || !extra.isEmpty) = false := by
        cases hb : (ch || !extra.isEmpty)
        · rfl
        · have := hmono hb
          rw [hch2] at this
          cases this
      obtain ⟨heq, hcl⟩ := hclosed hch2
      have hex : extra = [] := by
        cases hc : ch <;> rw [hc] at hch1 <;> simp at hch1
        exact hch1
      have hub1 : ub.set p (ub.getD p [] ++ extra) = ub := by
        rw [hex]; exact set_getD_self ub p
      rw [hub1] at heq hcl
      refine ⟨heq, ?_⟩
      intro q hq
      rcases List.mem_cons.mp hq with h1 | h1
      · have hqp : q = p := Option.some.inj h1
        subst hqp
        intro s hs2
        have := hcompl s hs2
        rw [hex] at this
        simpa using this
      · exact hcl q h1

theorem sum_map_length_le (ub : List (List SymbolRef)) (m : Nat)
    (h : ∀ l ∈ ub, l.length ≤ m) : totalSize ub ≤ ub.length * m := by
  induction ub with
  | nil => simp [totalSize]
  | cons hd tl ih =>
    have h1 := h hd (List.mem_cons_self _ _)
    have h2 := ih (fun l hl => h l (List.mem_cons_of_mem _ hl))
    simp only [totalSize, List.map_cons, List.sum_cons, List.length_cons] at h2 ⊢
    rw [Nat.add_mul]
    omega

/-- The sets of a sound family without repetitions hold at most as many symbols as
`base` mentions. -/
theorem totalSize_le {base : List (List SymbolRef)} {deps : Nat → List Nat}
    {ub : List (List SymbolRef)} (hn : AllNodup ub) (hs : Sound base deps ub) :
    totalSize ub ≤ ub.length * (base.map List.length).sum := by
  apply sum_map_length_le
  intro l hl
  obtain ⟨q, hq⟩ := List.getElem?_of_mem hl
  have hsub : l ⊆ base.flatten := by
    intro s hsl
    refine @Reaches_mem_flatten base deps q s ?_
    apply hs q s
    simpa [List.getD_eq_getElem?_getD, hq] using hsl
  have := (List.Nodup.subperm (hn l hl) hsub).length_le
  simpa [List.length_flatten] using this

/-- A `while (changed)` loop over a valid order stops within the fuel it is given
and returns sets that are sound and closed at every block of the order. -/
theorem fixpoint_spec {step : List (List SymbolRef) × Bool → Option Nat →
      Except Err (List (List SymbolRef) × Bool)}
    {n : Nat} {base : List (List SymbolRef)} {deps : Nat → List Nat}
    (hstep : StepSpec step n base deps) (order : List (Option Nat))
    (hv : ValidOrder n order) :
    ∀ (fuel : Nat) (ub : List (List SymbolRef)), ub.length = n → AllNodup ub →
      Sound base deps ub → n * (base.map List.length).sum < totalSize ub + fuel →
      ∃ ub2, fixpoint step order fuel ub = .ok ub2 ∧ ub2.length = n ∧ AllNodup ub2 ∧
        Sound base deps ub2 ∧ ∀ p, some p ∈ order → Closed base deps ub2 p := by
  intro fuel
  induction fuel with
  | zero =>
    intro ub hlen hn hs hlt
    have := totalSize_le hn hs
    rw [hlen] at this
    omega
  | succ k ih =>
    intro ub hlen hn hs hlt
    obtain ⟨ub2, ch2, hsw, hlen2, hnd2, hsound2, _, _, hstrict, hclosed⟩ :=
      sweep_spec hstep order hv ub false hlen
    cases hc : ch2 with
    | true =>
      rw [hc] at hsw
      have hlt2 := hstrict rfl hc
      obtain ⟨ub3, h3, hrest⟩ := ih ub2 hlen2 (hnd2 hn) (hsound2 hs) (by omega)
      refine ⟨ub3, ?_, hrest⟩
      simp only [fixpoint, bind, Except.bind, hsw]
      simpa using h3
    | false =>
      rw [hc] at hsw
      obtain ⟨heq, hcl⟩ := hclosed hc
      refine ⟨ub2, ?_, hlen2, hnd2 hn, hsound2 hs, ?_⟩
      · simp only [fixpoint, bind, Except.bind, hsw]
        simp [pure, Except.pure]
      · rw [heq]; exact hcl

/-- Sound sets that are closed at every block are the least family. -/
theorem mem_iff_Reaches {n : Nat} {base : List (List SymbolRef)} {deps : Nat → List Nat}
    {ub : List (List SymbolRef)} (hs : Sound base deps ub)
    (hbase : base.length = n) (hdeps : ∀ p d, d ∈ deps p → p < n)
    (hc : ∀ p < n, Closed base deps ub p) (p : Nat) (s : SymbolRef) :
    s ∈ ub.getD p [] ↔ Reaches base deps p s := by
  constructor
  · exact hs p s
  · intro h
    induction h with
    | here p s hs2 =>
      have hp : p < n := by
        by_contra hp
        rw [← hbase] at hp
        simp [List.getD_eq_getElem?_getD, List.getElem?_eq_none (Nat.le_of_not_lt hp)] at hs2
      exact hc p hp s (Or.inl hs2)
    | step p d s hd _ ih =>
      exact hc p (hdeps p d hd) s (Or.inr ⟨d, hd, ih⟩)

theorem set_getD_self' (ub : List (List SymbolRef)) (p : Nat) :
    ub.set p (ub.getD p []) = ub := by
  have := set_getD_self ub p
  simpa using this

/-- Merging a list of symbols into the set at `p`, of which `e1` was appended
already, appends the symbols that were still missing. -/
theorem acc_merge (ub : List (List SymbolRef)) (p : Nat) (e1 xs : List SymbolRef) :
    ∃ e2, (ub.set p (ub.getD p [] ++ e1)).set p (setInsertAll (ub.getD p [] ++ e1) xs) =
        ub.set p (ub.getD p [] ++ (e1 ++ e2)) ∧
      (∀ x ∈ e2, x ∈ xs ∧ x ∉ ub.getD p [] ++ e1) ∧
      ((ub.getD p [] ++ e1).Nodup → (ub.getD p [] ++ (e1 ++ e2)).Nodup) ∧
      (∀ x ∈ xs, x ∈ ub.getD p [] ++ (e1 ++ e2)) := by
  obtain ⟨e2, h1, h2, h3, h4⟩ := setInsertAll_eq_append xs (ub.getD p [] ++ e1)
  refine ⟨e2, ?_, h2, ?_, ?_⟩
  · rw [List.set_set, h1, List.append_assoc]
  · intro h
    rw [← List.append_assoc]
    exact h3 h
  · intro x hx
    rw [← List.append_assoc]
    rcases h4 x hx with h | h
    · exact List.mem_append_left _ h
    · exact List.mem_append_right _ h

/-- Merging the set at `d` into the set at `p`. -/
theorem acc_merge_block (ub : List (List SymbolRef)) (p d : Nat) (e1 : List SymbolRef)
    (hp : p < ub.length) (hd : d < ub.length) :
    ∃ e2 other,
      setAt (ub.set p (ub.getD p [] ++ e1)) d = .ok other ∧
      setAt (ub.set p (ub.getD p [] ++ e1)) p = .ok (ub.getD p [] ++ e1) ∧
      (ub.set p (ub.getD p [] ++ e1)).set p (setInsertAll (ub.getD p [] ++ e1) other) =
        ub.set p (ub.getD p [] ++ (e1 ++ e2)) ∧
      (∀ x ∈ e2, x ∈ ub.getD d []) ∧
      ((ub.getD p [] ++ e1).Nodup → (ub.getD p [] ++ (e1 ++ e2)).Nodup) ∧
      (∀ x ∈ ub.getD d [], x ∈ ub.getD p [] ++ (e1 ++ e2)) := by
  have hlen : (ub.set p (ub.getD p [] ++ e1)).length = ub.length := by simp
  have hown : (ub.set p (ub.getD p [] ++ e1)).getD p [] = ub.getD p [] ++ e1 := by
    rw [getD_set_sets]; simp [hp]
  obtain ⟨e2, h1, h2, h3, h4⟩ :=
    acc_merge ub p e1 ((ub.set p (ub.getD p [] ++ e1)).getD d [])
  refine ⟨e2, _, setAt_getD (by omega), ?_, h1, ?_, h3, ?_⟩
  · rw [setAt_getD (by omega), hown]
  · intro x hx
    obtain ⟨hx1, hx2⟩ := h2 x hx
    rw [getD_set_sets] at hx1
    split at hx1
    · exact absurd hx1 hx2
    · exact hx1
  · intro x hx
    by_cases hpd : p = d
    · subst hpd
      exact List.mem_append_left _ hx
    · apply h4
      rw [getD_set_sets, if_neg (fun h => hpd h.1)]
      exact hx

theorem addSuccessor_spec (ub : List (List SymbolRef)) (p t : Nat) (e1 : List SymbolRef)
    (hp : p < ub.length) (ht : t < ub.length) :
    ∃ e2, addSuccessor (ub.set p (ub.getD p [] ++ e1)) p (some t) =
          .ok (ub.set p (ub.getD p [] ++ (e1 ++ e2))) ∧
      (∀ x ∈ e2, t ≠ CFG.deadBlock ∧ x ∈ ub.getD t []) ∧
      ((ub.getD p [] ++ e1).Nodup → (ub.getD p [] ++ (e1 ++ e2)).Nodup) ∧
      (t ≠ CFG.deadBlock → ∀ x ∈ ub.getD t [], x ∈ ub.getD p [] ++ (e1 ++ e2)) := by
  by_cases hdead : t = CFG.deadBlock
  · refine ⟨[], ?_, by simp, by simp, fun h => absurd hdead h⟩
    simp [addSuccessor, hdead, pure, Except.pure]
  · obtain ⟨e2, other, ho, hown, h1, h2, h3, h4⟩ := acc_merge_block ub p t e1 hp ht
    refine ⟨e2, ?_, fun x hx => ⟨hdead, h2 x hx⟩, h3, fun _ => h4⟩
    unfold addSuccessor
    have : (some t ≠ some CFG.deadBlock) := by simpa using hdead
    rw [if_pos this]
    simp only [deref, bind, Except.bind, ho, hown, pure, Except.pure, h1]

theorem length_append_bne (own e : List SymbolRef) :
    ((own ++ e).length != own.length) = !e.isEmpty := by
  cases e with
  | nil => simp
  | cons a l => simp

/-- `forwardStep` on a graph with valid successor pointers. -/
theorem forwardStep_spec (c : CFG) (rbb : List (List SymbolRef))
    (hrbb : rbb.length = c.basicBlocks.length)
    (hsucc : ∀ b ∈ c.basicBlocks, ∃ t e, b.bexit.thenb = some t ∧ b.bexit.elseb = some e ∧
      t < c.basicBlocks.length ∧ e < c.basicBlocks.length) :
    StepSpec (forwardStep c rbb) c.basicBlocks.length rbb c.forwardDeps := by
  intro ub ch p hlen hp
  have hb : c.basicBlocks[p]? = some (c.blockAt p) := by
    simp [CFG.blockAt, List.getD_eq_getElem?_getD, List.getElem?_eq_getElem hp]
  obtain ⟨t, e, ht, he, htn, hen⟩ := hsucc _ (List.getElem?_mem hb)
  have hpu : p < ub.length := by omega
  obtain ⟨e0, h01, h02, h03, h04⟩ := acc_merge ub p [] (rbb.getD p [])
  simp only [List.append_nil, List.nil_append] at h01 h02 h03 h04
  rw [set_getD_self'] at h01
  obtain ⟨e1, h11, h12, h13, h14⟩ := addSuccessor_spec ub p t e0 hpu (by omega)
  obtain ⟨e2, h21, h22, h23, h24⟩ := addSuccessor_spec ub p e (e0 ++ e1) hpu (by omega)
  have hdeps : ∀ d, d ∈ c.forwardDeps p ↔ (d = t ∨ d = e) ∧ d ≠ CFG.deadBlock := by
    intro d
    simp [CFG.forwardDeps, ht, he]
  refine ⟨e0 ++ e1 ++ e2, ?_, ?_, ?_, ?_⟩
  · unfold forwardStep
    simp only [deref, CFG.block, hb, bind, Except.bind, setAt_getD hpu,
      setAt_getD (hrbb ▸ hp : p < rbb.length), h01, ht, he, h11, h21]
    rw [setAt_getD (by simp; omega)]
    simp only [pure, Except.pure, getD_set_sets, hpu, and_self, if_true]
    rw [length_append_bne]
  · intro x hx
    rcases List.mem_append.mp hx with h | h
    · rcases List.mem_append.mp h with h | h
      · exact Or.inl (h02 x h).1
      · exact Or.inr ⟨t, (hdeps t).mpr ⟨Or.inl rfl, (h12 x h).1⟩, (h12 x h).2⟩
    · exact Or.inr ⟨e, (hdeps e).mpr ⟨Or.inr rfl, (h22 x h).1⟩, (h22 x h).2⟩
  · intro hn
    exact h23 (h13 (h03 hn))
  · intro x hx
    rcases hx with h | ⟨d, hd, h⟩
    · have := h04 x h
      rcases List.mem_append.mp this with h5 | h5
      · exact List.mem_append_left _ h5
      · exact List.mem_append_right _ (List.mem_append_left _ (List.mem_append_left _ h5))
    · obtain ⟨hd1, hd2⟩ := (hdeps d).mp hd
      rcases hd1 with h6 | h6
      · subst h6
        have := h14 hd2 x h
        rcases List.mem_append.mp this with h5 | h5
        · exact List.mem_append_left _ h5
        · exact List.mem_append_right _ (List.mem_append_left _ h5)
      · subst h6
        exact h24 hd2 x h

theorem addPredecessors_spec (ub : List (List SymbolRef)) (p : Nat) (hp : p < ub.length)
    (edges : List Nat) :
    (∀ d ∈ edges, d < ub.length) → ∀ e1 : List SymbolRef,
    ∃ e2, addPredecessors p edges (ub.set p (ub.getD p [] ++ e1)) =
          .ok (ub.set p (ub.getD p [] ++ (e1 ++ e2))) ∧
      (∀ x ∈ e2, ∃ d ∈ edges, d ≠ CFG.deadBlock ∧ x ∈ ub.getD d []) ∧
      ((ub.getD p [] ++ e1).Nodup → (ub.getD p [] ++ (e1 ++ e2)).Nodup) ∧
      (∀ d ∈ edges, d ≠ CFG.deadBlock → ∀ x ∈ ub.getD d [],
        x ∈ ub.getD p [] ++ (e1 ++ e2)) := by
  induction edges with
  | nil =>
    intro _ e1
    exact ⟨[], by simp [addPredecessors, pure, Except.pure], by simp, by simp, by simp⟩
  | cons d rest ih =>
    intro hv e1
    have hrest : ∀ d ∈ rest, d < ub.length := fun x hx => hv x (List.mem_cons_of_mem _ hx)
    by_cases hdead : d = CFG.deadBlock
    · obtain ⟨e2, h1, h2, h3, h4⟩ := ih hrest e1
      refine ⟨e2, ?_, ?_, h3, ?_⟩
      · unfold addPredecessors
        rw [if_neg (by simpa using hdead)]
        exact h1
      · intro x hx
        obtain ⟨d2, hd2, h5⟩ := h2 x hx
        exact ⟨d2, List.mem_cons_of_mem _ hd2, h5⟩
      · intro d2 hd2 hne x hx
        rcases List.mem_cons.mp hd2 with h | h
        · subst h; exact absurd hdead hne
        · exact h4 d2 h hne x hx
    · obtain ⟨ea, other, ho, hown, ha1, ha2, ha3, ha4⟩ :=
        acc_merge_block ub p d e1 hp (hv d (List.mem_cons_self _ _))
      obtain ⟨e2, h1, h2, h3, h4⟩ := ih hrest (e1 ++ ea)
      refine ⟨ea ++ e2, ?_, ?_, ?_, ?_⟩
      · unfold addPredecessors
        rw [if_pos hdead]
        simp only [bind, Except.bind, ho, hown, ha1, h1, List.append_assoc]
      · intro x hx
        rcases List.mem_append.mp hx with h | h
        · exact ⟨d, List.mem_cons_self _ _, hdead, ha2 x h⟩
        · obtain ⟨d2, hd2, h5⟩ := h2 x h
          exact ⟨d2, List.mem_cons_of_mem _ hd2, h5⟩
      · intro hn
        rw [← List.append_assoc e1 ea e2]
        exact h3 (ha3 hn)
      · intro d2 hd2 hne x hx
        rw [← List.append_assoc e1 ea e2]
        rcases List.mem_cons.mp hd2 with h | h
        · subst h
          have := ha4 x hx
          rcases List.mem_append.mp this with h5 | h5
          · exact List.mem_append_left _ h5
          · exact List.mem_append_right _ (List.mem_append_left _ h5)
        · exact h4 d2 h hne x hx

/-- `backwardStep` on a graph with valid predecessor pointers. -/
theorem backwardStep_spec (c : CFG) (wbb : List (List SymbolRef))
    (hwbb : wbb.length = c.basicBlocks.length)
    (hback : ∀ b ∈ c.basicBlocks, ∀ q ∈ b.backEdges, q < c.basicBlocks.length) :
    StepSpec (backwardStep c wbb) c.basicBlocks.length wbb c.backwardDeps := by
  intro ub ch p hlen hp
  have hb : c.basicBlocks[p]? = some (c.blockAt p) := by
    simp [CFG.blockAt, List.getD_eq_getElem?_getD, List.getElem?_eq_getElem hp]
  have hedges := hback _ (List.getElem?_mem hb)
  have hpu : p < ub.length := by omega
  obtain ⟨e0, h01, h02, h03, h04⟩ := acc_merge ub p [] (wbb.getD p [])
  simp only [List.append_nil, List.nil_append] at h01 h02 h03 h04
  rw [set_getD_self'] at h01
  obtain ⟨e1, h11, h12, h13, h14⟩ :=
    addPredecessors_spec ub p hpu (c.blockAt p).backEdges (by rw [hlen]; exact hedges) e0
  have hdeps : ∀ d, d ∈ c.backwardDeps p ↔ d ∈ (c.blockAt p).backEdges ∧ d ≠ CFG.deadBlock := by
    intro d
    simp [CFG.backwardDeps]
  refine ⟨e0 ++ e1, ?_, ?_, ?_, ?_⟩
  · unfold backwardStep
    simp only [deref, CFG.block, hb, bind, Except.bind, setAt_getD hpu,
      setAt_getD (hwbb ▸ hp : p < wbb.length), h01, h11]
    rw [setAt_getD (by simp; omega)]
    simp only [pure, Except.pure, getD_set_sets, hpu, and_self, if_true]
    rw [length_append_bne]
  · intro x hx
    rcases List.mem_append.mp hx with h | h
    · exact Or.inl (h02 x h).1
    · obtain ⟨d, hd, hne, hxd⟩ := h12 x h
      exact Or.inr ⟨d, (hdeps d).mpr ⟨hd, hne⟩, hxd⟩
  · intro hn
    exact h13 (h03 hn)
  · intro x hx
    rcases hx with h | ⟨d, hd, h⟩
    · have := h04 x h
      rcases List.mem_append.mp this with h5 | h5
      · exact List.mem_append_left _ h5
      · exact List.mem_append_right _ (List.mem_append_left _ h5)
    · obtain ⟨hd1, hd2⟩ := (hdeps d).mp hd
      exact h14 d hd1 hd2 x h

theorem length_insertByBlock (what : SymbolRef) (blocks : List Nat) :
    ∀ sets : List (List SymbolRef), (insertByBlock what blocks sets).length = sets.length := by
  induction blocks with
  | nil => intro sets; rfl
  | cons b rest ih =>
    intro sets
    simp only [insertByBlock, List.foldl_cons] at ih ⊢
    rw [ih]
    simp

theorem length_fillByBlock (reads : List (SymbolRef × List Nat))
    (writes : List (SymbolRef × List Nat)) :
    ∀ s : List (List SymbolRef) × List (List SymbolRef),
      (fillByBlock reads writes s).1.length = s.1.length ∧
      (fillByBlock reads writes s).2.length = s.2.length := by
  induction writes with
  | nil => intro s; exact ⟨rfl, rfl⟩
  | cons w rest ih =>
    intro s
    obtain ⟨k, wts⟩ := w
    simp only [fillByBlock]
    obtain ⟨h1, h2⟩ := ih (insertByBlock k ((mapFind reads k).getD []) s.1,
      insertByBlock k (if ((mapFind reads k).getD []).isEmpty = true then [] else wts) s.2)
    rw [h1, h2, length_insertByBlock, length_insertByBlock]
    exact ⟨rfl, rfl⟩

theorem length_readsByBlock (c : CFG) : c.readsByBlock.length = c.basicBlocks.length := by
  simp [CFG.readsByBlock, byBlock, (length_fillByBlock _ _ _).1]

theorem length_writesByBlock (c : CFG) : c.writesByBlock.length = c.basicBlocks.length := by
  simp [CFG.writesByBlock, byBlock, (length_fillByBlock _ _ _).2]

theorem afterRemoval_blockAt (c : CFG) (p : Nat) :
    (c.afterRemoval.blockAt p).bexit = (c.blockAt p).bexit ∧
    (c.afterRemoval.blockAt p).backEdges = (c.blockAt p).backEdges := by
  unfold CFG.blockAt
  simp only [List.getD_eq_getElem?_getD, afterRemoval_getElem?]
  cases c.basicBlocks[p]? <;> simp

theorem afterRemoval_length (c : CFG) :
    c.afterRemoval.basicBlocks.length = c.basicBlocks.length := by
  simp [CFG.afterRemoval]

theorem afterRemoval_forwardDeps (c : CFG) : c.afterRemoval.forwardDeps = c.forwardDeps := by
  funext p
  simp [CFG.forwardDeps, (afterRemoval_blockAt c p).1]

theorem afterRemoval_backwardDeps (c : CFG) : c.afterRemoval.backwardDeps = c.backwardDeps := by
  funext p
  simp [CFG.backwardDeps, (afterRemoval_blockAt c p).2]

theorem mem_forwardDeps (c : CFG) (p d : Nat) :
    d ∈ c.forwardDeps p ↔
      ((c.blockAt p).bexit.thenb = some d ∨ (c.blockAt p).bexit.elseb = some d) ∧
        d ≠ CFG.deadBlock := by
  simp only [CFG.forwardDeps, List.mem_filter, List.mem_append, Option.mem_toList,
    Option.mem_def, decide_eq_true_eq]

theorem mem_backwardDeps (c : CFG) (p d : Nat) :
    d ∈ c.backwardDeps p ↔ d ∈ (c.blockAt p).backEdges ∧ d ≠ CFG.deadBlock := by
  simp [CFG.backwardDeps]

theorem Reaches_forward_iff (c : CFG) (base : List (List SymbolRef)) (p : Nat) (s : SymbolRef) :
    Reaches base c.forwardDeps p s ↔ ∃ q, c.FlowsTo p q ∧ s ∈ base.getD q [] := by
  constructor
  · intro h
    induction h with
    | here p s hs => exact ⟨p, CFG.FlowsTo.refl p, hs⟩
    | step p d s hd _ ih =>
      obtain ⟨q, hq, hs⟩ := ih
      obtain ⟨h1, h2⟩ := (mem_forwardDeps c p d).mp hd
      exact ⟨q, CFG.FlowsTo.step p d q h1 h2 hq, hs⟩
  · rintro ⟨q, hq, hs⟩
    induction hq with
    | refl p => exact Reaches.here p s hs
    | step p t q h1 h2 _ ih =>
      exact Reaches.step p t s ((mem_forwardDeps c p t).mpr ⟨h1, h2⟩) (ih hs)

theorem Reaches_backward_iff (c : CFG) (base : List (List SymbolRef)) (p : Nat)
    (s : SymbolRef) :
    Reaches base c.backwardDeps p s ↔ ∃ q, c.ComesFrom p q ∧ s ∈ base.getD q [] := by
  constructor
  · intro h
    induction h with
    | here p s hs => exact ⟨p, CFG.ComesFrom.refl p, hs⟩
    | step p d s hd _ ih =>
      obtain ⟨q, hq, hs⟩ := ih
      obtain ⟨h1, h2⟩ := (mem_backwardDeps c p d).mp hd
      exact ⟨q, CFG.ComesFrom.step p d q h1 h2 hq, hs⟩
  · rintro ⟨q, hq, hs⟩
    induction hq with
    | refl p => exact Reaches.here p s hs
    | step p t q h1 h2 _ ih =>
      exact Reaches.step p t s ((mem_backwardDeps c p t).mpr ⟨h1, h2⟩) (ih hs)

theorem blockAt_mem (c : CFG) {p : Nat} (hp : p < c.basicBlocks.length) :
    c.blockAt p ∈ c.basicBlocks := by
  have : c.blockAt p = c.basicBlocks[p] := by
    simp [CFG.blockAt, List.getD_eq_getElem?_getD, List.getElem?_eq_getElem hp]
  rw [this]
  exact List.getElem_mem hp

/-- The symbols read on the paths that avoid the dead block are the least solution of
the equation of `UB1`. -/
theorem FlowsTo_least (c : CFG) (hl : c.WellLinked) :
    LeastSolution c.basicBlocks.length c.UB1Equation
      (fun p s => ∃ q, c.FlowsTo p q ∧ s ∈ c.readsByBlock.getD q []) := by
  constructor
  · intro p _ s
    constructor
    · rintro ⟨q, hq, hs⟩
      cases hq with
      | refl => exact Or.inl hs
      | step _ t _ h1 h2 h3 =>
        rcases h1 with h1 | h1
        · exact Or.inr (Or.inl ⟨t, h1, h2, q, h3, hs⟩)
        · exact Or.inr (Or.inr ⟨t, h1, h2, q, h3, hs⟩)
    · rintro (h | ⟨t, h1, h2, q, h3, hs⟩ | ⟨t, h1, h2, q, h3, hs⟩)
      · exact ⟨p, CFG.FlowsTo.refl p, h⟩
      · exact ⟨q, CFG.FlowsTo.step p t q (Or.inl h1) h2 h3, hs⟩
      · exact ⟨q, CFG.FlowsTo.step p t q (Or.inr h1) h2 h3, hs⟩
  · intro Y hY p hp s
    rintro ⟨q, hq, hs⟩
    induction hq with
    | refl p => exact (hY p hp s).mpr (Or.inl hs)
    | step p t q h1 h2 _ ih =>
      obtain ⟨⟨t2, e2, ht2, he2, htn, hen⟩, _⟩ := hl.2 _ (blockAt_mem c hp)
      rcases h1 with h1 | h1
      · have : t = t2 := Option.some.inj (h1.symm.trans ht2)
        subst this
        exact (hY p hp s).mpr (Or.inr (Or.inl ⟨t, h1, h2, ih htn hs⟩))
      · have : t = e2 := Option.some.inj (h1.symm.trans he2)
        subst this
        exact (hY p hp s).mpr (Or.inr (Or.inr ⟨t, h1, h2, ih hen hs⟩))

/-- The symbols written on the chains of predecessors that avoid the dead block are
the least solution of the equation of `UB2`. -/
theorem ComesFrom_least (c : CFG) (hl : c.WellLinked) :
    LeastSolution c.basicBlocks.length c.UB2Equation
      (fun p s => ∃ q, c.ComesFrom p q ∧ s ∈ c.writesByBlock.getD q []) := by
  constructor
  · intro p _ s
    constructor
    · rintro ⟨q, hq, hs⟩
      cases hq with
      | refl => exact Or.inl hs
      | step _ d _ h1 h2 h3 => exact Or.inr ⟨d, h1, h2, q, h3, hs⟩
    · rintro (h | ⟨d, h1, h2, q, h3, hs⟩)
      · exact ⟨p, CFG.ComesFrom.refl p, h⟩
      · exact ⟨q, CFG.ComesFrom.step p d q h1 h2 h3, hs⟩
  · intro Y hY p hp s
    rintro ⟨q, hq, hs⟩
    induction hq with
    | refl p => exact (hY p hp s).mpr (Or.inl hs)
    | step p d q h1 h2 _ ih =>
      have hdn := (hl.2 _ (blockAt_mem c hp)).2 d h1
      exact (hY p hp s).mpr (Or.inr ⟨d, h1, h2, ih hdn hs⟩)

theorem combineAll_total (ub1 ub2 : List (List SymbolRef)) :
    ∀ (bs : List BasicBlock) (p : Nat), p + bs.length ≤ ub1.length →
      p + bs.length ≤ ub2.length → ∃ bs2, combineAll ub1 ub2 bs p = .ok bs2 := by
  intro bs
  induction bs with
  | nil => intro p _ _; exact ⟨[], rfl⟩
  | cons b rest ih =>
    intro p h1 h2
    simp only [List.length_cons] at h1 h2
    obtain ⟨rest2, hrest⟩ := ih (p + 1) (by omega) (by omega)
    simp only [combineAll, combineBounds, bind, Except.bind, pure, Except.pure,
      setAt_getD (show p < ub1.length by omega), setAt_getD (show p < ub2.length by omega),
      hrest]
    exact ⟨_, rfl⟩

theorem Sound_replicate (base : List (List SymbolRef)) (deps : Nat → List Nat) (n : Nat) :
    Sound base deps (List.replicate n []) := by
  intro q s hs
  simp only [List.getD_eq_getElem?_getD, List.getElem?_replicate] at hs
  split at hs <;> simp at hs

theorem totalSize_replicate (n : Nat) : totalSize (List.replicate n []) = 0 := by
  induction n with
  | zero => rfl
  | succ k ih =>
    simp only [totalSize, List.replicate_succ, List.map_cons, List.sum_cons] at ih ⊢
    simp [ih]

/-- `fillInBlockArguments` returns when both loops and the final loop do. -/
theorem fillInBlockArguments_returns (gs : GlobalState) (c : CFG)
    (hn : 2 ≤ c.basicBlocks.length) {ub1 ub2 : List (List SymbolRef)}
    {blocks : List BasicBlock}
    (h1 : fixpoint (forwardStep c.afterRemoval c.readsByBlock) c.forwardsTopoSort
        (sweepBound c.basicBlocks.length c.readsByBlock)
        (List.replicate c.basicBlocks.length []) = .ok ub1)
    (h2 : fixpoint (backwardStep c.afterRemoval c.writesByBlock) c.backwardsTopoSort
        (sweepBound c.basicBlocks.length c.writesByBlock)
        (List.replicate c.basicBlocks.length []) = .ok ub2)
    (h3 : combineAll ub1 ub2 c.afterRemoval.basicBlocks 0 = .ok blocks) :
    ∃ gs2 c2, c.fillInBlockArguments gs = .ok (gs2, c2) := by
  cases hres : c.fillInBlockArguments gs with
  | ok r => exact ⟨r.1, r.2, rfl⟩
  | error e =>
    exfalso
    unfold CFG.fillInBlockArguments at hres
    have hn2 : ¬ c.basicBlocks.length < 2 := by omega
    simp only [hn2, if_false, bind, Except.bind, pure, Except.pure] at hres
    split at hres
    · rename_i heq
      exact absurd (h1.symm.trans heq) (by simp)
    · rename_i v1 heq1
      have hv1 : ub1 = v1 := Except.ok.inj (h1.symm.trans heq1)
      subst hv1
      split at hres
      · rename_i heq
        exact absurd (h2.symm.trans heq) (by simp)
      · rename_i v2 heq2
        have hv2 : ub2 = v2 := Except.ok.inj (h2.symm.trans heq2)
        subst hv2
        split at hres
        · rename_i heq
          exact absurd (h3.symm.trans heq) (by simp)
        · cases hres

/-- The loops of `fillInBlockArguments` on a well-linked graph whose sorts hold valid
blocks: both return, with the least families on the blocks the sorts list. -/
theorem upper_bounds_spec (c : CFG) (hl : c.WellLinked)
    (hfwd : ValidOrder c.basicBlocks.length c.forwardsTopoSort)
    (hbwd : ValidOrder c.basicBlocks.length c.backwardsTopoSort) :
    ∃ ub1 ub2,
      fixpoint (forwardStep c.afterRemoval c.readsByBlock) c.forwardsTopoSort
        (sweepBound c.basicBlocks.length c.readsByBlock)
        (List.replicate c.basicBlocks.length []) = .ok ub1 ∧
      fixpoint (backwardStep c.afterRemoval c.writesByBlock) c.backwardsTopoSort
        (sweepBound c.basicBlocks.length c.writesByBlock)
        (List.replicate c.basicBlocks.length []) = .ok ub2 ∧
      ub1.length = c.basicBlocks.length ∧ ub2.length = c.basicBlocks.length ∧
      AllNodup ub1 ∧ AllNodup ub2 ∧
      Sound c.readsByBlock c.forwardDeps ub1 ∧ Sound c.writesByBlock c.backwardDeps ub2 ∧
      (∀ p, some p ∈ c.forwardsTopoSort → Closed c.readsByBlock c.forwardDeps ub1 p) ∧
      (∀ p, some p ∈ c.backwardsTopoSort → Closed c.writesByBlock c.backwardDeps ub2 p) := by
  have hlen := afterRemoval_length c
  have hmem : ∀ b ∈ c.afterRemoval.basicBlocks, ∃ b0 ∈ c.basicBlocks,
      b.bexit = b0.bexit ∧ b.backEdges = b0.backEdges := by
    intro b hb
    simp only [CFG.afterRemoval, List.mem_map] at hb
    obtain ⟨b0, hb0, rfl⟩ := hb
    exact ⟨b0, hb0, rfl, rfl⟩
  have hs1 : StepSpec (forwardStep c.afterRemoval c.readsByBlock) c.basicBlocks.length
      c.readsByBlock c.forwardDeps := by
    have := forwardStep_spec c.afterRemoval c.readsByBlock
      (by rw [length_readsByBlock, hlen]) (by
        intro b hb
        obtain ⟨b0, hb0, he, _⟩ := hmem b hb
        rw [he, hlen]
        exact (hl.2 b0 hb0).1)
    rwa [hlen, afterRemoval_forwardDeps] at this
  have hs2 : StepSpec (backwardStep c.afterRemoval c.writesByBlock) c.basicBlocks.length
      c.writesByBlock c.backwardDeps := by
    have := backwardStep_spec c.afterRemoval c.writesByBlock
      (by rw [length_writesByBlock, hlen]) (by
        intro b hb
        obtain ⟨b0, hb0, _, he⟩ := hmem b hb
        rw [he, hlen]
        exact (hl.2 b0 hb0).2)
    rwa [hlen, afterRemoval_backwardDeps] at this
  obtain ⟨ub1, h1, hl1, hn1, hsd1, hc1⟩ := fixpoint_spec hs1 _ hfwd
    (sweepBound c.basicBlocks.length c.readsByBlock) (List.replicate c.basicBlocks.length [])
    (by simp) (AllNodup_replicate _) (Sound_replicate _ _ _)
    (by rw [totalSize_replicate]; simp [sweepBound])
  obtain ⟨ub2, h2, hl2, hn2, hsd2, hc2⟩ := fixpoint_spec hs2 _ hbwd
    (sweepBound c.basicBlocks.length c.writesByBlock) (List.replicate c.basicBlocks.length [])
    (by simp) (AllNodup_replicate _) (Sound_replicate _ _ _)
    (by rw [totalSize_replicate]; simp [sweepBound])
  exact ⟨ub1, ub2, h1, h2, hl1, hl2, hn1, hn2, hsd1, hsd2, hc1, hc2⟩

/-- C1 (amended): on a graph with valid pointers whose two sorts each list every block
and whose blocks start with empty `args`, `fillInBlockArguments` returns and gives
every block `B` exactly the symbols of `UB1[B] ∩ UB2[B]`, where `UB1` is the least
solution of `UB1[B] = reads(B) ∪ UB1[thenb(B)] ∪ UB1[elseb(B)]` and `UB2` the least
solution of `UB2[B] = writes(B) ∪ ⋃ UB2[P]` over the `P` of `backEdges(B)`, a successor
or predecessor that is the dead block contributing nothing; `reads` and `writes` are the
per-block sets left after escape pruning. Equivalently `s` is in `B.args` if and only if
a block reachable from `B` along `thenb`/`elseb` without entering the dead block reads
`s`, and `B` or a block that reaches `B` along `backEdges` outside the dead block
writes `s`. -/
theorem fillInBlockArguments_args (gs : GlobalState) (c : CFG) (hl : c.WellLinked)
    (hfwd : c.ListsEveryBlock c.forwardsTopoSort)
    (hbwd : c.ListsEveryBlock c.backwardsTopoSort)
    (hargs : ∀ b ∈ c.basicBlocks, b.args = []) :
    ∃ gs2 c2, c.fillInBlockArguments gs = .ok (gs2, c2) ∧
      LeastSolution c.basicBlocks.length c.UB1Equation
        (fun p s => ∃ q, c.FlowsTo p q ∧ s ∈ c.readsByBlock.getD q []) ∧
      LeastSolution c.basicBlocks.length c.UB2Equation
        (fun p s => ∃ q, c.ComesFrom p q ∧ s ∈ c.writesByBlock.getD q []) ∧
      ∀ p < c.basicBlocks.length, ∀ s, s ∈ (c2.blockAt p).args ↔
        (∃ q, c.FlowsTo p q ∧ s ∈ c.readsByBlock.getD q []) ∧
        (∃ q, c.ComesFrom p q ∧ s ∈ c.writesByBlock.getD q []) := by
  obtain ⟨ub1, ub2, h1, h2, hl1, hl2, _, _, hsd1, hsd2, hc1, hc2⟩ :=
    upper_bounds_spec c hl hfwd.1 hbwd.1
  obtain ⟨blocks, h3⟩ := combineAll_total ub1 ub2 c.afterRemoval.basicBlocks 0
    (by rw [afterRemoval_length, hl1]; omega) (by rw [afterRemoval_length, hl2]; omega)
  obtain ⟨gs2, c2, hres⟩ := fillInBlockArguments_returns gs c hl.1 h1 h2 h3
  refine ⟨gs2, c2, hres, FlowsTo_least c hl, ComesFrom_least c hl, ?_⟩
  obtain ⟨_, _, _, v1, v2, hv1, hv2, hb⟩ := fillInBlockArguments_blocks hres
  have e1 : ub1 = v1 := Except.ok.inj (h1.symm.trans hv1)
  have e2 : ub2 = v2 := Except.ok.inj (h2.symm.trans hv2)
  subst e1 e2
  intro p hp s
  have hbp : c.basicBlocks[p]? = some (c.blockAt p) := by
    simp [CFG.blockAt, List.getD_eq_getElem?_getD, List.getElem?_eq_getElem hp]
  obtain ⟨s1, s2, hs1, hs2, hb2⟩ := hb p _ hbp
  have harg : (c.blockAt p).args = [] := hargs _ (blockAt_mem c hp)
  have hargs2 : (c2.blockAt p).args =
      (s1.filter (fun el => el ∈ s2)).insertionSort (fun x y => x ≤ y) := by
    rw [harg] at hb2
    show (c2.basicBlocks.getD p {}).args = _
    rw [List.getD_eq_getElem?_getD, hb2]
    simp
  have hg1 : ub1.getD p [] = s1 := by simp [List.getD_eq_getElem?_getD, hs1]
  have hg2 : ub2.getD p [] = s2 := by simp [List.getD_eq_getElem?_getD, hs2]
  have hr1 := mem_iff_Reaches hsd1 (length_readsByBlock c)
    (fun p d hd => by
      by_contra hp2
      have : c.blockAt p = {} := by
        simp [CFG.blockAt, List.getD_eq_getElem?_getD,
          List.getElem?_eq_none (Nat.le_of_not_lt hp2)]
      rw [mem_forwardDeps, this] at hd
      simp at hd)
    (fun p hp => hc1 p (hfwd.2 p hp)) p s
  have hr2 := mem_iff_Reaches hsd2 (length_writesByBlock c)
    (fun p d hd => by
      by_contra hp2
      have : c.blockAt p = {} := by
        simp [CFG.blockAt, List.getD_eq_getElem?_getD,
          List.getElem?_eq_none (Nat.le_of_not_lt hp2)]
      rw [mem_backwardDeps, this] at hd
      simp at hd)
    (fun p hp => hc2 p (hbwd.2 p hp)) p s
  rw [hargs2, (List.perm_insertionSort _ _).mem_iff, List.mem_filter,
    ← Reaches_forward_iff, ← Reaches_backward_iff, ← hr1, ← hr2, hg1, hg2]
  simp

/-! ## The concrete graphs -/

set_option maxRecDepth 100000 in
theorem S1_build : build Scenario.gs S1.md = .ok S1.cfg := by decide

set_option maxRecDepth 100000 in
theorem S5_build : build Scenario.gs S5.md = .ok S5.cfg := by decide

set_option maxRecDepth 100000 in
theorem S5_fill :
    S5.graph.fillInBlockArguments Scenario.noSymbols = .ok (Scenario.noSymbols, S5.cfg) := by
  decide

set_option maxRecDepth 100000 in
theorem DeadPredecessor_fill :
    DeadPredecessor.graph.fillInBlockArguments Scenario.noSymbols =
      .ok (Scenario.noSymbols, DeadPredecessor.result) := by
  decide

theorem S5_graph_wellLinked : S5.graph.WellLinked := by
  refine ⟨by decide, ?_⟩
  intro b hb
  simp only [S5.graph, List.mem_cons, List.mem_singleton, List.not_mem_nil, or_false] at hb
  rcases hb with rfl | rfl | rfl | rfl | rfl <;>
    exact ⟨⟨_, _, rfl, rfl, by decide, by decide⟩, by decide⟩

theorem S5_graph_lists_fwd : S5.graph.ListsEveryBlock S5.graph.forwardsTopoSort := by
  constructor
  · intro x hx
    simp only [S5.graph, List.mem_cons, List.mem_singleton, List.not_mem_nil, or_false] at hx
    rcases hx with rfl | rfl | rfl | rfl | rfl <;> exact ⟨_, rfl, by decide⟩
  · decide

theorem S5_graph_lists_bwd : S5.graph.ListsEveryBlock S5.graph.backwardsTopoSort := by
  constructor
  · intro x hx
    simp only [S5.graph, List.mem_cons, List.mem_singleton, List.not_mem_nil, or_false] at hx
    rcases hx with rfl | rfl | rfl | rfl | rfl <;> exact ⟨_, rfl, by decide⟩
  · decide

theorem DeadPredecessor_wellLinked : DeadPredecessor.graph.WellLinked := by
  refine ⟨by decide, ?_⟩
  intro b hb
  simp only [DeadPredecessor.graph, List.mem_cons, List.mem_singleton, List.not_mem_nil,
    or_false] at hb
  rcases hb with rfl | rfl | rfl <;>
    exact ⟨⟨_, _, rfl, rfl, by decide, by decide⟩, by decide⟩

theorem DeadPredecessor_lists_fwd :
    DeadPredecessor.graph.ListsEveryBlock DeadPredecessor.graph.forwardsTopoSort := by
  constructor
  · intro x hx
    simp only [DeadPredecessor.graph, List.mem_cons, List.mem_singleton, List.not_mem_nil,
      or_false] at hx
    rcases hx with rfl | rfl | rfl <;> exact ⟨_, rfl, by decide⟩
  · decide

theorem DeadPredecessor_lists_bwd :
    DeadPredecessor.graph.ListsEveryBlock DeadPredecessor.graph.backwardsTopoSort := by
  constructor
  · intro x hx
    simp only [DeadPredecessor.graph, List.mem_cons, List.mem_singleton, List.not_mem_nil,
      or_false] at hx
    rcases hx with rfl | rfl | rfl <;> exact ⟨_, rfl, by decide⟩
  · decide

set_option maxRecDepth 100000 in
theorem UnusedRead_build : build Scenario.gs UnusedRead.md = .ok UnusedRead.cfg := by decide

set_option maxRecDepth 100000 in
theorem UnusedParam_build : build Scenario.gs UnusedParam.md = .ok UnusedParam.cfg := by
  decide

set_option maxRecDepth 100000 in
theorem S6_dealiased :
    CFG.buildDealiased Scenario.gs S6.md = .ok (S6.symbols, S6.dealiased) := by decide

set_option maxRecDepth 100000 in
theorem MergeAliases_sorted :
    CFG.buildSorted Scenario.gs MergeAliases.md =
      .ok (MergeAliases.symbols, MergeAliases.graph) := by decide

set_option maxRecDepth 100000 in
theorem MergeAliases_upTo :
    MergeAliases.graph.dealiasUpTo MergeAliases.symbols 3 =
      .ok (MergeAliases.graph, MergeAliases.exits) := by decide

set_option maxRecDepth 100000 in
theorem MergeAliases_block :
    dealiasBlock MergeAliases.symbols (MergeAliases.graph, MergeAliases.exits) 4 =
      .ok MergeAliases.after := by decide

set_option maxRecDepth 100000 in
theorem MergeAliases_dealias :
    MergeAliases.graph.dealias MergeAliases.symbols = .ok MergeAliases.after.1 := by decide

set_option maxRecDepth 100000 in
theorem S5_fill_symbols :
    S5.graph.fillInBlockArguments S5.symbols = .ok (S5.lowered, S5.cfg) := by decide

set_option maxRecDepth 100000 in
theorem GlobalRead_build : build Scenario.gs GlobalRead.md = .ok GlobalRead.cfg := by decide

/-! ## Block arguments: the claims on concrete graphs -/

/-- C1 (counterexample): `DeadPredecessor.graph` has sorts that list every block and
blocks with empty `args`, the dead block writes symbol 7 and is among the `backEdges`
of block 2, which reads symbol 7; `fillInBlockArguments` leaves symbol 7 out of the
`args` of block 2, although it is in `UB1[2] ∩ UB2[2]` for the equations with the
union over all of `backEdges`, and although block 2 reads it and the dead block, which
reaches block 2 along `backEdges`, writes it. -/
theorem fillInBlockArguments_args_dead_predecessor :
    DeadPredecessor.graph.ListsEveryBlock DeadPredecessor.graph.forwardsTopoSort ∧
    DeadPredecessor.graph.ListsEveryBlock DeadPredecessor.graph.backwardsTopoSort ∧
    (∀ b ∈ DeadPredecessor.graph.basicBlocks, b.args = []) ∧
    ∃ gs2 c2, DeadPredecessor.graph.fillInBlockArguments Scenario.noSymbols = .ok (gs2, c2) ∧
      (¬ ∃ UB1 UB2 : Nat → SymbolRef → Prop,
        LeastSolution DeadPredecessor.graph.basicBlocks.length
          DeadPredecessor.graph.UB1Equation UB1 ∧
        LeastSolution DeadPredecessor.graph.basicBlocks.length
          DeadPredecessor.graph.UB2EquationAllEdges UB2 ∧
        ∀ p < DeadPredecessor.graph.basicBlocks.length, ∀ s,
          s ∈ (c2.blockAt p).args ↔ UB1 p s ∧ UB2 p s) ∧
      ¬ (∀ p < DeadPredecessor.graph.basicBlocks.length, ∀ s,
          s ∈ (c2.blockAt p).args ↔
            (∃ q, DeadPredecessor.graph.FlowsTo p q ∧
              s ∈ DeadPredecessor.graph.readsByBlock.getD q []) ∧
            (∃ q, DeadPredecessor.graph.ReachedBy p q ∧
              s ∈ DeadPredecessor.graph.writesByBlock.getD q [])) := by
  refine ⟨DeadPredecessor_lists_fwd, DeadPredecessor_lists_bwd, by decide,
    _, _, DeadPredecessor_fill, ?_, ?_⟩
  · rintro ⟨UB1, UB2, ⟨h1, _⟩, ⟨h2, _⟩, h⟩
    have a : UB1 2 7 := (h1 2 (by decide) 7).mpr (Or.inl (by decide))
    have b1 : UB2 1 7 := (h2 1 (by decide) 7).mpr (Or.inl (by decide))
    have b : UB2 2 7 := (h2 2 (by decide) 7).mpr (Or.inr ⟨1, by decide, b1⟩)
    have hmem := (h 2 (by decide) 7).mpr ⟨a, b⟩
    revert hmem
    decide
  · intro h
    have hmem := (h 2 (by decide) 7).mpr
      ⟨⟨2, CFG.FlowsTo.refl 2, by decide⟩,
       ⟨1, CFG.ReachedBy.step 2 1 1 (by decide) (CFG.ReachedBy.refl 1), by decide⟩⟩
    revert hmem
    decide

/-- Witness of C1 (amended): the graph of scenario S5, as it reaches
`fillInBlockArguments`, meets the hypotheses. -/
theorem fillInBlockArguments_args_witness :
    S5.graph.WellLinked ∧
    S5.graph.ListsEveryBlock S5.graph.forwardsTopoSort ∧
    S5.graph.ListsEveryBlock S5.graph.backwardsTopoSort ∧
    (∀ b ∈ S5.graph.basicBlocks, b.args = []) ∧
    ∃ gs2 c2, S5.graph.fillInBlockArguments Scenario.noSymbols = .ok (gs2, c2) ∧
      LeastSolution S5.graph.basicBlocks.length S5.graph.UB1Equation
        (fun p s => ∃ q, S5.graph.FlowsTo p q ∧ s ∈ S5.graph.readsByBlock.getD q []) ∧
      LeastSolution S5.graph.basicBlocks.length S5.graph.UB2Equation
        (fun p s => ∃ q, S5.graph.ComesFrom p q ∧ s ∈ S5.graph.writesByBlock.getD q []) ∧
      ∀ p < S5.graph.basicBlocks.length, ∀ s, s ∈ (c2.blockAt p).args ↔
        (∃ q, S5.graph.FlowsTo p q ∧ s ∈ S5.graph.readsByBlock.getD q []) ∧
        (∃ q, S5.graph.ComesFrom p q ∧ s ∈ S5.graph.writesByBlock.getD q []) :=
  ⟨S5_graph_wellLinked, S5_graph_lists_fwd, S5_graph_lists_bwd, by decide,
    fillInBlockArguments_args Scenario.noSymbols S5.graph S5_graph_wellLinked
      S5_graph_lists_fwd S5_graph_lists_bwd (by decide)⟩

/-- Witness of C9: the graph of scenario S5 starts with empty `args` and
`fillInBlockArguments` returns on it. -/
theorem fillInBlockArguments_args_sorted_witness :
    (∀ b ∈ S5.graph.basicBlocks, b.args = []) ∧
    S5.graph.fillInBlockArguments Scenario.noSymbols = .ok (Scenario.noSymbols, S5.cfg) ∧
    ∀ b2 ∈ S5.cfg.basicBlocks, b2.args.Sorted (· < ·) ∧ b2.args.Nodup :=
  ⟨by decide, S5_fill,
    fillInBlockArguments_args_sorted Scenario.noSymbols Scenario.noSymbols S5.graph S5.cfg
      (by decide) S5_fill⟩

/-- Witness of C10: `fillInBlockArguments` returns on the graph of scenario S5. -/
theorem fillInBlockArguments_dead_store_elimination_witness :
    S5.graph.fillInBlockArguments Scenario.noSymbols = .ok (Scenario.noSymbols, S5.cfg) ∧
    S5.cfg.basicBlocks.length = S5.graph.basicBlocks.length ∧
    ∃ keep : Binding → Bool, (∀ bind, keep bind = true ↔ ¬ S5.graph.drops bind) ∧
      ∀ (p : Nat) (b : BasicBlock), S5.graph.basicBlocks[p]? = some b →
        ∃ b2, S5.cfg.basicBlocks[p]? = some b2 ∧ b2.exprs = b.exprs.filter keep ∧
          ∀ bind ∈ b.exprs, bind.value.alwaysRetained → bind ∈ b2.exprs :=
  ⟨S5_fill,
    fillInBlockArguments_dead_store_elimination Scenario.noSymbols Scenario.noSymbols
      S5.graph S5.cfg S5_fill⟩

/-! ## What the passes leave alone -/

theorem update_ok {c c2 : CFG} {p : Nat} {f : BasicBlock → BasicBlock}
    (h : c.update p f = .ok c2) :
    p < c.basicBlocks.length ∧ c2 = { c with basicBlocks := c.basicBlocks.modify f p } := by
  unfold CFG.update at h
  split at h
  · rename_i hp
    cases h
    exact ⟨hp, rfl⟩
  · cases h

theorem update_of_lt (c : CFG) {p : Nat} (f : BasicBlock → BasicBlock)
    (hp : p < c.basicBlocks.length) :
    c.update p f = .ok { c with basicBlocks := c.basicBlocks.modify f p } := by
  simp [CFG.update, hp]

theorem blockAt_modify (c : CFG) (p q : Nat) (f : BasicBlock → BasicBlock)
    (hp : p < c.basicBlocks.length) :
    ({ c with basicBlocks := c.basicBlocks.modify f p } : CFG).blockAt q =
      if q = p then f (c.blockAt q) else c.blockAt q := by
  simp only [CFG.blockAt, List.getD_eq_getElem?_getD, List.getElem?_modify]
  by_cases hq : q = p
  · subst hq
    simp [List.getElem?_eq_getElem hp]
  · have : ¬ p = q := fun h => hq h.symm
    simp [hq, this]

theorem block_ok {c : CFG} {p : Nat} {b : BasicBlock} (h : c.block p = .ok b) :
    p < c.basicBlocks.length ∧ b = c.blockAt p := by
  unfold CFG.block at h
  split at h
  · rename_i b2 hb
    cases h
    have := (List.getElem?_eq_some_iff.mp hb).1
    exact ⟨this, by simp [CFG.blockAt, List.getD_eq_getElem?_getD, hb]⟩
  · cases h

theorem block_of_lt (c : CFG) {p : Nat} (hp : p < c.basicBlocks.length) :
    c.block p = .ok (c.blockAt p) := by
  simp [CFG.block, CFG.blockAt, List.getD_eq_getElem?_getD, List.getElem?_eq_getElem hp]

theorem OnlyFlags.rfl_flags (c : CFG) : OnlyFlags c c := ⟨rfl, fun _ => rfl⟩

theorem OnlyFlags.trans_flags {a b c : CFG} (h1 : OnlyFlags a b) (h2 : OnlyFlags b c) :
    OnlyFlags a c :=
  ⟨h2.1.trans h1.1, fun p => (h2.2 p).trans (h1.2 p)⟩

theorem OnlyFlags_update_flags {c c2 : CFG} {p : Nat} (g : Nat → Nat)
    (h : c.update p (fun b => { b with flags := g b.flags }) = .ok c2) : OnlyFlags c c2 := by
  obtain ⟨hp, rfl⟩ := update_ok h
  refine ⟨by simp, fun q => ?_⟩
  rw [blockAt_modify c p q _ hp]
  split <;> rfl

theorem storeBlock_ok {s s2 : SortState} {p : Nat} (h : storeBlock s p = .ok s2) :
    s2.1 = s.1 := by
  unfold storeBlock at h
  split at h
  · simp [pure, Except.pure] at h
    rw [← h]
  · cases h

theorem topoSortFwd_onlyFlags (fuel : Nat) :
    ∀ (s s2 : SortState) (cur : Option Nat), CFG.topoSortFwd fuel s cur = .ok s2 →
      OnlyFlags s.1 s2.1 := by
  induction fuel with
  | zero =>
    intro s s2 cur h
    simp [CFG.topoSortFwd, throw, throwThe, MonadExceptOf.throw] at h
  | succ k ih =>
    intro s s2 cur h
    simp only [CFG.topoSortFwd, bind, Except.bind, pure, Except.pure] at h
    split at h
    · cases h
    · split at h
      · cases h
      · split at h
        · cases h
          exact OnlyFlags.rfl_flags _
        · split at h
          · cases h
          · rename_i c1 hc1
            split at h
            · cases h
            · rename_i s3 hs3
              split at h
              · cases h
              · rename_i s4 hs4
                have h1 := OnlyFlags_update_flags
                  (fun f => f ||| CFG.FORWARD_TOPO_SORT_VISITED) hc1
                have h2 := ih _ _ _ hs3
                have h3 := ih _ _ _ hs4
                have h4 := storeBlock_ok h
                rw [h4]
                exact h1.trans_flags (h2.trans_flags h3)

theorem visitEdges_onlyFlags {visit : SortState → Nat → Except Err SortState}
    (hv : ∀ s s2 e, visit s e = .ok s2 → OnlyFlags s.1 s2.1) (edges : List Nat) :
    ∀ (s s2 : SortState), visitEdges visit edges s = .ok s2 → OnlyFlags s.1 s2.1 := by
  induction edges with
  | nil =>
    intro s s2 h
    simp [visitEdges, pure, Except.pure] at h
    subst h
    exact OnlyFlags.rfl_flags _
  | cons e rest ih =>
    intro s s2 h
    simp only [visitEdges, bind, Except.bind] at h
    split at h
    · cases h
    · rename_i s1 h1
      exact (hv _ _ _ h1).trans_flags (ih _ _ h)

theorem visitOuterEdges_onlyFlags {visit : SortState → Nat → Except Err SortState}
    (hv : ∀ s s2 e, visit s e = .ok s2 → OnlyFlags s.1 s2.1) (outerLoops : Int)
    (edges : List Nat) :
    ∀ (i : Nat) (s : SortState) (r : Nat × List Nat × SortState),
      visitOuterEdges visit outerLoops edges i s = .ok r →
        OnlyFlags s.1 r.2.2.1 ∧ ∃ l, edges = l ++ r.2.1 := by
  induction edges with
  | nil =>
    intro i s r h
    simp [visitOuterEdges, pure, Except.pure] at h
    subst h
    exact ⟨OnlyFlags.rfl_flags _, [], rfl⟩
  | cons e rest ih =>
    intro i s r h
    simp only [visitOuterEdges, bind, Except.bind, pure, Except.pure] at h
    split at h
    · cases h
    · split at h
      · split at h
        · cases h
        · rename_i s1 h1
          obtain ⟨h2, l, hl⟩ := ih _ _ _ h
          exact ⟨(hv _ _ _ h1).trans_flags h2, e :: l, by rw [hl]; rfl⟩
      · cases h
        exact ⟨OnlyFlags.rfl_flags _, [], rfl⟩

theorem topoSortBwd_onlyFlags (fuel : Nat) :
    ∀ (s s2 : SortState) (cur : Option Nat), CFG.topoSortBwd fuel s cur = .ok s2 →
      OnlyFlags s.1 s2.1 := by
  induction fuel with
  | zero =>
    intro s s2 cur h
    simp [CFG.topoSortBwd, throw, throwThe, MonadExceptOf.throw] at h
  | succ k ih =>
    intro s s2 cur h
    simp only [CFG.topoSortBwd, bind, Except.bind, pure, Except.pure] at h
    split at h
    · cases h
    · split at h
      · cases h
      · split at h
        · cases h
          exact OnlyFlags.rfl_flags _
        · split at h
          · cases h
          · rename_i c1 hc1
            have h1 := OnlyFlags_update_flags
              (fun f => f ||| CFG.BACKWARD_TOPO_SORT_VISITED) hc1
            have hv : ∀ (s s2 : SortState) (e : Nat),
                CFG.topoSortBwd k s (some e) = .ok s2 → OnlyFlags s.1 s2.1 :=
              fun s s2 e hh => ih s s2 (some e) hh
            split at h
            · cases h
            · rename_i r hr
              obtain ⟨h2, _⟩ := visitOuterEdges_onlyFlags hv _ _ _ _ _ hr
              split at h
              · split at h
                · cases h
                · rename_i s3 hs3
                  have h3 := storeBlock_ok hs3
                  have h4 := visitEdges_onlyFlags hv _ _ _ h
                  rw [h3] at h4
                  exact h1.trans_flags (h2.trans_flags h4)
              · split at h
                · cases h
                · rename_i s3 hs3
                  have h4 := visitEdges_onlyFlags hv _ _ _ hs3
                  have h3 := storeBlock_ok h
                  rw [h3]
                  exact h1.trans_flags (h2.trans_flags h4)

theorem blockAt_map (c : CFG) (f : BasicBlock → BasicBlock) (hf : f {} = {}) (p : Nat) :
    ({ c with basicBlocks := c.basicBlocks.map f } : CFG).blockAt p = f (c.blockAt p) := by
  simp only [CFG.blockAt, List.getD_eq_getElem?_getD, List.getElem?_map]
  cases c.basicBlocks[p]? with
  | none => simp [hf]
  | some b => simp

/-- `fillInTopoSorts` sorts the `backEdges` of every block and touches, besides, only
the visited flags and the two sorts. -/
theorem fillInTopoSorts_blocks {c c2 : CFG} (h : c.fillInTopoSorts = .ok c2) :
    c2.basicBlocks.length = c.basicBlocks.length ∧
    ∀ p, (c2.blockAt p).exprs = (c.blockAt p).exprs ∧
      (c2.blockAt p).args = (c.blockAt p).args ∧
      (c2.blockAt p).bexit = (c.blockAt p).bexit ∧
      (c2.blockAt p).outerLoops = (c.blockAt p).outerLoops ∧
      (c2.blockAt p).backEdges = sortBackEdges c (c.blockAt p).backEdges := by
  unfold CFG.fillInTopoSorts at h
  simp only [bind, Except.bind, pure, Except.pure] at h
  split at h
  · cases h
  · rename_i r1 h1
    split at h
    · cases h
    · rename_i r2 h2
      cases h
      have hf1 := topoSortFwd_onlyFlags _ _ _ _ h1
      have hf2 := topoSortBwd_onlyFlags _ _ _ _ h2
      simp only at hf1 hf2
      have hf := hf1.trans_flags hf2
      refine ⟨by rw [hf.1]; simp, fun p => ?_⟩
      have hp := hf.2 p
      rw [blockAt_map c _ (by simp [sortBackEdges]) p] at hp
      have e1 := congrArg BasicBlock.exprs hp
      have e2 := congrArg BasicBlock.args hp
      have e3 := congrArg BasicBlock.bexit hp
      have e4 := congrArg BasicBlock.outerLoops hp
      have e5 := congrArg BasicBlock.backEdges hp
      exact ⟨e1, e2, e3, e4, e5⟩

theorem Instruction.Rewritten.rfl_instr (v : Instruction) : v.Rewritten v := by
  cases v <;>
    first
    | rfl
    | exact ⟨_, rfl⟩
    | exact ⟨_, _, rfl, rfl⟩
    | exact ⟨_, rfl, rfl⟩

theorem Instruction.Rewritten.trans_instr {a b c : Instruction} (h1 : a.Rewritten b)
    (h2 : b.Rewritten c) : a.Rewritten c := by
  cases a <;> simp only [Instruction.Rewritten] at h1
  case Ident =>
    obtain ⟨w, rfl⟩ := h1
    exact h2
  case Send =>
    obtain ⟨r, args2, rfl, hl⟩ := h1
    simp only [Instruction.Rewritten] at h2 ⊢
    obtain ⟨r3, args3, rfl, hl3⟩ := h2
    exact ⟨r3, args3, rfl, hl3.trans hl⟩
  case Super =>
    obtain ⟨args2, rfl, hl⟩ := h1
    simp only [Instruction.Rewritten] at h2 ⊢
    obtain ⟨args3, rfl, hl3⟩ := h2
    exact ⟨args3, rfl, hl3.trans hl⟩
  case Return =>
    obtain ⟨w, rfl⟩ := h1
    exact h2
  case NamedArg =>
    obtain ⟨w, rfl⟩ := h1
    exact h2
  all_goals (subst h1; exact h2)

theorem Binding.Rewritten.rfl_binding (b : Binding) : b.Rewritten b :=
  ⟨rfl, Instruction.Rewritten.rfl_instr _⟩

theorem Binding.Rewritten.trans_binding {a b c : Binding} (h1 : a.Rewritten b) (h2 : b.Rewritten c) :
    a.Rewritten c :=
  ⟨h2.1.trans h1.1, h1.2.trans_instr h2.2⟩

theorem forall₂_rewritten_refl (l : List Binding) : List.Forall₂ Binding.Rewritten l l := by
  induction l with
  | nil => exact List.Forall₂.nil
  | cons b rest ih => exact List.Forall₂.cons (Binding.Rewritten.rfl_binding b) ih

theorem forall₂_rewritten_trans {l1 l2 l3 : List Binding}
    (h1 : List.Forall₂ Binding.Rewritten l1 l2) (h2 : List.Forall₂ Binding.Rewritten l2 l3) :
    List.Forall₂ Binding.Rewritten l1 l3 := by
  induction h1 generalizing l3 with
  | nil => cases h2; exact List.Forall₂.nil
  | cons hab _ ih =>
    cases h2 with
    | cons hbc hrest => exact List.Forall₂.cons (hab.trans_binding hbc) (ih hrest)

theorem OnlyOperands.rfl_operands (c : CFG) : OnlyOperands c c :=
  ⟨rfl, fun _ => ⟨rfl, forall₂_rewritten_refl _⟩⟩

theorem OnlyOperands.trans_operands {a b c : CFG} (h1 : OnlyOperands a b) (h2 : OnlyOperands b c) :
    OnlyOperands a c :=
  ⟨h2.1.trans h1.1, fun p =>
    ⟨(h2.2 p).1.trans (h1.2 p).1, forall₂_rewritten_trans (h1.2 p).2 (h2.2 p).2⟩⟩

theorem dealiasOperands_rewritten (gs : GlobalState) (cur : List (SymbolRef × SymbolRef))
    (v : Instruction) : v.Rewritten (dealiasOperands gs cur v) := by
  cases v <;>
    first
    | rfl
    | exact ⟨_, rfl⟩
    | exact ⟨_, _, rfl, by simp⟩
    | exact ⟨_, rfl, by simp⟩

theorem dealiasBinding_rewritten (gs : GlobalState) (cur : List (SymbolRef × SymbolRef))
    (b : Binding) : b.Rewritten (dealiasBinding gs cur b).1 := by
  refine ⟨rfl, ?_⟩
  simp only [dealiasBinding]
  cases hb : b.value <;>
    first
    | exact dealiasOperands_rewritten _ _ _
    | simp [Instruction.Rewritten, dealiasOperands]

theorem dealiasBindings_rewritten (gs : GlobalState) (l : List Binding) :
    ∀ cur, List.Forall₂ Binding.Rewritten l (dealiasBindings gs l cur).1 := by
  induction l with
  | nil => intro cur; exact List.Forall₂.nil
  | cons b rest ih =>
    intro cur
    simp only [dealiasBindings]
    exact List.Forall₂.cons (dealiasBinding_rewritten gs cur b) (ih _)

theorem dealiasBlock_onlyOperands {gs : GlobalState}
    {s s2 : CFG × List (List (SymbolRef × SymbolRef))} {bb : Nat}
    (h : dealiasBlock gs s bb = .ok s2) : OnlyOperands s.1 s2.1 := by
  unfold dealiasBlock at h
  split at h
  · simp [pure, Except.pure] at h
    subst h
    exact OnlyOperands.rfl_operands _
  · simp only [bind, Except.bind, pure, Except.pure] at h
    split at h
    · cases h
    · rename_i b hb
      split at h
      · cases h
      · split at h
        · cases h
        · split at h
          · cases h
          · rename_i cur hcur
            split at h
            · cases h
            · rename_i c1 hc1
              cases h
              obtain ⟨hp, rfl⟩ := update_ok hc1
              obtain ⟨_, rfl⟩ := block_ok hb
              refine ⟨by simp, fun q => ?_⟩
              rw [blockAt_modify _ _ _ _ hp]
              split
              · rename_i hq
                subst hq
                exact ⟨rfl, dealiasBindings_rewritten gs _ _⟩
              · exact ⟨rfl, forall₂_rewritten_refl _⟩

theorem dealiasLoop_onlyOperands (gs : GlobalState) (order : List (Option Nat)) :
    ∀ (s s2 : CFG × List (List (SymbolRef × SymbolRef))),
      dealiasLoop gs order s = .ok s2 → OnlyOperands s.1 s2.1 := by
  induction order with
  | nil =>
    intro s s2 h
    simp [dealiasLoop, pure, Except.pure] at h
    subst h
    exact OnlyOperands.rfl_operands _
  | cons bb rest ih =>
    intro s s2 h
    simp only [dealiasLoop, bind, Except.bind] at h
    split at h
    · cases h
    · split at h
      · cases h
      · rename_i s1 h1
        exact (dealiasBlock_onlyOperands h1).trans_operands (ih _ _ h)

/-- `dealias` changes operand symbols of bindings and nothing else. -/
theorem dealias_onlyOperands {gs : GlobalState} {c c2 : CFG} (h : c.dealias gs = .ok c2) :
    OnlyOperands c c2 := by
  unfold CFG.dealias at h
  simp only [bind, Except.bind, pure, Except.pure] at h
  split at h
  · cases h
  · rename_i r hr
    cases h
    exact dealiasLoop_onlyOperands gs _ _ _ hr

/-! ## The graph under construction -/

theorem bind_ok {ε α β : Type} {x : Except ε α} {f : α → Except ε β} {b : β}
    (h : (x >>= f) = .ok b) : ∃ a, x = .ok a ∧ f a = .ok b := by
  cases x with
  | error e => cases h
  | ok a => exact ⟨a, rfl, h⟩

theorem onCFG_ok {st st2 : BuildState} {f : CFG → Except Err CFG}
    (h : st.onCFG f = .ok st2) :
    ∃ c, f st.inWhat = .ok c ∧ st2 = { st with inWhat := c } := by
  unfold BuildState.onCFG at h
  obtain ⟨c, hc, h2⟩ := bind_ok h
  cases h2
  exact ⟨c, hc, rfl⟩

theorem blockAt_eq_default (c : CFG) {p : Nat} (hp : c.basicBlocks.length ≤ p) :
    c.blockAt p = {} := by
  simp [CFG.blockAt, List.getD_eq_getElem?_getD, List.getElem?_eq_none hp]

theorem Grows.rfl_grows (c : CFG) : Grows c c := ⟨le_refl _, fun _ _ => ⟨[], by simp⟩⟩

theorem Grows.trans_grows {a b c : CFG} (h1 : Grows a b) (h2 : Grows b c) : Grows a c := by
  refine ⟨le_trans h1.1 h2.1, fun p hp => ?_⟩
  obtain ⟨e1, he1⟩ := h1.2 p hp
  obtain ⟨e2, he2⟩ := h2.2 p (lt_of_lt_of_le hp h1.1)
  exact ⟨e1 ++ e2, by rw [he2, he1, List.append_assoc]⟩

theorem blockAt_freshBlock (c : CFG) (l : Int) (q : Nat) :
    (c.freshBlock l).2.blockAt q =
      if q = c.basicBlocks.length then { outerLoops := l } else c.blockAt q := by
  simp only [CFG.freshBlock, CFG.blockAt, List.getD_eq_getElem?_getD, List.getElem?_append]
  by_cases h1 : q < c.basicBlocks.length
  · simp [h1, Nat.ne_of_lt h1]
  · by_cases h2 : q = c.basicBlocks.length
    · subst h2
      simp
    · have : c.basicBlocks.length ≤ q := Nat.le_of_not_lt h1
      have h3 : q - c.basicBlocks.length ≠ 0 := by omega
      simp [h1, h2, List.getElem?_eq_none this]
      cases hq : q - c.basicBlocks.length with
      | zero => exact absurd hq h3
      | succ k => simp

theorem length_freshBlock (c : CFG) (l : Int) :
    (c.freshBlock l).2.basicBlocks.length = c.basicBlocks.length + 1 := by
  simp [CFG.freshBlock]

theorem Grows_freshBlock (c : CFG) (l : Int) : Grows c (c.freshBlock l).2 := by
  refine ⟨by rw [length_freshBlock]; omega, fun p hp => ⟨[], ?_⟩⟩
  rw [blockAt_freshBlock, if_neg (Nat.ne_of_lt hp)]
  simp

theorem emplace_ok {c c2 : CFG} {p : Nat} {bind : SymbolRef} {v : Instruction}
    (h : c.emplace p bind v = .ok c2) :
    p < c.basicBlocks.length ∧ c2.basicBlocks.length = c.basicBlocks.length ∧
    ∀ q, c2.blockAt q =
      if q = p then { c.blockAt q with exprs := (c.blockAt q).exprs ++ [⟨bind, v⟩] }
      else c.blockAt q := by
  obtain ⟨hp, rfl⟩ := update_ok h
  exact ⟨hp, by simp, fun q => blockAt_modify c p q _ hp⟩

theorem Grows_emplace {c c2 : CFG} {p : Nat} {bind : SymbolRef} {v : Instruction}
    (h : c.emplace p bind v = .ok c2) : Grows c c2 := by
  obtain ⟨_, hl, hb⟩ := emplace_ok h
  refine ⟨by omega, fun q _ => ?_⟩
  rw [hb q]
  split
  · exact ⟨[⟨bind, v⟩], rfl⟩
  · exact ⟨[], by simp⟩

theorem Grows_of_Linked {c c2 : CFG} {f : Nat} {cnd : SymbolRef} {t e : Nat} {ts : List Nat}
    (h : Linked c c2 f cnd t e ts) : Grows c c2 := by
  refine ⟨by rw [h.1], fun q _ => ⟨[], ?_⟩⟩
  rw [h.2 q]
  simp

theorem pushBackEdge_ok {c c2 : CFG} {p f : Nat} (h : c.pushBackEdge p f = .ok c2) :
    p < c.basicBlocks.length ∧ c2.basicBlocks.length = c.basicBlocks.length ∧
    ∀ q, c2.blockAt q =
      if q = p then { c.blockAt q with backEdges := (c.blockAt q).backEdges ++ [f] }
      else c.blockAt q := by
  obtain ⟨hp, rfl⟩ := update_ok h
  exact ⟨hp, by simp, fun q => blockAt_modify c p q _ hp⟩

theorem symbolExists_false {s : SymbolRef} (h : ¬ (SymbolRef.symbolExists s = true)) : s = 0 := by
  simpa [SymbolRef.symbolExists] using h

/-- `conditionalJump` from a block other than the dead block. -/
theorem conditionalJump_ok {c c2 : CFG} {f t e : Nat} {cnd : SymbolRef}
    (h : conditionalJump f cnd t e c = .ok c2) (hf : f ≠ CFG.deadBlock) :
    f < c.basicBlocks.length ∧ t < c.basicBlocks.length ∧ e < c.basicBlocks.length ∧
    (c.blockAt f).bexit.cond = 0 ∧ Linked c c2 f cnd t e [t, e] := by
  unfold conditionalJump at h
  rw [if_pos hf] at h
  obtain ⟨fb, hfb, h⟩ := bind_ok h
  obtain ⟨hfn, rfl⟩ := block_ok hfb
  by_cases hex : (c.blockAt f).bexit.cond.symbolExists = true
  · simp [hex, throw, throwThe, MonadExceptOf.throw, bind, Except.bind] at h
  · simp only [hex, if_false, Bool.false_eq_true] at h
    obtain ⟨_, _, h2⟩ := bind_ok h
    obtain ⟨c1, hc1, h3⟩ := bind_ok h2
    obtain ⟨ca, hca, h4⟩ := bind_ok h3
    obtain ⟨_, hc1e⟩ := update_ok hc1
    subst hc1e
    obtain ⟨ht, hla, hba⟩ := pushBackEdge_ok hca
    obtain ⟨he, hl2, hb2⟩ := pushBackEdge_ok h4
    simp only [List.length_modify] at ht hla
    rw [hla] at he hl2
    refine ⟨hfn, ht, he, symbolExists_false hex, by rw [hl2], fun q => ?_⟩
    rw [hb2 q, hba q, blockAt_modify c f q _ hfn]
    clear hb2 hba h h2 h3 h4 hca hc1 hfb hex
    rcases eq_or_ne q t with rfl | hqt <;> rcases eq_or_ne q e with rfl | hqe <;>
      rcases eq_or_ne q f with rfl | hqf <;>
      simp [List.count_cons, *, Ne.symm, List.replicate]

/-- `unconditionalJump` from a block other than the dead block. -/
theorem unconditionalJump_ok {c c2 : CFG} {f t : Nat}
    (h : unconditionalJump f t c = .ok c2) (hf : f ≠ CFG.deadBlock) :
    f < c.basicBlocks.length ∧ t < c.basicBlocks.length ∧
    (c.blockAt f).bexit.cond = 0 ∧ Linked c c2 f GlobalState.defn_cfg_always t t [t] := by
  unfold unconditionalJump at h
  rw [if_pos hf] at h
  obtain ⟨fb, hfb, h⟩ := bind_ok h
  obtain ⟨hfn, rfl⟩ := block_ok hfb
  by_cases hex : (c.blockAt f).bexit.cond.symbolExists = true
  · simp [hex, throw, throwThe, MonadExceptOf.throw, bind, Except.bind] at h
  · simp only [hex, if_false, Bool.false_eq_true] at h
    obtain ⟨_, _, h2⟩ := bind_ok h
    obtain ⟨c1, hc1, h3⟩ := bind_ok h2
    obtain ⟨_, hc1e⟩ := update_ok hc1
    subst hc1e
    obtain ⟨ht, hl2, hb2⟩ := pushBackEdge_ok h3
    simp only [List.length_modify] at ht hl2
    refine ⟨hfn, ht, symbolExists_false hex, hl2, fun q => ?_⟩
    rw [hb2 q, blockAt_modify c f q _ hfn]
    clear hb2 h h2 h3 hc1 hfb hex
    rcases eq_or_ne q t with rfl | hqt <;> rcases eq_or_ne q f with rfl | hqf <;>
      simp [List.count_cons, *, Ne.symm, List.replicate]

/-- `jumpToDead` from a block other than the dead block. -/
theorem jumpToDead_ok {c c2 : CFG} {f : Nat}
    (h : jumpToDead f c = .ok c2) (hf : f ≠ CFG.deadBlock) :
    f < c.basicBlocks.length ∧ CFG.deadBlock < c.basicBlocks.length ∧
    (c.blockAt f).bexit.cond = 0 ∧
    Linked c c2 f GlobalState.defn_cfg_never CFG.deadBlock CFG.deadBlock [CFG.deadBlock] := by
  unfold jumpToDead at h
  simp only [] at h
  rw [if_pos hf] at h
  obtain ⟨fb, hfb, h⟩ := bind_ok h
  obtain ⟨hfn, rfl⟩ := block_ok hfb
  by_cases hex : (c.blockAt f).bexit.cond.symbolExists = true
  · simp [hex, throw, throwThe, MonadExceptOf.throw, bind, Except.bind] at h
  · simp only [hex, if_false, Bool.false_eq_true] at h
    obtain ⟨_, _, h2⟩ := bind_ok h
    obtain ⟨c1, hc1, h3⟩ := bind_ok h2
    obtain ⟨_, hc1e⟩ := update_ok hc1
    subst hc1e
    obtain ⟨ht, hl2, hb2⟩ := pushBackEdge_ok h3
    simp only [List.length_modify] at ht hl2
    refine ⟨hfn, ht, symbolExists_false hex, hl2, fun q => ?_⟩
    rw [hb2 q, blockAt_modify c f q _ hfn]
    clear hb2 h h2 h3 hc1 hfb hex
    rcases eq_or_ne q CFG.deadBlock with hqt | hqt <;> rcases eq_or_ne q f with rfl | hqf <;>
      simp [List.count_cons, *, Ne.symm, List.replicate]

theorem OpenAt_congr {c : CFG} {k k2 : List Nat} (h : c.OpenAt k)
    (hv : ∀ p ∈ k2, p < c.basicBlocks.length)
    (hk : ∀ p, (p ∈ k ∧ p ≠ CFG.deadBlock) ↔ (p ∈ k2 ∧ p ≠ CFG.deadBlock)) :
    c.OpenAt k2 :=
  ⟨h.1, hv, fun p hp => (h.2.2 p hp).trans (hk p)⟩

theorem Good_of_same {c c2 : CFG} (h : c.Good)
    (hl : c2.basicBlocks.length = c.basicBlocks.length)
    (hb : ∀ q, (c2.blockAt q).bexit = (c.blockAt q).bexit ∧
      (c2.blockAt q).backEdges = (c.blockAt q).backEdges) : c2.Good := by
  obtain ⟨g1, g2, g3, g4, g5⟩ := h
  refine ⟨by rw [hl]; exact g1, by rw [(hb _).1]; exact g2, ?_, ?_, ?_⟩
  · intro p
    rw [(hb p).1]
    exact g3 p
  · intro p
    rw [(hb p).1, hl]
    exact g4 p
  · intro s p hs
    rw [(hb s).2, (hb p).1]
    exact g5 s p (by rw [← hl]; exact hs)

theorem OpenAt_of_same {c c2 : CFG} {k : List Nat} (h : c.OpenAt k)
    (hl : c2.basicBlocks.length = c.basicBlocks.length)
    (hb : ∀ q, (c2.blockAt q).bexit = (c.blockAt q).bexit ∧
      (c2.blockAt q).backEdges = (c.blockAt q).backEdges) : c2.OpenAt k := by
  refine ⟨Good_of_same h.1 hl hb, by rw [hl]; exact h.2.1, fun p hp => ?_⟩
  rw [(hb p).1]
  exact h.2.2 p (by rw [← hl]; exact hp)

theorem OpenAt_emplace {c c2 : CFG} {k : List Nat} {p : Nat} {bind : SymbolRef}
    {v : Instruction} (h : c.OpenAt k) (he : c.emplace p bind v = .ok c2) : c2.OpenAt k := by
  obtain ⟨_, hl, hb⟩ := emplace_ok he
  refine OpenAt_of_same h hl (fun q => ?_)
  rw [hb q]
  split <;> exact ⟨rfl, rfl⟩

theorem OpenAt_freshBlock {c : CFG} {k : List Nat} (h : c.OpenAt k) (l : Int) :
    (c.freshBlock l).2.OpenAt (c.basicBlocks.length :: k) := by
  obtain ⟨⟨g1, g2, g3, g4, g5⟩, hv, ho⟩ := h
  have hlen := length_freshBlock c l
  have hb := blockAt_freshBlock c l
  refine ⟨⟨by omega, ?_, ?_, ?_, ?_⟩, ?_, ?_⟩
  · rw [hb, if_neg (by simp [CFG.deadBlock]; omega)]
    exact g2
  · intro p
    rw [hb]
    split
    · intro _; exact ⟨rfl, rfl⟩
    · exact g3 p
  · intro p
    rw [hb, hlen]
    split
    · intro hc; exact absurd rfl hc
    · intro hc
      obtain ⟨t, e, h1, h2, h3, h4⟩ := g4 p hc
      exact ⟨t, e, h1, h2, by omega, by omega⟩
  · intro s p hs
    rw [hlen] at hs
    rw [hb s, hb p]
    by_cases hsn : s = c.basicBlocks.length
    · subst hsn
      simp only [if_true, List.count_nil]
      symm
      rw [if_neg]
      rintro ⟨_, hor⟩
      split at hor
      · simp at hor
      · by_cases hc : (c.blockAt p).bexit.cond = 0
        · have := g3 p hc
          rw [this.1, this.2] at hor
          simp at hor
        · obtain ⟨t, e, h1, h2, h3, h4⟩ := g4 p hc
          rw [h1, h2] at hor
          simp at hor
          omega
    · rw [if_neg hsn]
      have hs2 : s < c.basicBlocks.length := by omega
      rw [g5 s p hs2]
      by_cases hpn : p = c.basicBlocks.length
      · subst hpn
        simp [blockAt_eq_default c (le_refl _)]
      · rw [if_neg hpn]
  · intro p hp
    rw [hlen]
    rcases List.mem_cons.mp hp with h1 | h1
    · omega
    · have := hv p h1
      omega
  · intro p hp
    rw [hlen] at hp
    rw [hb p]
    by_cases hpn : p = c.basicBlocks.length
    · subst hpn
      simp [CFG.deadBlock]
      omega
    · rw [if_neg hpn, ho p (by omega)]
      simp [hpn]

/-- Installing a terminator on an open block closes it. -/
theorem OpenAt_link {c c2 : CFG} {k k2 : List Nat} {f t e : Nat} {cnd : SymbolRef}
    {ts : List Nat} (h : c.OpenAt k) (hl : Linked c c2 f cnd t e ts)
    (hfk : f ∈ k) (hf1 : f ≠ CFG.deadBlock) (hfk2 : f ∉ k2)
    (hk : ∀ p, p ∈ k ↔ p = f ∨ p ∈ k2) (hc : cnd ≠ 0)
    (ht : t < c.basicBlocks.length) (he : e < c.basicBlocks.length)
    (hts : ∀ q, ts.count q = if t = q ∨ e = q then 1 else 0) : c2.OpenAt k2 := by
  obtain ⟨⟨g1, g2, g3, g4, g5⟩, hv, ho⟩ := h
  obtain ⟨hlen, hb⟩ := hl
  have hfn : f < c.basicBlocks.length := hv f hfk
  have hf0 : (c.blockAt f).bexit.cond = 0 := (ho f hfn).mpr ⟨hfk, hf1⟩
  have hbx : ∀ q, (c2.blockAt q).bexit =
      if q = f then ⟨cnd, some t, some e⟩ else (c.blockAt q).bexit := by
    intro q; rw [hb q]
  have hbe : ∀ q, (c2.blockAt q).backEdges =
      (c.blockAt q).backEdges ++ List.replicate (ts.count q) f := by
    intro q; rw [hb q]
  refine ⟨⟨by omega, ?_, ?_, ?_, ?_⟩, ?_, ?_⟩
  · rw [hbx, if_neg (Ne.symm hf1)]
    exact g2
  · intro p
    rw [hbx]
    split
    · intro h0; exact absurd h0 hc
    · exact g3 p
  · intro p
    rw [hbx, hlen]
    split
    · intro _; exact ⟨t, e, rfl, rfl, ht, he⟩
    · exact g4 p
  · intro s p hs
    rw [hlen] at hs
    rw [hbe s, hbx p, List.count_append, g5 s p hs, List.count_replicate, hts s]
    by_cases hpf : p = f
    · subst hpf
      have hnone := g3 p hf0
      simp [hnone.1, hnone.2, hf1]
    · have : ¬ ((f == p) = true) := by simpa using (Ne.symm hpf)
      simp [hpf, this]
  · intro p hp
    rw [hlen]
    exact hv p ((hk p).mpr (Or.inr hp))
  · intro p hp
    rw [hlen] at hp
    rw [hbx p]
    by_cases hpf : p = f
    · subst hpf
      simp [hc, hfk2]
    · rw [if_neg hpf, ho p hp, hk p]
      simp [hpf]

theorem OpenAt_drop_dead {c : CFG} {k : List Nat} (h : c.OpenAt (CFG.deadBlock :: k)) :
    c.OpenAt k :=
  OpenAt_congr h (fun p hp => h.2.1 p (List.mem_cons_of_mem _ hp)) (fun p => by
    simp only [List.mem_cons]
    constructor
    · rintro ⟨h1 | h1, h2⟩
      · exact absurd h1 h2
      · exact ⟨h1, h2⟩
    · rintro ⟨h1, h2⟩
      exact ⟨Or.inr h1, h2⟩)

theorem OpenAt_add_dead {c : CFG} {k : List Nat} (h : c.OpenAt k) :
    c.OpenAt (CFG.deadBlock :: k) :=
  OpenAt_congr h (fun p hp => by
      rcases List.mem_cons.mp hp with h1 | h1
      · subst h1; exact h.1.1
      · exact h.2.1 p h1) (fun p => by
    simp only [List.mem_cons]
    constructor
    · rintro ⟨h1, h2⟩
      exact ⟨Or.inr h1, h2⟩
    · rintro ⟨h1 | h1, h2⟩
      · exact absurd h1 h2
      · exact ⟨h1, h2⟩)

theorem OpenAt_swap {c : CFG} {a b : Nat} {k : List Nat} (h : c.OpenAt (a :: b :: k)) :
    c.OpenAt (b :: a :: k) :=
  OpenAt_congr h (fun p hp => h.2.1 p (by
      simp only [List.mem_cons] at hp ⊢
      tauto)) (fun p => by
    simp only [List.mem_cons]
    tauto)

/-- `conditionalJump` from the current block, or from the dead block. -/
theorem conditionalJump_open {c c2 : CFG} {k : List Nat} {f t e : Nat} {cnd : SymbolRef}
    (h : c.OpenAt (f :: k)) (hf : f = CFG.deadBlock ∨ f ∉ k)
    (hj : conditionalJump f cnd t e c = .ok c2) (hte : t ≠ e) (hc : cnd ≠ 0) :
    c2.OpenAt k ∧ Grows c c2 ∧ c2.basicBlocks.length = c.basicBlocks.length := by
  by_cases hd : f = CFG.deadBlock
  · subst hd
    simp [conditionalJump, pure, Except.pure] at hj
    subst hj
    exact ⟨OpenAt_drop_dead h, Grows.rfl_grows _, rfl⟩
  · obtain ⟨_, ht, he, _, hl⟩ := conditionalJump_ok hj hd
    refine ⟨OpenAt_link h hl (List.mem_cons_self _ _) hd (hf.resolve_left hd)
      (fun p => List.mem_cons) hc ht he ?_, Grows_of_Linked hl, hl.1⟩
    intro q
    simp only [List.count_cons, List.count_nil]
    by_cases h1 : t = q <;> by_cases h2 : e = q <;> simp [h1, h2]
    exact hte (h1.trans h2.symm)

/-- `unconditionalJump` from the current block, or from the dead block. -/
theorem unconditionalJump_open {c c2 : CFG} {k : List Nat} {f t : Nat}
    (h : c.OpenAt (f :: k)) (hf : f = CFG.deadBlock ∨ f ∉ k)
    (hj : unconditionalJump f t c = .ok c2) :
    c2.OpenAt k ∧ Grows c c2 ∧ c2.basicBlocks.length = c.basicBlocks.length := by
  by_cases hd : f = CFG.deadBlock
  · subst hd
    simp [unconditionalJump, pure, Except.pure] at hj
    subst hj
    exact ⟨OpenAt_drop_dead h, Grows.rfl_grows _, rfl⟩
  · obtain ⟨_, ht, _, hl⟩ := unconditionalJump_ok hj hd
    refine ⟨OpenAt_link h hl (List.mem_cons_self _ _) hd (hf.resolve_left hd)
      (fun p => List.mem_cons) (by decide) ht ht ?_, Grows_of_Linked hl, hl.1⟩
    intro q
    simp only [List.count_cons, List.count_nil]
    by_cases h1 : t = q <;> simp [h1]

/-- `jumpToDead` from the current block, or from the dead block. -/
theorem jumpToDead_open {c c2 : CFG} {k : List Nat} {f : Nat}
    (h : c.OpenAt (f :: k)) (hf : f = CFG.deadBlock ∨ f ∉ k)
    (hj : jumpToDead f c = .ok c2) :
    c2.OpenAt k ∧ Grows c c2 ∧ c2.basicBlocks.length = c.basicBlocks.length := by
  by_cases hd : f = CFG.deadBlock
  · subst hd
    simp [jumpToDead, pure, Except.pure] at hj
    subst hj
    exact ⟨OpenAt_drop_dead h, Grows.rfl_grows _, rfl⟩
  · obtain ⟨_, ht, _, hl⟩ := jumpToDead_ok hj hd
    refine ⟨OpenAt_link h hl (List.mem_cons_self _ _) hd (hf.resolve_left hd)
      (fun p => List.mem_cons) (by decide) ht ht ?_, Grows_of_Linked hl, hl.1⟩
    intro q
    simp only [List.count_cons, List.count_nil]
    by_cases h1 : CFG.deadBlock = q <;> simp [h1]

theorem checkUnset_ok {c : CFG} {cur : Nat} {u : Unit} (h : checkUnset c cur = .ok u) :
    cur < c.basicBlocks.length ∧ (c.blockAt cur).bexit.cond = 0 := by
  unfold checkUnset at h
  obtain ⟨b, hb, h2⟩ := bind_ok h
  obtain ⟨hn, rfl⟩ := block_ok hb
  by_cases hex : (c.blockAt cur).bexit.cond.symbolExists = true
  · simp [hex, throw, throwThe, MonadExceptOf.throw, bind, Except.bind] at h2
  · exact ⟨hn, symbolExists_false hex⟩

theorem global2Local_inWhat (what : SymbolRef) (st : BuildState) :
    (global2Local what st).2.inWhat = st.inWhat := by
  simp only [global2Local]
  split
  · split
    · simp [BuildState.newTemporary]
    · rfl
  · rfl

/-- The cases of `walk` that emit one binding into `current`. -/
theorem emit_spec {st st2 : BuildState} {current ret : Nat} {target : SymbolRef}
    {v : Instruction} {k : List Nat}
    (h : (do
      let st ← st.onCFG (fun c => c.emplace current target v)
      pure (current, st) : Except Err (Nat × BuildState)) = .ok (ret, st2))
    (ho : st.inWhat.OpenAt (current :: k)) :
    st2.inWhat.OpenAt (ret :: k) ∧ Grows st.inWhat st2.inWhat ∧
      (ret = current ∨ st.inWhat.basicBlocks.length ≤ ret ∨ ret = CFG.deadBlock) := by
  obtain ⟨st1, h1, h2⟩ := bind_ok h
  obtain ⟨c1, hc1, rfl⟩ := onCFG_ok h1
  simp only [pure, Except.pure, Except.ok.injEq, Prod.mk.injEq] at h2
  obtain ⟨rfl, rfl⟩ := h2
  exact ⟨OpenAt_emplace ho hc1, Grows_emplace hc1, Or.inl rfl⟩

theorem not_mem_of_le {c : CFG} {k : List Nat} {r : Nat}
    (hv : ∀ p ∈ k, p < c.basicBlocks.length) (h : c.basicBlocks.length ≤ r) : r ∉ k := by
  intro hr
  have := hv r hr
  omega

theorem OpenAt_perm {c : CFG} {k k2 : List Nat} (h : c.OpenAt k)
    (hp : ∀ p, p ∈ k ↔ p ∈ k2) : c.OpenAt k2 :=
  OpenAt_congr h (fun p hp2 => h.2.1 p ((hp p).mpr hp2)) (fun p => by rw [hp p])

theorem OpenAt_tail_lt {c : CFG} {a : Nat} {k : List Nat} (h : c.OpenAt (a :: k)) :
    ∀ p ∈ k, p < c.basicBlocks.length :=
  fun p hp => h.2.1 p (List.mem_cons_of_mem _ hp)

theorem OpenAt_head_lt {c : CFG} {a : Nat} {k : List Nat} (h : c.OpenAt (a :: k)) :
    a < c.basicBlocks.length :=
  h.2.1 a (List.mem_cons_self _ _)

theorem WalkPost.step {st st1 st2 : BuildState} {cur r1 r2 : Nat} {k : List Nat}
    (h1 : WalkPost st st1 cur r1 k) (h2 : WalkPost st1 st2 r1 r2 k) :
    WalkPost st st2 cur r2 k := by
  refine ⟨h2.1, h1.2.1.trans_grows h2.2.1, ?_⟩
  rcases h2.2.2 with h | h | h
  · rw [h]; exact h1.2.2
  · exact Or.inr (Or.inl (le_trans h1.2.1.1 h))
  · exact Or.inr (Or.inr h)

theorem WalkPost.next {st st2 : BuildState} {cur ret : Nat} {k : List Nat}
    (ho : st.inWhat.OpenAt (cur :: k)) (hk : cur = CFG.deadBlock ∨ cur ∉ k)
    (h : WalkPost st st2 cur ret k) : ret = CFG.deadBlock ∨ ret ∉ k := by
  rcases h.2.2 with h1 | h1 | h1
  · rw [h1]; exact hk
  · exact Or.inr (not_mem_of_le (OpenAt_tail_lt ho) h1)
  · exact Or.inl h1

theorem current_ne_dead {c : CFG} {cur : Nat} {u : Unit} (hg : c.Good)
    (h : checkUnset c cur = .ok u) : cur ≠ CFG.deadBlock := by
  intro hd
  have := (checkUnset_ok h).2
  rw [hd, hg.2.1] at this
  cases this

/-- A graph update that keeps the open blocks, after which `walk` goes on in the same
block. -/
theorem WalkPost.of_same {st : BuildState} {c2 : CFG} {cur : Nat} {k : List Nat}
    (ho : c2.OpenAt (cur :: k)) (hg : Grows st.inWhat c2) :
    WalkPost st { st with inWhat := c2 } cur cur k :=
  ⟨ho, hg, Or.inl rfl⟩

theorem freshBlock_fst (c : CFG) (l : Int) : (c.freshBlock l).1 = c.basicBlocks.length := rfl

theorem newTemporary_ne_zero (gs : GlobalState) (name : NameRef) (owner : SymbolRef) :
    (gs.newTemporary name owner).1 ≠ 0 := by
  simp [GlobalState.newTemporary, GlobalState.firstUserId]

theorem loadBlockArgs_spec (recv : SymbolRef) (fn : NameRef) (bodyBlock : Nat)
    (args : List ast.Expression) :
    ∀ (i : Int) (c c2 : CFG) (k : List Nat), loadBlockArgs recv fn bodyBlock args i c = .ok c2 →
      c.OpenAt k → c2.OpenAt k ∧ Grows c c2 ∧ c2.basicBlocks.length = c.basicBlocks.length := by
  induction args with
  | nil =>
    intro i c c2 k h ho
    simp only [loadBlockArgs, pure, Except.pure, Except.ok.injEq] at h
    subst h
    exact ⟨ho, Grows.rfl_grows _, rfl⟩
  | cons a rest ih =>
    intro i c c2 k h ho
    cases a
    case Ident symbol =>
      simp only [loadBlockArgs] at h
      obtain ⟨c1, hc1, h2⟩ := bind_ok h
      obtain ⟨o2, g2, l2⟩ := ih _ _ _ k h2 (OpenAt_emplace ho hc1)
      exact ⟨o2, (Grows_emplace hc1).trans_grows g2, by rw [l2, (emplace_ok hc1).2.1]⟩
    all_goals
      simp only [loadBlockArgs] at h
      exact ih _ _ _ k h ho

theorem assignTarget_inWhat (lhs : ast.Expression) (st : BuildState) :
    (assignTarget lhs st).2.inWhat = st.inWhat := by
  cases lhs <;> first | rfl | exact global2Local_inWhat _ _

theorem OpenAt_rotate {c : CFG} {a b d : Nat} {k : List Nat}
    (h : c.OpenAt (a :: b :: d :: k)) : c.OpenAt (d :: a :: b :: k) :=
  OpenAt_perm h (fun p => by
    simp only [List.mem_cons]
    tauto)

/-! ## The invariant of `walk`

Lowering an expression from an open block keeps the graph well linked, leaves every
other open block open, and hands back either the dead block, the block it started in,
or a block it created. -/

mutual
theorem walk_spec : ∀ (what : ast.Expression) (current : Nat) (target : SymbolRef)
    (loops : Int) (st : BuildState) (ret : Nat) (st2 : BuildState) (k : List Nat),
    CFG.walk what current target loops st = .ok (ret, st2) →
    st.inWhat.OpenAt (current :: k) → (current = CFG.deadBlock ∨ current ∉ k) →
    WalkPost st st2 current ret k
  | .While c b, current, target, loops, st, ret, st2, k, h, ho, hk => by
    simp only [CFG.walk] at h
    obtain ⟨u, hu, h⟩ := bind_ok h
    have hcd := current_ne_dead ho.1 hu
    have hck : current ∉ k := hk.resolve_left hcd
    simp only [BuildState.freshBlock, BuildState.newTemporary, freshBlock_fst,
      length_freshBlock] at h
    have e1 := length_freshBlock st.inWhat (loops + 1)
    -- header block and the jump into it
    obtain ⟨st1, h1, h⟩ := bind_ok h
    obtain ⟨c1, hj1, rfl⟩ := onCFG_ok h1
    simp only at hj1 h
    have hkn := OpenAt_tail_lt ho
    have o1 := OpenAt_swap (OpenAt_freshBlock ho (loops + 1))
    obtain ⟨o2, g2, l2⟩ := unconditionalJump_open o1
      (Or.inr (by
        simp only [List.mem_cons, not_or]
        exact ⟨Nat.ne_of_lt (OpenAt_head_lt ho), hck⟩)) hj1
    -- the condition
    obtain ⟨r3, hw3, h⟩ := bind_ok h
    obtain ⟨headerEnd, st3⟩ := r3
    have p3 := walk_spec c _ _ _ _ headerEnd st3 k hw3 o2
      (Or.inr (not_mem_of_le hkn (le_refl _)))
    simp only at h
    -- body and continue blocks, and the branch
    obtain ⟨st4, h4, h⟩ := bind_ok h
    obtain ⟨c4, hj4, rfl⟩ := onCFG_ok h4
    simp only at hj4 h
    have o3 := OpenAt_freshBlock (OpenAt_freshBlock p3.1 (loops + 1)) loops
    rw [length_freshBlock] at o3
    have hhe := WalkPost.next o2 (Or.inr (not_mem_of_le hkn (le_refl _))) p3
    have hhl := OpenAt_head_lt p3.1
    have o3b : ((st3.inWhat.freshBlock (loops + 1)).2.freshBlock loops).2.OpenAt
        (headerEnd :: st3.inWhat.basicBlocks.length ::
          (st3.inWhat.basicBlocks.length + 1) :: k) :=
      OpenAt_perm o3 (fun p => by simp only [List.mem_cons]; tauto)
    have hk3 := OpenAt_tail_lt p3.1
    obtain ⟨o4, g4, l4⟩ := conditionalJump_open o3b
      (by
        rcases hhe with hd | hnk
        · exact Or.inl hd
        · refine Or.inr ?_
          simp only [List.mem_cons, not_or]
          exact ⟨by omega, by omega, hnk⟩) hj4 (by omega)
      (newTemporary_ne_zero _ _ _)
    -- the body
    obtain ⟨r5, hw5, h⟩ := bind_ok h
    obtain ⟨bodyEnd, st5⟩ := r5
    have hb5 : st3.inWhat.basicBlocks.length ∉ (st3.inWhat.basicBlocks.length + 1) :: k := by
      simp only [List.mem_cons, not_or]
      exact ⟨by omega, not_mem_of_le hk3 (le_refl _)⟩
    have p5 := walk_spec b _ _ _ _ bodyEnd st5 _ hw5 o4 (Or.inr hb5)
    simp only at h
    obtain ⟨st6, h6, h⟩ := bind_ok h
    obtain ⟨c6, hj6, rfl⟩ := onCFG_ok h6
    obtain ⟨o6, g6, l6⟩ := unconditionalJump_open p5.1 (WalkPost.next o4 (Or.inr hb5) p5) hj6
    obtain ⟨st7, h7, h⟩ := bind_ok h
    obtain ⟨c7, hj7, rfl⟩ := onCFG_ok h7
    simp only [pure, Except.pure, Except.ok.injEq, Prod.mk.injEq] at h
    obtain ⟨rfl, rfl⟩ := h
    have g1 := Grows_freshBlock st.inWhat (loops + 1)
    have g3 := (Grows_freshBlock st3.inWhat (loops + 1)).trans_grows
      (Grows_freshBlock (st3.inWhat.freshBlock (loops + 1)).2 loops)
    have gall := g1.trans_grows (g2.trans_grows (p3.2.1.trans_grows (g3.trans_grows (g4.trans_grows (p5.2.1.trans_grows
      (g6.trans_grows (Grows_emplace hj7)))))))
    refine ⟨OpenAt_emplace o6 hj7, gall, Or.inr (Or.inl ?_)⟩
    have := (g2.trans_grows p3.2.1).1
    simp only at this
    omega
  | .Return expr, current, target, loops, st, ret, st2, k, h, ho, hk => by
    simp only [CFG.walk] at h
    obtain ⟨u, hu, h⟩ := bind_ok h
    simp only [BuildState.newTemporary] at h
    obtain ⟨r1, hw1, h⟩ := bind_ok h
    obtain ⟨cont, st1⟩ := r1
    have p1 := walk_spec expr _ _ _ _ cont st1 k hw1 ho hk
    simp only at h
    obtain ⟨st3, h3, h⟩ := bind_ok h
    obtain ⟨c3, hj3, rfl⟩ := onCFG_ok h3
    obtain ⟨st4, h4, h⟩ := bind_ok h
    obtain ⟨c4, hj4, rfl⟩ := onCFG_ok h4
    simp only [pure, Except.pure, Except.ok.injEq, Prod.mk.injEq] at h
    obtain ⟨rfl, rfl⟩ := h
    obtain ⟨o4, g4, _⟩ := jumpToDead_open (OpenAt_emplace p1.1 hj3) (WalkPost.next ho hk p1) hj4
    exact ⟨OpenAt_add_dead o4, p1.2.1.trans_grows ((Grows_emplace hj3).trans_grows g4), Or.inr (Or.inr rfl)⟩
  | .Assign lhs rhs, current, target, loops, st, ret, st2, k, h, ho, hk => by
    simp only [CFG.walk] at h
    obtain ⟨u, hu, h⟩ := bind_ok h
    obtain ⟨r1, hw1, h⟩ := bind_ok h
    obtain ⟨cont, st1⟩ := r1
    have hin2 := assignTarget_inWhat lhs st
    have p1 := walk_spec rhs _ _ _ _ cont st1 k hw1 (by rw [hin2]; exact ho) hk
    simp only at h
    obtain ⟨st3, h3, h⟩ := bind_ok h
    obtain ⟨c3, hj3, rfl⟩ := onCFG_ok h3
    simp only [pure, Except.pure, Except.ok.injEq, Prod.mk.injEq] at h
    obtain ⟨rfl, rfl⟩ := h
    unfold WalkPost at p1 ⊢
    rw [hin2] at p1
    exact ⟨OpenAt_emplace p1.1 hj3, p1.2.1.trans_grows (Grows_emplace hj3), p1.2.2⟩
  | .InsSeq stats expr, current, target, loops, st, ret, st2, k, h, ho, hk => by
    simp only [CFG.walk] at h
    obtain ⟨u, hu, h⟩ := bind_ok h
    obtain ⟨r1, hw1, h⟩ := bind_ok h
    obtain ⟨cur1, st1⟩ := r1
    have p1 := walkStats_spec stats _ _ _ cur1 st1 k hw1 ho hk
    have p2 := walk_spec expr _ _ _ _ ret st2 k h p1.1 (WalkPost.next ho hk p1)
    exact p1.step p2
  | .Send recvE fn argsE block, current, target, loops, st, ret, st2, k, h, ho, hk => by
    rw [CFG.walk] at h
    obtain ⟨u, hu, h⟩ := bind_ok h
    simp only [BuildState.newTemporary] at h
    obtain ⟨r1, hw1, h⟩ := bind_ok h
    obtain ⟨cur1, st1⟩ := r1
    have p1 := walk_spec recvE _ _ _ _ cur1 st1 k hw1 ho hk
    simp only at h
    obtain ⟨r2, hw2, h⟩ := bind_ok h
    obtain ⟨cur2, args, st2a⟩ := r2
    have p2 := walkArgs_spec argsE _ _ _ _ cur2 args st2a k hw2 p1.1 (WalkPost.next ho hk p1)
    have p12 : WalkPost st st2a current cur2 k := p1.step p2
    cases block with
    | none =>
      simp only at h
      have p3 := emit_spec h p12.1
      exact p12.step p3
    | some blk =>
      obtain ⟨blockArgs, blockBody⟩ := blk
      simp only at h
      have hn2 := WalkPost.next ho hk p12
      simp only [BuildState.freshBlock, BuildState.newTemporary, freshBlock_fst,
        length_freshBlock] at h
      have hk2 := OpenAt_tail_lt p12.1
      have hc2 := OpenAt_head_lt p12.1
      -- the three blocks
      have o3 := OpenAt_freshBlock (OpenAt_freshBlock (OpenAt_freshBlock p12.1 (loops + 1)) loops)
        (loops + 1)
      simp only [length_freshBlock] at o3
      obtain ⟨st4, h4, h⟩ := bind_ok h
      obtain ⟨c4, hj4, rfl⟩ := onCFG_ok h4
      simp only at hj4 h
      obtain ⟨o4, g4, l4⟩ := loadBlockArgs_spec _ _ _ _ _ _ _ _ hj4 o3
      simp only [length_freshBlock] at l4
      obtain ⟨st5, h5, h⟩ := bind_ok h
      obtain ⟨c5, hj5, rfl⟩ := onCFG_ok h5
      simp only at hj5 h
      have o4b : c4.OpenAt (st2a.inWhat.basicBlocks.length ::
          (st2a.inWhat.basicBlocks.length + 1 + 1) :: (st2a.inWhat.basicBlocks.length + 1) ::
            cur2 :: k) :=
        OpenAt_rotate o4
      obtain ⟨o5, g5, l5⟩ := conditionalJump_open o4b
        (Or.inr (by
          simp only [List.mem_cons, not_or]
          exact ⟨by omega, by omega, by omega, not_mem_of_le hk2 (le_refl _)⟩)) hj5 (by omega)
        (by decide)
      obtain ⟨st6, h6, h⟩ := bind_ok h
      obtain ⟨c6, hj6, rfl⟩ := onCFG_ok h6
      simp only at hj6 h
      have o5b : c5.OpenAt (cur2 :: (st2a.inWhat.basicBlocks.length + 1 + 1) ::
          (st2a.inWhat.basicBlocks.length + 1) :: k) :=
        OpenAt_rotate o5
      obtain ⟨o6, g6, l6⟩ := unconditionalJump_open o5b
        (by
          rcases hn2 with hd | hnk
          · exact Or.inl hd
          · refine Or.inr ?_
            simp only [List.mem_cons, not_or]
            exact ⟨by omega, by omega, hnk⟩) hj6
      -- the body of the block
      obtain ⟨r7, hw7, h⟩ := bind_ok h
      obtain ⟨blockLast, st7⟩ := r7
      have hb7 : st2a.inWhat.basicBlocks.length + 1 + 1 ∉
          (st2a.inWhat.basicBlocks.length + 1) :: k := by
        simp only [List.mem_cons, not_or]
        exact ⟨by omega, not_mem_of_le hk2 (by omega)⟩
      have p7 := walk_spec blockBody _ _ _ _ blockLast st7 _ hw7 o6 (Or.inr hb7)
      simp only at h
      obtain ⟨st8, h8, h⟩ := bind_ok h
      obtain ⟨c8, hj8, rfl⟩ := onCFG_ok h8
      obtain ⟨o8, g8, l8⟩ := unconditionalJump_open p7.1 (WalkPost.next o6 (Or.inr hb7) p7) hj8
      obtain ⟨st9, h9, h⟩ := bind_ok h
      obtain ⟨c9, hj9, rfl⟩ := onCFG_ok h9
      simp only [pure, Except.pure, Except.ok.injEq, Prod.mk.injEq] at h
      obtain ⟨rfl, rfl⟩ := h
      have g3 := (Grows_freshBlock st2a.inWhat (loops + 1)).trans_grows
        ((Grows_freshBlock (st2a.inWhat.freshBlock (loops + 1)).2 loops).trans_grows
          (Grows_freshBlock ((st2a.inWhat.freshBlock (loops + 1)).2.freshBlock loops).2
            (loops + 1)))
      have gall := p12.2.1.trans_grows (g3.trans_grows (g4.trans_grows (g5.trans_grows (g6.trans_grows (p7.2.1.trans_grows
        (g8.trans_grows (Grows_emplace hj9)))))))
      refine ⟨OpenAt_emplace o8 hj9, gall, Or.inr (Or.inl ?_)⟩
      have := p12.2.1.1
      omega
  | .If cond thenp elsep, current, target, loops, st, ret, st2, k, h, ho, hk => by
    simp only [CFG.walk] at h
    obtain ⟨u, hu, h⟩ := bind_ok h
    have hcd := current_ne_dead ho.1 hu
    have hck : current ∉ k := hk.resolve_left hcd
    simp only [BuildState.freshBlock, BuildState.newTemporary, freshBlock_fst,
      length_freshBlock] at h
    split at h
    · obtain ⟨_, h1, _⟩ := bind_ok h
      cases h1
    obtain ⟨_, _, h⟩ := bind_ok h
    have hkn := OpenAt_tail_lt ho
    have hcl := OpenAt_head_lt ho
    have hd1 : CFG.deadBlock < st.inWhat.basicBlocks.length := ho.1.1
    have o1 := OpenAt_rotate (OpenAt_freshBlock (OpenAt_freshBlock ho loops) loops)
    rw [length_freshBlock] at o1
    have hck1 : current ∉ (st.inWhat.basicBlocks.length + 1) ::
        st.inWhat.basicBlocks.length :: k := by
      simp only [List.mem_cons, not_or]
      exact ⟨by omega, by omega, hck⟩
    -- the condition
    obtain ⟨r3, hw3, h⟩ := bind_ok h
    obtain ⟨cont, st3⟩ := r3
    have p3 := walk_spec cond _ _ _ _ cont st3 _ hw3 o1 (Or.inr hck1)
    simp only at h
    obtain ⟨st4, h4, h⟩ := bind_ok h
    obtain ⟨c4, hj4, rfl⟩ := onCFG_ok h4
    try simp only at hj4
    try simp only at h
    obtain ⟨o4, g4, l4⟩ := conditionalJump_open p3.1 (WalkPost.next o1 (Or.inr hck1) p3) hj4
      (by omega) (newTemporary_ne_zero _ _ _)
    have g3 := p3.2.1.1
    simp only [length_freshBlock] at g3
    -- the then arm
    obtain ⟨r5, hw5, h⟩ := bind_ok h
    obtain ⟨thenEnd, st5⟩ := r5
    have hb5 : st.inWhat.basicBlocks.length ∉ (st.inWhat.basicBlocks.length + 1) :: k := by
      simp only [List.mem_cons, not_or]
      exact ⟨by omega, not_mem_of_le hkn (le_refl _)⟩
    have p5 := walk_spec thenp _ _ _ _ thenEnd st5 _ hw5 (OpenAt_swap o4) (Or.inr hb5)
    have n5 := WalkPost.next (OpenAt_swap o4) (Or.inr hb5) p5
    simp only at h
    -- the else arm
    obtain ⟨r6, hw6, h⟩ := bind_ok h
    obtain ⟨elseEnd, st6⟩ := r6
    have hb6 : st.inWhat.basicBlocks.length + 1 ∉ thenEnd :: k := by
      simp only [List.mem_cons, not_or]
      refine ⟨?_, not_mem_of_le hkn (by omega)⟩
      rcases p5.2.2 with e | e | e
      · omega
      · simp only at e
        omega
      · simp only [CFG.deadBlock] at e hd1
        omega
    have p6 := walk_spec elsep _ _ _ _ elseEnd st6 _ hw6 (OpenAt_swap p5.1) (Or.inr hb6)
    have n6 := WalkPost.next (OpenAt_swap p5.1) (Or.inr hb6) p6
    simp only at h
    have g5 := p5.2.1.1
    have g6 := p6.2.1.1
    simp only at g5 g6
    have gall : Grows st.inWhat st6.inWhat :=
      (Grows_freshBlock st.inWhat loops).trans_grows
        ((Grows_freshBlock (st.inWhat.freshBlock loops).2 loops).trans_grows
          (p3.2.1.trans_grows (g4.trans_grows (p5.2.1.trans_grows p6.2.1))))
    have hret : ∀ r, (r = st.inWhat.basicBlocks.length + 1 ∨
        st5.inWhat.basicBlocks.length ≤ r ∨ r = CFG.deadBlock) →
        (r = current ∨ st.inWhat.basicBlocks.length ≤ r ∨ r = CFG.deadBlock) := by
      intro r hr
      rcases hr with e | e | e
      · exact Or.inr (Or.inl (by omega))
      · exact Or.inr (Or.inl (by omega))
      · exact Or.inr (Or.inr e)
    split at h
    · split at h
      · rename_i hte
        simp only [pure, Except.pure, Except.ok.injEq, Prod.mk.injEq] at h
        obtain ⟨rfl, rfl⟩ := h
        have o6 := p6.1
        rw [hte] at o6
        exact ⟨OpenAt_drop_dead (OpenAt_swap o6), gall, hret _ p6.2.2⟩
      · rename_i hte
        try rw [if_neg hte] at h
        obtain ⟨st7, h7, h⟩ := bind_ok h
        obtain ⟨c7, hj7, rfl⟩ := onCFG_ok h7
        try simp only at hj7
        try simp only at h
        obtain ⟨st8, h8, h⟩ := bind_ok h
        obtain ⟨c8, hj8, rfl⟩ := onCFG_ok h8
        simp only [pure, Except.pure, Except.ok.injEq, Prod.mk.injEq] at h
        obtain ⟨rfl, rfl⟩ := h
        have o7 := OpenAt_rotate (OpenAt_freshBlock p6.1 loops)
        have ht6 : thenEnd < st6.inWhat.basicBlocks.length :=
          OpenAt_tail_lt p6.1 thenEnd (List.mem_cons_self _ _)
        have he6 := OpenAt_head_lt p6.1
        have htk : thenEnd ∉ k := fun hx =>
          (n5.resolve_left hte) (List.mem_cons_of_mem _ hx)
        have hne : thenEnd ≠ elseEnd := by
          rcases n6 with e | e
          · rw [e]; exact hte
          · intro hx
            exact e (by rw [hx]; exact List.mem_cons_self _ _)
        obtain ⟨o8, g8, l8⟩ := unconditionalJump_open o7
          (Or.inr (by
            simp only [List.mem_cons, not_or]
            exact ⟨by omega, hne, htk⟩)) hj7
        obtain ⟨o9, g9, l9⟩ := unconditionalJump_open (OpenAt_swap o8)
          (by
            rcases n6 with e | e
            · exact Or.inl e
            · refine Or.inr ?_
              simp only [List.mem_cons, not_or]
              exact ⟨by omega, fun hx => e (List.mem_cons_of_mem _ hx)⟩) hj8
        refine ⟨o9, gall.trans_grows ((Grows_freshBlock st6.inWhat loops).trans_grows (g8.trans_grows g9)),
          Or.inr (Or.inl gall.1)⟩
    · rename_i hne
      simp only [pure, Except.pure, Except.ok.injEq, Prod.mk.injEq] at h
      obtain ⟨rfl, rfl⟩ := h
      have hne2 : thenEnd = CFG.deadBlock ∧ elseEnd = CFG.deadBlock := by
        constructor
        · by_contra hx
          exact hne (Or.inl hx)
        · by_contra hx
          exact hne (Or.inr hx)
      have o6 := p6.1
      rw [hne2.1, hne2.2] at o6
      exact ⟨OpenAt_drop_dead o6, gall, Or.inr (Or.inr rfl)⟩
  | .IntLit value, current, target, loops, st, ret, st2, k, h, ho, hk => by
    simp only [CFG.walk] at h
    obtain ⟨_, _, h1⟩ := bind_ok h
    exact emit_spec h1 ho
  | .FloatLit value, current, target, loops, st, ret, st2, k, h, ho, hk => by
    simp only [CFG.walk] at h
    obtain ⟨_, _, h1⟩ := bind_ok h
    exact emit_spec h1 ho
  | .StringLit value, current, target, loops, st, ret, st2, k, h, ho, hk => by
    simp only [CFG.walk] at h
    obtain ⟨_, _, h1⟩ := bind_ok h
    exact emit_spec h1 ho
  | .BoolLit value, current, target, loops, st, ret, st2, k, h, ho, hk => by
    simp only [CFG.walk] at h
    obtain ⟨_, _, h1⟩ := bind_ok h
    exact emit_spec h1 ho
  | .Self value, current, target, loops, st, ret, st2, k, h, ho, hk => by
    simp only [CFG.walk] at h
    obtain ⟨_, _, h1⟩ := bind_ok h
    exact emit_spec h1 ho
  | .BareBlock value, current, target, loops, st, ret, st2, k, h, ho, hk => by
    simp only [CFG.walk] at h
    obtain ⟨_, _, h1⟩ := bind_ok h
    exact emit_spec h1 ho
  | .NotHandled value, current, target, loops, st, ret, st2, k, h, ho, hk => by
    simp only [CFG.walk] at h
    obtain ⟨_, _, h1⟩ := bind_ok h
    exact emit_spec h1 ho
  | .ConstantLit _, current, target, loops, st, ret, st2, k, h, ho, hk => by
    simp only [CFG.walk] at h
    obtain ⟨_, _, h1⟩ := bind_ok h
    cases h1
  | .Ident symbol, current, target, loops, st, ret, st2, k, h, ho, hk => by
    simp only [CFG.walk] at h
    obtain ⟨_, _, h1⟩ := bind_ok h
    have hg := global2Local_inWhat symbol st
    have := @emit_spec (global2Local symbol st).2 st2 current ret target _ k h1
      (by rw [hg]; exact ho)
    unfold WalkPost at this ⊢
    rw [hg] at this
    exact this
theorem walkStats_spec : ∀ (stats : List ast.Expression) (current : Nat)
    (loops : Int) (st : BuildState) (ret : Nat) (st2 : BuildState) (k : List Nat),
    CFG.walkStats stats current loops st = .ok (ret, st2) →
    st.inWhat.OpenAt (current :: k) → (current = CFG.deadBlock ∨ current ∉ k) →
    WalkPost st st2 current ret k
  | [], current, loops, st, ret, st2, k, h, ho, hk => by
    simp only [CFG.walkStats, pure, Except.pure, Except.ok.injEq, Prod.mk.injEq] at h
    obtain ⟨rfl, rfl⟩ := h
    exact ⟨ho, Grows.rfl_grows _, Or.inl rfl⟩
  | exp :: rest, current, loops, st, ret, st2, k, h, ho, hk => by
    simp only [CFG.walkStats, BuildState.newTemporary] at h
    obtain ⟨r1, hw1, h⟩ := bind_ok h
    obtain ⟨cur1, st1⟩ := r1
    have p1 := walk_spec exp _ _ _ _ cur1 st1 k hw1 ho hk
    have p2 := walkStats_spec rest _ _ _ ret st2 k h p1.1 (WalkPost.next ho hk p1)
    exact p1.step p2
theorem walkArgs_spec : ∀ (argsE : List ast.Expression) (current : Nat)
    (loops : Int) (acc : List SymbolRef) (st : BuildState) (ret : Nat) (args : List SymbolRef)
    (st2 : BuildState) (k : List Nat),
    CFG.walkArgs argsE current loops acc st = .ok (ret, args, st2) →
    st.inWhat.OpenAt (current :: k) → (current = CFG.deadBlock ∨ current ∉ k) →
    WalkPost st st2 current ret k
  | [], current, loops, acc, st, ret, args, st2, k, h, ho, hk => by
    simp only [CFG.walkArgs, pure, Except.pure, Except.ok.injEq, Prod.mk.injEq] at h
    obtain ⟨rfl, _, rfl⟩ := h
    exact ⟨ho, Grows.rfl_grows _, Or.inl rfl⟩
  | exp :: rest, current, loops, acc, st, ret, args, st2, k, h, ho, hk => by
    simp only [CFG.walkArgs, BuildState.newTemporary] at h
    obtain ⟨r1, hw1, h⟩ := bind_ok h
    obtain ⟨cur1, st1⟩ := r1
    have p1 := walk_spec exp _ _ _ _ cur1 st1 k hw1 ho hk
    have p2 := walkArgs_spec rest _ _ _ _ ret args st2 k h p1.1 (WalkPost.next ho hk p1)
    exact p1.step p2
end

/-! ## The graph before the passes -/

theorem new_open (s : SymbolRef) : ({ CFG.new with symbol := s } : CFG).OpenAt [CFG.entry] := by
  have hb : ∀ q, ({ CFG.new with symbol := s } : CFG).blockAt q =
      if q = 0 then {} else if q = 1 then
        { bexit := ⟨GlobalState.defn_cfg_never, some CFG.deadBlock, some CFG.deadBlock⟩ }
      else {} := by
    intro q
    rcases q with _ | _ | q
    · rfl
    · rfl
    · rfl
  have hl : ({ CFG.new with symbol := s } : CFG).basicBlocks.length = 2 := rfl
  refine ⟨⟨by rw [hl], ?_, ?_, ?_, ?_⟩, ?_, ?_⟩
  · rw [hb]; rfl
  · intro p hp
    rw [hb] at hp ⊢
    split
    · exact ⟨rfl, rfl⟩
    · split
      · rename_i h1 h2
        rw [if_neg h1, if_pos h2] at hp
        cases hp
      · exact ⟨rfl, rfl⟩
  · intro p hp
    rw [hb] at hp ⊢
    by_cases h1 : p = 0
    · rw [if_pos h1] at hp
      exact absurd rfl hp
    · rw [if_neg h1] at hp ⊢
      by_cases h2 : p = 1
      · rw [if_pos h2]
        exact ⟨1, 1, rfl, rfl, by rw [hl]; decide, by rw [hl]; decide⟩
      · rw [if_neg h2] at hp
        exact absurd rfl hp
  · intro t p ht
    rw [hl] at ht
    have h0 : (({ CFG.new with symbol := s } : CFG).blockAt t).backEdges = [] := by
      rw [hb]
      split
      · rfl
      · split <;> rfl
    rw [h0, List.count_nil]
    symm
    rw [if_neg]
    rintro ⟨hpd, hx⟩
    rw [hb] at hx
    by_cases h1 : p = 0
    · rw [if_pos h1] at hx
      rcases hx with hx | hx <;> cases hx
    · have h2 : ¬ p = 1 := hpd
      rw [if_neg h1, if_neg h2] at hx
      rcases hx with hx | hx <;> cases hx
  · intro p hp
    rw [hl]
    simp only [List.mem_singleton] at hp
    rw [hp]
    decide
  · intro p hp
    rw [hl] at hp
    rw [hb]
    have : p = 0 ∨ p = 1 := by omega
    rcases this with rfl | rfl
    · simp [CFG.entry, CFG.deadBlock]
    · simp [CFG.entry, CFG.deadBlock, GlobalState.defn_cfg_never]

theorem loadArguments_spec (selfSym : SymbolRef) (methodName : NameRef)
    (args : List SymbolRef) :
    ∀ (i : Int) (c c2 : CFG) (k : List Nat), loadArguments selfSym methodName args i c = .ok c2 →
      c.OpenAt k → c2.OpenAt k ∧ Grows c c2 ∧ c2.basicBlocks.length = c.basicBlocks.length := by
  induction args with
  | nil =>
    intro i c c2 k h ho
    simp only [loadArguments, pure, Except.pure, Except.ok.injEq] at h
    subst h
    exact ⟨ho, Grows.rfl_grows _, rfl⟩
  | cons a rest ih =>
    intro i c c2 k h ho
    simp only [loadArguments] at h
    obtain ⟨c1, h1, h2⟩ := bind_ok h
    obtain ⟨o2, g2, l2⟩ := ih _ _ _ _ h2 (OpenAt_emplace ho h1)
    exact ⟨o2, (Grows_emplace h1).trans_grows g2, by rw [l2, (emplace_ok h1).2.1]⟩

theorem loadArguments_exprs (selfSym : SymbolRef) (methodName : NameRef)
    (args : List SymbolRef) :
    ∀ (i : Int) (c c2 : CFG), loadArguments selfSym methodName args i c = .ok c2 →
      (c2.blockAt CFG.entry).exprs =
        (c.blockAt CFG.entry).exprs ++ loadArgBindings selfSym methodName args i := by
  induction args with
  | nil =>
    intro i c c2 h
    simp only [loadArguments, pure, Except.pure, Except.ok.injEq] at h
    subst h
    simp [loadArgBindings]
  | cons a rest ih =>
    intro i c c2 h
    simp only [loadArguments] at h
    obtain ⟨c1, h1, h2⟩ := bind_ok h
    rw [ih _ _ _ h2, (emplace_ok h1).2.2 CFG.entry, if_pos rfl]
    simp [loadArgBindings]

theorem aliasBindings_fst (l : List (SymbolRef × SymbolRef)) :
    ∀ gs, (aliasBindings l gs).1 = l.map (fun kv => (⟨kv.2, .Alias kv.1⟩ : Binding)) := by
  induction l with
  | nil => intro gs; rfl
  | cons a rest ih =>
    intro gs
    obtain ⟨g, loc⟩ := a
    simp only [aliasBindings, List.map_cons, ih]

/-- The graph `buildFor` hands to its three passes: every block but the dead one has
got its terminator, and the entry block holds `Alias` bindings, the prelude and what
the walk appended. -/
theorem buildGraph_spec {gs gs2 : GlobalState} {md : ast.MethodDef} {c : CFG}
    (h : CFG.buildGraph gs md = .ok (gs2, c)) :
    c.OpenAt [] ∧ ∃ pre post, (c.blockAt CFG.entry).exprs = pre ++ prelude gs md ++ post ∧
      ∀ b ∈ pre, ∃ g, b.value = .Alias g := by
  unfold CFG.buildGraph at h
  simp only at h
  obtain ⟨c1, h1, h⟩ := bind_ok h
  obtain ⟨c2, h2, h⟩ := bind_ok h
  obtain ⟨r3, h3, h⟩ := bind_ok h
  obtain ⟨cont, st3⟩ := r3
  simp only at h
  obtain ⟨st4, h4, h⟩ := bind_ok h
  obtain ⟨c4, hj4, rfl⟩ := onCFG_ok h4
  obtain ⟨st5, h5, h⟩ := bind_ok h
  obtain ⟨c5, hj5, rfl⟩ := onCFG_ok h5
  obtain ⟨c6, h6, h⟩ := bind_ok h
  simp only [pure, Except.pure, Except.ok.injEq, Prod.mk.injEq] at h
  obtain ⟨rfl, rfl⟩ := h
  have o0 := new_open md.symbol
  have o1 := OpenAt_emplace o0 h1
  obtain ⟨o2, g2, l2⟩ := loadArguments_spec _ _ _ _ _ _ _ h2 o1
  have hcd : CFG.entry ∉ ([] : List Nat) := List.not_mem_nil _
  have p3 := walk_spec _ _ _ _ _ _ _ [] h3 o2 (Or.inr hcd)
  have o4 := OpenAt_emplace p3.1 hj4
  obtain ⟨o5, g5, l5⟩ := jumpToDead_open o4 (Or.inr (List.not_mem_nil _)) hj5
  obtain ⟨hp6, rfl⟩ := update_ok h6
  have hb6 := blockAt_modify c5 CFG.entry
  refine ⟨OpenAt_of_same o5 (by simp) (fun q => ?_), ?_⟩
  · rw [hb6 q _ hp6]
    split <;> exact ⟨rfl, rfl⟩
  · have e2 := loadArguments_exprs _ _ _ _ _ _ h2
    rw [(emplace_ok h1).2.2 CFG.entry, if_pos rfl] at e2
    have hl0 : CFG.entry < c2.basicBlocks.length := by
      have := o2.1.1
      simp only [CFG.entry]
      omega
    obtain ⟨x3, hx3⟩ := (p3.2.1.trans_grows ((Grows_emplace hj4).trans_grows g5)).2 CFG.entry hl0
    refine ⟨(aliasBindings st3.aliases (st3.newTemporary Names.returnMethodTemp).2.gs).1.insertionSort
      (fun l r => l.bind ≤ r.bind), x3, ?_, ?_⟩
    · rw [hb6 _ _ hp6, if_pos rfl]
      simp only at hx3 ⊢
      rw [hx3, e2]
      simp only [List.append_assoc]
      rfl
    · intro b hb
      have hb2 := (List.perm_insertionSort _ _).subset hb
      rw [aliasBindings_fst] at hb2
      obtain ⟨kv, _, rfl⟩ := List.mem_map.mp hb2
      exact ⟨kv.1, rfl⟩

/-! ## The stages of `build` -/

theorem build_stages {gs : GlobalState} {md : ast.MethodDef} {c : CFG}
    (h : build gs md = .ok c) :
    ∃ gs1 c1 c2 c3 gs4, CFG.buildGraph gs md = .ok (gs1, c1) ∧ c1.fillInTopoSorts = .ok c2 ∧
      c2.dealias gs1 = .ok c3 ∧ c3.fillInBlockArguments gs1 = .ok (gs4, c) := by
  unfold build at h
  obtain ⟨r, hr, h⟩ := bind_ok h
  simp only [pure, Except.pure, Except.ok.injEq] at h
  subst h
  unfold CFG.buildFor at hr
  obtain ⟨r1, h1, hr⟩ := bind_ok hr
  obtain ⟨gs1, c1⟩ := r1
  simp only at hr
  obtain ⟨c2, h2, hr⟩ := bind_ok hr
  obtain ⟨c3, h3, hr⟩ := bind_ok hr
  exact ⟨gs1, c1, c2, c3, r.1, h1, h2, h3, hr⟩

theorem build_dealiased {gs : GlobalState} {md : ast.MethodDef} {c : CFG}
    (h : build gs md = .ok c) :
    ∃ gsD cD gs4, CFG.buildDealiased gs md = .ok (gsD, cD) ∧
      cD.fillInBlockArguments gsD = .ok (gs4, c) := by
  obtain ⟨gs1, c1, c2, c3, gs4, h1, h2, h3, h4⟩ := build_stages h
  refine ⟨gs1, c3, gs4, ?_, h4⟩
  unfold CFG.buildDealiased
  rw [h1]
  simp only [bind, Except.bind]
  rw [h2]
  simp only
  rw [h3]
  rfl

/-- What `fillInBlockArguments` does to a block: bindings are removed and `args` is
set; the terminator, the `backEdges` and `outerLoops` stay. -/
theorem fillInBlockArguments_blockAt {gs gs2 : GlobalState} {c c2 : CFG}
    (h : c.fillInBlockArguments gs = .ok (gs2, c2)) (p : Nat) :
    (c2.blockAt p).bexit = (c.blockAt p).bexit ∧
    (c2.blockAt p).backEdges = (c.blockAt p).backEdges ∧
    (c2.blockAt p).outerLoops = (c.blockAt p).outerLoops ∧
    (c2.blockAt p).exprs = removeDeadVariables c.readsMap (c.blockAt p).exprs := by
  obtain ⟨hl, _, _, ub1, ub2, _, _, hb⟩ := fillInBlockArguments_blocks h
  by_cases hp : p < c.basicBlocks.length
  · obtain ⟨s1, s2, _, _, h2⟩ := hb p _ (List.getElem?_eq_getElem hp)
    simp only [CFG.blockAt, List.getD_eq_getElem?_getD, h2, List.getElem?_eq_getElem hp,
      Option.getD_some, and_self]
  · have hp1 : c.basicBlocks.length ≤ p := Nat.le_of_not_lt hp
    rw [blockAt_eq_default c hp1, blockAt_eq_default c2 (by rw [hl]; exact hp1)]
    exact ⟨rfl, rfl, rfl, rfl⟩

/-- The terminators and the `backEdges` of the graph `build` returns are those of the
graph before the three passes, the `backEdges` of each block sorted. -/
theorem build_frames {gs : GlobalState} {md : ast.MethodDef} {c : CFG}
    (h : build gs md = .ok c) :
    ∃ gs1 c1, CFG.buildGraph gs md = .ok (gs1, c1) ∧
      c.basicBlocks.length = c1.basicBlocks.length ∧
      ∀ p, (c.blockAt p).bexit = (c1.blockAt p).bexit ∧
        (c.blockAt p).outerLoops = (c1.blockAt p).outerLoops ∧
        (c.blockAt p).backEdges = sortBackEdges c1 (c1.blockAt p).backEdges := by
  obtain ⟨gs1, c1, c2, c3, gs4, h1, h2, h3, h4⟩ := build_stages h
  obtain ⟨l2, b2⟩ := fillInTopoSorts_blocks h2
  obtain ⟨l3, b3⟩ := dealias_onlyOperands h3
  have l4 := (fillInBlockArguments_blocks h4).1
  refine ⟨gs1, c1, h1, by rw [l4, l3, l2], fun p => ?_⟩
  obtain ⟨e1, e2, e3, _⟩ := fillInBlockArguments_blockAt h4 p
  have e4 := (b3 p).1
  have e5 : (c3.blockAt p).bexit = (c2.blockAt p).bexit :=
    by
    have h5 := congrArg BasicBlock.bexit e4
    exact h5
  have e6 : (c3.blockAt p).backEdges = (c2.blockAt p).backEdges :=
    by
    have h5 := congrArg BasicBlock.backEdges e4
    exact h5
  have e7 : (c3.blockAt p).outerLoops = (c2.blockAt p).outerLoops :=
    by
    have h5 := congrArg BasicBlock.outerLoops e4
    exact h5
  obtain ⟨_, _, f1, f2, f3⟩ := b2 p
  exact ⟨by rw [e1, e5, f1], by rw [e3, e7, f2], by rw [e2, e6, f3]⟩

/-! ## The entry prelude -/

theorem prelude_sideEffectFree (gs : GlobalState) (md : ast.MethodDef) :
    ∀ b ∈ prelude gs md, b.value.sideEffectFree ∧ ∀ b2, Binding.Rewritten b b2 → b2 = b := by
  have hl : ∀ (s : SymbolRef) (n : NameRef) (args : List SymbolRef) (i : Int),
      ∀ b ∈ loadArgBindings s n args i,
        b.value.sideEffectFree ∧ ∀ b2, Binding.Rewritten b b2 → b2 = b := by
    intro s n args
    induction args with
    | nil => intro i b hb; cases hb
    | cons a rest ih =>
      intro i b hb
      simp only [loadArgBindings, List.mem_cons] at hb
      rcases hb with rfl | hb
      · refine ⟨trivial, fun b2 h2 => ?_⟩
        obtain ⟨c1, c2⟩ := b2
        obtain ⟨e1, e2⟩ := h2
        simp only at e1 e2
        simp only [Instruction.Rewritten] at e2
        rw [e1, e2]
      · exact ih _ b hb
  intro b hb
  simp only [prelude, List.mem_cons] at hb
  rcases hb with rfl | hb
  · refine ⟨trivial, fun b2 h2 => ?_⟩
    obtain ⟨c1, c2⟩ := b2
    obtain ⟨e1, e2⟩ := h2
    simp only at e1 e2
    simp only [Instruction.Rewritten] at e2
    rw [e1, e2]
  · exact hl _ _ _ _ b hb

theorem forall₂_rewritten_eq {l l2 : List Binding}
    (h : List.Forall₂ Binding.Rewritten l l2)
    (hl : ∀ b ∈ l, ∀ b2, Binding.Rewritten b b2 → b2 = b) : l2 = l := by
  induction h with
  | nil => rfl
  | cons hab _ ih =>
    rw [hl _ (List.mem_cons_self _ _) _ hab, ih (fun b hb => hl b (List.mem_cons_of_mem _ hb))]

theorem forall₂_split {α β : Type} {R : α → β → Prop} (a : List α) :
    ∀ {b : List α} {l : List β}, List.Forall₂ R (a ++ b) l →
      ∃ la lb, l = la ++ lb ∧ List.Forall₂ R a la ∧ List.Forall₂ R b lb := by
  induction a with
  | nil => intro b l h; exact ⟨[], l, rfl, List.Forall₂.nil, h⟩
  | cons x rest ih =>
    intro b l h
    rw [List.cons_append] at h
    cases h with
    | cons hx hr =>
      obtain ⟨la, lb, rfl, h1, h2⟩ := ih hr
      exact ⟨_ :: la, lb, rfl, List.Forall₂.cons hx h1, h2⟩

theorem forall₂_rewritten_alias {l l2 : List Binding}
    (h : List.Forall₂ Binding.Rewritten l l2)
    (hl : ∀ b ∈ l, ∃ g, b.value = .Alias g) : ∀ b ∈ l2, ∃ g, b.value = .Alias g := by
  induction h with
  | nil => intro b hb; cases hb
  | cons hab _ ih =>
    intro b hb
    rcases List.mem_cons.mp hb with rfl | hb
    · obtain ⟨g, hg⟩ := hl _ (List.mem_cons_self _ _)
      have := hab.2
      rw [hg] at this
      exact ⟨g, this⟩
    · exact ih (fun b hb => hl b (List.mem_cons_of_mem _ hb)) b hb

/-- The entry block of the graph `build` returns, in terms of the dealiased graph:
what dead-store elimination leaves of some bindings, of the prelude and of the
bindings after it. -/
theorem build_entry_exprs {gs : GlobalState} {md : ast.MethodDef} {c : CFG}
    (h : build gs md = .ok c) :
    ∃ gsD cD, CFG.buildDealiased gs md = .ok (gsD, cD) ∧ ∃ pre post,
      (c.blockAt CFG.entry).exprs = removeDeadVariables cD.readsMap pre ++
        removeDeadVariables cD.readsMap (prelude gs md) ++
        removeDeadVariables cD.readsMap post ∧
      ∀ b ∈ pre, ∃ g, b.value = .Alias g := by
  obtain ⟨gs1, c1, c2, c3, gs4, h1, h2, h3, h4⟩ := build_stages h
  have hD2 : CFG.buildDealiased gs md = .ok (gs1, c3) := by
    unfold CFG.buildDealiased
    rw [h1]
    simp only [bind, Except.bind]
    rw [h2]
    simp only
    rw [h3]
    rfl
  obtain ⟨_, pre, post, he, hpre⟩ := buildGraph_spec h1
  have e2 := ((fillInTopoSorts_blocks h2).2 CFG.entry).1
  have e3 := ((dealias_onlyOperands h3).2 CFG.entry).2
  rw [e2, he] at e3
  obtain ⟨l12, post3, e12, h12, hpost⟩ := forall₂_split _ e3
  obtain ⟨pre3, mid3, rfl, hpre3, hmid3⟩ := forall₂_split _ h12
  have hmid := forall₂_rewritten_eq hmid3 (fun b hb => (prelude_sideEffectFree gs md b hb).2)
  subst hmid
  refine ⟨gs1, c3, hD2, pre3, post3, ?_, forall₂_rewritten_alias hpre3 hpre⟩
  rw [(fillInBlockArguments_blockAt h4 CFG.entry).2.2.2, e12]
  simp only [removeDeadVariables, List.filter_append]

/-! ## `minLoops` -/

theorem info_local {gs : GlobalState} {w : SymbolRef} (h : (gs.info w).isLocalVariable = true) :
    GlobalState.firstUserId ≤ w ∧ w - GlobalState.firstUserId < gs.symbols.length := by
  unfold GlobalState.info at h
  by_cases h1 : w < GlobalState.firstUserId
  · rw [if_pos h1] at h
    cases h
  · rw [if_neg h1] at h
    refine ⟨Nat.le_of_not_lt h1, ?_⟩
    by_contra h2
    rw [List.getD_eq_getElem?_getD, List.getElem?_eq_none (Nat.le_of_not_lt h2)] at h
    cases h

theorem sub_five_ne (w s : Nat) (h1 : 5 ≤ w) (h2 : 5 ≤ s) (h : s ≠ w) : ¬ (w - 5 = s - 5) := by
  omega

theorem info_setMinLoops_ne (gs : GlobalState) (w s : SymbolRef) (v : Int) (h : s ≠ w) :
    (gs.setMinLoops w v).info s = gs.info s := by
  unfold GlobalState.setMinLoops
  split
  · rfl
  · rename_i hw
    unfold GlobalState.info
    split
    · rfl
    · rename_i hs
      have h5 : GlobalState.firstUserId = 5 := rfl
      rw [h5] at hw hs ⊢
      have := sub_five_ne w s (Nat.le_of_not_lt hw) (Nat.le_of_not_lt hs) h
      simp [List.getD_eq_getElem?_getD, List.getElem?_modify, this]

theorem info_setMinLoops_self (gs : GlobalState) (w : SymbolRef) (v : Int)
    (h : (gs.info w).isLocalVariable = true) :
    (gs.setMinLoops w v).info w = { gs.info w with minLoops := v } := by
  obtain ⟨h1, h2⟩ := info_local h
  unfold GlobalState.setMinLoops GlobalState.info
  have h3 : ¬ w < GlobalState.firstUserId := Nat.not_lt.mpr h1
  simp [if_neg h3, List.getD_eq_getElem?_getD, List.getElem?_modify,
    List.getElem?_eq_getElem h2]

theorem lowerFold_spec (c : CFG) (w : SymbolRef) (blocks : List Nat) :
    ∀ gs : GlobalState, (gs.info w).isLocalVariable = true →
      (∀ s, s ≠ w → ((blocks.foldl (fun gs bb =>
        if (gs.info w).minLoops > c.outerLoopsOf bb then gs.setMinLoops w (c.outerLoopsOf bb)
        else gs) gs).info s = gs.info s)) ∧
      ∃ m, (blocks.foldl (fun gs bb =>
        if (gs.info w).minLoops > c.outerLoopsOf bb then gs.setMinLoops w (c.outerLoopsOf bb)
        else gs) gs).info w = { gs.info w with minLoops := m } ∧
        IsMinOf m (gs.info w).minLoops (fun x => ∃ bb ∈ blocks, c.outerLoopsOf bb = x) := by
  induction blocks with
  | nil =>
    intro gs _
    refine ⟨fun _ _ => rfl, (gs.info w).minLoops, rfl, ⟨le_refl _, ?_, Or.inl rfl⟩⟩
    rintro x ⟨bb, hb, _⟩
    cases hb
  | cons b rest ih =>
    intro gs hl
    simp only [List.foldl_cons]
    split
    · rename_i hgt
      have e0 := info_setMinLoops_self gs w (c.outerLoopsOf b) hl
      have hl2 : ((gs.setMinLoops w (c.outerLoopsOf b)).info w).isLocalVariable = true := by
        rw [e0]; exact hl
      obtain ⟨f1, m, e1, m1, m2, m3⟩ := ih _ hl2
      rw [e0] at e1 m1 m3
      refine ⟨fun s hs => by rw [f1 s hs, info_setMinLoops_ne _ _ _ _ hs], m, e1, ⟨?_, ?_, ?_⟩⟩
      · simp only at m1
        omega
      · rintro x ⟨bb, hb, rfl⟩
        rcases List.mem_cons.mp hb with rfl | hb
        · exact m1
        · exact m2 _ ⟨bb, hb, rfl⟩
      · rcases m3 with m3 | ⟨bb, hb, hx⟩
        · exact Or.inr ⟨b, List.mem_cons_self _ _, m3.symm⟩
        · exact Or.inr ⟨bb, List.mem_cons_of_mem _ hb, hx⟩
    · rename_i hgt
      obtain ⟨f1, m, e1, m1, m2, m3⟩ := ih _ hl
      refine ⟨f1, m, e1, ⟨m1, ?_, ?_⟩⟩
      · rintro x ⟨bb, hb, rfl⟩
        rcases List.mem_cons.mp hb with rfl | hb
        · omega
        · exact m2 _ ⟨bb, hb, rfl⟩
      · rcases m3 with m3 | ⟨bb, hb, hx⟩
        · exact Or.inl m3
        · exact Or.inr ⟨bb, List.mem_cons_of_mem _ hb, hx⟩

/-- What lowering `minLoops` of `w` over `blocks` does to the symbol table. -/
theorem lowerMinLoops_spec (c : CFG) (w : SymbolRef) (blocks : List Nat) (gs : GlobalState) :
    (∀ s, s ≠ w → (lowerMinLoops c gs w blocks).info s = gs.info s) ∧
    ((gs.info w).isLocalVariable = false → lowerMinLoops c gs w blocks = gs) ∧
    ((gs.info w).isLocalVariable = true →
      ∃ m, (lowerMinLoops c gs w blocks).info w = { gs.info w with minLoops := m } ∧
        IsMinOf m (gs.info w).minLoops (fun x => ∃ bb ∈ blocks, c.outerLoopsOf bb = x)) := by
  by_cases hl : (gs.info w).isLocalVariable = true
  · have e : lowerMinLoops c gs w blocks = blocks.foldl (fun gs bb =>
        if (gs.info w).minLoops > c.outerLoopsOf bb then gs.setMinLoops w (c.outerLoopsOf bb)
        else gs) gs := by
      simp [lowerMinLoops, hl]
    rw [e]
    obtain ⟨f1, f2⟩ := lowerFold_spec c w blocks gs hl
    refine ⟨f1, fun h => ?_, fun _ => f2⟩
    rw [hl] at h
    cases h
  · have hl2 : (gs.info w).isLocalVariable = false := by simpa using hl
    have e : lowerMinLoops c gs w blocks = gs := by simp [lowerMinLoops, hl2]
    rw [e]
    exact ⟨fun _ _ => rfl, fun _ => rfl, fun h => absurd h hl⟩

theorem IsMinOf.both {m1 m2 a : Int} {S1 S2 : Int → Prop} (h1 : IsMinOf m1 a S1)
    (h2 : IsMinOf m2 m1 S2) : IsMinOf m2 a (fun x => S1 x ∨ S2 x) := by
  obtain ⟨a1, a2, a3⟩ := h1
  obtain ⟨b1, b2, b3⟩ := h2
  refine ⟨le_trans b1 a1, ?_, ?_⟩
  · rintro x (hx | hx)
    · exact le_trans b1 (a2 x hx)
    · exact b2 x hx
  · rcases b3 with b3 | b3
    · rcases a3 with a3 | a3
      · exact Or.inl (b3.trans a3)
      · exact Or.inr (Or.inl (by rw [b3]; exact a3))
    · exact Or.inr (Or.inr b3)

theorem IsMinOf.of_iff {m a : Int} {S T : Int → Prop} (h : IsMinOf m a S)
    (hst : ∀ x, S x ↔ T x) : IsMinOf m a T := by
  obtain ⟨a1, a2, a3⟩ := h
  refine ⟨a1, fun x hx => a2 x ((hst x).mpr hx), ?_⟩
  rcases a3 with a3 | a3
  · exact Or.inl a3
  · exact Or.inr ((hst m).mp a3)

/-- What the loops of lines 148-160 and 162-174 do to the symbol table. -/
theorem lowerAllMinLoops_spec (c : CFG) (m : List (SymbolRef × List Nat)) :
    ∀ (gs : GlobalState) (s : SymbolRef),
      ((gs.info s).isLocalVariable = false → (lowerAllMinLoops c m gs).info s = gs.info s) ∧
      ((gs.info s).isLocalVariable = true →
        ∃ mm, (lowerAllMinLoops c m gs).info s = { gs.info s with minLoops := mm } ∧
          IsMinOf mm (gs.info s).minLoops
            (fun x => ∃ pair ∈ m, pair.1 = s ∧ ∃ bb ∈ pair.2, c.outerLoopsOf bb = x)) := by
  induction m with
  | nil =>
    intro gs s
    refine ⟨fun _ => rfl, fun _ => ⟨(gs.info s).minLoops, rfl, ⟨le_refl _, ?_, Or.inl rfl⟩⟩⟩
    rintro x ⟨pair, hp, _⟩
    cases hp
  | cons e rest ih =>
    intro gs s
    obtain ⟨k, B⟩ := e
    have hfold : lowerAllMinLoops c ((k, B) :: rest) gs =
        lowerAllMinLoops c rest (lowerMinLoops c gs k B) := rfl
    rw [hfold]
    obtain ⟨f1, f2, f3⟩ := lowerMinLoops_spec c k B gs
    obtain ⟨i1, i2⟩ := ih (lowerMinLoops c gs k B) s
    by_cases hs : s = k
    · subst hs
      constructor
      · intro hl
        rw [f2 hl] at i1 ⊢
        exact i1 hl
      · intro hl
        obtain ⟨m1, e1, hm1⟩ := f3 hl
        have hl2 : ((lowerMinLoops c gs s B).info s).isLocalVariable = true := by
          rw [e1]; exact hl
        obtain ⟨m2, e2, hm2⟩ := i2 hl2
        rw [e1] at e2 hm2
        refine ⟨m2, e2, (hm1.both hm2).of_iff (fun x => ?_)⟩
        constructor
        · rintro (⟨bb, hb, hx⟩ | ⟨pair, hp, hk, hx⟩)
          · exact ⟨(s, B), List.mem_cons_self _ _, rfl, bb, hb, hx⟩
          · exact ⟨pair, List.mem_cons_of_mem _ hp, hk, hx⟩
        · rintro ⟨pair, hp, hk, hx⟩
          rcases List.mem_cons.mp hp with rfl | hp
          · exact Or.inl hx
          · exact Or.inr ⟨pair, hp, hk, hx⟩
    · rw [f1 s hs] at i1 i2
      refine ⟨i1, fun hl => ?_⟩
      obtain ⟨m2, e2, hm2⟩ := i2 hl
      refine ⟨m2, e2, hm2.of_iff (fun x => ?_)⟩
      constructor
      · rintro ⟨pair, hp, hk, hx⟩
        exact ⟨pair, List.mem_cons_of_mem _ hp, hk, hx⟩
      · rintro ⟨pair, hp, hk, hx⟩
        rcases List.mem_cons.mp hp with rfl | hp
        · exact absurd hk.symm hs
        · exact ⟨pair, hp, hk, hx⟩

theorem mem_keys_mapSet {β : Type} (m : List (SymbolRef × β)) (k : SymbolRef) (v : β)
    (k2 : SymbolRef) :
    k2 ∈ (mapSet m k v).map Prod.fst ↔ k2 ∈ m.map Prod.fst ∨ k2 = k := by
  induction m with
  | nil => simp [mapSet]
  | cons hd tl ih =>
    obtain ⟨k1, v1⟩ := hd
    by_cases h1 : k1 = k
    · subst h1
      simp only [mapSet, if_true, List.map_cons, List.mem_cons]
      tauto
    · simp only [mapSet, if_neg h1, List.map_cons, List.mem_cons, ih]
      tauto

theorem keysNodup_mapSet {β : Type} (m : List (SymbolRef × β)) (k : SymbolRef) (v : β)
    (h : (m.map Prod.fst).Nodup) : ((mapSet m k v).map Prod.fst).Nodup := by
  induction m with
  | nil => simp [mapSet]
  | cons hd tl ih =>
    obtain ⟨k1, v1⟩ := hd
    simp only [List.map_cons, List.nodup_cons] at h
    by_cases h1 : k1 = k
    · subst h1
      simp only [mapSet, if_true, List.map_cons, List.nodup_cons]
      exact h
    · simp only [mapSet, if_neg h1, List.map_cons, List.nodup_cons, mem_keys_mapSet]
      refine ⟨?_, ih h.2⟩
      rintro (h2 | h2)
      · exact h.1 h2
      · exact h1 h2

theorem mem_iff_mapFind {β : Type} (m : List (SymbolRef × β)) (h : (m.map Prod.fst).Nodup)
    (k : SymbolRef) (v : β) : (k, v) ∈ m ↔ mapFind m k = some v := by
  induction m with
  | nil => simp [mapFind]
  | cons hd tl ih =>
    obtain ⟨k1, v1⟩ := hd
    simp only [List.map_cons, List.nodup_cons] at h
    by_cases h1 : k1 = k
    · subst h1
      simp only [List.mem_cons, Prod.mk.injEq, true_and, mapFind, if_true, Option.some.injEq]
      constructor
      · rintro (h2 | h2)
        · exact h2.symm
        · exact absurd (List.mem_map_of_mem Prod.fst h2) h.1
      · intro h2
        exact Or.inl h2.symm
    · simp only [List.mem_cons, Prod.mk.injEq, mapFind, if_neg h1, ih h.2]
      constructor
      · rintro (h2 | h2)
        · exact absurd h2.1.symm h1
        · exact h2
      · intro h2
        exact Or.inr h2

theorem Mentions_mapInsert (m : List (SymbolRef × List Nat)) (k0 : SymbolRef) (b0 : Nat)
    (k : SymbolRef) (bb : Nat) :
    Mentions (mapInsert m k0 b0) k bb ↔ Mentions m k bb ∨ (k = k0 ∧ bb = b0) := by
  unfold Mentions mapInsert
  rw [mapFind_mapSet]
  by_cases h : k0 = k
  · subst h
    simp only [if_true, Option.some.injEq, exists_eq_left', mem_setInsert, true_and]
    cases hf : mapFind m k0 with
    | none => simp
    | some B => simp
  · simp only [if_neg h]
    constructor
    · intro h2
      exact Or.inl h2
    · rintro (h2 | ⟨h2, _⟩)
      · exact h2
      · exact absurd h2.symm h

theorem Mentions_foldl_mapInsert (b0 : Nat) (ws : List SymbolRef) :
    ∀ (m : List (SymbolRef × List Nat)) (k : SymbolRef) (bb : Nat),
      Mentions (ws.foldl (fun r what => mapInsert r what b0) m) k bb ↔
        Mentions m k bb ∨ (k ∈ ws ∧ bb = b0) := by
  induction ws with
  | nil => intro m k bb; simp
  | cons w rest ih =>
    intro m k bb
    simp only [List.foldl_cons, ih, Mentions_mapInsert, List.mem_cons]
    tauto

theorem keysNodup_foldl_mapInsert (b0 : Nat) (ws : List SymbolRef) :
    ∀ (m : List (SymbolRef × List Nat)), (m.map Prod.fst).Nodup →
      ((ws.foldl (fun r what => mapInsert r what b0) m).map Prod.fst).Nodup := by
  induction ws with
  | nil => intro m h; exact h
  | cons w rest ih =>
    intro m h
    exact ih _ (keysNodup_mapSet _ _ _ h)

theorem collectBindings_spec (b0 : Nat) (exprs : List Binding) :
    ∀ (rw : ReadsWrites), (rw.1.map Prod.fst).Nodup → (rw.2.map Prod.fst).Nodup →
      (((exprs.foldl (collectBinding b0) rw).1.map Prod.fst).Nodup ∧
       ((exprs.foldl (collectBinding b0) rw).2.map Prod.fst).Nodup) ∧
      ∀ k bb,
        (Mentions (exprs.foldl (collectBinding b0) rw).1 k bb ↔
          Mentions rw.1 k bb ∨ (bb = b0 ∧ ∃ bind ∈ exprs, bind.value.hasOperand k)) ∧
        (Mentions (exprs.foldl (collectBinding b0) rw).2 k bb ↔
          Mentions rw.2 k bb ∨ (bb = b0 ∧ ∃ bind ∈ exprs, bind.bind = k)) := by
  induction exprs with
  | nil => intro rw h1 h2; exact ⟨⟨h1, h2⟩, fun k bb => by simp⟩
  | cons b rest ih =>
    intro rw h1 h2
    simp only [List.foldl_cons]
    have n1 : ((collectBinding b0 rw b).1.map Prod.fst).Nodup :=
      keysNodup_foldl_mapInsert _ _ _ h1
    have n2 : ((collectBinding b0 rw b).2.map Prod.fst).Nodup := keysNodup_mapSet _ _ _ h2
    obtain ⟨hn, hm⟩ := ih _ n1 n2
    refine ⟨hn, fun k bb => ?_⟩
    obtain ⟨m1, m2⟩ := hm k bb
    rw [m1, m2]
    have r1 : Mentions (collectBinding b0 rw b).1 k bb ↔
        Mentions rw.1 k bb ∨ (b.value.hasOperand k ∧ bb = b0) := by
      simp only [collectBinding, Mentions_foldl_mapInsert, mem_instructionReads]
    have r2 : Mentions (collectBinding b0 rw b).2 k bb ↔
        Mentions rw.2 k bb ∨ (k = b.bind ∧ bb = b0) := by
      simp only [collectBinding, Mentions_mapInsert]
    rw [r1, r2]
    simp only [List.mem_cons, exists_eq_or_imp]
    constructor
    · constructor
      · rintro ((h | ⟨h1, h2⟩) | ⟨h1, h2⟩)
        · exact Or.inl h
        · exact Or.inr ⟨h2, Or.inl h1⟩
        · exact Or.inr ⟨h1, Or.inr h2⟩
      · rintro (h | ⟨h1, h2 | h2⟩)
        · exact Or.inl (Or.inl h)
        · exact Or.inl (Or.inr ⟨h2, h1⟩)
        · exact Or.inr ⟨h1, h2⟩
    · constructor
      · rintro ((h | ⟨h1, h2⟩) | ⟨h1, h2⟩)
        · exact Or.inl h
        · exact Or.inr ⟨h2, Or.inl h1.symm⟩
        · exact Or.inr ⟨h1, Or.inr h2⟩
      · rintro (h | ⟨h1, h2 | h2⟩)
        · exact Or.inl (Or.inl h)
        · exact Or.inl (Or.inr ⟨h2.symm, h1⟩)
        · exact Or.inr ⟨h1, h2⟩

theorem collectBlock_spec (b0 : Nat) (b : BasicBlock) (rw : ReadsWrites)
    (h1 : (rw.1.map Prod.fst).Nodup) (h2 : (rw.2.map Prod.fst).Nodup) :
    (((collectBlock b0 b rw).1.map Prod.fst).Nodup ∧
     ((collectBlock b0 b rw).2.map Prod.fst).Nodup) ∧
    ∀ k bb,
      (Mentions (collectBlock b0 b rw).1 k bb ↔
        Mentions rw.1 k bb ∨ (bb = b0 ∧ b.readsSym k)) ∧
      (Mentions (collectBlock b0 b rw).2 k bb ↔
        Mentions rw.2 k bb ∨ (bb = b0 ∧ b.writesSym k)) := by
  obtain ⟨⟨n1, n2⟩, hm⟩ := collectBindings_spec b0 b.exprs rw h1 h2
  unfold collectBlock
  simp only
  split
  · rename_i hc
    refine ⟨⟨keysNodup_mapSet _ _ _ n1, n2⟩, fun k bb => ?_⟩
    obtain ⟨m1, m2⟩ := hm k bb
    refine ⟨?_, m2⟩
    simp only [Mentions_mapInsert, m1, BasicBlock.readsSym, BasicBlock.branchesOn]
    constructor
    · rintro ((h | ⟨h3, h4⟩) | ⟨h3, h4⟩)
      · exact Or.inl h
      · exact Or.inr ⟨h3, Or.inl h4⟩
      · exact Or.inr ⟨h4, Or.inr ⟨hc.1, hc.2, h3.symm⟩⟩
    · rintro (h | ⟨h3, h4 | ⟨_, _, h4⟩⟩)
      · exact Or.inl (Or.inl h)
      · exact Or.inl (Or.inr ⟨h3, h4⟩)
      · exact Or.inr ⟨h4.symm, h3⟩
  · rename_i hc
    refine ⟨⟨n1, n2⟩, fun k bb => ?_⟩
    obtain ⟨m1, m2⟩ := hm k bb
    refine ⟨?_, m2⟩
    simp only [m1, BasicBlock.readsSym, BasicBlock.branchesOn]
    constructor
    · rintro (h | ⟨h3, h4⟩)
      · exact Or.inl h
      · exact Or.inr ⟨h3, Or.inl h4⟩
    · rintro (h | ⟨h3, h4 | ⟨h5, h6, _⟩⟩)
      · exact Or.inl h
      · exact Or.inr ⟨h3, h4⟩
      · exact absurd ⟨h5, h6⟩ hc

theorem collectBlocks_spec (blocks : List BasicBlock) :
    ∀ (start : Nat) (rw : ReadsWrites), (rw.1.map Prod.fst).Nodup →
      (rw.2.map Prod.fst).Nodup →
      (((collectBlocks blocks start rw).1.map Prod.fst).Nodup ∧
       ((collectBlocks blocks start rw).2.map Prod.fst).Nodup) ∧
      ∀ k bb,
        (Mentions (collectBlocks blocks start rw).1 k bb ↔
          Mentions rw.1 k bb ∨
            ∃ i b, blocks[i]? = some b ∧ bb = start + i ∧ b.readsSym k) ∧
        (Mentions (collectBlocks blocks start rw).2 k bb ↔
          Mentions rw.2 k bb ∨
            ∃ i b, blocks[i]? = some b ∧ bb = start + i ∧ b.writesSym k) := by
  induction blocks with
  | nil =>
    intro start rw h1 h2
    refine ⟨⟨h1, h2⟩, fun k bb => ?_⟩
    simp [collectBlocks]
  | cons b rest ih =>
    intro start rw h1 h2
    obtain ⟨⟨n1, n2⟩, hm⟩ := collectBlock_spec start b rw h1 h2
    obtain ⟨hn, hr⟩ := ih (start + 1) _ n1 n2
    simp only [collectBlocks]
    refine ⟨hn, fun k bb => ?_⟩
    obtain ⟨r1, r2⟩ := hr k bb
    obtain ⟨m1, m2⟩ := hm k bb
    rw [r1, r2, m1, m2]
    constructor
    · constructor
      · rintro ((h | ⟨h3, h4⟩) | ⟨i, b2, h3, h4, h5⟩)
        · exact Or.inl h
        · exact Or.inr ⟨0, b, List.getElem?_cons_zero, by omega, h4⟩
        · exact Or.inr ⟨i + 1, b2, by simpa using h3, by omega, h5⟩
      · rintro (h | ⟨i, b2, h3, h4, h5⟩)
        · exact Or.inl (Or.inl h)
        · cases i with
          | zero =>
            simp only [List.getElem?_cons_zero, Option.some.injEq] at h3
            subst h3
            exact Or.inl (Or.inr ⟨by omega, h5⟩)
          | succ j =>
            exact Or.inr ⟨j, b2, by simpa using h3, by omega, h5⟩
    · constructor
      · rintro ((h | ⟨h3, h4⟩) | ⟨i, b2, h3, h4, h5⟩)
        · exact Or.inl h
        · exact Or.inr ⟨0, b, List.getElem?_cons_zero, by omega, h4⟩
        · exact Or.inr ⟨i + 1, b2, by simpa using h3, by omega, h5⟩
      · rintro (h | ⟨i, b2, h3, h4, h5⟩)
        · exact Or.inl (Or.inl h)
        · cases i with
          | zero =>
            simp only [List.getElem?_cons_zero, Option.some.injEq] at h3
            subst h3
            exact Or.inl (Or.inr ⟨by omega, h5⟩)
          | succ j =>
            exact Or.inr ⟨j, b2, by simpa using h3, by omega, h5⟩

/-- The maps `reads` and `writes` of lines 118-146: a block is in the set of a symbol
exactly when it reads, or writes, the symbol; and no key occurs twice. -/
theorem readsWrites_spec (c : CFG) :
    ((c.readsMap.map Prod.fst).Nodup ∧ (c.writesMap.map Prod.fst).Nodup) ∧
    ∀ k bb,
      (Mentions c.readsMap k bb ↔ bb < c.basicBlocks.length ∧ (c.blockAt bb).readsSym k) ∧
      (Mentions c.writesMap k bb ↔ bb < c.basicBlocks.length ∧ (c.blockAt bb).writesSym k) := by
  obtain ⟨hn, hm⟩ := collectBlocks_spec c.basicBlocks 0 ([], []) List.nodup_nil List.nodup_nil
  refine ⟨hn, fun k bb => ?_⟩
  obtain ⟨m1, m2⟩ := hm k bb
  have hno : ∀ k bb, ¬ Mentions ([] : List (SymbolRef × List Nat)) k bb := by
    rintro k bb ⟨B, hB, _⟩
    cases hB
  have hblock : ∀ (P : BasicBlock → Prop),
      (∃ i b, c.basicBlocks[i]? = some b ∧ bb = 0 + i ∧ P b) ↔
        bb < c.basicBlocks.length ∧ P (c.blockAt bb) := by
    intro P
    constructor
    · rintro ⟨i, b, h3, h4, h5⟩
      have hi : bb = i := by omega
      subst hi
      obtain ⟨hlt, hb⟩ := List.getElem?_eq_some_iff.mp h3
      refine ⟨hlt, ?_⟩
      simp only [CFG.blockAt, List.getD_eq_getElem?_getD, h3, Option.getD_some]
      exact h5
    · rintro ⟨h3, h4⟩
      refine ⟨bb, c.blockAt bb, ?_, by omega, h4⟩
      simp [CFG.blockAt, List.getD_eq_getElem?_getD, List.getElem?_eq_getElem h3]
  constructor
  · unfold CFG.readsMap
    rw [m1, ← hblock (fun b => b.readsSym k)]
    constructor
    · rintro (h | h)
      · exact absurd h (hno _ _)
      · exact h
    · exact Or.inr
  · unfold CFG.writesMap
    rw [m2, ← hblock (fun b => b.writesSym k)]
    constructor
    · rintro (h | h)
      · exact absurd h (hno _ _)
      · exact h
    · exact Or.inr

theorem fillInBlockArguments_gs {gs gs2 : GlobalState} {c c2 : CFG}
    (h : c.fillInBlockArguments gs = .ok (gs2, c2)) :
    gs2 = lowerAllMinLoops c c.writesMap (lowerAllMinLoops c c.readsMap gs) := by
  unfold CFG.fillInBlockArguments at h
  by_cases hn : c.basicBlocks.length < 2
  · simp [hn, throw, throwThe, MonadExceptOf.throw, bind, Except.bind] at h
  · simp only [hn, if_false, bind, Except.bind, pure, Except.pure] at h
    split at h
    · cases h
    · split at h
      · cases h
      · split at h
        · cases h
        · cases h
          rfl

/-- C16: after `fillInBlockArguments`, for every symbol `s` that is a local variable,
`minLoops(s)` is the minimum of its previous `minLoops` and of the `outerLoops` of
every block that reads `s` (in a binding operand or as a real conditional terminator)
or writes `s`, the other fields of the symbol being as before; symbols that are not
local variables are as before, `minLoops` included. -/
theorem fillInBlockArguments_minLoops (gs gs2 : GlobalState) (c c2 : CFG)
    (h : c.fillInBlockArguments gs = .ok (gs2, c2)) (s : SymbolRef) :
    ((gs.info s).isLocalVariable = false → gs2.info s = gs.info s) ∧
    ((gs.info s).isLocalVariable = true →
      gs2.info s = { gs.info s with minLoops := (gs2.info s).minLoops } ∧
      IsMinOf (gs2.info s).minLoops (gs.info s).minLoops (c.touchDepth s)) := by
  have hg := fillInBlockArguments_gs h
  subst hg
  obtain ⟨⟨n1, n2⟩, hm⟩ := readsWrites_spec c
  obtain ⟨a1, a2⟩ := lowerAllMinLoops_spec c c.readsMap gs s
  obtain ⟨b1, b2⟩ := lowerAllMinLoops_spec c c.writesMap (lowerAllMinLoops c c.readsMap gs) s
  constructor
  · intro hl
    rw [a1 hl] at b1
    exact b1 hl
  · intro hl
    obtain ⟨m1, e1, hm1⟩ := a2 hl
    rw [e1] at b2
    obtain ⟨m2, e2, hm2⟩ := b2 hl
    rw [e2]
    refine ⟨rfl, (hm1.both hm2).of_iff (fun x => ?_)⟩
    have hr : ∀ (m : List (SymbolRef × List Nat)), (m.map Prod.fst).Nodup →
        ((∃ pair ∈ m, pair.1 = s ∧ ∃ bb ∈ pair.2, c.outerLoopsOf bb = x) ↔
          ∃ bb, Mentions m s bb ∧ c.outerLoopsOf bb = x) := by
      intro m hnd
      constructor
      · rintro ⟨⟨k, B⟩, hp, rfl, bb, hb, hx⟩
        exact ⟨bb, ⟨B, (mem_iff_mapFind m hnd _ _).mp hp, hb⟩, hx⟩
      · rintro ⟨bb, ⟨B, hB, hb⟩, hx⟩
        exact ⟨(s, B), (mem_iff_mapFind m hnd _ _).mpr hB, rfl, bb, hb, hx⟩
    rw [hr _ n1, hr _ n2]
    unfold CFG.touchDepth
    constructor
    · rintro (⟨bb, hM, hx⟩ | ⟨bb, hM, hx⟩)
      · obtain ⟨h3, h4⟩ := (hm s bb).1.mp hM
        exact ⟨bb, h3, Or.inl h4, hx⟩
      · obtain ⟨h3, h4⟩ := (hm s bb).2.mp hM
        exact ⟨bb, h3, Or.inr h4, hx⟩
    · rintro ⟨bb, h3, h4 | h4, hx⟩
      · exact Or.inl ⟨bb, (hm s bb).1.mpr ⟨h3, h4⟩, hx⟩
      · exact Or.inr ⟨bb, (hm s bb).2.mpr ⟨h3, h4⟩, hx⟩

/-- Witness of C16: `fillInBlockArguments` returns on the graph of scenario S5 with
its symbol table. -/
theorem fillInBlockArguments_minLoops_witness :
    S5.graph.fillInBlockArguments S5.symbols = .ok (S5.lowered, S5.cfg) ∧
    ∀ s,
      ((S5.symbols.info s).isLocalVariable = false → S5.lowered.info s = S5.symbols.info s) ∧
      ((S5.symbols.info s).isLocalVariable = true →
        S5.lowered.info s =
          { S5.symbols.info s with minLoops := (S5.lowered.info s).minLoops } ∧
        IsMinOf (S5.lowered.info s).minLoops (S5.symbols.info s).minLoops
          (S5.graph.touchDepth s)) :=
  ⟨S5_fill_symbols,
    fillInBlockArguments_minLoops S5.symbols S5.lowered S5.graph S5.cfg S5_fill_symbols⟩

/-! ## What `walk` hands back -/

theorem KeepsExits.rfl_exits (c : CFG) (x : Nat) : KeepsExits c c x :=
  ⟨le_refl _, fun _ _ _ => rfl⟩

theorem KeepsExits.chain {a b c : CFG} {x y : Nat} (h1 : KeepsExits a b x)
    (h2 : KeepsExits b c y)
    (hy : y = x ∨ a.basicBlocks.length ≤ y ∨ y = CFG.deadBlock) : KeepsExits a c x := by
  refine ⟨le_trans h1.1 h2.1, fun p hp hx => ?_⟩
  rw [← h1.2 p hp hx]
  apply h2.2 p (lt_of_lt_of_le hp h1.1)
  by_cases hd : p = CFG.deadBlock
  · exact Or.inr hd
  · refine Or.inl ?_
    rcases hy with rfl | hy | rfl
    · exact hx.resolve_right hd
    · omega
    · exact hd

theorem SameExits.keeps {c c2 : CFG} (h : SameExits c c2) (x : Nat) : KeepsExits c c2 x :=
  ⟨by rw [h.1], fun p _ _ => h.2 p⟩

theorem KeepsExits.chain_same {a b c : CFG} {x : Nat} (h1 : KeepsExits a b x)
    (h2 : SameExits b c) : KeepsExits a c x :=
  ⟨by rw [h2.1]; exact h1.1, fun p hp hx => by rw [h2.2 p, h1.2 p hp hx]⟩

theorem SameExits_emplace {c c2 : CFG} {p : Nat} {bind : SymbolRef} {v : Instruction}
    (h : c.emplace p bind v = .ok c2) : SameExits c c2 := by
  obtain ⟨_, hl, hb⟩ := emplace_ok h
  refine ⟨hl, fun q => ?_⟩
  rw [hb q]
  split <;> rfl

theorem SameExits_loadBlockArgs (recv : SymbolRef) (fn : NameRef) (bodyBlock : Nat)
    (args : List ast.Expression) :
    ∀ (i : Int) (c c2 : CFG), loadBlockArgs recv fn bodyBlock args i c = .ok c2 →
      SameExits c c2 := by
  induction args with
  | nil =>
    intro i c c2 h
    simp only [loadBlockArgs, pure, Except.pure, Except.ok.injEq] at h
    subst h
    exact ⟨rfl, fun _ => rfl⟩
  | cons a rest ih =>
    intro i c c2 h
    cases a
    case Ident symbol =>
      simp only [loadBlockArgs] at h
      obtain ⟨c1, hc1, h2⟩ := bind_ok h
      have s1 := SameExits_emplace hc1
      have s2 := ih _ _ _ h2
      exact ⟨by rw [s2.1, s1.1], fun p => by rw [s2.2 p, s1.2 p]⟩
    all_goals
      simp only [loadBlockArgs] at h
      exact ih _ _ _ h

theorem KeepsExits_freshBlock (c : CFG) (l : Int) (x : Nat) :
    KeepsExits c (c.freshBlock l).2 x := by
  refine ⟨by rw [length_freshBlock]; omega, fun p hp _ => ?_⟩
  rw [blockAt_freshBlock, if_neg (Nat.ne_of_lt hp)]

theorem freshBlock_unset (c : CFG) (l : Int) :
    ((c.freshBlock l).2.blockAt c.basicBlocks.length).bexit.cond = 0 := by
  rw [blockAt_freshBlock, if_pos rfl]

theorem exits_of_Linked {c c2 : CFG} {f : Nat} {cnd : SymbolRef} {t e : Nat} {ts : List Nat}
    (h : Linked c c2 f cnd t e ts) (hf : f ≠ CFG.deadBlock) : KeepsExits c c2 f := by
  refine ⟨by rw [h.1], fun p _ hx => ?_⟩
  rw [h.2 p]
  have hpf : p ≠ f := by
    rcases hx with hx | hx
    · exact hx
    · rw [hx]; exact Ne.symm hf
  simp [hpf]

theorem conditionalJump_exits {c c2 : CFG} {f t e : Nat} {cnd : SymbolRef}
    (h : conditionalJump f cnd t e c = .ok c2) :
    KeepsExits c c2 f ∧ c2.basicBlocks.length = c.basicBlocks.length := by
  by_cases hd : f = CFG.deadBlock
  · subst hd
    simp [conditionalJump, pure, Except.pure] at h
    subst h
    exact ⟨KeepsExits.rfl_exits _ _, rfl⟩
  · have hl := (conditionalJump_ok h hd).2.2.2.2
    exact ⟨exits_of_Linked hl hd, hl.1⟩

theorem unconditionalJump_exits {c c2 : CFG} {f t : Nat}
    (h : unconditionalJump f t c = .ok c2) :
    KeepsExits c c2 f ∧ c2.basicBlocks.length = c.basicBlocks.length := by
  by_cases hd : f = CFG.deadBlock
  · subst hd
    simp [unconditionalJump, pure, Except.pure] at h
    subst h
    exact ⟨KeepsExits.rfl_exits _ _, rfl⟩
  · have hl := (unconditionalJump_ok h hd).2.2.2
    exact ⟨exits_of_Linked hl hd, hl.1⟩

theorem jumpToDead_exits {c c2 : CFG} {f : Nat} (h : jumpToDead f c = .ok c2) :
    KeepsExits c c2 f ∧ c2.basicBlocks.length = c.basicBlocks.length := by
  by_cases hd : f = CFG.deadBlock
  · subst hd
    simp [jumpToDead, pure, Except.pure] at h
    subst h
    exact ⟨KeepsExits.rfl_exits _ _, rfl⟩
  · have hl := (jumpToDead_ok h hd).2.2.2
    exact ⟨exits_of_Linked hl hd, hl.1⟩

theorem KeepsExits.unset {a b : CFG} {x p : Nat} (h : KeepsExits a b x)
    (hp : p < a.basicBlocks.length) (hx : p ≠ x ∨ p = CFG.deadBlock)
    (hu : (a.blockAt p).bexit.cond = 0) :
    p < b.basicBlocks.length ∧ (b.blockAt p).bexit.cond = 0 :=
  ⟨lt_of_lt_of_le hp h.1, by rw [h.2 p hp hx]; exact hu⟩

/-- The range of the block a run of `walk` returned, for the next step. -/
theorem Handed.range {st st2 : BuildState} {cur ret : Nat} (h : Handed st st2 cur ret) :
    ret = cur ∨ st.inWhat.basicBlocks.length ≤ ret ∨ ret = CFG.deadBlock := by
  rcases h.2 with h1 | ⟨_, _, h1 | h1⟩
  · exact Or.inr (Or.inr h1)
  · exact Or.inl h1
  · exact Or.inr (Or.inl h1)

theorem Handed.step_handed {st st1 st2 : BuildState} {cur r1 r2 : Nat}
    (h1 : Handed st st1 cur r1) (h2 : Handed st1 st2 r1 r2) : Handed st st2 cur r2 := by
  refine ⟨h1.1.chain h2.1 h1.range, ?_⟩
  rcases h2.2 with h | ⟨a1, a2, a3 | a3⟩
  · exact Or.inl h
  · subst a3
    rcases h1.range with e | e | e
    · exact Or.inr ⟨a1, a2, Or.inl e⟩
    · exact Or.inr ⟨a1, a2, Or.inr e⟩
    · exact Or.inl e
  · exact Or.inr ⟨a1, a2, Or.inr (le_trans h1.1.1 a3)⟩

theorem emit_handed {st st2 : BuildState} {current ret : Nat} {target : SymbolRef}
    {v : Instruction} {u : Unit}
    (hu : checkUnset st.inWhat current = .ok u)
    (h : (do
      let st ← st.onCFG (fun c => c.emplace current target v)
      pure (current, st) : Except Err (Nat × BuildState)) = .ok (ret, st2)) :
    Handed st st2 current ret := by
  obtain ⟨st1, h1, h2⟩ := bind_ok h
  obtain ⟨c1, hc1, rfl⟩ := onCFG_ok h1
  simp only [pure, Except.pure, Except.ok.injEq, Prod.mk.injEq] at h2
  obtain ⟨rfl, rfl⟩ := h2
  have s1 := SameExits_emplace hc1
  obtain ⟨hlt, hc⟩ := checkUnset_ok hu
  exact ⟨s1.keeps _, Or.inr ⟨by rw [s1.1]; exact hlt, by rw [s1.2]; exact hc, Or.inl rfl⟩⟩

theorem Handed.same_after {st st1 st2 : BuildState} {cur r : Nat} (h : Handed st st1 cur r)
    (hs : SameExits st1.inWhat st2.inWhat) : Handed st st2 cur r := by
  refine ⟨h.1.chain_same hs, ?_⟩
  rcases h.2 with h1 | ⟨a1, a2, a3⟩
  · exact Or.inl h1
  · exact Or.inr ⟨by rw [hs.1]; exact a1, by rw [hs.2]; exact a2, a3⟩

theorem Handed.of_inWhat {st st0 st2 : BuildState} {cur r : Nat} (h : Handed st0 st2 cur r)
    (he : st0.inWhat = st.inWhat) : Handed st st2 cur r := by
  unfold Handed at h ⊢
  rw [he] at h
  exact h

theorem Handed.opened {st st2 : BuildState} {cur ret : Nat} (h : Handed st st2 cur ret) :
    ret = CFG.deadBlock ∨
      (ret < st2.inWhat.basicBlocks.length ∧ (st2.inWhat.blockAt ret).bexit.cond = 0) :=
  h.2.imp id (fun h => ⟨h.1, h.2.1⟩)

theorem Handed.stay {st : BuildState} {cur : Nat}
    (ho : cur = CFG.deadBlock ∨
      (cur < st.inWhat.basicBlocks.length ∧ (st.inWhat.blockAt cur).bexit.cond = 0)) :
    Handed st st cur cur :=
  ⟨KeepsExits.rfl_exits _ _, ho.imp id (fun h => ⟨h.1, h.2, Or.inl rfl⟩)⟩

mutual
theorem walk_handed : ∀ (what : ast.Expression) (current : Nat) (target : SymbolRef)
    (loops : Int) (st : BuildState) (ret : Nat) (st2 : BuildState),
    CFG.walk what current target loops st = .ok (ret, st2) → Handed st st2 current ret
  | .IntLit value, current, target, loops, st, ret, st2, h => by
    simp only [CFG.walk] at h
    obtain ⟨u, hu, h1⟩ := bind_ok h
    exact emit_handed hu h1
  | .FloatLit value, current, target, loops, st, ret, st2, h => by
    simp only [CFG.walk] at h
    obtain ⟨u, hu, h1⟩ := bind_ok h
    exact emit_handed hu h1
  | .StringLit value, current, target, loops, st, ret, st2, h => by
    simp only [CFG.walk] at h
    obtain ⟨u, hu, h1⟩ := bind_ok h
    exact emit_handed hu h1
  | .BoolLit value, current, target, loops, st, ret, st2, h => by
    simp only [CFG.walk] at h
    obtain ⟨u, hu, h1⟩ := bind_ok h
    exact emit_handed hu h1
  | .Self value, current, target, loops, st, ret, st2, h => by
    simp only [CFG.walk] at h
    obtain ⟨u, hu, h1⟩ := bind_ok h
    exact emit_handed hu h1
  | .BareBlock value, current, target, loops, st, ret, st2, h => by
    simp only [CFG.walk] at h
    obtain ⟨u, hu, h1⟩ := bind_ok h
    exact emit_handed hu h1
  | .NotHandled value, current, target, loops, st, ret, st2, h => by
    simp only [CFG.walk] at h
    obtain ⟨u, hu, h1⟩ := bind_ok h
    exact emit_handed hu h1
  | .ConstantLit _, current, target, loops, st, ret, st2, h => by
    simp only [CFG.walk] at h
    obtain ⟨_, _, h1⟩ := bind_ok h
    cases h1
  | .Ident symbol, current, target, loops, st, ret, st2, h => by
    simp only [CFG.walk] at h
    obtain ⟨u, hu, h1⟩ := bind_ok h
    have hg := global2Local_inWhat symbol st
    have := @emit_handed (global2Local symbol st).2 st2 current ret target _ u
      (by rw [hg]; exact hu) h1
    exact this.of_inWhat hg
  | .Assign lhs rhs, current, target, loops, st, ret, st2, h => by
    simp only [CFG.walk] at h
    obtain ⟨u, hu, h⟩ := bind_ok h
    obtain ⟨r1, hw1, h⟩ := bind_ok h
    obtain ⟨cont, st1⟩ := r1
    have hin2 := assignTarget_inWhat lhs st
    have p1 := (walk_handed rhs _ _ _ _ cont st1 hw1).of_inWhat hin2
    simp only at h
    obtain ⟨st3, h3, h⟩ := bind_ok h
    obtain ⟨c3, hj3, rfl⟩ := onCFG_ok h3
    simp only [pure, Except.pure, Except.ok.injEq, Prod.mk.injEq] at h
    obtain ⟨rfl, rfl⟩ := h
    exact p1.same_after (SameExits_emplace hj3)
  | .InsSeq stats expr, current, target, loops, st, ret, st2, h => by
    simp only [CFG.walk] at h
    obtain ⟨u, hu, h⟩ := bind_ok h
    obtain ⟨r1, hw1, h⟩ := bind_ok h
    obtain ⟨cur1, st1⟩ := r1
    have p1 := walkStats_handed stats _ _ _ cur1 st1 hw1 (Or.inr (checkUnset_ok hu))
    have p2 := walk_handed expr _ _ _ _ ret st2 h
    exact p1.step_handed p2
  | .Return expr, current, target, loops, st, ret, st2, h => by
    simp only [CFG.walk] at h
    obtain ⟨u, hu, h⟩ := bind_ok h
    simp only [BuildState.newTemporary] at h
    obtain ⟨r1, hw1, h⟩ := bind_ok h
    obtain ⟨cont, st1⟩ := r1
    have p1 : Handed st st1 current cont := (walk_handed expr _ _ _ _ cont st1 hw1).of_inWhat rfl
    simp only at h
    obtain ⟨st3, h3, h⟩ := bind_ok h
    obtain ⟨c3, hj3, rfl⟩ := onCFG_ok h3
    obtain ⟨st4, h4, h⟩ := bind_ok h
    obtain ⟨c4, hj4, rfl⟩ := onCFG_ok h4
    simp only [pure, Except.pure, Except.ok.injEq, Prod.mk.injEq] at h
    obtain ⟨rfl, rfl⟩ := h
    have p3 := @Handed.same_after _ _ { st1 with inWhat := c3 } _ _ p1 (SameExits_emplace hj3)
    exact ⟨p3.1.chain (jumpToDead_exits hj4).1 p1.range, Or.inl rfl⟩
  | .While c b, current, target, loops, st, ret, st2, h => by
    simp only [CFG.walk] at h
    obtain ⟨u, hu, h⟩ := bind_ok h
    obtain ⟨hcl, hcu⟩ := checkUnset_ok hu
    simp only [BuildState.freshBlock, BuildState.newTemporary, freshBlock_fst,
      length_freshBlock] at h
    have e1 := length_freshBlock st.inWhat (loops + 1)
    obtain ⟨st1, h1, h⟩ := bind_ok h
    obtain ⟨c1, hj1, rfl⟩ := onCFG_ok h1
    simp only at hj1 h
    obtain ⟨j1, l1⟩ := unconditionalJump_exits hj1
    have k1 : KeepsExits st.inWhat c1 current :=
      (KeepsExits_freshBlock st.inWhat (loops + 1) current).chain j1 (Or.inl rfl)
    -- the condition
    obtain ⟨r3, hw3, h⟩ := bind_ok h
    obtain ⟨headerEnd, st3⟩ := r3
    have p3 := walk_handed c _ _ _ _ headerEnd st3 hw3
    simp only at h
    have k3 : KeepsExits st.inWhat st3.inWhat current := k1.chain p3.1 (Or.inr (Or.inl (le_refl _)))
    have l3 : st.inWhat.basicBlocks.length + 1 ≤ st3.inWhat.basicBlocks.length := by
      have := p3.1.1
      simp only at this
      omega
    -- body and continue blocks, and the branch
    obtain ⟨st4, h4, h⟩ := bind_ok h
    obtain ⟨c4, hj4, rfl⟩ := onCFG_ok h4
    simp only at hj4 h
    obtain ⟨j4, l4⟩ := conditionalJump_exits hj4
    simp only [length_freshBlock] at l4
    have f3 : KeepsExits st3.inWhat
        ((st3.inWhat.freshBlock (loops + 1)).2.freshBlock loops).2 headerEnd :=
      (KeepsExits_freshBlock st3.inWhat (loops + 1) headerEnd).chain
        (KeepsExits_freshBlock _ loops headerEnd) (Or.inl rfl)
    have r3 : headerEnd = st.inWhat.basicBlocks.length ∨
        c1.basicBlocks.length ≤ headerEnd ∨ headerEnd = CFG.deadBlock := p3.range
    have k4 : KeepsExits st.inWhat c4 current :=
      k3.chain (f3.chain j4 (Or.inl rfl)) (by
        rcases r3 with e | e | e
        · exact Or.inr (Or.inl (by omega))
        · exact Or.inr (Or.inl (by omega))
        · exact Or.inr (Or.inr e))
    -- the continue block has no terminator
    have hcb0 : (((st3.inWhat.freshBlock (loops + 1)).2.freshBlock loops).2.blockAt
        (st3.inWhat.basicBlocks.length + 1)).bexit.cond = 0 := by
      have := freshBlock_unset (st3.inWhat.freshBlock (loops + 1)).2 loops
      rw [length_freshBlock] at this
      exact this
    have hhe : st3.inWhat.basicBlocks.length + 1 ≠ headerEnd ∨
        st3.inWhat.basicBlocks.length + 1 = CFG.deadBlock := by
      refine Or.inl ?_
      rcases p3.2 with e | ⟨e, _, _⟩
      · rw [e]
        simp only [CFG.deadBlock]
        omega
      · omega
    obtain ⟨hcb1, hcb2⟩ := j4.unset (by simp only [length_freshBlock]; omega) hhe hcb0
    -- the body
    obtain ⟨r5, hw5, h⟩ := bind_ok h
    obtain ⟨bodyEnd, st5⟩ := r5
    have p5 := walk_handed b _ _ _ _ bodyEnd st5 hw5
    simp only at h
    obtain ⟨hcb3, hcb4⟩ := p5.1.unset hcb1 (Or.inl (by omega)) hcb2
    obtain ⟨st6, h6, h⟩ := bind_ok h
    obtain ⟨c6, hj6, rfl⟩ := onCFG_ok h6
    obtain ⟨j6, l6⟩ := unconditionalJump_exits hj6
    have r5 : bodyEnd = st3.inWhat.basicBlocks.length ∨
        c4.basicBlocks.length ≤ bodyEnd ∨ bodyEnd = CFG.deadBlock := p5.range
    have hbe : st3.inWhat.basicBlocks.length + 1 ≠ bodyEnd ∨
        st3.inWhat.basicBlocks.length + 1 = CFG.deadBlock := by
      refine Or.inl ?_
      rcases r5 with e | e | e
      · omega
      · omega
      · rw [e]
        simp only [CFG.deadBlock]
        omega
    obtain ⟨hcb5, hcb6⟩ := j6.unset hcb3 hbe hcb4
    obtain ⟨st7, h7, h⟩ := bind_ok h
    obtain ⟨c7, hj7, rfl⟩ := onCFG_ok h7
    simp only [pure, Except.pure, Except.ok.injEq, Prod.mk.injEq] at h
    obtain ⟨rfl, rfl⟩ := h
    have s7 := SameExits_emplace hj7
    have k6 : KeepsExits st.inWhat c6 current :=
      (k4.chain p5.1 (Or.inr (Or.inl (by omega)))).chain j6 (by
        rcases r5 with e | e | e
        · exact Or.inr (Or.inl (by omega))
        · exact Or.inr (Or.inl (by omega))
        · exact Or.inr (Or.inr e))
    exact ⟨k6.chain_same s7, Or.inr ⟨by rw [s7.1]; exact hcb5, by rw [s7.2]; exact hcb6,
      Or.inr (by omega)⟩⟩
  | .If cond thenp elsep, current, target, loops, st, ret, st2, h => by
    simp only [CFG.walk] at h
    obtain ⟨u, hu, h⟩ := bind_ok h
    obtain ⟨hcl, hcu⟩ := checkUnset_ok hu
    simp only [BuildState.freshBlock, BuildState.newTemporary, freshBlock_fst,
      length_freshBlock] at h
    split at h
    · obtain ⟨_, h1, _⟩ := bind_ok h
      cases h1
    obtain ⟨_, _, h⟩ := bind_ok h
    have f0 : KeepsExits st.inWhat ((st.inWhat.freshBlock loops).2.freshBlock loops).2 current :=
      (KeepsExits_freshBlock st.inWhat loops current).chain
        (KeepsExits_freshBlock _ loops current) (Or.inl rfl)
    have l0 : ((st.inWhat.freshBlock loops).2.freshBlock loops).2.basicBlocks.length =
        st.inWhat.basicBlocks.length + 2 := by
      simp only [length_freshBlock]
    -- the condition
    obtain ⟨r3, hw3, h⟩ := bind_ok h
    obtain ⟨cont, st3⟩ := r3
    have p3 := walk_handed cond _ _ _ _ cont st3 hw3
    simp only at h
    have l3 : st.inWhat.basicBlocks.length + 2 ≤ st3.inWhat.basicBlocks.length := by
      have := p3.1.1
      simp only [length_freshBlock] at this
      exact this
    have r3 : cont = current ∨
        ((st.inWhat.freshBlock loops).2.freshBlock loops).2.basicBlocks.length ≤ cont ∨
        cont = CFG.deadBlock := p3.range
    have r3b : cont = current ∨ st.inWhat.basicBlocks.length ≤ cont ∨ cont = CFG.deadBlock := by
      rcases r3 with e | e | e
      · exact Or.inl e
      · exact Or.inr (Or.inl (by omega))
      · exact Or.inr (Or.inr e)
    obtain ⟨st4, h4, h⟩ := bind_ok h
    obtain ⟨c4, hj4, rfl⟩ := onCFG_ok h4
    try simp only at hj4
    try simp only at h
    obtain ⟨j4, l4⟩ := conditionalJump_exits hj4
    have k4 : KeepsExits st.inWhat c4 current :=
      ((f0.chain p3.1 (Or.inl rfl))).chain j4 r3b
    -- the then arm
    obtain ⟨r5, hw5, h⟩ := bind_ok h
    obtain ⟨thenEnd, st5⟩ := r5
    have p5 := walk_handed thenp _ _ _ _ thenEnd st5 hw5
    simp only at h
    have l5 : c4.basicBlocks.length ≤ st5.inWhat.basicBlocks.length := p5.1.1
    have r5 : thenEnd = st.inWhat.basicBlocks.length ∨
        c4.basicBlocks.length ≤ thenEnd ∨ thenEnd = CFG.deadBlock := p5.range
    have r5b : thenEnd = current ∨ st.inWhat.basicBlocks.length ≤ thenEnd ∨
        thenEnd = CFG.deadBlock := by
      rcases r5 with e | e | e
      · exact Or.inr (Or.inl (by omega))
      · exact Or.inr (Or.inl (by omega))
      · exact Or.inr (Or.inr e)
    -- the else arm
    obtain ⟨r6, hw6, h⟩ := bind_ok h
    obtain ⟨elseEnd, st6⟩ := r6
    have p6 := walk_handed elsep _ _ _ _ elseEnd st6 hw6
    simp only at h
    have l6 : st5.inWhat.basicBlocks.length ≤ st6.inWhat.basicBlocks.length := p6.1.1
    have r6 : elseEnd = st.inWhat.basicBlocks.length + 1 ∨
        st5.inWhat.basicBlocks.length ≤ elseEnd ∨ elseEnd = CFG.deadBlock := p6.range
    have r6b : elseEnd = current ∨ st.inWhat.basicBlocks.length ≤ elseEnd ∨
        elseEnd = CFG.deadBlock := by
      rcases r6 with e | e | e
      · exact Or.inr (Or.inl (by omega))
      · exact Or.inr (Or.inl (by omega))
      · exact Or.inr (Or.inr e)
    have k6 : KeepsExits st.inWhat st6.inWhat current :=
      (k4.chain p5.1 (Or.inr (Or.inl (le_refl _)))).chain p6.1 (Or.inr (Or.inl (by omega)))
    split at h
    · split at h
      · simp only [pure, Except.pure, Except.ok.injEq, Prod.mk.injEq] at h
        obtain ⟨rfl, rfl⟩ := h
        refine ⟨k6, ?_⟩
        rcases p6.2 with e | ⟨a1, a2, _⟩
        · exact Or.inl e
        · refine Or.inr ⟨a1, a2, ?_⟩
          rcases r6b with e | e | e
          · exact Or.inl e
          · exact Or.inr e
          · rcases r6 with e2 | e2 | e2
            · exact Or.inr (by omega)
            · exact Or.inr (by omega)
            · exact Or.inr (by omega)
      · rename_i hte
        try rw [if_neg hte] at h
        obtain ⟨st7, h7, h⟩ := bind_ok h
        obtain ⟨c7, hj7, rfl⟩ := onCFG_ok h7
        try simp only at hj7
        try simp only at h
        obtain ⟨st8, h8, h⟩ := bind_ok h
        obtain ⟨c8, hj8, rfl⟩ := onCFG_ok h8
        simp only [pure, Except.pure, Except.ok.injEq, Prod.mk.injEq] at h
        obtain ⟨rfl, rfl⟩ := h
        obtain ⟨j7, l7⟩ := unconditionalJump_exits hj7
        obtain ⟨j8, l8⟩ := unconditionalJump_exits hj8
        rw [length_freshBlock] at l7
        have hm0 := freshBlock_unset st6.inWhat loops
        have hlen2 : 2 ≤ st6.inWhat.basicBlocks.length := by omega
        have hmt : st6.inWhat.basicBlocks.length ≠ thenEnd ∨
            st6.inWhat.basicBlocks.length = CFG.deadBlock := by
          refine Or.inl ?_
          rcases p5.2 with e | ⟨e, _, _⟩
          · exact absurd e hte
          · omega
        obtain ⟨hm1, hm2⟩ := j7.unset (by rw [length_freshBlock]; omega) hmt hm0
        have hme : st6.inWhat.basicBlocks.length ≠ elseEnd ∨
            st6.inWhat.basicBlocks.length = CFG.deadBlock := by
          refine Or.inl ?_
          rcases p6.2 with e | ⟨e, _, _⟩
          · rw [e]
            simp only [CFG.deadBlock]
            omega
          · omega
        obtain ⟨hm3, hm4⟩ := j8.unset hm1 hme hm2
        have k8 : KeepsExits st.inWhat c8 current :=
          ((k6.chain (KeepsExits_freshBlock st6.inWhat loops current) (Or.inl rfl)).chain
            j7 r5b).chain j8 r6b
        exact ⟨k8, Or.inr ⟨hm3, hm4, Or.inr (by omega)⟩⟩
    · simp only [pure, Except.pure, Except.ok.injEq, Prod.mk.injEq] at h
      obtain ⟨rfl, rfl⟩ := h
      exact ⟨k6, Or.inl rfl⟩
  | .Send recvE fn argsE block, current, target, loops, st, ret, st2, h => by
    rw [CFG.walk] at h
    obtain ⟨u, hu, h⟩ := bind_ok h
    obtain ⟨hcl, hcu⟩ := checkUnset_ok hu
    simp only [BuildState.newTemporary] at h
    obtain ⟨r1, hw1, h⟩ := bind_ok h
    obtain ⟨cur1, st1⟩ := r1
    have p1 : Handed st st1 current cur1 :=
      (walk_handed recvE _ _ _ _ cur1 st1 hw1).of_inWhat rfl
    simp only at h
    obtain ⟨r2, hw2, h⟩ := bind_ok h
    obtain ⟨cur2, args, st2a⟩ := r2
    have p2 := walkArgs_handed argsE _ _ _ _ cur2 args st2a hw2 p1.opened
    have p12 : Handed st st2a current cur2 := p1.step_handed p2
    cases block with
    | none =>
      simp only at h
      obtain ⟨st3, h3, h⟩ := bind_ok h
      obtain ⟨c3, hj3, rfl⟩ := onCFG_ok h3
      simp only [pure, Except.pure, Except.ok.injEq, Prod.mk.injEq] at h
      obtain ⟨rfl, rfl⟩ := h
      exact p12.same_after (SameExits_emplace hj3)
    | some blk =>
      obtain ⟨blockArgs, blockBody⟩ := blk
      simp only at h
      simp only [BuildState.freshBlock, BuildState.newTemporary, freshBlock_fst,
        length_freshBlock] at h
      have l2 : st.inWhat.basicBlocks.length ≤ st2a.inWhat.basicBlocks.length := p12.1.1
      have f3 : KeepsExits st2a.inWhat
          (((st2a.inWhat.freshBlock (loops + 1)).2.freshBlock loops).2.freshBlock
            (loops + 1)).2 current :=
        ((KeepsExits_freshBlock st2a.inWhat (loops + 1) current).chain
          (KeepsExits_freshBlock _ loops current) (Or.inl rfl)).chain
          (KeepsExits_freshBlock _ (loops + 1) current) (Or.inl rfl)
      have hp0 : ((((st2a.inWhat.freshBlock (loops + 1)).2.freshBlock loops).2.freshBlock
          (loops + 1)).2.blockAt (st2a.inWhat.basicBlocks.length + 1)).bexit.cond = 0 := by
        have h0 := freshBlock_unset (st2a.inWhat.freshBlock (loops + 1)).2 loops
        rw [length_freshBlock] at h0
        rw [blockAt_freshBlock, if_neg (by simp only [length_freshBlock]; omega)]
        exact h0
      obtain ⟨st4, h4, h⟩ := bind_ok h
      obtain ⟨c4, hj4, rfl⟩ := onCFG_ok h4
      simp only at hj4 h
      have s4 := SameExits_loadBlockArgs _ _ _ _ _ _ _ hj4
      have l4 : c4.basicBlocks.length = st2a.inWhat.basicBlocks.length + 3 := by
        rw [s4.1]
        simp only [length_freshBlock]
      obtain ⟨st5, h5, h⟩ := bind_ok h
      obtain ⟨c5, hj5, rfl⟩ := onCFG_ok h5
      simp only at hj5 h
      obtain ⟨j5, l5⟩ := conditionalJump_exits hj5
      obtain ⟨st6, h6, h⟩ := bind_ok h
      obtain ⟨c6, hj6, rfl⟩ := onCFG_ok h6
      simp only at hj6 h
      obtain ⟨j6, l6⟩ := unconditionalJump_exits hj6
      have hlen1 : 1 ≤ st.inWhat.basicBlocks.length := by omega
      have hp1 : (c4.blockAt (st2a.inWhat.basicBlocks.length + 1)).bexit.cond = 0 := by
        rw [s4.2]
        exact hp0
      obtain ⟨hp2, hp3⟩ := j5.unset (by omega) (Or.inl (by omega)) hp1
      have hpc : st2a.inWhat.basicBlocks.length + 1 ≠ cur2 ∨
          st2a.inWhat.basicBlocks.length + 1 = CFG.deadBlock := by
        refine Or.inl ?_
        rcases p12.2 with e | ⟨e, _, _⟩
        · rw [e]
          simp only [CFG.deadBlock]
          omega
        · omega
      obtain ⟨hp4, hp5⟩ := j6.unset hp2 hpc hp3
      -- the body of the block
      obtain ⟨r7, hw7, h⟩ := bind_ok h
      obtain ⟨blockLast, st7⟩ := r7
      have p7 := walk_handed blockBody _ _ _ _ blockLast st7 hw7
      simp only at h
      obtain ⟨hp6, hp7⟩ := p7.1.unset hp4 (Or.inl (by omega)) hp5
      have r7 : blockLast = st2a.inWhat.basicBlocks.length + 1 + 1 ∨
          c6.basicBlocks.length ≤ blockLast ∨ blockLast = CFG.deadBlock := p7.range
      obtain ⟨st8, h8, h⟩ := bind_ok h
      obtain ⟨c8, hj8, rfl⟩ := onCFG_ok h8
      obtain ⟨j8, l8⟩ := unconditionalJump_exits hj8
      have hpl : st2a.inWhat.basicBlocks.length + 1 ≠ blockLast ∨
          st2a.inWhat.basicBlocks.length + 1 = CFG.deadBlock := by
        refine Or.inl ?_
        rcases r7 with e | e | e
        · omega
        · omega
        · rw [e]
          simp only [CFG.deadBlock]
          omega
      obtain ⟨hp8, hp9⟩ := j8.unset hp6 hpl hp7
      obtain ⟨st9, h9, h⟩ := bind_ok h
      obtain ⟨c9, hj9, rfl⟩ := onCFG_ok h9
      simp only [pure, Except.pure, Except.ok.injEq, Prod.mk.injEq] at h
      obtain ⟨rfl, rfl⟩ := h
      have s9 := SameExits_emplace hj9
      have k4 : KeepsExits st.inWhat c4 current :=
        (p12.1.chain f3 (Or.inl rfl)).chain_same s4
      have r2 := p12.range
      have k8 : KeepsExits st.inWhat c8 current :=
        (((k4.chain j5 (Or.inr (Or.inl (by omega)))).chain j6 r2).chain p7.1
          (Or.inr (Or.inl (by omega)))).chain j8 (by
            rcases r7 with e | e | e
            · exact Or.inr (Or.inl (by omega))
            · exact Or.inr (Or.inl (by omega))
            · exact Or.inr (Or.inr e))
      exact ⟨k8.chain_same s9, Or.inr ⟨by rw [s9.1]; exact hp8, by rw [s9.2]; exact hp9,
        Or.inr (by omega)⟩⟩
theorem walkStats_handed : ∀ (stats : List ast.Expression) (current : Nat)
    (loops : Int) (st : BuildState) (ret : Nat) (st2 : BuildState),
    CFG.walkStats stats current loops st = .ok (ret, st2) →
    (current = CFG.deadBlock ∨
      (current < st.inWhat.basicBlocks.length ∧ (st.inWhat.blockAt current).bexit.cond = 0)) →
    Handed st st2 current ret
  | [], current, loops, st, ret, st2, h, ho => by
    simp only [CFG.walkStats, pure, Except.pure, Except.ok.injEq, Prod.mk.injEq] at h
    obtain ⟨rfl, rfl⟩ := h
    exact Handed.stay ho
  | exp :: rest, current, loops, st, ret, st2, h, ho => by
    simp only [CFG.walkStats, BuildState.newTemporary] at h
    obtain ⟨r1, hw1, h⟩ := bind_ok h
    obtain ⟨cur1, st1⟩ := r1
    have p1 : Handed st st1 current cur1 := (walk_handed exp _ _ _ _ cur1 st1 hw1).of_inWhat rfl
    have p2 := walkStats_handed rest _ _ _ ret st2 h p1.opened
    exact p1.step_handed p2
theorem walkArgs_handed : ∀ (argsE : List ast.Expression) (current : Nat)
    (loops : Int) (acc : List SymbolRef) (st : BuildState) (ret : Nat) (args : List SymbolRef)
    (st2 : BuildState),
    CFG.walkArgs argsE current loops acc st = .ok (ret, args, st2) →
    (current = CFG.deadBlock ∨
      (current < st.inWhat.basicBlocks.length ∧ (st.inWhat.blockAt current).bexit.cond = 0)) →
    Handed st st2 current ret
  | [], current, loops, acc, st, ret, args, st2, h, ho => by
    simp only [CFG.walkArgs, pure, Except.pure, Except.ok.injEq, Prod.mk.injEq] at h
    obtain ⟨rfl, _, rfl⟩ := h
    exact Handed.stay ho
  | exp :: rest, current, loops, acc, st, ret, args, st2, h, ho => by
    simp only [CFG.walkArgs, BuildState.newTemporary] at h
    obtain ⟨r1, hw1, h⟩ := bind_ok h
    obtain ⟨cur1, st1⟩ := r1
    have p1 : Handed st st1 current cur1 := (walk_handed exp _ _ _ _ cur1 st1 hw1).of_inWhat rfl
    have p2 := walkArgs_handed rest _ _ _ _ ret args st2 h p1.opened
    exact p1.step_handed p2
end

/-! ## The graph `build` returns: terminators and `backEdges` -/

/-- C7: for every method on which `build` returns, every block of the returned graph
has a terminator: the entry (block 0) and the dead block (block 1) are there, the dead
block has `cond = defn_cfg_never` with `thenb = elseb` itself, and every other block
has `bexit.cond` set, with `thenb` and `elseb` not null (they are blocks of the
graph). -/
theorem build_every_block_terminated (gs : GlobalState) (md : ast.MethodDef) (c : CFG)
    (h : build gs md = .ok c) :
    CFG.entry < c.basicBlocks.length ∧ CFG.deadBlock < c.basicBlocks.length ∧
    (c.blockAt CFG.deadBlock).bexit =
      ⟨GlobalState.defn_cfg_never, some CFG.deadBlock, some CFG.deadBlock⟩ ∧
    ∀ p < c.basicBlocks.length, p ≠ CFG.deadBlock →
      SymbolRef.symbolExists (c.blockAt p).bexit.cond = true ∧
      ∃ t e, (c.blockAt p).bexit.thenb = some t ∧ (c.blockAt p).bexit.elseb = some e ∧
        t < c.basicBlocks.length ∧ e < c.basicBlocks.length := by
  obtain ⟨gs1, c1, h1, hl, hb⟩ := build_frames h
  obtain ⟨⟨g1, g2, g3, g4, g5⟩, _, ho⟩ := (buildGraph_spec h1).1
  refine ⟨by rw [hl]; simp only [CFG.entry]; omega,
    by rw [hl]; simp only [CFG.deadBlock]; omega, by rw [(hb _).1]; exact g2, ?_⟩
  intro p hp hpd
  rw [(hb p).1, hl]
  rw [hl] at hp
  have hc : (c1.blockAt p).bexit.cond ≠ 0 := by
    intro h0
    have := (ho p hp).mp h0
    exact absurd this.1 (List.not_mem_nil _)
  exact ⟨by simpa [SymbolRef.symbolExists] using hc, g4 p hc⟩

/-- C8: in every graph `build` returns, for all blocks `P` and `S`: `P` occurs in
`S.backEdges` exactly once if `P` is not the dead block and `P.bexit.thenb = S` or
`P.bexit.elseb = S`, and does not occur in it otherwise. -/
theorem build_backEdges_predecessors (gs : GlobalState) (md : ast.MethodDef) (c : CFG)
    (h : build gs md = .ok c) :
    ∀ P < c.basicBlocks.length, ∀ S < c.basicBlocks.length,
      (c.blockAt S).backEdges.count P =
        if P ≠ CFG.deadBlock ∧
          ((c.blockAt P).bexit.thenb = some S ∨ (c.blockAt P).bexit.elseb = some S)
        then 1 else 0 := by
  obtain ⟨gs1, c1, h1, hl, hb⟩ := build_frames h
  obtain ⟨⟨g1, g2, g3, g4, g5⟩, _, ho⟩ := (buildGraph_spec h1).1
  intro P _ S hS
  rw [(hb S).2.2, (hb P).1, sortBackEdges, (List.perm_insertionSort _ _).count_eq]
  exact g5 S P (by rw [← hl]; exact hS)

/-- Witness of C7: `build` returns on the method of scenario S1. -/
theorem build_every_block_terminated_witness :
    build Scenario.gs S1.md = .ok S1.cfg ∧
    CFG.entry < S1.cfg.basicBlocks.length ∧ CFG.deadBlock < S1.cfg.basicBlocks.length ∧
    (S1.cfg.blockAt CFG.deadBlock).bexit =
      ⟨GlobalState.defn_cfg_never, some CFG.deadBlock, some CFG.deadBlock⟩ ∧
    ∀ p < S1.cfg.basicBlocks.length, p ≠ CFG.deadBlock →
      SymbolRef.symbolExists (S1.cfg.blockAt p).bexit.cond = true ∧
      ∃ t e, (S1.cfg.blockAt p).bexit.thenb = some t ∧
        (S1.cfg.blockAt p).bexit.elseb = some e ∧
        t < S1.cfg.basicBlocks.length ∧ e < S1.cfg.basicBlocks.length :=
  ⟨S1_build, build_every_block_terminated Scenario.gs S1.md S1.cfg S1_build⟩

/-- Witness of C8: `build` returns on the method of scenario S5, whose graph has a
branch and a merge block. -/
theorem build_backEdges_predecessors_witness :
    build Scenario.gs S5.md = .ok S5.cfg ∧
    ∀ P < S5.cfg.basicBlocks.length, ∀ S < S5.cfg.basicBlocks.length,
      (S5.cfg.blockAt S).backEdges.count P =
        if P ≠ CFG.deadBlock ∧
          ((S5.cfg.blockAt P).bexit.thenb = some S ∨ (S5.cfg.blockAt P).bexit.elseb = some S)
        then 1 else 0 :=
  ⟨S5_build, build_backEdges_predecessors Scenario.gs S5.md S5.cfg S5_build⟩

/-! ## Dead-store elimination in the graph `build` returns -/

/-- C2 (counterexample): in the graph `build` returns for `def f(x); x; 1; end` the
entry block holds `x := LoadArg(self, f, 0)`, a side-effect-free binding whose `bind`
no binding operand and no terminator of that graph reads. -/
theorem build_dead_binding_survives :
    ∃ c, build Scenario.gs UnusedRead.md = .ok c ∧
      ∃ p, ∃ b ∈ (c.blockAt p).exprs, b.value.sideEffectFree ∧ ¬ c.isRead b.bind := by
  refine ⟨_, UnusedRead_build, 0, ⟨7, .LoadArg 10 101 0⟩, by decide, trivial, ?_⟩
  rw [← readsMap_none_iff]
  decide

/-- C2 (amended): for every graph `build` returns, no block contains a binding whose
instruction is side-effect-free (`Ident`, `ArraySplat`, `HashSplat`, `BoolLit`,
`StringLit`, `IntLit`, `FloatLit`, `Self`, `LoadArg`, `NamedArg`) and whose `bind` is
read by no binding operand and no real conditional terminator of the graph as it stood
when dead-store elimination began, that is after `dealias`. -/
theorem build_no_dead_binding (gs : GlobalState) (md : ast.MethodDef) (c : CFG)
    (h : build gs md = .ok c) :
    ∃ gsD cD, CFG.buildDealiased gs md = .ok (gsD, cD) ∧
      ∀ p, ∀ b ∈ (c.blockAt p).exprs, b.value.sideEffectFree → cD.isRead b.bind := by
  obtain ⟨gsD, cD, gs4, hD, hf⟩ := build_dealiased h
  refine ⟨gsD, cD, hD, fun p b hb hs => ?_⟩
  rw [(fillInBlockArguments_blockAt hf p).2.2.2, removeDeadVariables_mem] at hb
  by_contra hr
  exact hb.2 ⟨hs, hr⟩

/-- Witness of C2 (amended): `build` returns on `def f(x); x; 1; end`. -/
theorem build_no_dead_binding_witness :
    build Scenario.gs UnusedRead.md = .ok UnusedRead.cfg ∧
    ∃ gsD cD, CFG.buildDealiased Scenario.gs UnusedRead.md = .ok (gsD, cD) ∧
      ∀ p, ∀ b ∈ (UnusedRead.cfg.blockAt p).exprs, b.value.sideEffectFree →
        cD.isRead b.bind :=
  ⟨UnusedRead_build, build_no_dead_binding Scenario.gs UnusedRead.md UnusedRead.cfg
    UnusedRead_build⟩

/-! ## The scenarios -/

/-- C3 (counterexample): the graph `build` returns for scenario S1 does not have the
entry block `self := Self(owner)`, `x := LoadArg(self, f, 0)`, `retTmp := Return(x)`:
the copy into `y` is still there. -/
theorem build_S1_keeps_copy :
    ∃ c, build Scenario.gs S1.md = .ok c ∧ ¬ S1.Claimed c := by
  refine ⟨_, S1_build, ?_⟩
  rintro ⟨selfSym, retTmp, h, _⟩
  have hl := congrArg List.length h
  simp [S1.cfg, CFG.blockAt, CFG.entry] at hl

/-- C3 (amended): for scenario S1 the entry block of the graph `build` returns has
exactly the bindings `self := Self(owner)`, `x := LoadArg(self, f, 0)`,
`y := Ident(x)`, `retTmp := Return(y)` in that order, its terminator is the jump to
the dead block, and `entry.args` is empty. -/
theorem build_S1 : ∃ c, build Scenario.gs S1.md = .ok c ∧ S1.Shape c :=
  ⟨_, S1_build, 10, 12, by decide, by decide, by decide⟩

/-- C4: scenario S6. After `dealias` the entry block still binds a StatTemp `r` by
`r := Ident(a)` before `a := "2"` and a StatTemp `t` by `t := Ident(a)` right after it,
both arm blocks jump to one merge block, and the `Send` binding of the merge block has
`r` as receiver and `t` as first argument, neither of them rewritten to `a`. -/
theorem dealias_S6 :
    ∃ gsD cD, CFG.buildDealiased Scenario.gs S6.md = .ok (gsD, cD) ∧
      ∃ (r t u target : SymbolRef) (thenBlock elseBlock merge : Nat)
        (pre post rest : List Binding),
        (cD.blockAt CFG.entry).exprs =
          pre ++ [⟨r, .Ident Scenario.param⟩, ⟨Scenario.param, .StringLit 300⟩,
            ⟨t, .Ident Scenario.param⟩] ++ post ∧
        (∀ b ∈ pre, b.bind ≠ r ∧ b.value ≠ .StringLit 300) ∧
        (gsD.info r).isSyntheticTemporary = true ∧ (gsD.info r).name = Names.statTemp ∧
        (gsD.info t).isSyntheticTemporary = true ∧ (gsD.info t).name = Names.statTemp ∧
        r ≠ Scenario.param ∧ t ≠ Scenario.param ∧ r ≠ t ∧
        (cD.blockAt CFG.entry).bexit.thenb = some thenBlock ∧
        (cD.blockAt CFG.entry).bexit.elseb = some elseBlock ∧
        thenBlock ≠ elseBlock ∧
        (cD.blockAt thenBlock).bexit = ⟨GlobalState.defn_cfg_always, some merge, some merge⟩ ∧
        (cD.blockAt elseBlock).bexit = ⟨GlobalState.defn_cfg_always, some merge, some merge⟩ ∧
        (cD.blockAt merge).exprs = ⟨target, .Send r Scenario.foo [t, u]⟩ :: rest := by
  refine ⟨_, _, S6_dealiased, 11, 12, 7, 9, 2, 3, 4,
    [⟨10, .Self 5⟩, ⟨7, .LoadArg 10 101 0⟩], [⟨14, .Ident 8⟩], [⟨15, .Return 9⟩],
    by decide, by decide, by decide, by decide, by decide, by decide,
    by decide, by decide, by decide, by decide, by decide, by decide, by decide, by decide,
    by decide⟩

/-- C5: scenario S5. The graph `build` returns has a merge block, the common successor
of both arm blocks of the `If`, whose `args` contains `x`. -/
theorem build_S5_merge_args :
    ∃ c, build Scenario.gs S5.md = .ok c ∧
      ∃ thenBlock elseBlock merge : Nat,
        (c.blockAt CFG.entry).bexit.thenb = some thenBlock ∧
        (c.blockAt CFG.entry).bexit.elseb = some elseBlock ∧
        thenBlock ≠ elseBlock ∧
        (c.blockAt thenBlock).bexit = ⟨GlobalState.defn_cfg_always, some merge, some merge⟩ ∧
        (c.blockAt elseBlock).bexit = ⟨GlobalState.defn_cfg_always, some merge, some merge⟩ ∧
        Scenario.loc ∈ (c.blockAt merge).args :=
  ⟨_, S5_build, 2, 3, 4, by decide, by decide, by decide, by decide, by decide, by decide⟩

/-- C6 (counterexample): the graph `build` returns for `def f(x); 1; end` has no
binding `x := LoadArg(self, f, 0)` in its entry block. -/
theorem build_unused_parameter :
    ∃ c, build Scenario.gs UnusedParam.md = .ok c ∧
      ¬ HasPrelude Scenario.gs UnusedParam.md c := by
  refine ⟨_, UnusedParam_build, ?_⟩
  rintro ⟨selfSym, h⟩
  have hm := h.subset (List.mem_cons_of_mem _ (List.mem_cons_self _ _))
  simp [UnusedParam.cfg, CFG.blockAt, CFG.entry] at hm

/-- C6 (amended): for every method on which `build` returns, the entry block of the
returned graph is made of `Alias` bindings, then those bindings of the prelude
`self := Self(owner)`, `arg_0 := LoadArg(self, methodName, 0)`, ... (in this order)
whose `bind` is read, by a binding operand or a real conditional terminator, in the
graph as it stood after `dealias`, then the remaining bindings. -/
theorem build_entry_prelude (gs : GlobalState) (md : ast.MethodDef) (c : CFG)
    (h : build gs md = .ok c) :
    ∃ gsD cD, CFG.buildDealiased gs md = .ok (gsD, cD) ∧
      ∃ (keep : Binding → Bool) (pre post : List Binding),
        (∀ b, keep b = true ↔ cD.isRead b.bind) ∧
        (c.blockAt CFG.entry).exprs = pre ++ (prelude gs md).filter keep ++ post ∧
        ∀ b ∈ pre, ∃ g, b.value = .Alias g := by
  obtain ⟨gsD, cD, hD, pre, post, he, hpre⟩ := build_entry_exprs h
  refine ⟨gsD, cD, hD, fun b => !(mapFind cD.readsMap b.bind).isNone,
    removeDeadVariables cD.readsMap pre, removeDeadVariables cD.readsMap post, ?_, ?_, ?_⟩
  rotate_left
  · rw [he]
    congr 2
    unfold removeDeadVariables
    apply List.filter_congr
    intro b hb
    have hs := (prelude_sideEffectFree gs md b hb).1
    rw [(isRemovable_iff b.value).mpr hs, Bool.and_true]
  · intro b hb
    have := List.mem_of_mem_filter hb
    exact hpre b this
  · intro b
    have := readsMap_none_iff cD b.bind
    rw [← not_iff_not, ← this]
    simp

/-- Witness of C6 (amended): `build` returns on `def f(x); 1; end`. -/
theorem build_entry_prelude_witness :
    build Scenario.gs UnusedParam.md = .ok UnusedParam.cfg ∧
    ∃ gsD cD, CFG.buildDealiased Scenario.gs UnusedParam.md = .ok (gsD, cD) ∧
      ∃ (keep : Binding → Bool) (pre post : List Binding),
        (∀ b, keep b = true ↔ cD.isRead b.bind) ∧
        (UnusedParam.cfg.blockAt CFG.entry).exprs =
          pre ++ (prelude Scenario.gs UnusedParam.md).filter keep ++ post ∧
        ∀ b ∈ pre, ∃ g, b.value = .Alias g :=
  ⟨UnusedParam_build, build_entry_prelude Scenario.gs UnusedParam.md UnusedParam.cfg
    UnusedParam_build⟩

/-! ## The alias map at a merge -/

theorem mergeParents_spec (out : List (List (SymbolRef × SymbolRef))) (bb : Nat)
    (parents : List Nat) :
    ∀ (cur m : List (SymbolRef × SymbolRef)), mergeParents out bb parents cur = .ok m →
      ∀ el ∈ m, el ∈ cur ∧ ∀ P ∈ parents, P ≠ bb → ∀ o, aliasesAt out P = .ok o →
        mapFind o el.1 = none ∨ mapFind o el.1 = some el.2 := by
  induction parents with
  | nil =>
    intro cur m h el hel
    simp only [mergeParents, pure, Except.pure, Except.ok.injEq] at h
    subst h
    exact ⟨hel, fun P hP => absurd hP (List.not_mem_nil _)⟩
  | cons parent rest ih =>
    intro cur m h el hel
    rw [mergeParents] at h
    have key : ∃ other, mergeParents out bb rest (dropConflicts cur other) = .ok m ∧
        (parent ≠ bb → aliasesAt out parent = .ok other) := by
      by_cases hpb : parent = bb
      · rw [if_pos hpb] at h
        obtain ⟨other, _, h⟩ := bind_ok h
        exact ⟨other, h, fun hne => absurd hpb hne⟩
      · rw [if_neg hpb] at h
        obtain ⟨other, ho, h⟩ := bind_ok h
        exact ⟨other, h, fun _ => ho⟩
    obtain ⟨other, h, ho⟩ := key
    obtain ⟨h1, h2⟩ := ih _ _ h el hel
    simp only [dropConflicts, List.mem_filter] at h1
    refine ⟨h1.1, fun P hP hne o hPo => ?_⟩
    rcases List.mem_cons.mp hP with rfl | hP
    · have ho2 := ho hne
      rw [hPo] at ho2
      cases ho2
      have h3 := h1.2
      cases hf : mapFind other el.1 with
      | none => exact Or.inl rfl
      | some v =>
        rw [hf] at h3
        simp only [decide_eq_true_eq] at h3
        exact Or.inr (by rw [h3])
    · exact h2 P hP hne o hPo

/-- C11 (counterexample): in `def f(x); if x then y = x else 2 end end` the merge block
has the two arm blocks as predecessors; the alias map `dealias` starts its bindings
with contains `9 -> 8` (the temporary of the result to `y`), which the exit map of the
else-arm block does not contain. -/
theorem dealias_keeps_one_sided_alias :
    ∃ gs c s b current, CFG.buildSorted Scenario.gs MergeAliases.md = .ok (gs, c) ∧
      c.backwardsTopoSort[3]? = some (some 4) ∧ c.dealiasUpTo gs 3 = .ok s ∧
      s.1.block 4 = .ok b ∧ 2 ≤ b.backEdges.length ∧ startAliases s 4 = .ok current ∧
      (9, 8) ∈ current ∧
      ∃ P ∈ b.backEdges, ∃ m, aliasesAt s.2 P = .ok m ∧ (9, 8) ∉ m :=
  ⟨_, _, _, _, [(11, 7), (8, 7), (9, 8)], MergeAliases_sorted, by decide, MergeAliases_upTo,
    rfl, by decide, by decide, by decide, 3, by decide, [(11, 7)], by decide, by decide⟩

/-- C11 (amended): when `dealias` starts processing the bindings of a block `B` other
than the dead block, the alias map it uses contains an entry `k -> v` only if the exit
map of the first predecessor `backEdges[0]` contains `k -> v` and the exit map of no
other predecessor of `B` maps `k` to a different right-hand side; an entry whose key is
absent from the map of another predecessor is retained. -/
theorem dealiasBlock_start_aliases (gs : GlobalState)
    (s s2 : CFG × List (List (SymbolRef × SymbolRef))) (bb : Nat)
    (h : dealiasBlock gs s bb = .ok s2) (hbb : bb ≠ CFG.deadBlock) :
    ∃ b current, s.1.block bb = .ok b ∧ startAliases s bb = .ok current ∧
      s2.2 = s.2.set bb (dealiasBindings gs b.exprs current).2 ∧
      (∀ q, (s2.1.blockAt q).exprs =
        if q = bb then (dealiasBindings gs b.exprs current).1 else (s.1.blockAt q).exprs) ∧
      ∀ first rest, b.backEdges = first :: rest → ∀ el ∈ current,
        (∃ m, aliasesAt s.2 first = .ok m ∧ el ∈ m) ∧
        ∀ P ∈ b.backEdges, P ≠ bb → ∀ m, aliasesAt s.2 P = .ok m →
          mapFind m el.1 = none ∨ mapFind m el.1 = some el.2 := by
  unfold dealiasBlock at h
  rw [if_neg hbb] at h
  obtain ⟨b, hb, h⟩ := bind_ok h
  obtain ⟨_, _, h⟩ := bind_ok h
  obtain ⟨cur0, hcur0, h⟩ := bind_ok h
  obtain ⟨cur, hcur, h⟩ := bind_ok h
  obtain ⟨c1, hc1, h⟩ := bind_ok h
  simp only [pure, Except.pure, Except.ok.injEq] at h
  subst h
  obtain ⟨hp, rfl⟩ := update_ok hc1
  refine ⟨b, cur, hb, ?_, rfl, fun q => ?_, ?_⟩
  · unfold startAliases
    rw [hb]
    simp only [bind, Except.bind]
    rw [hcur0]
    exact hcur
  · rw [blockAt_modify _ _ _ _ hp]
    split <;> rfl
  · intro first rest hf el hel
    obtain ⟨h1, h2⟩ := mergeParents_spec _ _ _ _ _ hcur el hel
    rw [hf, List.headD_cons] at hcur0
    exact ⟨⟨cur0, hcur0, h1⟩, h2⟩

/-- Witness of C11 (amended): the merge block of `MergeAliases.graph`. -/
theorem dealiasBlock_start_aliases_witness :
    dealiasBlock MergeAliases.symbols (MergeAliases.graph, MergeAliases.exits) 4 =
      .ok MergeAliases.after ∧ 4 ≠ CFG.deadBlock ∧
    ∃ b current, MergeAliases.graph.block 4 = .ok b ∧
      startAliases (MergeAliases.graph, MergeAliases.exits) 4 = .ok current ∧
      MergeAliases.after.2 =
        MergeAliases.exits.set 4 (dealiasBindings MergeAliases.symbols b.exprs current).2 ∧
      (∀ q, (MergeAliases.after.1.blockAt q).exprs =
        if q = 4 then (dealiasBindings MergeAliases.symbols b.exprs current).1
        else (MergeAliases.graph.blockAt q).exprs) ∧
      ∀ first rest, b.backEdges = first :: rest → ∀ el ∈ current,
        (∃ m, aliasesAt MergeAliases.exits first = .ok m ∧ el ∈ m) ∧
        ∀ P ∈ b.backEdges, P ≠ 4 → ∀ m, aliasesAt MergeAliases.exits P = .ok m →
          mapFind m el.1 = none ∨ mapFind m el.1 = some el.2 :=
  ⟨MergeAliases_block, by decide,
    dealiasBlock_start_aliases MergeAliases.symbols (MergeAliases.graph, MergeAliases.exits)
      MergeAliases.after 4 MergeAliases_block (by decide)⟩

/-! ## `dealias` and the symbols that are not synthetic temporaries -/

theorem dealiasBlock_exprs {gs : GlobalState}
    {s s2 : CFG × List (List (SymbolRef × SymbolRef))} {bb : Nat}
    (h : dealiasBlock gs s bb = .ok s2) :
    s2.1.basicBlocks.length = s.1.basicBlocks.length ∧
    ∃ cur, ∀ q, (s2.1.blockAt q).exprs = (s.1.blockAt q).exprs ∨
      (s2.1.blockAt q).exprs = (dealiasBindings gs (s.1.blockAt q).exprs cur).1 := by
  unfold dealiasBlock at h
  by_cases hbb : bb = CFG.deadBlock
  · rw [if_pos hbb] at h
    simp only [pure, Except.pure, Except.ok.injEq] at h
    subst h
    exact ⟨rfl, [], fun q => Or.inl rfl⟩
  · rw [if_neg hbb] at h
    obtain ⟨b, hb, h⟩ := bind_ok h
    obtain ⟨_, _, h⟩ := bind_ok h
    obtain ⟨cur0, hcur0, h⟩ := bind_ok h
    obtain ⟨cur, hcur, h⟩ := bind_ok h
    obtain ⟨c1, hc1, h⟩ := bind_ok h
    simp only [pure, Except.pure, Except.ok.injEq] at h
    subst h
    obtain ⟨hp, rfl⟩ := update_ok hc1
    obtain ⟨_, rfl⟩ := block_ok hb
    refine ⟨by simp, cur, fun q => ?_⟩
    rw [blockAt_modify _ _ _ _ hp]
    split
    · rename_i hq
      subst hq
      exact Or.inr rfl
    · exact Or.inl rfl

/-- Whatever relation the loop over the bindings of a block establishes between the
bindings before and after, `dealias` establishes for every block, when the relation is
reflexive and transitive. -/
theorem dealias_exprs_rel (gs : GlobalState) (R : List Binding → List Binding → Prop)
    (hrefl : ∀ l, R l l) (htrans : ∀ a b c, R a b → R b c → R a c)
    (hstep : ∀ l cur, R l (dealiasBindings gs l cur).1) {c c2 : CFG}
    (h : c.dealias gs = .ok c2) :
    c2.basicBlocks.length = c.basicBlocks.length ∧
    ∀ p, R (c.blockAt p).exprs (c2.blockAt p).exprs := by
  have hloop : ∀ (order : List (Option Nat))
      (s s2 : CFG × List (List (SymbolRef × SymbolRef))),
      dealiasLoop gs order s = .ok s2 →
        s2.1.basicBlocks.length = s.1.basicBlocks.length ∧
        ∀ p, R (s.1.blockAt p).exprs (s2.1.blockAt p).exprs := by
    intro order
    induction order with
    | nil =>
      intro s s2 h
      simp only [dealiasLoop, pure, Except.pure, Except.ok.injEq] at h
      subst h
      exact ⟨rfl, fun p => hrefl _⟩
    | cons bb rest ih =>
      intro s s2 h
      rw [dealiasLoop] at h
      obtain ⟨p, _, h⟩ := bind_ok h
      obtain ⟨s1, h1, h⟩ := bind_ok h
      obtain ⟨l1, cur, hq⟩ := dealiasBlock_exprs h1
      obtain ⟨l2, h2⟩ := ih _ _ h
      refine ⟨by rw [l2, l1], fun q => htrans _ _ _ ?_ (h2 q)⟩
      rcases hq q with e | e
      · rw [e]; exact hrefl _
      · rw [e]; exact hstep _ _
  unfold CFG.dealias at h
  obtain ⟨r, hr, h⟩ := bind_ok h
  simp only [pure, Except.pure, Except.ok.injEq] at h
  subst h
  exact hloop _ _ _ hr

theorem PlainKept.same (gs : GlobalState) (w : SymbolRef) : PlainKept gs w w := fun _ => rfl

theorem PlainKept.after {gs : GlobalState} {a b c : SymbolRef} (h1 : PlainKept gs a b)
    (h2 : PlainKept gs b c) : PlainKept gs a c := by
  intro ha
  have hb := h1 ha
  subst hb
  exact h2 ha

theorem maybeDealias_plainKept (gs : GlobalState) (w : SymbolRef)
    (cur : List (SymbolRef × SymbolRef)) : PlainKept gs w (maybeDealias gs w cur) := by
  intro hw
  simp [maybeDealias, hw]

theorem forall₂_plainKept_same (gs : GlobalState) (l : List SymbolRef) :
    List.Forall₂ (PlainKept gs) l l := by
  induction l with
  | nil => exact List.Forall₂.nil
  | cons b rest ih => exact List.Forall₂.cons (PlainKept.same gs b) ih

theorem forall₂_plainKept_after {gs : GlobalState} {l1 l2 l3 : List SymbolRef}
    (h1 : List.Forall₂ (PlainKept gs) l1 l2) (h2 : List.Forall₂ (PlainKept gs) l2 l3) :
    List.Forall₂ (PlainKept gs) l1 l3 := by
  induction h1 generalizing l3 with
  | nil => cases h2; exact List.Forall₂.nil
  | cons hab _ ih =>
    cases h2 with
    | cons hbc hrest => exact List.Forall₂.cons (hab.after hbc) (ih hrest)

theorem forall₂_plainKept_map (gs : GlobalState) (cur : List (SymbolRef × SymbolRef))
    (l : List SymbolRef) :
    List.Forall₂ (PlainKept gs) l (l.map (fun arg => maybeDealias gs arg cur)) := by
  induction l with
  | nil => exact List.Forall₂.nil
  | cons b rest ih => exact List.Forall₂.cons (maybeDealias_plainKept gs b cur) ih

theorem Instruction.PlainKept.same_instr (gs : GlobalState) (v : Instruction) :
    v.PlainKept gs v := by
  cases v <;>
    first
    | rfl
    | exact ⟨_, rfl, PlainKept.same _ _⟩
    | exact ⟨_, _, rfl, PlainKept.same _ _, forall₂_plainKept_same _ _⟩
    | exact ⟨_, rfl, forall₂_plainKept_same _ _⟩

theorem Instruction.PlainKept.after_instr {gs : GlobalState} {a b c : Instruction}
    (h1 : a.PlainKept gs b) (h2 : b.PlainKept gs c) : a.PlainKept gs c := by
  cases a <;> simp only [Instruction.PlainKept] at h1
  case Ident =>
    obtain ⟨w, rfl, hw⟩ := h1
    simp only [Instruction.PlainKept] at h2 ⊢
    obtain ⟨w3, rfl, hw3⟩ := h2
    exact ⟨w3, rfl, hw.after hw3⟩
  case Send =>
    obtain ⟨r, args2, rfl, hr, hl⟩ := h1
    simp only [Instruction.PlainKept] at h2 ⊢
    obtain ⟨r3, args3, rfl, hr3, hl3⟩ := h2
    exact ⟨r3, args3, rfl, hr.after hr3, forall₂_plainKept_after hl hl3⟩
  case Super =>
    obtain ⟨args2, rfl, hl⟩ := h1
    simp only [Instruction.PlainKept] at h2 ⊢
    obtain ⟨args3, rfl, hl3⟩ := h2
    exact ⟨args3, rfl, forall₂_plainKept_after hl hl3⟩
  case Return =>
    obtain ⟨w, rfl, hw⟩ := h1
    simp only [Instruction.PlainKept] at h2 ⊢
    obtain ⟨w3, rfl, hw3⟩ := h2
    exact ⟨w3, rfl, hw.after hw3⟩
  case NamedArg =>
    obtain ⟨w, rfl, hw⟩ := h1
    simp only [Instruction.PlainKept] at h2 ⊢
    obtain ⟨w3, rfl, hw3⟩ := h2
    exact ⟨w3, rfl, hw.after hw3⟩
  all_goals (subst h1; exact h2)

theorem dealiasOperands_plainKept (gs : GlobalState) (cur : List (SymbolRef × SymbolRef))
    (v : Instruction) : v.PlainKept gs (dealiasOperands gs cur v) := by
  cases v <;>
    first
    | rfl
    | exact ⟨_, rfl, maybeDealias_plainKept _ _ _⟩
    | exact ⟨_, _, rfl, maybeDealias_plainKept _ _ _, forall₂_plainKept_map _ _ _⟩
    | exact ⟨_, rfl, forall₂_plainKept_map _ _ _⟩

theorem dealiasBinding_plainKept (gs : GlobalState) (cur : List (SymbolRef × SymbolRef))
    (b : Binding) : b.PlainKept gs (dealiasBinding gs cur b).1 := by
  refine ⟨rfl, ?_⟩
  simp only [dealiasBinding]
  cases hb : b.value <;>
    first
    | exact dealiasOperands_plainKept _ _ _
    | exact Instruction.PlainKept.after_instr
        (⟨_, rfl, maybeDealias_plainKept _ _ _⟩ : Instruction.PlainKept gs (.Ident _) (.Ident _))
        (dealiasOperands_plainKept _ _ _)

theorem dealiasBindings_plainKept (gs : GlobalState) (l : List Binding) :
    ∀ cur, List.Forall₂ (Binding.PlainKept gs) l (dealiasBindings gs l cur).1 := by
  induction l with
  | nil => intro cur; exact List.Forall₂.nil
  | cons b rest ih =>
    intro cur
    simp only [dealiasBindings]
    exact List.Forall₂.cons (dealiasBinding_plainKept gs cur b) (ih _)

/-- C12: `dealias` substitutes only synthetic temporaries. `maybeDealias(what, aliases)`
returns `aliases[what]` when `what` is a synthetic temporary that is a key of
`aliases`, and `what` otherwise; so, for every graph, `dealias` keeps the blocks, the
bindings and their order, and every operand position (`Ident.what`, `Send.recv`,
`Send.args[i]`, `Super.args[i]`, `Return.what`, `NamedArg.value`) that held a symbol
which is not a synthetic temporary holds the same symbol afterwards. -/
theorem dealias_substitutes_only_temporaries (gs : GlobalState) (c c2 : CFG)
    (h : c.dealias gs = .ok c2) :
    (∀ what aliases,
      (∀ v, (gs.info what).isSyntheticTemporary = true → mapFind aliases what = some v →
        maybeDealias gs what aliases = v) ∧
      ((gs.info what).isSyntheticTemporary = false ∨ mapFind aliases what = none →
        maybeDealias gs what aliases = what)) ∧
    c2.basicBlocks.length = c.basicBlocks.length ∧
    ∀ p, List.Forall₂ (Binding.PlainKept gs) (c.blockAt p).exprs (c2.blockAt p).exprs := by
  refine ⟨fun what aliases => ⟨fun v h1 h2 => ?_, fun h1 => ?_⟩, ?_⟩
  · simp [maybeDealias, h1, h2]
  · rcases h1 with h1 | h1 <;> simp [maybeDealias, h1]
  · refine dealias_exprs_rel gs (List.Forall₂ (Binding.PlainKept gs)) ?_ ?_
      (dealiasBindings_plainKept gs) h
    · intro l
      induction l with
      | nil => exact List.Forall₂.nil
      | cons b rest ih =>
        exact List.Forall₂.cons ⟨rfl, Instruction.PlainKept.same_instr gs _⟩ ih
    · intro l1 l2 l3 h1 h2
      induction h1 generalizing l3 with
      | nil => cases h2; exact List.Forall₂.nil
      | cons hab _ ih =>
        cases h2 with
        | cons hbc hrest =>
          exact List.Forall₂.cons ⟨hbc.1.trans hab.1, hab.2.after_instr hbc.2⟩ (ih _ hrest)

/-- Witness of C12: `dealias` returns on `MergeAliases.graph`, where it rewrites the
operand of the `Return`, a synthetic temporary. -/
theorem dealias_substitutes_only_temporaries_witness :
    MergeAliases.graph.dealias MergeAliases.symbols = .ok MergeAliases.after.1 ∧
    (∀ what aliases,
      (∀ v, (MergeAliases.symbols.info what).isSyntheticTemporary = true →
        mapFind aliases what = some v → maybeDealias MergeAliases.symbols what aliases = v) ∧
      ((MergeAliases.symbols.info what).isSyntheticTemporary = false ∨
        mapFind aliases what = none → maybeDealias MergeAliases.symbols what aliases = what)) ∧
    MergeAliases.after.1.basicBlocks.length = MergeAliases.graph.basicBlocks.length ∧
    ∀ p, List.Forall₂ (Binding.PlainKept MergeAliases.symbols)
      (MergeAliases.graph.blockAt p).exprs (MergeAliases.after.1.blockAt p).exprs :=
  ⟨MergeAliases_dealias, dealias_substitutes_only_temporaries MergeAliases.symbols
    MergeAliases.graph MergeAliases.after.1 MergeAliases_dealias⟩

/-! ## The edge helpers -/

theorem update_header {c c2 : CFG} {p : Nat} {f : BasicBlock → BasicBlock}
    (h : c.update p f = .ok c2) : SameHeader c c2 := by
  obtain ⟨_, rfl⟩ := update_ok h
  exact ⟨rfl, rfl, rfl⟩

theorem SameHeader.after_header {a b c : CFG} (h1 : SameHeader a b) (h2 : SameHeader b c) :
    SameHeader a c :=
  ⟨h2.1.trans h1.1, h2.2.1.trans h1.2.1, h2.2.2.trans h1.2.2⟩

theorem conditionalJump_returns (c : CFG) (f t e : Nat) (cnd : SymbolRef)
    (hf : f < c.basicBlocks.length) (ht : t < c.basicBlocks.length)
    (he : e < c.basicBlocks.length) (hd : f ≠ CFG.deadBlock)
    (hu : SymbolRef.symbolExists (c.blockAt f).bexit.cond = false) :
    ∃ c2, conditionalJump f cnd t e c = .ok c2 ∧ SameHeader c c2 := by
  unfold conditionalJump
  rw [if_pos hd, block_of_lt c hf]
  simp only [bind, Except.bind, hu, Bool.false_eq_true, if_false, pure, Except.pure]
  rw [update_of_lt c _ hf]
  simp only [CFG.pushBackEdge]
  rw [update_of_lt _ _ (by simpa using ht)]
  simp only
  rw [update_of_lt _ _ (by simpa using he)]
  exact ⟨_, rfl, rfl, rfl, rfl⟩

theorem unconditionalJump_returns (c : CFG) (f t : Nat)
    (hf : f < c.basicBlocks.length) (ht : t < c.basicBlocks.length)
    (hd : f ≠ CFG.deadBlock)
    (hu : SymbolRef.symbolExists (c.blockAt f).bexit.cond = false) :
    ∃ c2, unconditionalJump f t c = .ok c2 ∧ SameHeader c c2 := by
  unfold unconditionalJump
  rw [if_pos hd, block_of_lt c hf]
  simp only [bind, Except.bind, hu, Bool.false_eq_true, if_false, pure, Except.pure]
  rw [update_of_lt c _ hf]
  simp only [CFG.pushBackEdge]
  rw [update_of_lt _ _ (by simpa using ht)]
  exact ⟨_, rfl, rfl, rfl, rfl⟩

theorem jumpToDead_returns (c : CFG) (f : Nat)
    (hf : f < c.basicBlocks.length) (ht : CFG.deadBlock < c.basicBlocks.length)
    (hd : f ≠ CFG.deadBlock)
    (hu : SymbolRef.symbolExists (c.blockAt f).bexit.cond = false) :
    ∃ c2, jumpToDead f c = .ok c2 ∧ SameHeader c c2 := by
  unfold jumpToDead
  simp only
  rw [if_pos hd, block_of_lt c hf]
  simp only [bind, Except.bind, hu, Bool.false_eq_true, if_false, pure, Except.pure]
  rw [update_of_lt c _ hf]
  simp only [CFG.pushBackEdge]
  rw [update_of_lt _ _ (by simpa using ht)]
  exact ⟨_, rfl, rfl, rfl, rfl⟩

/-- C20: each edge helper, called with a `from` block that is not the dead block and
whose `bexit.cond` is unset (all blocks involved being blocks of the graph), returns
and installs exactly the specified terminator and reverse edges, changing nothing
else: `unconditionalJump(from, to)` sets `cond = defn_cfg_always`, `thenb = elseb = to`
and appends `from` once to `to.backEdges`; `jumpToDead(from)` sets
`cond = defn_cfg_never`, `thenb = elseb = dead` and appends `from` once to
`dead.backEdges`; `conditionalJump(from, c, t, e)` sets `cond = c`, `thenb = t`,
`elseb = e` and appends `from` once to `t.backEdges` and once to `e.backEdges`, twice
to the same list when `t = e`. -/
theorem edge_helpers_install (c : CFG) (fromBB toBB t e : Nat) (cnd : SymbolRef)
    (hf : fromBB < c.basicBlocks.length) (hto : toBB < c.basicBlocks.length)
    (ht : t < c.basicBlocks.length) (he : e < c.basicBlocks.length)
    (hdead : CFG.deadBlock < c.basicBlocks.length) (hd : fromBB ≠ CFG.deadBlock)
    (hu : SymbolRef.symbolExists (c.blockAt fromBB).bexit.cond = false) :
    (∃ c2, unconditionalJump fromBB toBB c = .ok c2 ∧ SameHeader c c2 ∧
      Linked c c2 fromBB GlobalState.defn_cfg_always toBB toBB [toBB]) ∧
    (∃ c2, jumpToDead fromBB c = .ok c2 ∧ SameHeader c c2 ∧
      Linked c c2 fromBB GlobalState.defn_cfg_never CFG.deadBlock CFG.deadBlock
        [CFG.deadBlock]) ∧
    (∃ c2, conditionalJump fromBB cnd t e c = .ok c2 ∧ SameHeader c c2 ∧
      Linked c c2 fromBB cnd t e [t, e]) := by
  obtain ⟨c1, h1, s1⟩ := unconditionalJump_returns c fromBB toBB hf hto hd hu
  obtain ⟨c2, h2, s2⟩ := jumpToDead_returns c fromBB hf hdead hd hu
  obtain ⟨c3, h3, s3⟩ := conditionalJump_returns c fromBB t e cnd hf ht he hd hu
  exact ⟨⟨c1, h1, s1, (unconditionalJump_ok h1 hd).2.2.2⟩,
    ⟨c2, h2, s2, (jumpToDead_ok h2 hd).2.2.2⟩,
    ⟨c3, h3, s3, (conditionalJump_ok h3 hd).2.2.2.2⟩⟩

/-- Witness of C20: the entry block of a new graph has no terminator. -/
theorem edge_helpers_install_witness :
    CFG.entry < CFG.new.basicBlocks.length ∧ CFG.deadBlock < CFG.new.basicBlocks.length ∧
    CFG.entry ≠ CFG.deadBlock ∧
    SymbolRef.symbolExists (CFG.new.blockAt CFG.entry).bexit.cond = false ∧
    (∃ c2, unconditionalJump CFG.entry CFG.deadBlock CFG.new = .ok c2 ∧ SameHeader CFG.new c2 ∧
      Linked CFG.new c2 CFG.entry GlobalState.defn_cfg_always CFG.deadBlock CFG.deadBlock
        [CFG.deadBlock]) ∧
    (∃ c2, jumpToDead CFG.entry CFG.new = .ok c2 ∧ SameHeader CFG.new c2 ∧
      Linked CFG.new c2 CFG.entry GlobalState.defn_cfg_never CFG.deadBlock CFG.deadBlock
        [CFG.deadBlock]) ∧
    (∃ c2, conditionalJump CFG.entry 7 CFG.entry CFG.entry CFG.new = .ok c2 ∧
      SameHeader CFG.new c2 ∧ Linked CFG.new c2 CFG.entry 7 CFG.entry CFG.entry
        [CFG.entry, CFG.entry]) :=
  ⟨by decide, by decide, by decide, by decide,
    edge_helpers_install CFG.new CFG.entry CFG.deadBlock CFG.entry CFG.entry 7
      (by decide) (by decide) (by decide) (by decide) (by decide) (by decide) (by decide)⟩

/-! ## `walk` on nodes it does not lower -/

theorem checkUnset_returns (c : CFG) (cur : Nat) (hc : cur < c.basicBlocks.length)
    (hu : SymbolRef.symbolExists (c.blockAt cur).bexit.cond = false) :
    checkUnset c cur = .ok () := by
  unfold checkUnset
  rw [block_of_lt c hc]
  simp [bind, Except.bind, hu, pure, Except.pure]

theorem emplace_returns (c : CFG) (p : Nat) (bind : SymbolRef) (v : Instruction)
    (hp : p < c.basicBlocks.length) :
    ∃ c2, c.emplace p bind v = .ok c2 ∧ SameHeader c c2 := by
  unfold CFG.emplace
  rw [update_of_lt c _ hp]
  exact ⟨_, rfl, rfl, rfl, rfl⟩

/-- C17 (counterexample): `walk` raises on an unrecognised node when `current` is the
dead block, whose terminator is set. -/
theorem walk_unrecognised_raises_on_dead :
    Unrecognised (.NotHandled 0) ∧
    CFG.walk (.NotHandled 0) CFG.deadBlock 9 0 ⟨Scenario.gs, CFG.new, []⟩ =
      .error Err.raise := by
  constructor
  · trivial
  · decide

/-- C17 (amended): `walk` raises when the expression is a `ConstantLit`, whereas for a
node of any kind outside the recognised set, when the terminator of `current` is
unset, it does not raise: it appends exactly one binding
`target := NotSupported("")` to `current`, installs no terminator, creates no block
and returns `current`. -/
theorem walk_constant_and_unrecognised (current : Nat) (target : SymbolRef) (loops : Int)
    (st : BuildState) (hc : current < st.inWhat.basicBlocks.length) :
    (∀ x, CFG.walk (.ConstantLit x) current target loops st = .error Err.raise) ∧
    (SymbolRef.symbolExists (st.inWhat.blockAt current).bexit.cond = false →
      ∀ what, Unrecognised what →
        ∃ c2, CFG.walk what current target loops st = .ok (current, { st with inWhat := c2 }) ∧
          SameHeader st.inWhat c2 ∧
          c2.basicBlocks.length = st.inWhat.basicBlocks.length ∧
          ∀ q, c2.blockAt q =
            if q = current then
              { st.inWhat.blockAt q with
                exprs := (st.inWhat.blockAt q).exprs ++ [⟨target, .NotSupported ""⟩] }
            else st.inWhat.blockAt q) := by
  constructor
  · intro x
    simp only [CFG.walk]
    by_cases hu : SymbolRef.symbolExists (st.inWhat.blockAt current).bexit.cond = true
    · unfold checkUnset
      rw [block_of_lt _ hc]
      simp [bind, Except.bind, hu, throw, throwThe, MonadExceptOf.throw]
    · rw [checkUnset_returns _ _ hc (by simpa using hu)]
      rfl
  · intro hu what hw
    obtain ⟨c2, h2, s2⟩ := emplace_returns st.inWhat current target (.NotSupported "") hc
    refine ⟨c2, ?_, s2, (emplace_ok h2).2.1, (emplace_ok h2).2.2⟩
    cases what <;> simp only [Unrecognised] at hw
    all_goals
      simp only [CFG.walk]
      rw [checkUnset_returns _ _ hc hu]
      simp only [bind, Except.bind, BuildState.onCFG, h2, pure, Except.pure]

/-- Witness of C17 (amended): the entry block of a new graph. -/
theorem walk_constant_and_unrecognised_witness :
    CFG.entry < (⟨Scenario.gs, CFG.new, []⟩ : BuildState).inWhat.basicBlocks.length ∧
    (∀ x, CFG.walk (.ConstantLit x) CFG.entry 9 0 ⟨Scenario.gs, CFG.new, []⟩ =
      .error Err.raise) ∧
    (SymbolRef.symbolExists (CFG.new.blockAt CFG.entry).bexit.cond = false →
      ∀ what, Unrecognised what →
        ∃ c2, CFG.walk what CFG.entry 9 0 ⟨Scenario.gs, CFG.new, []⟩ =
            .ok (CFG.entry, { (⟨Scenario.gs, CFG.new, []⟩ : BuildState) with inWhat := c2 }) ∧
          SameHeader CFG.new c2 ∧
          c2.basicBlocks.length = CFG.new.basicBlocks.length ∧
          ∀ q, c2.blockAt q =
            if q = CFG.entry then
              { CFG.new.blockAt q with
                exprs := (CFG.new.blockAt q).exprs ++ [⟨9, .NotSupported ""⟩] }
            else CFG.new.blockAt q) :=
  ⟨by decide, walk_constant_and_unrecognised CFG.entry 9 0 ⟨Scenario.gs, CFG.new, []⟩
    (by decide)⟩

/-- C19: for every expression and every `current` block, if `walk` returns without
raising (which it does only when the terminator of `current` is unset) then the
returned block is either the dead block or a block of the graph whose `bexit.cond` is
still unset. -/
theorem walk_returns_open_block (what : ast.Expression) (current : Nat) (target : SymbolRef)
    (loops : Int) (st : BuildState) (ret : Nat) (st2 : BuildState)
    (h : CFG.walk what current target loops st = .ok (ret, st2)) :
    SymbolRef.symbolExists (st.inWhat.blockAt current).bexit.cond = false ∧
    (ret = CFG.deadBlock ∨
      (ret < st2.inWhat.basicBlocks.length ∧
        SymbolRef.symbolExists (st2.inWhat.blockAt ret).bexit.cond = false)) := by
  constructor
  · have hu : ∃ u, checkUnset st.inWhat current = .ok u := by
      cases what <;>
        (simp only [CFG.walk] at h
         obtain ⟨u, hu, _⟩ := bind_ok h
         exact ⟨u, hu⟩)
    obtain ⟨u, hu⟩ := hu
    have := (checkUnset_ok hu).2
    simp [SymbolRef.symbolExists, this]
  · rcases (walk_handed what current target loops st ret st2 h).opened with e | ⟨e1, e2⟩
    · exact Or.inl e
    · exact Or.inr ⟨e1, by simp [SymbolRef.symbolExists, e2]⟩

/-- Witness of C19: `walk` returns on a literal, from the entry block of a new graph. -/
theorem walk_returns_open_block_witness :
    CFG.walk (.IntLit 1) CFG.entry 9 0 ⟨Scenario.gs, CFG.new, []⟩ =
      .ok (CFG.entry, ⟨Scenario.gs, Leaf.cfg, []⟩) ∧
    SymbolRef.symbolExists (CFG.new.blockAt CFG.entry).bexit.cond = false ∧
    (CFG.entry = CFG.deadBlock ∨
      (CFG.entry < Leaf.cfg.basicBlocks.length ∧
        SymbolRef.symbolExists (Leaf.cfg.blockAt CFG.entry).bexit.cond = false)) :=
  ⟨rfl, walk_returns_open_block (.IntLit 1) CFG.entry 9 0 ⟨Scenario.gs, CFG.new, []⟩
    CFG.entry ⟨Scenario.gs, Leaf.cfg, []⟩ rfl⟩

/-- C18: `walk` on `If(x, 1, return 2)`, whose else-arm ends in the dead block, from
the entry block of a new graph: the then-arm is lowered in block 2 and returns it, yet
`walk` returns block 4, a merge block it allocated (the graph has 5 blocks), to which
block 2 jumps. On `If(x, return 2, 1)`, whose then-arm is the dead one, it returns
block 3, where the else-arm ended, and the graph has the 4 blocks it had before the
arms were compared. -/
theorem walk_if_else_arm_dead :
    (CFG.walk (.If (.Ident 7) (.IntLit 1) (.Return (.IntLit 2))) CFG.entry 9 0
        ⟨Scenario.gs, CFG.new, []⟩).map
      (fun r => (r.1, r.2.inWhat.basicBlocks.length, (r.2.inWhat.blockAt 2).exprs,
        (r.2.inWhat.blockAt 2).bexit)) =
      .ok (4, 5, [⟨9, .IntLit 1⟩], ⟨GlobalState.defn_cfg_always, some 4, some 4⟩) ∧
    (CFG.walk (.If (.Ident 7) (.Return (.IntLit 2)) (.IntLit 1)) CFG.entry 9 0
        ⟨Scenario.gs, CFG.new, []⟩).map
      (fun r => (r.1, r.2.inWhat.basicBlocks.length, (r.2.inWhat.blockAt 3).exprs,
        (r.2.inWhat.blockAt 3).bexit)) =
      .ok (3, 4, [⟨9, .IntLit 1⟩], ⟨0, none, none⟩) := by
  constructor <;> decide

/-! ## Properties of the state that `walk` preserves -/

theorem OnlyEdges_of_Linked {c c2 : CFG} {f : Nat} {cnd : SymbolRef} {t e : Nat}
    {ts : List Nat} (h : Linked c c2 f cnd t e ts) (hh : SameHeader c c2) : OnlyEdges c c2 := by
  refine ⟨h.1, hh, fun p => ?_⟩
  rw [h.2 p]
  exact ⟨rfl, rfl, rfl, rfl⟩

theorem OnlyEdges.same_edges (c : CFG) : OnlyEdges c c :=
  ⟨rfl, ⟨rfl, rfl, rfl⟩, fun _ => ⟨rfl, rfl, rfl, rfl⟩⟩

theorem update_sameHeader {c c2 : CFG} {p : Nat} {f : BasicBlock → BasicBlock}
    (h : c.update p f = .ok c2) : SameHeader c c2 := by
  obtain ⟨_, rfl⟩ := update_ok h
  exact ⟨rfl, rfl, rfl⟩

theorem conditionalJump_onlyEdges {c c2 : CFG} {f t e : Nat} {cnd : SymbolRef}
    (h : conditionalJump f cnd t e c = .ok c2) : OnlyEdges c c2 := by
  by_cases hd : f = CFG.deadBlock
  · subst hd
    simp [conditionalJump, pure, Except.pure] at h
    subst h
    exact OnlyEdges.same_edges _
  · obtain ⟨hf, ht, he, hu, hl⟩ := conditionalJump_ok h hd
    obtain ⟨c3, h3, s3⟩ := conditionalJump_returns c f t e cnd hf ht he hd
      (by simp [SymbolRef.symbolExists, hu])
    rw [h] at h3
    cases h3
    exact OnlyEdges_of_Linked hl s3

theorem unconditionalJump_onlyEdges {c c2 : CFG} {f t : Nat}
    (h : unconditionalJump f t c = .ok c2) : OnlyEdges c c2 := by
  by_cases hd : f = CFG.deadBlock
  · subst hd
    simp [unconditionalJump, pure, Except.pure] at h
    subst h
    exact OnlyEdges.same_edges _
  · obtain ⟨hf, ht, hu, hl⟩ := unconditionalJump_ok h hd
    obtain ⟨c3, h3, s3⟩ := unconditionalJump_returns c f t hf ht hd
      (by simp [SymbolRef.symbolExists, hu])
    rw [h] at h3
    cases h3
    exact OnlyEdges_of_Linked hl s3

theorem jumpToDead_onlyEdges {c c2 : CFG} {f : Nat}
    (h : jumpToDead f c = .ok c2) : OnlyEdges c c2 := by
  by_cases hd : f = CFG.deadBlock
  · subst hd
    simp [jumpToDead, pure, Except.pure] at h
    subst h
    exact OnlyEdges.same_edges _
  · obtain ⟨hf, ht, hu, hl⟩ := jumpToDead_ok h hd
    obtain ⟨c3, h3, s3⟩ := jumpToDead_returns c f hf ht hd
      (by simp [SymbolRef.symbolExists, hu])
    rw [h] at h3
    cases h3
    exact OnlyEdges_of_Linked hl s3

theorem loadBlockArgs_preserves (P : BuildState → Prop)
    (hemit : ∀ (st : BuildState) (p : Nat) (b : SymbolRef) (v : Instruction) (c2 : CFG),
      P st → ¬ v.isAlias → st.inWhat.emplace p b v = .ok c2 → P { st with inWhat := c2 })
    (recv : SymbolRef) (fn : NameRef) (bodyBlock : Nat) (args : List ast.Expression) :
    ∀ (i : Int) (st : BuildState) (c2 : CFG), P st →
      loadBlockArgs recv fn bodyBlock args i st.inWhat = .ok c2 → P { st with inWhat := c2 } := by
  induction args with
  | nil =>
    intro i st c2 hp h
    simp only [loadBlockArgs, pure, Except.pure, Except.ok.injEq] at h
    subst h
    exact hp
  | cons a rest ih =>
    intro i st c2 hp h
    cases a
    case Ident symbol =>
      simp only [loadBlockArgs] at h
      obtain ⟨c1, hc1, h2⟩ := bind_ok h
      have p1 := hemit st _ _ _ c1 hp (by simp [Instruction.isAlias]) hc1
      exact ih _ { st with inWhat := c1 } c2 p1 h2
    all_goals
      simp only [loadBlockArgs] at h
      exact ih _ st c2 hp h

theorem assignTarget_preserves (P : BuildState → Prop)
    (hg2l : ∀ st w, P st → P (global2Local w st).2) (lhs : ast.Expression)
    (st : BuildState) (hp : P st) : P (assignTarget lhs st).2 := by
  cases lhs <;> first
    | exact hg2l _ _ hp
    | exact hp

mutual
theorem walk_preserves (P : BuildState → Prop)
    (hnew : ∀ st n, P st → P (st.newTemporary n).2)
    (hfresh : ∀ st l, P st → P (st.freshBlock l).2)
    (hg2l : ∀ st w, P st → P (global2Local w st).2)
    (hemit : ∀ (st : BuildState) (p : Nat) (b : SymbolRef) (v : Instruction) (c2 : CFG),
      P st → ¬ v.isAlias → st.inWhat.emplace p b v = .ok c2 → P { st with inWhat := c2 })
    (hedge : ∀ (st : BuildState) (c2 : CFG), P st → OnlyEdges st.inWhat c2 →
      P { st with inWhat := c2 }) :
    ∀ (what : ast.Expression) (current : Nat) (target : SymbolRef)
    (loops : Int) (st : BuildState) (ret : Nat) (st2 : BuildState),
    CFG.walk what current target loops st = .ok (ret, st2) → P st → P st2
  | .IntLit value, current, target, loops, st, ret, st2, h, hp => by
    simp only [CFG.walk] at h
    obtain ⟨u, hu, h⟩ := bind_ok h
    obtain ⟨st1, h1, h⟩ := bind_ok h
    obtain ⟨c1, hc1, rfl⟩ := onCFG_ok h1
    simp only [pure, Except.pure, Except.ok.injEq, Prod.mk.injEq] at h
    obtain ⟨rfl, rfl⟩ := h
    have qfin := hemit st _ _ _ c1 hp (by simp [Instruction.isAlias]) hc1
    exact qfin
  | .FloatLit value, current, target, loops, st, ret, st2, h, hp => by
    simp only [CFG.walk] at h
    obtain ⟨u, hu, h⟩ := bind_ok h
    obtain ⟨st1, h1, h⟩ := bind_ok h
    obtain ⟨c1, hc1, rfl⟩ := onCFG_ok h1
    simp only [pure, Except.pure, Except.ok.injEq, Prod.mk.injEq] at h
    obtain ⟨rfl, rfl⟩ := h
    have qfin := hemit st _ _ _ c1 hp (by simp [Instruction.isAlias]) hc1
    exact qfin
  | .StringLit value, current, target, loops, st, ret, st2, h, hp => by
    simp only [CFG.walk] at h
    obtain ⟨u, hu, h⟩ := bind_ok h
    obtain ⟨st1, h1, h⟩ := bind_ok h
    obtain ⟨c1, hc1, rfl⟩ := onCFG_ok h1
    simp only [pure, Except.pure, Except.ok.injEq, Prod.mk.injEq] at h
    obtain ⟨rfl, rfl⟩ := h
    have qfin := hemit st _ _ _ c1 hp (by simp [Instruction.isAlias]) hc1
    exact qfin
  | .BoolLit value, current, target, loops, st, ret, st2, h, hp => by
    simp only [CFG.walk] at h
    obtain ⟨u, hu, h⟩ := bind_ok h
    obtain ⟨st1, h1, h⟩ := bind_ok h
    obtain ⟨c1, hc1, rfl⟩ := onCFG_ok h1
    simp only [pure, Except.pure, Except.ok.injEq, Prod.mk.injEq] at h
    obtain ⟨rfl, rfl⟩ := h
    have qfin := hemit st _ _ _ c1 hp (by simp [Instruction.isAlias]) hc1
    exact qfin
  | .Self value, current, target, loops, st, ret, st2, h, hp => by
    simp only [CFG.walk] at h
    obtain ⟨u, hu, h⟩ := bind_ok h
    obtain ⟨st1, h1, h⟩ := bind_ok h
    obtain ⟨c1, hc1, rfl⟩ := onCFG_ok h1
    simp only [pure, Except.pure, Except.ok.injEq, Prod.mk.injEq] at h
    obtain ⟨rfl, rfl⟩ := h
    have qfin := hemit st _ _ _ c1 hp (by simp [Instruction.isAlias]) hc1
    exact qfin
  | .BareBlock value, current, target, loops, st, ret, st2, h, hp => by
    simp only [CFG.walk] at h
    obtain ⟨u, hu, h⟩ := bind_ok h
    obtain ⟨st1, h1, h⟩ := bind_ok h
    obtain ⟨c1, hc1, rfl⟩ := onCFG_ok h1
    simp only [pure, Except.pure, Except.ok.injEq, Prod.mk.injEq] at h
    obtain ⟨rfl, rfl⟩ := h
    have qfin := hemit st _ _ _ c1 hp (by simp [Instruction.isAlias]) hc1
    exact qfin
  | .NotHandled value, current, target, loops, st, ret, st2, h, hp => by
    simp only [CFG.walk] at h
    obtain ⟨u, hu, h⟩ := bind_ok h
    obtain ⟨st1, h1, h⟩ := bind_ok h
    obtain ⟨c1, hc1, rfl⟩ := onCFG_ok h1
    simp only [pure, Except.pure, Except.ok.injEq, Prod.mk.injEq] at h
    obtain ⟨rfl, rfl⟩ := h
    have qfin := hemit st _ _ _ c1 hp (by simp [Instruction.isAlias]) hc1
    exact qfin
  | .ConstantLit _, current, target, loops, st, ret, st2, h, hp => by
    simp only [CFG.walk] at h
    obtain ⟨_, _, h1⟩ := bind_ok h
    cases h1
  | .Ident symbol, current, target, loops, st, ret, st2, h, hp => by
    simp only [CFG.walk] at h
    obtain ⟨u, hu, h⟩ := bind_ok h
    obtain ⟨st1, h1, h⟩ := bind_ok h
    obtain ⟨c1, hc1, rfl⟩ := onCFG_ok h1
    simp only [pure, Except.pure, Except.ok.injEq, Prod.mk.injEq] at h
    obtain ⟨rfl, rfl⟩ := h
    have qfin := hemit _ _ _ _ c1 (hg2l st symbol hp) (by simp [Instruction.isAlias]) hc1
    exact qfin
  | .Assign lhs rhs, current, target, loops, st, ret, st2, h, hp => by
    simp only [CFG.walk] at h
    obtain ⟨u, hu, h⟩ := bind_ok h
    obtain ⟨r1, hw1, h⟩ := bind_ok h
    obtain ⟨cont, st1⟩ := r1
    have q1 := walk_preserves P hnew hfresh hg2l hemit hedge rhs _ _ _ _ cont st1 hw1
      (assignTarget_preserves P hg2l lhs st hp)
    simp only at h
    obtain ⟨st3, h3, h⟩ := bind_ok h
    obtain ⟨c3, hj3, rfl⟩ := onCFG_ok h3
    simp only [pure, Except.pure, Except.ok.injEq, Prod.mk.injEq] at h
    obtain ⟨rfl, rfl⟩ := h
    have qfin := hemit _ _ _ _ c3 q1 (by simp [Instruction.isAlias]) hj3
    exact qfin
  | .InsSeq stats expr, current, target, loops, st, ret, st2, h, hp => by
    simp only [CFG.walk] at h
    obtain ⟨u, hu, h⟩ := bind_ok h
    obtain ⟨r1, hw1, h⟩ := bind_ok h
    obtain ⟨cur1, st1⟩ := r1
    have q1 := walkStats_preserves P hnew hfresh hg2l hemit hedge stats _ _ _ cur1 st1 hw1 hp
    exact walk_preserves P hnew hfresh hg2l hemit hedge expr _ _ _ _ ret st2 h q1
  | .Return expr, current, target, loops, st, ret, st2, h, hp => by
    simp only [CFG.walk] at h
    obtain ⟨u, hu, h⟩ := bind_ok h
    obtain ⟨r1, hw1, h⟩ := bind_ok h
    obtain ⟨cont, st1⟩ := r1
    have q1 := walk_preserves P hnew hfresh hg2l hemit hedge expr _ _ _ _ cont st1 hw1 (hnew _ _ hp)
    simp only at h
    obtain ⟨st3, h3, h⟩ := bind_ok h
    obtain ⟨c3, hj3, rfl⟩ := onCFG_ok h3
    obtain ⟨st4, h4, h⟩ := bind_ok h
    obtain ⟨c4, hj4, rfl⟩ := onCFG_ok h4
    simp only [pure, Except.pure, Except.ok.injEq, Prod.mk.injEq] at h
    obtain ⟨rfl, rfl⟩ := h
    have q3 := hemit _ _ _ _ c3 q1 (by simp [Instruction.isAlias]) hj3
    have qfin := hedge _ c4 q3 (jumpToDead_onlyEdges hj4)
    exact qfin
  | .While c b, current, target, loops, st, ret, st2, h, hp => by
    simp only [CFG.walk] at h
    obtain ⟨u, hu, h⟩ := bind_ok h
    obtain ⟨st1, h1, h⟩ := bind_ok h
    obtain ⟨c1, hj1, rfl⟩ := onCFG_ok h1
    have q1 := hedge _ c1 (hfresh st (loops + 1) hp) (unconditionalJump_onlyEdges hj1)
    obtain ⟨r3, hw3, h⟩ := bind_ok h
    obtain ⟨headerEnd, st3⟩ := r3
    have q3 := walk_preserves P hnew hfresh hg2l hemit hedge c _ _ _ _ headerEnd st3 hw3 (hnew _ _ q1)
    simp only at h
    obtain ⟨st4, h4, h⟩ := bind_ok h
    obtain ⟨c4, hj4, rfl⟩ := onCFG_ok h4
    have q4 := hedge _ c4 (hfresh _ loops (hfresh st3 (loops + 1) q3))
      (conditionalJump_onlyEdges hj4)
    obtain ⟨r5, hw5, h⟩ := bind_ok h
    obtain ⟨bodyEnd, st5⟩ := r5
    have q5 := walk_preserves P hnew hfresh hg2l hemit hedge b _ _ _ _ bodyEnd st5 hw5 (hnew _ _ q4)
    simp only at h
    obtain ⟨st6, h6, h⟩ := bind_ok h
    obtain ⟨c6, hj6, rfl⟩ := onCFG_ok h6
    have q6 := hedge _ c6 q5 (unconditionalJump_onlyEdges hj6)
    obtain ⟨st7, h7, h⟩ := bind_ok h
    obtain ⟨c7, hj7, rfl⟩ := onCFG_ok h7
    simp only [pure, Except.pure, Except.ok.injEq, Prod.mk.injEq] at h
    obtain ⟨rfl, rfl⟩ := h
    have qfin := hemit _ _ _ _ c7 q6 (by simp [Instruction.isAlias]) hj7
    exact qfin
  | .If cond thenp elsep, current, target, loops, st, ret, st2, h, hp => by
    simp only [CFG.walk] at h
    obtain ⟨u, hu, h⟩ := bind_ok h
    split at h
    · obtain ⟨_, h1, _⟩ := bind_ok h
      cases h1
    obtain ⟨_, _, h⟩ := bind_ok h
    obtain ⟨r3, hw3, h⟩ := bind_ok h
    obtain ⟨cont, st3⟩ := r3
    have q3 := walk_preserves P hnew hfresh hg2l hemit hedge cond _ _ _ _ cont st3 hw3
      (hfresh _ loops (hfresh _ loops (hnew st Names.ifTemp hp)))
    simp only at h
    obtain ⟨st4, h4, h⟩ := bind_ok h
    obtain ⟨c4, hj4, rfl⟩ := onCFG_ok h4
    have q4 := hedge _ c4 q3 (conditionalJump_onlyEdges hj4)
    obtain ⟨r5, hw5, h⟩ := bind_ok h
    obtain ⟨thenEnd, st5⟩ := r5
    have q5 := walk_preserves P hnew hfresh hg2l hemit hedge thenp _ _ _ _ thenEnd st5 hw5 q4
    simp only at h
    obtain ⟨r6, hw6, h⟩ := bind_ok h
    obtain ⟨elseEnd, st6⟩ := r6
    have q6 := walk_preserves P hnew hfresh hg2l hemit hedge elsep _ _ _ _ elseEnd st6 hw6 q5
    simp only at h
    split at h
    · split at h
      · simp only [pure, Except.pure, Except.ok.injEq, Prod.mk.injEq] at h
        obtain ⟨rfl, rfl⟩ := h
        exact q6
      · rename_i hte
        try rw [if_neg hte] at h
        obtain ⟨st7, h7, h⟩ := bind_ok h
        obtain ⟨c7, hj7, rfl⟩ := onCFG_ok h7
        obtain ⟨st8, h8, h⟩ := bind_ok h
        obtain ⟨c8, hj8, rfl⟩ := onCFG_ok h8
        simp only [pure, Except.pure, Except.ok.injEq, Prod.mk.injEq] at h
        obtain ⟨rfl, rfl⟩ := h
        have q7 := hedge _ c7 (hfresh st6 loops q6) (unconditionalJump_onlyEdges hj7)
        have qfin := hedge _ c8 q7 (unconditionalJump_onlyEdges hj8)
        exact qfin
    · simp only [pure, Except.pure, Except.ok.injEq, Prod.mk.injEq] at h
      obtain ⟨rfl, rfl⟩ := h
      exact q6
  | .Send recvE fn argsE block, current, target, loops, st, ret, st2, h, hp => by
    rw [CFG.walk] at h
    obtain ⟨u, hu, h⟩ := bind_ok h
    simp only at h
    obtain ⟨r1, hw1, h⟩ := bind_ok h
    obtain ⟨cur1, st1⟩ := r1
    have q1 := walk_preserves P hnew hfresh hg2l hemit hedge recvE _ _ _ _ cur1 st1 hw1 (hnew st Names.statTemp hp)
    simp only at h
    obtain ⟨r2, hw2, h⟩ := bind_ok h
    obtain ⟨cur2, args, st2a⟩ := r2
    have q2 := walkArgs_preserves P hnew hfresh hg2l hemit hedge argsE _ _ _ _ cur2 args st2a
      hw2 q1
    cases block with
    | none =>
      simp only at h
      obtain ⟨st3, h3, h⟩ := bind_ok h
      obtain ⟨c3, hj3, rfl⟩ := onCFG_ok h3
      simp only [pure, Except.pure, Except.ok.injEq, Prod.mk.injEq] at h
      obtain ⟨rfl, rfl⟩ := h
      have qfin := hemit _ _ _ _ c3 q2 (by simp [Instruction.isAlias]) hj3
      exact qfin
    | some blk =>
      obtain ⟨blockArgs, blockBody⟩ := blk
      simp only at h
      obtain ⟨st4, h4, h⟩ := bind_ok h
      obtain ⟨c4, hj4, rfl⟩ := onCFG_ok h4
      have q4 := loadBlockArgs_preserves P hemit _ _ _ _ _ _ c4
        (hfresh _ (loops + 1) (hfresh _ loops (hfresh st2a (loops + 1) q2))) hj4
      obtain ⟨st5, h5, h⟩ := bind_ok h
      obtain ⟨c5, hj5, rfl⟩ := onCFG_ok h5
      have q5 := hedge _ c5 q4 (conditionalJump_onlyEdges hj5)
      obtain ⟨st6, h6, h⟩ := bind_ok h
      obtain ⟨c6, hj6, rfl⟩ := onCFG_ok h6
      have q6 := hedge _ c6 q5 (unconditionalJump_onlyEdges hj6)
      obtain ⟨r7, hw7, h⟩ := bind_ok h
      obtain ⟨blockLast, st7⟩ := r7
      have q7 := walk_preserves P hnew hfresh hg2l hemit hedge blockBody _ _ _ _ blockLast st7 hw7 (hnew _ _ q6)
      simp only at h
      obtain ⟨st8, h8, h⟩ := bind_ok h
      obtain ⟨c8, hj8, rfl⟩ := onCFG_ok h8
      have q8 := hedge _ c8 q7 (unconditionalJump_onlyEdges hj8)
      obtain ⟨st9, h9, h⟩ := bind_ok h
      obtain ⟨c9, hj9, rfl⟩ := onCFG_ok h9
      simp only [pure, Except.pure, Except.ok.injEq, Prod.mk.injEq] at h
      obtain ⟨rfl, rfl⟩ := h
      have qfin := hemit _ _ _ _ c9 q8 (by simp [Instruction.isAlias]) hj9
      exact qfin
theorem walkStats_preserves (P : BuildState → Prop)
    (hnew : ∀ st n, P st → P (st.newTemporary n).2)
    (hfresh : ∀ st l, P st → P (st.freshBlock l).2)
    (hg2l : ∀ st w, P st → P (global2Local w st).2)
    (hemit : ∀ (st : BuildState) (p : Nat) (b : SymbolRef) (v : Instruction) (c2 : CFG),
      P st → ¬ v.isAlias → st.inWhat.emplace p b v = .ok c2 → P { st with inWhat := c2 })
    (hedge : ∀ (st : BuildState) (c2 : CFG), P st → OnlyEdges st.inWhat c2 →
      P { st with inWhat := c2 }) :
    ∀ (stats : List ast.Expression) (current : Nat)
    (loops : Int) (st : BuildState) (ret : Nat) (st2 : BuildState),
    CFG.walkStats stats current loops st = .ok (ret, st2) → P st → P st2
  | [], current, loops, st, ret, st2, h, hp => by
    simp only [CFG.walkStats, pure, Except.pure, Except.ok.injEq, Prod.mk.injEq] at h
    obtain ⟨rfl, rfl⟩ := h
    exact hp
  | exp :: rest, current, loops, st, ret, st2, h, hp => by
    simp only [CFG.walkStats] at h
    obtain ⟨r1, hw1, h⟩ := bind_ok h
    obtain ⟨cur1, st1⟩ := r1
    have p1 := walk_preserves P hnew hfresh hg2l hemit hedge exp _ _ _ _ cur1 st1 hw1
      (hnew _ _ hp)
    exact walkStats_preserves P hnew hfresh hg2l hemit hedge rest _ _ _ ret st2 h p1
theorem walkArgs_preserves (P : BuildState → Prop)
    (hnew : ∀ st n, P st → P (st.newTemporary n).2)
    (hfresh : ∀ st l, P st → P (st.freshBlock l).2)
    (hg2l : ∀ st w, P st → P (global2Local w st).2)
    (hemit : ∀ (st : BuildState) (p : Nat) (b : SymbolRef) (v : Instruction) (c2 : CFG),
      P st → ¬ v.isAlias → st.inWhat.emplace p b v = .ok c2 → P { st with inWhat := c2 })
    (hedge : ∀ (st : BuildState) (c2 : CFG), P st → OnlyEdges st.inWhat c2 →
      P { st with inWhat := c2 }) :
    ∀ (argsE : List ast.Expression) (current : Nat)
    (loops : Int) (acc : List SymbolRef) (st : BuildState) (ret : Nat) (args : List SymbolRef)
    (st2 : BuildState),
    CFG.walkArgs argsE current loops acc st = .ok (ret, args, st2) → P st → P st2
  | [], current, loops, acc, st, ret, args, st2, h, hp => by
    simp only [CFG.walkArgs, pure, Except.pure, Except.ok.injEq, Prod.mk.injEq] at h
    obtain ⟨rfl, _, rfl⟩ := h
    exact hp
  | exp :: rest, current, loops, acc, st, ret, args, st2, h, hp => by
    simp only [CFG.walkArgs] at h
    obtain ⟨r1, hw1, h⟩ := bind_ok h
    obtain ⟨cur1, st1⟩ := r1
    have p1 := walk_preserves P hnew hfresh hg2l hemit hedge exp _ _ _ _ cur1 st1 hw1
      (hnew _ _ hp)
    exact walkArgs_preserves P hnew hfresh hg2l hemit hedge rest _ _ _ _ ret args st2 h p1
end

theorem newTemporary_inWhat (st : BuildState) (n : NameRef) :
    (st.newTemporary n).2.inWhat = st.inWhat := rfl

/-- `walk` emits no `Alias` binding. -/
theorem walk_noAlias {what : ast.Expression} {current : Nat} {target : SymbolRef}
    {loops : Int} {st : BuildState} {ret : Nat} {st2 : BuildState}
    (h : CFG.walk what current target loops st = .ok (ret, st2))
    (hp : st.inWhat.NoAlias) : st2.inWhat.NoAlias := by
  refine walk_preserves (fun st => st.inWhat.NoAlias) ?_ ?_ ?_ ?_ ?_ what current target loops
    st ret st2 h hp
  · intro st n hp
    exact hp
  · intro st l hp p b hb
    simp only [BuildState.freshBlock] at hb
    rw [blockAt_freshBlock] at hb
    split at hb
    · cases hb
    · exact hp p b hb
  · intro st w hp
    show (global2Local w st).2.inWhat.NoAlias
    rw [global2Local_inWhat]
    exact hp
  · intro st p b v c2 hp hv he q b2 hb2
    simp only at hb2
    rw [(emplace_ok he).2.2 q] at hb2
    split at hb2
    · simp only [List.mem_append, List.mem_singleton] at hb2
      rcases hb2 with hb2 | rfl
      · exact hp q b2 hb2
      · exact hv
    · exact hp q b2 hb2
  · intro st c2 hp he q b2 hb2
    simp only at hb2
    rw [(he.2.2 q).1] at hb2
    exact hp q b2 hb2

theorem mem_values_mapSet {β : Type} (m : List (SymbolRef × β)) (k : SymbolRef) (v x : β)
    (h : x ∈ (mapSet m k v).map Prod.snd) : x ∈ m.map Prod.snd ∨ x = v := by
  induction m with
  | nil =>
    simp only [mapSet, List.map_cons, List.map_nil, List.mem_singleton] at h
    exact Or.inr h
  | cons hd tl ih =>
    obtain ⟨k1, v1⟩ := hd
    by_cases h1 : k1 = k
    · simp only [mapSet, if_pos h1, List.map_cons, List.mem_cons] at h ⊢
      rcases h with h | h
      · exact Or.inr h
      · exact Or.inl (Or.inr h)
    · simp only [mapSet, if_neg h1, List.map_cons, List.mem_cons] at h ⊢
      rcases h with h | h
      · exact Or.inl (Or.inl h)
      · rcases ih h with h2 | h2
        · exact Or.inl (Or.inr h2)
        · exact Or.inr h2

theorem valuesNodup_mapSet {β : Type} (m : List (SymbolRef × β)) (k : SymbolRef) (v : β)
    (hn : (m.map Prod.snd).Nodup) (hv : v ∉ m.map Prod.snd) :
    ((mapSet m k v).map Prod.snd).Nodup := by
  induction m with
  | nil => simp [mapSet]
  | cons hd tl ih =>
    obtain ⟨k1, v1⟩ := hd
    simp only [List.map_cons, List.nodup_cons, List.mem_cons, not_or] at hn hv
    by_cases h1 : k1 = k
    · simp only [mapSet, if_pos h1, List.map_cons, List.nodup_cons]
      exact ⟨hv.2, hn.2⟩
    · simp only [mapSet, if_neg h1, List.map_cons, List.nodup_cons]
      refine ⟨fun hx => ?_, ih hn.2 hv.2⟩
      rcases mem_values_mapSet _ _ _ _ hx with h2 | h2
      · exact hn.1 h2
      · exact hv.1 h2.symm

theorem lt_next (a f b : Nat) (h : a < f + b) : a < f + (b + 1) := by omega

theorem eq_lt_next (a f b : Nat) (h : a = f + b) : a < f + (b + 1) := by omega

/-- `walk` keeps the locals of the alias map pairwise distinct. -/
theorem walk_aliasesFresh {what : ast.Expression} {current : Nat} {target : SymbolRef}
    {loops : Int} {st : BuildState} {ret : Nat} {st2 : BuildState}
    (h : CFG.walk what current target loops st = .ok (ret, st2))
    (hp : st.AliasesFresh) : st2.AliasesFresh := by
  refine walk_preserves (fun st => st.AliasesFresh) ?_ ?_ ?_ ?_ ?_ what current target loops
    st ret st2 h hp
  · intro st n hp
    refine ⟨hp.1, fun kv hkv => ?_⟩
    have := hp.2 kv hkv
    simp only [BuildState.newTemporary, GlobalState.newTemporary, List.length_append,
      List.length_singleton]
    exact lt_next _ _ _ this
  · intro st l hp
    exact hp
  · intro st w hp
    simp only [global2Local]
    split
    · split
      · have hfresh : ∀ x ∈ st.aliases.map Prod.snd,
            x < GlobalState.firstUserId + st.gs.symbols.length := by
          intro x hx
          obtain ⟨kv, hkv, rfl⟩ := List.mem_map.mp hx
          exact hp.2 kv hkv
        refine ⟨valuesNodup_mapSet _ _ _ hp.1 (fun hx => ?_), fun kv hkv => ?_⟩
        · have := hfresh _ hx
          simp only [BuildState.newTemporary, GlobalState.newTemporary] at this
          exact absurd this (Nat.lt_irrefl _)
        · have hm := mem_values_mapSet _ w _ kv.2 (List.mem_map_of_mem Prod.snd hkv)
          simp only [BuildState.newTemporary, GlobalState.newTemporary, List.length_append,
            List.length_singleton] at hm ⊢
          rcases hm with hm | hm
          · exact lt_next _ _ _ (hfresh _ hm)
          · exact eq_lt_next _ _ _ hm
      · exact hp
    · exact hp
  · intro st p b v c2 hp _ _
    exact hp
  · intro st c2 hp _
    exact hp

theorem NoAlias_emplace {c c2 : CFG} {p : Nat} {b : SymbolRef} {v : Instruction}
    (hp : c.NoAlias) (hv : ¬ v.isAlias) (he : c.emplace p b v = .ok c2) : c2.NoAlias := by
  intro q b2 hb2
  rw [(emplace_ok he).2.2 q] at hb2
  split at hb2
  · simp only [List.mem_append, List.mem_singleton] at hb2
    rcases hb2 with hb2 | rfl
    · exact hp q b2 hb2
    · exact hv
  · exact hp q b2 hb2

theorem NoAlias_loadArguments (selfSym : SymbolRef) (methodName : NameRef)
    (args : List SymbolRef) :
    ∀ (i : Int) (c c2 : CFG), loadArguments selfSym methodName args i c = .ok c2 →
      c.NoAlias → c2.NoAlias := by
  induction args with
  | nil =>
    intro i c c2 h hp
    simp only [loadArguments, pure, Except.pure, Except.ok.injEq] at h
    subst h
    exact hp
  | cons a rest ih =>
    intro i c c2 h hp
    simp only [loadArguments] at h
    obtain ⟨c1, h1, h2⟩ := bind_ok h
    exact ih _ _ _ h2 (NoAlias_emplace hp (by simp [Instruction.isAlias]) h1)

theorem NoAlias_new (s : SymbolRef) : ({ CFG.new with symbol := s } : CFG).NoAlias := by
  intro p b hb
  rcases p with _ | _ | p <;> cases hb

/-- The walk of `buildFor` and what the steps after it make of the entry block: the
sorted `Alias` bindings of the alias map, then bindings that are no `Alias`. -/
theorem buildGraph_aliases {gs gs2 : GlobalState} {md : ast.MethodDef} {c : CFG}
    (h : CFG.buildGraph gs md = .ok (gs2, c)) :
    ∃ cont st, CFG.buildWalk gs md = .ok (cont, st) ∧ st.AliasesFresh ∧
      ∃ old, (c.blockAt CFG.entry).exprs =
        (st.aliases.map (fun kv => (⟨kv.2, .Alias kv.1⟩ : Binding))).insertionSort
          (fun l r => l.bind ≤ r.bind) ++ old ∧
        ∀ b ∈ old, ¬ b.value.isAlias := by
  unfold CFG.buildGraph at h
  simp only at h
  obtain ⟨c1, h1, h⟩ := bind_ok h
  obtain ⟨c2, h2, h⟩ := bind_ok h
  obtain ⟨r3, h3, h⟩ := bind_ok h
  obtain ⟨cont, st3⟩ := r3
  simp only at h
  obtain ⟨st4, h4, h⟩ := bind_ok h
  obtain ⟨c4, hj4, rfl⟩ := onCFG_ok h4
  obtain ⟨st5, h5, h⟩ := bind_ok h
  obtain ⟨c5, hj5, rfl⟩ := onCFG_ok h5
  obtain ⟨c6, h6, h⟩ := bind_ok h
  simp only [pure, Except.pure, Except.ok.injEq, Prod.mk.injEq] at h
  obtain ⟨rfl, rfl⟩ := h
  have hw : CFG.buildWalk gs md = .ok (cont, st3) := by
    unfold CFG.buildWalk
    simp only
    rw [h1]
    simp only [bind, Except.bind]
    rw [h2]
    exact h3
  have n2 := NoAlias_loadArguments _ _ _ _ _ _ h2
    (NoAlias_emplace (NoAlias_new md.symbol) (by simp [Instruction.isAlias]) h1)
  have n3 : st3.inWhat.NoAlias := walk_noAlias h3 n2
  have a3 : st3.AliasesFresh := walk_aliasesFresh h3 ⟨List.nodup_nil, fun kv hkv => by cases hkv⟩
  have n4 : c4.NoAlias := NoAlias_emplace n3 (by simp [Instruction.isAlias]) hj4
  have n5 : c5.NoAlias := by
    intro q b hb
    rw [((jumpToDead_onlyEdges hj5).2.2 q).1] at hb
    exact n4 q b hb
  obtain ⟨hp6, rfl⟩ := update_ok h6
  refine ⟨cont, st3, hw, a3, (c5.blockAt CFG.entry).exprs, ?_, n5 CFG.entry⟩
  rw [blockAt_modify _ _ _ _ hp6, if_pos rfl]
  simp only [aliasBindings_fst]
  rfl

/-! ## The `Alias` prefix of the entry block -/

theorem rewritten_alias_eq {b b2 : Binding} (hb : b.value.isAlias)
    (h : Binding.Rewritten b b2) : b2 = b := by
  obtain ⟨bind, v⟩ := b
  obtain ⟨bind2, v2⟩ := b2
  obtain ⟨e1, e2⟩ := h
  simp only at e1 e2 hb
  cases v <;> simp only [Instruction.isAlias] at hb
  simp only [Instruction.Rewritten] at e2
  rw [e1, e2]

theorem rewritten_not_alias {b b2 : Binding} (hb : ¬ b.value.isAlias)
    (h : Binding.Rewritten b b2) : ¬ b2.value.isAlias := by
  obtain ⟨bind, v⟩ := b
  obtain ⟨bind2, v2⟩ := b2
  obtain ⟨e1, e2⟩ := h
  simp only at e1 e2 hb ⊢
  cases v <;> simp only [Instruction.Rewritten] at e2
  case Ident => obtain ⟨w, rfl⟩ := e2; simp [Instruction.isAlias]
  case Send => obtain ⟨r, a, rfl, _⟩ := e2; simp [Instruction.isAlias]
  case Super => obtain ⟨a, rfl, _⟩ := e2; simp [Instruction.isAlias]
  case Return => obtain ⟨w, rfl⟩ := e2; simp [Instruction.isAlias]
  case NamedArg => obtain ⟨w, rfl⟩ := e2; simp [Instruction.isAlias]
  case Alias => exact absurd trivial hb
  all_goals (subst e2; simp [Instruction.isAlias])

theorem forall₂_rewritten_not_alias {l l2 : List Binding}
    (h : List.Forall₂ Binding.Rewritten l l2) (hl : ∀ b ∈ l, ¬ b.value.isAlias) :
    ∀ b ∈ l2, ¬ b.value.isAlias := by
  induction h with
  | nil => intro b hb; cases hb
  | cons hab _ ih =>
    intro b hb
    rcases List.mem_cons.mp hb with rfl | hb
    · exact rewritten_not_alias (hl _ (List.mem_cons_self _ _)) hab
    · exact ih (fun b hb => hl b (List.mem_cons_of_mem _ hb)) b hb

theorem removeDeadVariables_alias (reads : List (SymbolRef × List Nat)) (l : List Binding)
    (hl : ∀ b ∈ l, b.value.isAlias) : removeDeadVariables reads l = l := by
  unfold removeDeadVariables
  rw [List.filter_eq_self]
  intro b hb
  have := hl b hb
  cases hv : b.value <;> rw [hv] at this <;> simp only [Instruction.isAlias] at this
  simp [isRemovable]


/-! ## Claims about the alias bindings of the entry block -/

/-- C15: in the graph `build` returns, the bindings of the entry block begin with
exactly one binding `local := Alias(global)` for every pair `(global, local)` of the
alias map filled during the walk, ordered strictly ascending by the `_id` of the
local, and these precede every other binding of the entry block, none of which is an
`Alias` (the binding `self := Self`, when it is there, among them). -/
theorem build_alias_prefix (gs : GlobalState) (md : ast.MethodDef) (c : CFG)
    (h : build gs md = .ok c) :
    ∃ cont st pre rest, CFG.buildWalk gs md = .ok (cont, st) ∧
      (c.blockAt CFG.entry).exprs = pre ++ rest ∧
      pre.Perm (st.aliases.map (fun kv => (⟨kv.2, .Alias kv.1⟩ : Binding))) ∧
      pre.Pairwise (fun a b => a.bind < b.bind) ∧
      ∀ b ∈ rest, ¬ b.value.isAlias := by
  obtain ⟨gs1, c1, c2, c3, gs4, h1, h2, h3, h4⟩ := build_stages h
  obtain ⟨cont, st, hw, ha, old, he, hold⟩ := buildGraph_aliases h1
  have e2 := ((fillInTopoSorts_blocks h2).2 CFG.entry).1
  have e3 := ((dealias_onlyOperands h3).2 CFG.entry).2
  rw [e2, he] at e3
  obtain ⟨pre3, old3, e12, hpre3, hold3⟩ := forall₂_split _ e3
  have hperm := List.perm_insertionSort (fun l r : Binding => l.bind ≤ r.bind)
    (st.aliases.map (fun kv => (⟨kv.2, .Alias kv.1⟩ : Binding)))
  have halias : ∀ b ∈ (st.aliases.map (fun kv => (⟨kv.2, .Alias kv.1⟩ : Binding))).insertionSort
      (fun l r => l.bind ≤ r.bind), b.value.isAlias := by
    intro b hb
    obtain ⟨kv, _, rfl⟩ := List.mem_map.mp (hperm.subset hb)
    trivial
  have hpre := forall₂_rewritten_eq hpre3 (fun b hb b2 hr => rewritten_alias_eq (halias b hb) hr)
  subst hpre
  have hold4 := forall₂_rewritten_not_alias hold3 hold
  refine ⟨cont, st, _, removeDeadVariables c3.readsMap old3, hw, ?_, hperm, ?_, ?_⟩
  · rw [(fillInBlockArguments_blockAt h4 CFG.entry).2.2.2, e12]
    have key : ∀ l1 l2 : List Binding, removeDeadVariables c3.readsMap (l1 ++ l2) =
        removeDeadVariables c3.readsMap l1 ++ removeDeadVariables c3.readsMap l2 := by
      intro l1 l2
      simp only [removeDeadVariables, List.filter_append]
    rw [key, removeDeadVariables_alias _ _ halias]
  · haveI : IsTotal Binding (fun l r => l.bind ≤ r.bind) := ⟨fun a b => le_total _ _⟩
    haveI : IsTrans Binding (fun l r => l.bind ≤ r.bind) := ⟨fun a b c => le_trans⟩
    have hs := List.sorted_insertionSort (fun l r : Binding => l.bind ≤ r.bind)
      (st.aliases.map (fun kv => (⟨kv.2, .Alias kv.1⟩ : Binding)))
    have hn : ((st.aliases.map (fun kv => (⟨kv.2, .Alias kv.1⟩ : Binding))).insertionSort
        (fun l r => l.bind ≤ r.bind)).Pairwise (fun a b => a.bind ≠ b.bind) := by
      have h0 : (st.aliases.map (fun kv => (⟨kv.2, .Alias kv.1⟩ : Binding))).Pairwise
          (fun a b => a.bind ≠ b.bind) := by
        have hv := ha.1
        rw [List.Nodup, List.pairwise_map] at hv
        rw [List.pairwise_map]
        exact hv
      exact hperm.symm.pairwise h0 (fun hab => Ne.symm hab)
    exact (List.Pairwise.and hs hn).imp (fun ⟨h1, h2⟩ => lt_of_le_of_ne h1 h2)
  · intro b hb
    unfold removeDeadVariables at hb
    exact hold4 b (List.mem_of_mem_filter hb)

theorem build_alias_prefix_witness :
    build Scenario.gs GlobalRead.md = .ok GlobalRead.cfg ∧
    ∃ cont st pre rest, CFG.buildWalk Scenario.gs GlobalRead.md = .ok (cont, st) ∧
      (GlobalRead.cfg.blockAt CFG.entry).exprs = pre ++ rest ∧
      pre.Perm (st.aliases.map (fun kv => (⟨kv.2, .Alias kv.1⟩ : Binding))) ∧
      pre.Pairwise (fun a b => a.bind < b.bind) ∧
      ∀ b ∈ rest, ¬ b.value.isAlias :=
  ⟨GlobalRead_build, build_alias_prefix Scenario.gs GlobalRead.md GlobalRead.cfg GlobalRead_build⟩

/-! ## When the edge helpers raise -/

theorem pushBackEdgeThen_spec (p f : Nat) (c : CFG) (k : CFG → Outcome)
    (hk : ∀ c2, (k c2).2 ≠ .error Err.raise) :
    (pushBackEdgeThen p f c k).2 ≠ .error Err.raise := by
  unfold pushBackEdgeThen CFG.pushBackEdge CFG.update
  split
  · exact hk _
  · rename_i e he
    split at he
    · cases he
    · cases he; simp

theorem pushBackEdgeThen_result (p f : Nat) (c : CFG) (k : CFG → Outcome) :
    (pushBackEdgeThen p f c k).result = (c.pushBackEdge p f >>= fun c2 => (k c2).result) := by
  unfold pushBackEdgeThen
  cases c.pushBackEdge p f <;> rfl

theorem result_returned (c : CFG) : Outcome.result (c, .ok ()) = .ok c := rfl

theorem bind_ok_self (m : Except Err CFG) : (m >>= fun c => Except.ok c) = m := by
  cases m <;> rfl

theorem setExitThen_spec (f : Nat) (x : BlockExit) (c : CFG) (k : CFG → Outcome)
    (hk : ∀ c2, (k c2).2 ≠ .error Err.raise) :
    ((setExitThen f x c k).2 = .error Err.raise ↔
      (c.blockAt f).bexit.cond.symbolExists = true) ∧
    ((setExitThen f x c k).2 = .error Err.raise → (setExitThen f x c k).1 = c) := by
  unfold setExitThen
  by_cases hf : f < c.basicBlocks.length
  · rw [block_of_lt c hf]
    simp only
    by_cases hc : (c.blockAt f).bexit.cond.symbolExists = true
    · simp [hc]
    · rw [if_neg hc, update_of_lt c _ hf]
      simp only
      exact ⟨⟨fun h => absurd h (hk _), fun h => absurd h hc⟩, fun h => absurd h (hk _)⟩
  · have hb : c.block f = .error Err.undefined := by
      unfold CFG.block
      rw [List.getElem?_eq_none (by omega)]
    have hd : c.blockAt f = {} := by
      unfold CFG.blockAt
      rw [List.getD_eq_default _ _ (by omega)]
    rw [hb, hd]
    simp
    decide

theorem setExitThen_result (f : Nat) (x : BlockExit) (c : CFG) (k : CFG → Outcome) :
    (setExitThen f x c k).result =
      (do
        let fb ← c.block f
        if fb.bexit.cond.symbolExists then throw Err.raise
        let c2 ← c.update f (fun b => { b with bexit := x })
        (k c2).result) := by
  unfold setExitThen
  cases hb : c.block f with
  | error e => rfl
  | ok fb =>
    simp only [bind, Except.bind]
    by_cases hc : fb.bexit.cond.symbolExists = true
    · simp only [hc, if_true]; rfl
    · simp only [hc, Bool.false_eq_true, if_false]
      cases c.update f (fun b => { b with bexit := x }) <;> rfl

theorem result_raise {o : Outcome} : o.result = .error Err.raise ↔ o.2 = .error Err.raise := by
  obtain ⟨c, r⟩ := o
  cases r <;> simp [Outcome.result]

theorem raisesWhenTerminated_of (f : CFG → Except Err CFG) (fromBB : Nat) (x : BlockExit)
    (k : CFG → Outcome) (hk : ∀ c2, (k c2).2 ≠ .error Err.raise) (c : CFG)
    (g : CFG → Outcome)
    (hg : g c = if fromBB ≠ CFG.deadBlock then setExitThen fromBB x c k else (c, .ok ()))
    (hf : (g c).result = f c) : RaisesWhenTerminated f g fromBB c := by
  refine ⟨hf, ?_, ?_, ?_⟩
  · rw [← hf, result_raise, hg]
    by_cases hd : fromBB = CFG.deadBlock
    · simp [hd, CFG.Terminated]
    · rw [if_pos hd, (setExitThen_spec fromBB x c k hk).1]
      simp [CFG.Terminated, hd]
  · rw [← hf, result_raise, hg]
    by_cases hd : fromBB = CFG.deadBlock
    · simp [hd]
    · rw [if_pos hd]
      exact (setExitThen_spec fromBB x c k hk).2
  · intro hd
    have e : g c = (c, .ok ()) := by rw [hg, if_neg (not_not.mpr hd)]
    refine ⟨?_, e⟩
    rw [← hf, e]
    rfl

/-- C21: each of `conditionalJump`, `unconditionalJump` and `jumpToDead` raises if
and only if `from` is not the dead block and `from.bexit.cond` is already set, and
the graph is then as it was before the call; called with the dead block for `from`
it returns and leaves the whole graph as it was. -/
theorem edge_helpers_raise (c : CFG) (fromBB toBB t e : Nat) (cnd : SymbolRef) :
    RaisesWhenTerminated (conditionalJump fromBB cnd t e)
      (conditionalJumpOutcome fromBB cnd t e) fromBB c ∧
    RaisesWhenTerminated (unconditionalJump fromBB toBB)
      (unconditionalJumpOutcome fromBB toBB) fromBB c ∧
    RaisesWhenTerminated (jumpToDead fromBB) (jumpToDeadOutcome fromBB) fromBB c := by
  refine ⟨raisesWhenTerminated_of _ fromBB _ _ ?_ c _ rfl ?_,
    raisesWhenTerminated_of _ fromBB _ _ ?_ c _ rfl ?_,
    raisesWhenTerminated_of _ fromBB _ _ ?_ c _ rfl ?_⟩
  · intro c2
    exact pushBackEdgeThen_spec _ _ _ _ (fun c3 =>
      pushBackEdgeThen_spec _ _ _ _ (fun c4 => by simp))
  · unfold conditionalJumpOutcome conditionalJump
    by_cases hd : fromBB = CFG.deadBlock
    · simp [hd, Outcome.result, pure, Except.pure]
    · rw [if_pos hd, if_pos hd, setExitThen_result]
      simp only [pushBackEdgeThen_result, result_returned, bind_ok_self]
  · intro c2
    exact pushBackEdgeThen_spec _ _ _ _ (fun c3 => by simp)
  · unfold unconditionalJumpOutcome unconditionalJump
    by_cases hd : fromBB = CFG.deadBlock
    · simp [hd, Outcome.result, pure, Except.pure]
    · rw [if_pos hd, if_pos hd, setExitThen_result]
      simp only [pushBackEdgeThen_result, result_returned, bind_ok_self]
  · intro c2
    exact pushBackEdgeThen_spec _ _ _ _ (fun c3 => by simp)
  · unfold jumpToDeadOutcome jumpToDead
    simp only
    by_cases hd : fromBB = CFG.deadBlock
    · simp [hd, Outcome.result, pure, Except.pure]
    · rw [if_pos hd, if_pos hd, setExitThen_result]
      simp only [pushBackEdgeThen_result, result_returned, bind_ok_self]

/-! ## What `dealias` leaves alone -/

theorem mergeParents_returns (out : List (List (SymbolRef × SymbolRef))) (bb : Nat) :
    ∀ (parents : List Nat) (cur : List (SymbolRef × SymbolRef)),
      (∀ e ∈ parents, e < out.length) → ∃ r, mergeParents out bb parents cur = .ok r := by
  intro parents
  induction parents with
  | nil => intro cur _; exact ⟨cur, rfl⟩
  | cons p rest ih =>
    intro cur hp
    have hlt : p < out.length := hp p (List.mem_cons_self _ _)
    have hrest : ∀ e ∈ rest, e < out.length := fun e he => hp e (List.mem_cons_of_mem _ he)
    unfold mergeParents
    by_cases hpb : p = bb
    · simp only [hpb, if_true, bind, Except.bind, pure, Except.pure]
      exact ih _ hrest
    · simp only [hpb, if_false, aliasesAt, List.getElem?_eq_getElem hlt, bind, Except.bind,
        pure, Except.pure]
      exact ih _ hrest

theorem dealiasBlock_returns (gs : GlobalState)
    (s : CFG × List (List (SymbolRef × SymbolRef))) (bb : Nat)
    (hlen : s.2.length = s.1.basicBlocks.length) (hbb : bb < s.1.basicBlocks.length)
    (hedges : ∀ e ∈ (s.1.blockAt bb).backEdges, e < s.1.basicBlocks.length) :
    ∃ s2, dealiasBlock gs s bb = .ok s2 := by
  unfold dealiasBlock
  by_cases hd : bb = CFG.deadBlock
  · exact ⟨s, by simp [hd, pure, Except.pure]⟩
  · rw [if_neg hd, block_of_lt _ hbb]
    have h1 : aliasesAt s.2 bb = .ok (s.2[bb]) := by
      simp [aliasesAt, List.getElem?_eq_getElem (hlen ▸ hbb), pure, Except.pure]
    have hh : (s.1.blockAt bb).backEdges.headD bb < s.2.length := by
      rw [hlen]
      cases hb : (s.1.blockAt bb).backEdges with
      | nil => simpa using hbb
      | cons e rest =>
        simp only [List.headD_cons]
        exact hedges e (by rw [hb]; exact List.mem_cons_self _ _)
    have h2 : aliasesAt s.2 ((s.1.blockAt bb).backEdges.headD bb) =
        .ok (s.2[(s.1.blockAt bb).backEdges.headD bb]) := by
      unfold aliasesAt
      rw [List.getElem?_eq_getElem hh]
      rfl
    obtain ⟨r, hr⟩ := mergeParents_returns s.2 bb (s.1.blockAt bb).backEdges
      (s.2[(s.1.blockAt bb).backEdges.headD bb]) (fun e he => hlen ▸ hedges e he)
    simp only [bind, Except.bind, h1, h2, hr, update_of_lt _ _ hbb, pure, Except.pure]
    exact ⟨_, rfl⟩

theorem dealiasBlock_frame {gs : GlobalState}
    {s s2 : CFG × List (List (SymbolRef × SymbolRef))} {bb : Nat}
    (h : dealiasBlock gs s bb = .ok s2) :
    SameHeader s.1 s2.1 ∧ s2.1.blockAt CFG.deadBlock = s.1.blockAt CFG.deadBlock ∧
      s2.2.length = s.2.length := by
  unfold dealiasBlock at h
  by_cases hd : bb = CFG.deadBlock
  · simp [hd, pure, Except.pure] at h
    subst h
    exact ⟨⟨rfl, rfl, rfl⟩, rfl, rfl⟩
  · rw [if_neg hd] at h
    obtain ⟨b, hb, h⟩ := bind_ok h
    obtain ⟨_, _, h⟩ := bind_ok h
    obtain ⟨cur, _, h⟩ := bind_ok h
    obtain ⟨cur2, _, h⟩ := bind_ok h
    obtain ⟨c1, hc1, h⟩ := bind_ok h
    cases h
    refine ⟨update_header hc1, ?_, by simp⟩
    obtain ⟨hp, rfl⟩ := update_ok hc1
    rw [blockAt_modify _ _ _ _ hp, if_neg (Ne.symm hd)]

theorem dealiasLoop_frame (gs : GlobalState) (order : List (Option Nat)) :
    ∀ (s s2 : CFG × List (List (SymbolRef × SymbolRef))),
      dealiasLoop gs order s = .ok s2 →
      SameHeader s.1 s2.1 ∧ s2.1.blockAt CFG.deadBlock = s.1.blockAt CFG.deadBlock ∧
        s2.2.length = s.2.length := by
  induction order with
  | nil =>
    intro s s2 h
    simp [dealiasLoop, pure, Except.pure] at h
    subst h
    exact ⟨⟨rfl, rfl, rfl⟩, rfl, rfl⟩
  | cons bb rest ih =>
    intro s s2 h
    simp only [dealiasLoop] at h
    obtain ⟨p, _, h⟩ := bind_ok h
    obtain ⟨s1, h1, h⟩ := bind_ok h
    obtain ⟨a1, a2, a3⟩ := dealiasBlock_frame h1
    obtain ⟨b1, b2, b3⟩ := ih _ _ h
    exact ⟨a1.after_header b1, b2.trans a2, b3.trans a3⟩

theorem dealiasLoop_returns (gs : GlobalState) (order : List (Option Nat)) :
    ∀ (s : CFG × List (List (SymbolRef × SymbolRef))),
      s.2.length = s.1.basicBlocks.length →
      (∀ x ∈ order, ∃ q, x = some q ∧ q < s.1.basicBlocks.length) →
      (∀ q e, e ∈ (s.1.blockAt q).backEdges → e < s.1.basicBlocks.length) →
      ∃ s2, dealiasLoop gs order s = .ok s2 := by
  induction order with
  | nil => intro s _ _ _; exact ⟨s, rfl⟩
  | cons bb rest ih =>
    intro s hlen hord hedges
    obtain ⟨q, rfl, hq⟩ := hord bb (List.mem_cons_self _ _)
    obtain ⟨s1, h1⟩ := dealiasBlock_returns gs s q hlen hq (fun e he => hedges q e he)
    have ho := dealiasBlock_onlyOperands h1
    have hf := dealiasBlock_frame h1
    have hb : ∀ p, (s1.1.blockAt p).backEdges = (s.1.blockAt p).backEdges := fun p => by
      have h5 := congrArg BasicBlock.backEdges (ho.2 p).1
      exact h5
    obtain ⟨s2, h2⟩ := ih s1 (by rw [hf.2.2, hlen, ho.1])
      (fun x hx => by
        obtain ⟨q, e, hq⟩ := hord x (List.mem_cons_of_mem _ hx)
        exact ⟨q, e, by rw [ho.1]; exact hq⟩)
      (fun p e he => by rw [ho.1]; exact hedges p e (by rw [← hb p]; exact he))
    refine ⟨s2, ?_⟩
    simp only [dealiasLoop, deref, bind, Except.bind, h1]
    exact h2

/-- C26: `dealias` changes nothing but operand symbols of `Ident`, `Send`, `Super`,
`Return` and `NamedArg` instructions. Whenever it returns, the graph has the same
blocks in the same order, every block has its bindings in the same number and order,
each with the same `bind` and an instruction that is the same but for those operand
symbols (same kind, same `Send.fun`, same number of arguments, every other
instruction as it was), every block has the same `args`, terminator, `backEdges`,
`outerLoops` and `flags`, the method symbol and both topological sorts are the same,
and the dead block is the same, bindings included. And it does return when
`backwardsTopoSort` and the `backEdges` lists hold blocks of the graph only. -/
theorem dealias_frame (gs : GlobalState) (c : CFG) :
    (∀ c2, c.dealias gs = .ok c2 →
      OnlyOperands c c2 ∧ SameHeader c c2 ∧
        c2.blockAt CFG.deadBlock = c.blockAt CFG.deadBlock) ∧
    ((∀ x ∈ c.backwardsTopoSort, ∃ q, x = some q ∧ q < c.basicBlocks.length) →
      (∀ q e, e ∈ (c.blockAt q).backEdges → e < c.basicBlocks.length) →
      ∃ c2, c.dealias gs = .ok c2) := by
  constructor
  · intro c2 h
    refine ⟨dealias_onlyOperands h, ?_⟩
    unfold CFG.dealias at h
    obtain ⟨r, hr, h⟩ := bind_ok h
    cases h
    have := dealiasLoop_frame gs _ _ _ hr
    exact ⟨this.1, this.2.1⟩
  · intro hord hedges
    obtain ⟨s2, h2⟩ := dealiasLoop_returns gs c.backwardsTopoSort
      (c, List.replicate c.basicBlocks.length []) (by simp) hord hedges
    exact ⟨s2.1, by simp only [CFG.dealias, bind, Except.bind, h2]; rfl⟩

/-! ## The two `while (changed)` loops -/

theorem step_grows {base : List (List SymbolRef)} {deps : Nat → List Nat}
    (ub : List (List SymbolRef)) (p : Nat) (extra : List SymbolRef)
    (hsrc : ∀ x ∈ extra, x ∈ base.getD p [] ∨ ∃ d ∈ deps p, x ∈ ub.getD d []) :
    GrowsTo ub (ub.set p (ub.getD p [] ++ extra)) ∧
    (Justified base deps ub → Justified base deps (ub.set p (ub.getD p [] ++ extra))) := by
  have hg : GrowsTo ub (ub.set p (ub.getD p [] ++ extra)) := by
    intro q s hs
    rw [getD_set_sets]
    split
    · rename_i hpq
      rw [← hpq.1] at hs
      exact List.mem_append_left _ hs
    · exact hs
  refine ⟨hg, fun hj q s hs => ?_⟩
  rw [getD_set_sets] at hs
  have lift : (s ∈ base.getD q [] ∨ ∃ d ∈ deps q, s ∈ ub.getD d []) →
      (s ∈ base.getD q [] ∨ ∃ d ∈ deps q, s ∈ (ub.set p (ub.getD p [] ++ extra)).getD d []) := by
    rintro (h | ⟨d, hd, h⟩)
    · exact Or.inl h
    · exact Or.inr ⟨d, hd, hg d s h⟩
  split at hs
  · rename_i hpq
    obtain ⟨hpq, _⟩ := hpq
    subst hpq
    rcases List.mem_append.mp hs with h1 | h1
    · exact lift (hj p s h1)
    · exact lift (hsrc s h1)
  · exact lift (hj q s hs)

theorem GrowsTo.chain_grows {a b c : List (List SymbolRef)} (h1 : GrowsTo a b) (h2 : GrowsTo b c) :
    GrowsTo a c := fun q s hs => h2 q s (h1 q s hs)

theorem sweep_grows {step : List (List SymbolRef) × Bool → Option Nat →
      Except Err (List (List SymbolRef) × Bool)}
    {n : Nat} {base : List (List SymbolRef)} {deps : Nat → List Nat}
    (hstep : StepSpec step n base deps) (order : List (Option Nat)) :
    ValidOrder n order → ∀ (ub ub2 : List (List SymbolRef)) (ch ch2 : Bool), ub.length = n →
      sweep step order (ub, ch) = .ok (ub2, ch2) →
      GrowsTo ub ub2 ∧ (Justified base deps ub → Justified base deps ub2) := by
  induction order with
  | nil =>
    intro _ ub ub2 ch ch2 _ h
    simp only [sweep, pure, Except.pure, Except.ok.injEq, Prod.mk.injEq] at h
    obtain ⟨rfl, _⟩ := h
    exact ⟨fun _ _ h => h, id⟩
  | cons x rest ih =>
    intro hv ub ub2 ch ch2 hlen h
    obtain ⟨p, hx, hp⟩ := hv x (List.mem_cons_self _ _)
    subst hx
    obtain ⟨extra, hs, hsrc, _, _⟩ := hstep ub ch p hlen hp
    simp only [sweep, bind, Except.bind, hs] at h
    obtain ⟨g1, j1⟩ := step_grows ub p extra hsrc
    obtain ⟨g2, j2⟩ := ih (fun y hy => hv y (List.mem_cons_of_mem _ hy)) _ ub2 _ ch2
      (by simp [hlen]) h
    exact ⟨g1.chain_grows g2, fun hj => j2 (j1 hj)⟩

theorem fixpoint_stops {step : List (List SymbolRef) × Bool → Option Nat →
      Except Err (List (List SymbolRef) × Bool)}
    {n : Nat} {base : List (List SymbolRef)} {deps : Nat → List Nat}
    (hstep : StepSpec step n base deps) (order : List (Option Nat))
    (hv : ValidOrder n order) :
    ∀ (fuel : Nat) (ub ub2 : List (List SymbolRef)), ub.length = n →
      fixpoint step order fuel ub = .ok ub2 →
      sweep step order (ub2, false) = .ok (ub2, false) ∧
      (Justified base deps ub → Justified base deps ub2) := by
  intro fuel
  induction fuel with
  | zero => intro ub ub2 _ h; cases h
  | succ k ih =>
    intro ub ub2 hlen h
    obtain ⟨ub1, ch1, hsw, hlen1, _, _, _, _, _, hclosed⟩ :=
      sweep_spec hstep order hv ub false hlen
    have hg := sweep_grows hstep order hv ub ub1 false ch1 hlen hsw
    simp only [fixpoint, bind, Except.bind, hsw] at h
    cases hc : ch1 with
    | true =>
      rw [hc] at h
      simp only [if_true] at h
      obtain ⟨a, b⟩ := ih ub1 ub2 hlen1 h
      exact ⟨a, fun hj => b (hg.2 hj)⟩
    | false =>
      rw [hc] at h
      simp only [Bool.false_eq_true, if_false, pure, Except.pure, Except.ok.injEq] at h
      subst h
      obtain ⟨heq, _⟩ := hclosed hc
      rw [hc, heq] at hsw
      rw [heq]
      exact ⟨hsw, fun hj => by rw [← heq]; exact hg.2 hj⟩

theorem sweepsGrow_of {step : List (List SymbolRef) × Bool → Option Nat →
      Except Err (List (List SymbolRef) × Bool)}
    {n : Nat} {base : List (List SymbolRef)} {deps : Nat → List Nat}
    (hstep : StepSpec step n base deps) (order : List (Option Nat))
    (hv : ValidOrder n order) : SweepsGrow step order n := by
  intro ub hlen
  obtain ⟨ub1, ch1, hsw, hlen1, _, _, _, _, hstrict, hclosed⟩ :=
    sweep_spec hstep order hv ub false hlen
  exact ⟨ub1, ch1, hsw, hlen1, (sweep_grows hstep order hv ub ub1 false ch1 hlen hsw).1,
    fun h => (hclosed h).1, fun h => hstrict rfl h⟩

theorem Justified_replicate (base : List (List SymbolRef)) (deps : Nat → List Nat) (n : Nat) :
    Justified base deps (List.replicate n []) := by
  intro q s hs
  exfalso
  simp only [List.getD_eq_getElem?_getD, List.getElem?_replicate] at hs
  split at hs <;> simp at hs


/-! ## Claims about the two data-flow loops -/

/-- C27 (amended): both `while (changed)` loops of `fillInBlockArguments` terminate on
every graph with valid block pointers whose sorts hold valid blocks only. A sweep
returns sets that hold what they held before, and every symbol of a set is a symbol
of `reads_by_block` (of `writes_by_block` in the second loop), so a sweep that
changes no set is reached within the fuel; the sets are then left as they are by one
more sweep and satisfy, at every block listed in the respective sort, the equation
`UB1[B] = reads(B) ∪ UB1[thenb(B)] ∪ UB1[elseb(B)]` and the equation
`UB2[B] = writes(B) ∪ ⋃ UB2[P]` over the `P` of `backEdges(B)`, a successor or
predecessor that is the dead block contributing nothing. -/
theorem fillInBlockArguments_loops_terminate (c : CFG) (hl : c.WellLinked)
    (hfwd : ValidOrder c.basicBlocks.length c.forwardsTopoSort)
    (hbwd : ValidOrder c.basicBlocks.length c.backwardsTopoSort) :
    (∃ ub1, c.upperBounds1 = .ok ub1 ∧
      sweep (forwardStep c.afterRemoval c.readsByBlock) c.forwardsTopoSort (ub1, false) =
        .ok (ub1, false) ∧
      (∀ q s, s ∈ ub1.getD q [] → s ∈ c.readsByBlock.flatten) ∧
      ∀ p, some p ∈ c.forwardsTopoSort → c.UB1At (fun q s => s ∈ ub1.getD q []) p) ∧
    (∃ ub2, c.upperBounds2 = .ok ub2 ∧
      sweep (backwardStep c.afterRemoval c.writesByBlock) c.backwardsTopoSort (ub2, false) =
        .ok (ub2, false) ∧
      (∀ q s, s ∈ ub2.getD q [] → s ∈ c.writesByBlock.flatten) ∧
      ∀ p, some p ∈ c.backwardsTopoSort → c.UB2At (fun q s => s ∈ ub2.getD q []) p) ∧
    SweepsGrow (forwardStep c.afterRemoval c.readsByBlock) c.forwardsTopoSort
      c.basicBlocks.length ∧
    SweepsGrow (backwardStep c.afterRemoval c.writesByBlock) c.backwardsTopoSort
      c.basicBlocks.length := by
  have hlen := afterRemoval_length c
  have hmem : ∀ b ∈ c.afterRemoval.basicBlocks, ∃ b0 ∈ c.basicBlocks,
      b.bexit = b0.bexit ∧ b.backEdges = b0.backEdges := by
    intro b hb
    simp only [CFG.afterRemoval, List.mem_map] at hb
    obtain ⟨b0, hb0, rfl⟩ := hb
    exact ⟨b0, hb0, rfl, rfl⟩
  have hs1 : StepSpec (forwardStep c.afterRemoval c.readsByBlock) c.basicBlocks.length
      c.readsByBlock c.forwardDeps := by
    have := forwardStep_spec c.afterRemoval c.readsByBlock
      (by rw [length_readsByBlock, hlen]) (by
        intro b hb
        obtain ⟨b0, hb0, he, _⟩ := hmem b hb
        rw [he, hlen]
        exact (hl.2 b0 hb0).1)
    rwa [hlen, afterRemoval_forwardDeps] at this
  have hs2 : StepSpec (backwardStep c.afterRemoval c.writesByBlock) c.basicBlocks.length
      c.writesByBlock c.backwardDeps := by
    have := backwardStep_spec c.afterRemoval c.writesByBlock
      (by rw [length_writesByBlock, hlen]) (by
        intro b hb
        obtain ⟨b0, hb0, _, he⟩ := hmem b hb
        rw [he, hlen]
        exact (hl.2 b0 hb0).2)
    rwa [hlen, afterRemoval_backwardDeps] at this
  obtain ⟨ub1, ub2, h1, h2, _, _, _, _, hsd1, hsd2, hc1, hc2⟩ :=
    upper_bounds_spec c hl hfwd hbwd
  obtain ⟨l1, j1⟩ := fixpoint_stops hs1 _ hfwd _ _ ub1 (by simp) h1
  obtain ⟨l2, j2⟩ := fixpoint_stops hs2 _ hbwd _ _ ub2 (by simp) h2
  have j1 := j1 (Justified_replicate _ _ _)
  have j2 := j2 (Justified_replicate _ _ _)
  refine ⟨⟨ub1, h1, l1, fun q s hs => Reaches_mem_flatten (hsd1 q s hs), ?_⟩,
    ⟨ub2, h2, l2, fun q s hs => Reaches_mem_flatten (hsd2 q s hs), ?_⟩,
    sweepsGrow_of hs1 _ hfwd, sweepsGrow_of hs2 _ hbwd⟩
  · intro p hp s
    constructor
    · intro hs
      rcases j1 p s hs with h | ⟨d, hd, h⟩
      · exact Or.inl h
      · rcases (mem_forwardDeps c p d).mp hd with ⟨h3 | h3, h4⟩
        · exact Or.inr (Or.inl ⟨d, h3, h4, h⟩)
        · exact Or.inr (Or.inr ⟨d, h3, h4, h⟩)
    · rintro (h | ⟨t, h3, h4, h⟩ | ⟨t, h3, h4, h⟩)
      · exact hc1 p hp s (Or.inl h)
      · exact hc1 p hp s (Or.inr ⟨t, (mem_forwardDeps c p t).mpr ⟨Or.inl h3, h4⟩, h⟩)
      · exact hc1 p hp s (Or.inr ⟨t, (mem_forwardDeps c p t).mpr ⟨Or.inr h3, h4⟩, h⟩)
  · intro p hp s
    constructor
    · intro hs
      rcases j2 p s hs with h | ⟨d, hd, h⟩
      · exact Or.inl h
      · obtain ⟨h3, h4⟩ := (mem_backwardDeps c p d).mp hd
        exact Or.inr ⟨d, h3, h4, h⟩
    · rintro (h | ⟨t, h3, h4, h⟩)
      · exact hc2 p hp s (Or.inl h)
      · exact hc2 p hp s (Or.inr ⟨t, (mem_backwardDeps c p t).mpr ⟨h3, h4⟩, h⟩)

/-- Witness of C27 (amended): the graph of scenario S5, as it reaches
`fillInBlockArguments`, meets the hypotheses. -/
theorem fillInBlockArguments_loops_terminate_witness :
    S5.graph.WellLinked ∧
    ValidOrder S5.graph.basicBlocks.length S5.graph.forwardsTopoSort ∧
    ValidOrder S5.graph.basicBlocks.length S5.graph.backwardsTopoSort ∧
    (∃ ub1, S5.graph.upperBounds1 = .ok ub1 ∧
      sweep (forwardStep S5.graph.afterRemoval S5.graph.readsByBlock)
        S5.graph.forwardsTopoSort (ub1, false) = .ok (ub1, false) ∧
      (∀ q s, s ∈ ub1.getD q [] → s ∈ S5.graph.readsByBlock.flatten) ∧
      ∀ p, some p ∈ S5.graph.forwardsTopoSort →
        S5.graph.UB1At (fun q s => s ∈ ub1.getD q []) p) ∧
    (∃ ub2, S5.graph.upperBounds2 = .ok ub2 ∧
      sweep (backwardStep S5.graph.afterRemoval S5.graph.writesByBlock)
        S5.graph.backwardsTopoSort (ub2, false) = .ok (ub2, false) ∧
      (∀ q s, s ∈ ub2.getD q [] → s ∈ S5.graph.writesByBlock.flatten) ∧
      ∀ p, some p ∈ S5.graph.backwardsTopoSort →
        S5.graph.UB2At (fun q s => s ∈ ub2.getD q []) p) ∧
    SweepsGrow (forwardStep S5.graph.afterRemoval S5.graph.readsByBlock)
      S5.graph.forwardsTopoSort S5.graph.basicBlocks.length ∧
    SweepsGrow (backwardStep S5.graph.afterRemoval S5.graph.writesByBlock)
      S5.graph.backwardsTopoSort S5.graph.basicBlocks.length :=
  ⟨S5_graph_wellLinked, S5_graph_lists_fwd.1, S5_graph_lists_bwd.1,
    fillInBlockArguments_loops_terminate S5.graph S5_graph_wellLinked S5_graph_lists_fwd.1
      S5_graph_lists_bwd.1⟩

set_option maxRecDepth 100000 in
/-- C27 (counterexample): the sorts of `DeadPredecessor.graph` hold valid blocks only
and the second loop stops with `UB2 = [∅, {7}, ∅]`; block 2 is listed in
`backwardsTopoSort` and has the dead block, whose set holds symbol 7, among its
`backEdges`, yet symbol 7 is not in the set of block 2: the equation
`UB2[B] = writes(B) ∪ ⋃ UB2[P]` over all the `P` of `backEdges(B)` fails there. -/
theorem fillInBlockArguments_loops_dead_predecessor :
    ValidOrder DeadPredecessor.graph.basicBlocks.length DeadPredecessor.graph.forwardsTopoSort ∧
    ValidOrder DeadPredecessor.graph.basicBlocks.length
      DeadPredecessor.graph.backwardsTopoSort ∧
    DeadPredecessor.graph.upperBounds2 = .ok DeadPredecessor.upperBounds2 ∧
    some 2 ∈ DeadPredecessor.graph.backwardsTopoSort ∧
    ¬ DeadPredecessor.graph.UB2AllEdgesAt
      (fun q s => s ∈ DeadPredecessor.upperBounds2.getD q []) 2 := by
  refine ⟨DeadPredecessor_lists_fwd.1, DeadPredecessor_lists_bwd.1, by decide, by decide, ?_⟩
  intro h
  have hmem := (h 7).mpr (Or.inr ⟨1, by decide, by decide⟩)
  revert hmem
  decide

/-! ## `walk` returns or raises -/

theorem Settles.bind_settles {α β : Type} {m : Except Err α} {f : α → Except Err β}
    (hm : Settles m) (hf : ∀ a, m = .ok a → Settles (f a)) : Settles (m >>= f) := by
  rcases hm with ⟨a, rfl⟩ | rfl
  · exact hf a rfl
  · exact Or.inr rfl

theorem Settles.returned {α : Type} (a : α) : Settles (Except.ok a : Except Err α) :=
  Or.inl ⟨a, rfl⟩

theorem checkUnset_settles (c : CFG) (cur : Nat) (h : cur < c.basicBlocks.length) :
    Settles (checkUnset c cur) := by
  unfold checkUnset
  rw [block_of_lt c h]
  by_cases hex : (c.blockAt cur).bexit.cond.symbolExists = true
  · exact Or.inr (by simp [bind, Except.bind, hex, throw, throwThe, MonadExceptOf.throw])
  · exact Or.inl ⟨(), by simp [bind, Except.bind, hex, pure, Except.pure]⟩

theorem onCFG_settles {st : BuildState} {f : CFG → Except Err CFG}
    (h : Settles (f st.inWhat)) : Settles (st.onCFG f) := by
  unfold BuildState.onCFG
  exact h.bind_settles (fun c _ => Settles.returned _)

theorem emplace_settles (c : CFG) (p : Nat) (bind : SymbolRef) (v : Instruction)
    (hp : p < c.basicBlocks.length) : Settles (c.emplace p bind v) := by
  obtain ⟨c2, h, _⟩ := emplace_returns c p bind v hp
  exact Or.inl ⟨c2, h⟩

theorem conditionalJump_settles (c : CFG) (f t e : Nat) (cnd : SymbolRef)
    (hf : f < c.basicBlocks.length) (ht : t < c.basicBlocks.length)
    (he : e < c.basicBlocks.length) : Settles (conditionalJump f cnd t e c) := by
  by_cases hd : f = CFG.deadBlock
  · exact Or.inl ⟨c, by simp [conditionalJump, hd, pure, Except.pure]⟩
  · by_cases hu : SymbolRef.symbolExists (c.blockAt f).bexit.cond = true
    · refine Or.inr ?_
      unfold conditionalJump
      rw [if_pos hd, block_of_lt c hf]
      simp [bind, Except.bind, hu, throw, throwThe, MonadExceptOf.throw]
    · obtain ⟨c2, h, _⟩ := conditionalJump_returns c f t e cnd hf ht he hd (by simpa using hu)
      exact Or.inl ⟨c2, h⟩

theorem unconditionalJump_settles (c : CFG) (f t : Nat)
    (hf : f < c.basicBlocks.length) (ht : t < c.basicBlocks.length) :
    Settles (unconditionalJump f t c) := by
  by_cases hd : f = CFG.deadBlock
  · exact Or.inl ⟨c, by simp [unconditionalJump, hd, pure, Except.pure]⟩
  · by_cases hu : SymbolRef.symbolExists (c.blockAt f).bexit.cond = true
    · refine Or.inr ?_
      unfold unconditionalJump
      rw [if_pos hd, block_of_lt c hf]
      simp [bind, Except.bind, hu, throw, throwThe, MonadExceptOf.throw]
    · obtain ⟨c2, h, _⟩ := unconditionalJump_returns c f t hf ht hd (by simpa using hu)
      exact Or.inl ⟨c2, h⟩

theorem jumpToDead_settles (c : CFG) (f : Nat)
    (hf : f < c.basicBlocks.length) (ht : CFG.deadBlock < c.basicBlocks.length) :
    Settles (jumpToDead f c) := by
  by_cases hd : f = CFG.deadBlock
  · exact Or.inl ⟨c, by simp [jumpToDead, hd, pure, Except.pure]⟩
  · by_cases hu : SymbolRef.symbolExists (c.blockAt f).bexit.cond = true
    · refine Or.inr ?_
      unfold jumpToDead
      simp only
      rw [if_pos hd, block_of_lt c hf]
      simp [bind, Except.bind, hu, throw, throwThe, MonadExceptOf.throw]
    · obtain ⟨c2, h, _⟩ := jumpToDead_returns c f hf ht hd (by simpa using hu)
      exact Or.inl ⟨c2, h⟩

theorem conditionalJump_length {c c2 : CFG} {f t e : Nat} {cnd : SymbolRef}
    (h : conditionalJump f cnd t e c = .ok c2) :
    c2.basicBlocks.length = c.basicBlocks.length := by
  by_cases hd : f = CFG.deadBlock
  · simp [conditionalJump, hd, pure, Except.pure] at h
    rw [h]
  · exact (conditionalJump_ok h hd).2.2.2.2.1

theorem unconditionalJump_length {c c2 : CFG} {f t : Nat}
    (h : unconditionalJump f t c = .ok c2) :
    c2.basicBlocks.length = c.basicBlocks.length := by
  by_cases hd : f = CFG.deadBlock
  · simp [unconditionalJump, hd, pure, Except.pure] at h
    rw [h]
  · exact (unconditionalJump_ok h hd).2.2.2.1

theorem jumpToDead_length {c c2 : CFG} {f : Nat} (h : jumpToDead f c = .ok c2) :
    c2.basicBlocks.length = c.basicBlocks.length := by
  by_cases hd : f = CFG.deadBlock
  · simp [jumpToDead, hd, pure, Except.pure] at h
    rw [h]
  · exact (jumpToDead_ok h hd).2.2.2.1

theorem loadBlockArgs_returns (recv : SymbolRef) (fn : NameRef) (bodyBlock : Nat)
    (args : List ast.Expression) :
    ∀ (i : Int) (c : CFG), bodyBlock < c.basicBlocks.length →
      ∃ c2, loadBlockArgs recv fn bodyBlock args i c = .ok c2 ∧
        c2.basicBlocks.length = c.basicBlocks.length := by
  induction args with
  | nil => intro i c _; exact ⟨c, rfl, rfl⟩
  | cons a rest ih =>
    intro i c hb
    cases a
    case Ident symbol =>
      obtain ⟨c1, h1, _⟩ := emplace_returns c bodyBlock symbol (.LoadArg recv fn i) hb
      have l1 := (emplace_ok h1).2.1
      obtain ⟨c2, h2, l2⟩ := ih (i + 1) c1 (by rw [l1]; exact hb)
      exact ⟨c2, by simp only [loadBlockArgs, bind, Except.bind, h1]; exact h2, by rw [l2, l1]⟩
    all_goals
      simp only [loadBlockArgs]
      exact ih (i + 1) c hb

theorem walk_range {what : ast.Expression} {current : Nat} {target : SymbolRef} {loops : Int}
    {st : BuildState} {ret : Nat} {st2 : BuildState}
    (h : CFG.walk what current target loops st = .ok (ret, st2))
    (h2 : 2 ≤ st.inWhat.basicBlocks.length) :
    st.inWhat.basicBlocks.length ≤ st2.inWhat.basicBlocks.length ∧
      ret < st2.inWhat.basicBlocks.length := by
  have hh := walk_handed what current target loops st ret st2 h
  refine ⟨hh.1.1, ?_⟩
  rcases hh.2 with e | ⟨e, _⟩
  · rw [e]
    have := hh.1.1
    simp only [CFG.deadBlock]
    omega
  · exact e

theorem emit_settles (st : BuildState) (current : Nat) (target : SymbolRef) (v : Instruction)
    (hc : current < st.inWhat.basicBlocks.length) :
    Settles (do
      checkUnset st.inWhat current
      let st ← st.onCFG (fun c => c.emplace current target v)
      pure (current, st) : Except Err (Nat × BuildState)) := by
  refine (checkUnset_settles _ _ hc).bind_settles (fun u _ => ?_)
  refine (onCFG_settles (emplace_settles _ _ _ _ hc)).bind_settles (fun st1 _ => ?_)
  exact Settles.returned _

mutual
theorem walk_settles : ∀ (what : ast.Expression) (current : Nat) (target : SymbolRef)
    (loops : Int) (st : BuildState),
    2 ≤ st.inWhat.basicBlocks.length → current < st.inWhat.basicBlocks.length →
    Settles (CFG.walk what current target loops st)
  | .While c b, current, target, loops, st, h2, hc => by
    simp only [CFG.walk]
    refine (checkUnset_settles _ _ hc).bind_settles (fun u _ => ?_)
    simp only [BuildState.freshBlock, BuildState.newTemporary, freshBlock_fst]
    have e1 := length_freshBlock st.inWhat (loops + 1)
    refine (onCFG_settles (unconditionalJump_settles _ _ _ (by simp only; omega)
      (by simp only; omega))).bind_settles (fun st1 h1 => ?_)
    obtain ⟨c1, hj1, rfl⟩ := onCFG_ok h1
    have l1 := unconditionalJump_length hj1
    simp only at l1 ⊢
    refine (walk_settles c _ _ _ _ (by simp only; omega) (by simp only; omega)).bind_settles
      (fun r hr => ?_)
    obtain ⟨headerEnd, st2⟩ := r
    obtain ⟨g2, r2⟩ := walk_range hr (by simp only; omega)
    simp only at g2 r2 ⊢
    have e3 := length_freshBlock st2.inWhat (loops + 1)
    have e4 := length_freshBlock (st2.inWhat.freshBlock (loops + 1)).2 loops
    simp only [length_freshBlock]
    refine (onCFG_settles (conditionalJump_settles _ _ _ _ _ (by simp only; omega)
      (by simp only; omega) (by simp only; omega))).bind_settles (fun st3 h3 => ?_)
    obtain ⟨c3, hj3, rfl⟩ := onCFG_ok h3
    have l3 := conditionalJump_length hj3
    simp only at l3 ⊢
    refine (walk_settles b _ _ _ _ (by simp only; omega) (by simp only; omega)).bind_settles
      (fun r hr4 => ?_)
    obtain ⟨body, st4⟩ := r
    obtain ⟨g4, r4⟩ := walk_range hr4 (by simp only; omega)
    simp only at g4 r4 ⊢
    refine (onCFG_settles (unconditionalJump_settles _ _ _ r4 (by omega))).bind_settles
      (fun st5 h5 => ?_)
    obtain ⟨c5, hj5, rfl⟩ := onCFG_ok h5
    have l5 := unconditionalJump_length hj5
    simp only at l5 ⊢
    refine (onCFG_settles (emplace_settles _ _ _ _ (by simp only; omega))).bind_settles
      (fun st6 _ => ?_)
    exact Settles.returned _
  | .Return e, current, target, loops, st, h2, hc => by
    simp only [CFG.walk]
    refine (checkUnset_settles _ _ hc).bind_settles (fun u _ => ?_)
    simp only [BuildState.newTemporary]
    refine (walk_settles e _ _ _ _ (by exact h2) (by exact hc)).bind_settles (fun r hr => ?_)
    obtain ⟨cont, st1⟩ := r
    obtain ⟨g1, r1⟩ := walk_range hr h2
    simp only at g1 r1 ⊢
    refine (onCFG_settles (emplace_settles _ _ _ _ r1)).bind_settles (fun st2 h3 => ?_)
    obtain ⟨c2, hj2, rfl⟩ := onCFG_ok h3
    have l2 := (emplace_ok hj2).2.1
    refine (onCFG_settles (jumpToDead_settles _ _ (by simp only; omega)
      (by simp only [CFG.deadBlock]; omega))).bind_settles (fun st3 _ => ?_)
    exact Settles.returned _
  | .If c t e, current, target, loops, st, h2, hc => by
    simp only [CFG.walk]
    refine (checkUnset_settles _ _ hc).bind_settles (fun u _ => ?_)
    simp only [BuildState.freshBlock, BuildState.newTemporary, freshBlock_fst]
    have hne := newTemporary_ne_zero st.gs Names.ifTemp st.inWhat.symbol
    have hex : SymbolRef.symbolExists
        (st.gs.newTemporary Names.ifTemp st.inWhat.symbol).1 = true := by
      simpa [SymbolRef.symbolExists] using hne
    simp only [hex, Bool.not_true, Bool.false_eq_true, if_false, length_freshBlock]
    have e1 := length_freshBlock st.inWhat loops
    have e2 := length_freshBlock (st.inWhat.freshBlock loops).2 loops
    refine Settles.bind_settles (Settles.returned _) (fun _ _ => ?_)
    refine (walk_settles c _ _ _ _ (by simp only; omega) (by simp only; omega)).bind_settles
      (fun r hr => ?_)
    obtain ⟨cont, st1⟩ := r
    obtain ⟨g1, r1⟩ := walk_range hr (by simp only; omega)
    simp only at g1 r1 ⊢
    refine (onCFG_settles (conditionalJump_settles _ _ _ _ _ r1 (by omega)
      (by omega))).bind_settles (fun st2 h3 => ?_)
    obtain ⟨c2, hj2, rfl⟩ := onCFG_ok h3
    have l2 := conditionalJump_length hj2
    simp only at l2 ⊢
    refine (walk_settles t _ _ _ _ (by simp only; omega) (by simp only; omega)).bind_settles
      (fun r hr3 => ?_)
    obtain ⟨thenEnd, st3⟩ := r
    obtain ⟨g3, r3⟩ := walk_range hr3 (by simp only; omega)
    simp only at g3 r3 ⊢
    refine (walk_settles e _ _ _ _ (by omega) (by omega)).bind_settles (fun r hr4 => ?_)
    obtain ⟨elseEnd, st4⟩ := r
    obtain ⟨g4, r4⟩ := walk_range hr4 (by omega)
    simp only at g4 r4 ⊢
    split
    · split
      · exact Settles.returned _
      · first
        | exact Settles.returned _
        | have e5 := length_freshBlock st4.inWhat loops
          refine (onCFG_settles (unconditionalJump_settles _ _ _ (by simp only; omega)
            (by simp only; omega))).bind_settles (fun st5 h5 => ?_)
          obtain ⟨c5, hj5, rfl⟩ := onCFG_ok h5
          have l5 := unconditionalJump_length hj5
          simp only at l5 ⊢
          refine (onCFG_settles (unconditionalJump_settles _ _ _ (by simp only; omega)
            (by simp only; omega))).bind_settles (fun st6 _ => ?_)
          exact Settles.returned _
    · exact Settles.returned _
  | .IntLit v, current, target, loops, st, h2, hc => by
    simp only [CFG.walk]
    exact emit_settles st current target _ hc
  | .FloatLit v, current, target, loops, st, h2, hc => by
    simp only [CFG.walk]
    exact emit_settles st current target _ hc
  | .StringLit v, current, target, loops, st, h2, hc => by
    simp only [CFG.walk]
    exact emit_settles st current target _ hc
  | .BoolLit v, current, target, loops, st, h2, hc => by
    simp only [CFG.walk]
    exact emit_settles st current target _ hc
  | .ConstantLit v, current, target, loops, st, h2, hc => by
    simp only [CFG.walk]
    refine (checkUnset_settles _ _ hc).bind_settles (fun u _ => ?_)
    exact Or.inr rfl
  | .Ident s, current, target, loops, st, h2, hc => by
    simp only [CFG.walk]
    refine (checkUnset_settles _ _ hc).bind_settles (fun u _ => ?_)
    refine (onCFG_settles (emplace_settles _ _ _ _
      (by rw [global2Local_inWhat]; exact hc))).bind_settles (fun st1 _ => ?_)
    exact Settles.returned _
  | .Self s, current, target, loops, st, h2, hc => by
    simp only [CFG.walk]
    exact emit_settles st current target _ hc
  | .Assign lhs rhs, current, target, loops, st, h2, hc => by
    simp only [CFG.walk]
    refine (checkUnset_settles _ _ hc).bind_settles (fun u _ => ?_)
    have e0 := assignTarget_inWhat lhs st
    refine (walk_settles rhs _ _ _ _ (by rw [e0]; exact h2)
      (by rw [e0]; exact hc)).bind_settles (fun r hr => ?_)
    obtain ⟨cont, st1⟩ := r
    obtain ⟨g1, r1⟩ := walk_range hr (by rw [e0]; exact h2)
    simp only at g1 r1 ⊢
    refine (onCFG_settles (emplace_settles _ _ _ _ r1)).bind_settles (fun st2 _ => ?_)
    exact Settles.returned _
  | .InsSeq stats e, current, target, loops, st, h2, hc => by
    simp only [CFG.walk]
    refine (checkUnset_settles _ _ hc).bind_settles (fun u _ => ?_)
    refine (walkStats_settles stats _ _ _ h2 hc).1.bind_settles (fun r hr => ?_)
    obtain ⟨cur1, st1⟩ := r
    obtain ⟨g1, r1⟩ := (walkStats_settles stats _ _ _ h2 hc).2 _ _ hr
    simp only at g1 r1 ⊢
    exact walk_settles e _ _ _ _ (by omega) r1
  | .Send recvE fn argsE block, current, target, loops, st, h2, hc => by
    rw [CFG.walk]
    refine (checkUnset_settles _ _ hc).bind_settles (fun u _ => ?_)
    simp only [BuildState.newTemporary]
    refine (walk_settles recvE _ _ _ _ (by exact h2) (by exact hc)).bind_settles (fun r hr => ?_)
    obtain ⟨cur1, st1⟩ := r
    obtain ⟨g1, r1⟩ := walk_range hr h2
    simp only at g1 r1 ⊢
    refine (walkArgs_settles argsE _ _ [] _ (by omega) r1).1.bind_settles (fun r hr2 => ?_)
    obtain ⟨cur2, args, st2⟩ := r
    obtain ⟨g2, r2⟩ := (walkArgs_settles argsE _ _ [] _ (by omega) r1).2 _ _ _ hr2
    simp only
    cases block with
    | none =>
      simp only
      refine (onCFG_settles (emplace_settles _ _ _ _ r2)).bind_settles (fun st3 _ => ?_)
      exact Settles.returned _
    | some blk =>
      obtain ⟨blockArgs, blockBody⟩ := blk
      simp only [BuildState.freshBlock, BuildState.newTemporary, freshBlock_fst,
        length_freshBlock]
      have e1 := length_freshBlock st2.inWhat (loops + 1)
      have e2 := length_freshBlock (st2.inWhat.freshBlock (loops + 1)).2 loops
      have e3 := length_freshBlock
        ((st2.inWhat.freshBlock (loops + 1)).2.freshBlock loops).2 (loops + 1)
      obtain ⟨c3, h3, l3⟩ := loadBlockArgs_returns (st.gs.newTemporary Names.statTemp
        st.inWhat.symbol).1 fn (st2.inWhat.basicBlocks.length + 1 + 1) blockArgs 0
        (((st2.inWhat.freshBlock (loops + 1)).2.freshBlock loops).2.freshBlock (loops + 1)).2
        (by omega)
      refine (onCFG_settles (Or.inl ⟨c3, h3⟩)).bind_settles (fun st3 h3b => ?_)
      obtain ⟨c3b, hj3, rfl⟩ := onCFG_ok h3b
      have l3b : c3b.basicBlocks.length = st2.inWhat.basicBlocks.length + 3 := by
        have := hj3.symm.trans h3
        cases this
        omega
      simp only
      refine (onCFG_settles (conditionalJump_settles _ _ _ _ _ (by simp only; omega)
        (by simp only; omega) (by simp only; omega))).bind_settles (fun st4 h4 => ?_)
      obtain ⟨c4, hj4, rfl⟩ := onCFG_ok h4
      have l4 := conditionalJump_length hj4
      simp only at l4 ⊢
      refine (onCFG_settles (unconditionalJump_settles _ _ _ (by simp only; omega)
        (by simp only; omega))).bind_settles (fun st5 h5 => ?_)
      obtain ⟨c5, hj5, rfl⟩ := onCFG_ok h5
      have l5 := unconditionalJump_length hj5
      simp only at l5 ⊢
      refine (walk_settles blockBody _ _ _ _ (by simp only; omega)
        (by simp only; omega)).bind_settles (fun r hr6 => ?_)
      obtain ⟨blockLast, st6⟩ := r
      obtain ⟨g6, r6⟩ := walk_range hr6 (by simp only; omega)
      simp only at g6 r6 ⊢
      refine (onCFG_settles (unconditionalJump_settles _ _ _ r6 (by omega))).bind_settles
        (fun st7 h7 => ?_)
      obtain ⟨c7, hj7, rfl⟩ := onCFG_ok h7
      have l7 := unconditionalJump_length hj7
      simp only at l7 ⊢
      refine (onCFG_settles (emplace_settles _ _ _ _ (by simp only; omega))).bind_settles
        (fun st8 _ => ?_)
      exact Settles.returned _
  | .BareBlock b, current, target, loops, st, h2, hc => by
    simp only [CFG.walk]
    exact emit_settles st current target _ hc
  | .NotHandled n, current, target, loops, st, h2, hc => by
    simp only [CFG.walk]
    exact emit_settles st current target _ hc
theorem walkStats_settles : ∀ (stats : List ast.Expression) (current : Nat)
    (loops : Int) (st : BuildState),
    2 ≤ st.inWhat.basicBlocks.length → current < st.inWhat.basicBlocks.length →
    Settles (CFG.walkStats stats current loops st) ∧
    ∀ ret st2, CFG.walkStats stats current loops st = .ok (ret, st2) →
      st.inWhat.basicBlocks.length ≤ st2.inWhat.basicBlocks.length ∧
        ret < st2.inWhat.basicBlocks.length
  | [], current, loops, st, h2, hc => by
    refine ⟨Settles.returned _, fun ret st2 h => ?_⟩
    simp only [CFG.walkStats, pure, Except.pure, Except.ok.injEq, Prod.mk.injEq] at h
    obtain ⟨rfl, rfl⟩ := h
    exact ⟨le_refl _, hc⟩
  | exp :: rest, current, loops, st, h2, hc => by
    constructor
    · simp only [CFG.walkStats, BuildState.newTemporary]
      refine (walk_settles exp _ _ _ _ (by exact h2) (by exact hc)).bind_settles (fun r hr => ?_)
      obtain ⟨cur1, st1⟩ := r
      obtain ⟨g1, r1⟩ := walk_range hr h2
      exact (walkStats_settles rest _ _ _ (by simp only at g1; omega) r1).1
    · intro ret st2 h
      simp only [CFG.walkStats, BuildState.newTemporary] at h
      obtain ⟨r, hr, h⟩ := bind_ok h
      obtain ⟨cur1, st1⟩ := r
      obtain ⟨g1, r1⟩ := walk_range hr h2
      simp only at g1 r1 h
      obtain ⟨g2, r2⟩ := (walkStats_settles rest _ _ _ (by omega) r1).2 _ _ h
      exact ⟨by omega, r2⟩
theorem walkArgs_settles : ∀ (argsE : List ast.Expression) (current : Nat)
    (loops : Int) (acc : List SymbolRef) (st : BuildState),
    2 ≤ st.inWhat.basicBlocks.length → current < st.inWhat.basicBlocks.length →
    Settles (CFG.walkArgs argsE current loops acc st) ∧
    ∀ ret args st2, CFG.walkArgs argsE current loops acc st = .ok (ret, args, st2) →
      st.inWhat.basicBlocks.length ≤ st2.inWhat.basicBlocks.length ∧
        ret < st2.inWhat.basicBlocks.length
  | [], current, loops, acc, st, h2, hc => by
    refine ⟨Settles.returned _, fun ret args st2 h => ?_⟩
    simp only [CFG.walkArgs, pure, Except.pure, Except.ok.injEq, Prod.mk.injEq] at h
    obtain ⟨rfl, _, rfl⟩ := h
    exact ⟨le_refl _, hc⟩
  | exp :: rest, current, loops, acc, st, h2, hc => by
    constructor
    · simp only [CFG.walkArgs, BuildState.newTemporary]
      refine (walk_settles exp _ _ _ _ (by exact h2) (by exact hc)).bind_settles (fun r hr => ?_)
      obtain ⟨cur1, st1⟩ := r
      obtain ⟨g1, r1⟩ := walk_range hr h2
      exact (walkArgs_settles rest _ _ _ _ (by simp only at g1; omega) r1).1
    · intro ret args st2 h
      simp only [CFG.walkArgs, BuildState.newTemporary] at h
      obtain ⟨r, hr, h⟩ := bind_ok h
      obtain ⟨cur1, st1⟩ := r
      obtain ⟨g1, r1⟩ := walk_range hr h2
      simp only at g1 r1 h
      obtain ⟨g2, r2⟩ := (walkArgs_settles rest _ _ _ _ (by omega) r1).2 _ _ _ h
      exact ⟨by omega, r2⟩
end

/-! ## `walk` on the dead block -/

theorem checkUnset_dead (c : CFG)
    (hd : (c.blockAt CFG.deadBlock).bexit.cond = GlobalState.defn_cfg_never) :
    checkUnset c CFG.deadBlock = .error Err.raise := by
  have hlt : CFG.deadBlock < c.basicBlocks.length := by
    by_contra hn
    rw [blockAt_eq_default c (Nat.le_of_not_lt hn)] at hd
    exact absurd hd (by decide)
  unfold checkUnset
  rw [block_of_lt c hlt]
  simp only [bind, Except.bind, hd]
  rfl

theorem walk_dead (what : ast.Expression) (target : SymbolRef) (loops : Int) (st : BuildState)
    (hd : (st.inWhat.blockAt CFG.deadBlock).bexit.cond = GlobalState.defn_cfg_never) :
    CFG.walk what CFG.deadBlock target loops st = .error Err.raise := by
  have hc := checkUnset_dead st.inWhat hd
  cases what <;> (rw [CFG.walk, hc]; rfl)

theorem walkStats_append (a b : List ast.Expression) :
    ∀ (current : Nat) (loops : Int) (st : BuildState),
      CFG.walkStats (a ++ b) current loops st =
        (CFG.walkStats a current loops st >>= fun r => CFG.walkStats b r.1 loops r.2) := by
  induction a with
  | nil => intro current loops st; rfl
  | cons x rest ih =>
    intro current loops st
    simp only [List.cons_append, CFG.walkStats]
    cases CFG.walk x current (st.newTemporary Names.statTemp).1 loops
        (st.newTemporary Names.statTemp).2 with
    | error e => rfl
    | ok r => exact ih r.1 loops r.2

theorem buildStart_returns (gs : GlobalState) (md : ast.MethodDef) :
    ∃ retSym st0, CFG.buildStart gs md = .ok (retSym, st0) ∧ st0.inWhat.OpenAt [CFG.entry] := by
  have o0 := new_open md.symbol
  obtain ⟨c1, h1, _⟩ := emplace_returns ({ CFG.new with symbol := md.symbol } : CFG) CFG.entry
    (((gs.newTemporary Names.returnMethodTemp md.symbol).2.newTemporary
      Names.selfMethodTemp md.symbol).1)
    (.Self ((((gs.newTemporary Names.returnMethodTemp md.symbol).2.newTemporary
      Names.selfMethodTemp md.symbol).2).info md.symbol).owner)
    (by simp [CFG.new, CFG.freshBlock, CFG.entry])
  have o1 := OpenAt_emplace o0 h1
  have hl : ∀ (args : List SymbolRef) (s : SymbolRef) (n : NameRef) (i : Int) (c : CFG),
      CFG.entry < c.basicBlocks.length → ∃ c2, loadArguments s n args i c = .ok c2 := by
    intro args
    induction args with
    | nil => intro s n i c _; exact ⟨c, rfl⟩
    | cons a rest ih =>
      intro s n i c hc
      obtain ⟨c2, h2, _⟩ := emplace_returns c CFG.entry a (.LoadArg s n i) hc
      obtain ⟨c3, h3⟩ := ih s n (i + 1) c2 (by rw [(emplace_ok h2).2.1]; exact hc)
      exact ⟨c3, by simp only [loadArguments, bind, Except.bind, h2]; exact h3⟩
  obtain ⟨c2, h2⟩ := hl
    ((((gs.newTemporary Names.returnMethodTemp md.symbol).2.newTemporary
      Names.selfMethodTemp md.symbol).2).info md.symbol).arguments
    (((gs.newTemporary Names.returnMethodTemp md.symbol).2.newTemporary
      Names.selfMethodTemp md.symbol).1)
    ((((gs.newTemporary Names.returnMethodTemp md.symbol).2.newTemporary
      Names.selfMethodTemp md.symbol).2).info md.symbol).name
    0 c1 (by rw [(emplace_ok h1).2.1]; simp [CFG.new, CFG.freshBlock, CFG.entry])
  have o2 := (loadArguments_spec _ _ _ _ _ _ _ h2 o1).1
  have hs : CFG.buildStart gs md = .ok
      ((gs.newTemporary Names.returnMethodTemp md.symbol).1,
        ⟨((gs.newTemporary Names.returnMethodTemp md.symbol).2.newTemporary
          Names.selfMethodTemp md.symbol).2, c2, []⟩) := by
    unfold CFG.buildStart
    simp only
    rw [h1]
    simp only [bind, Except.bind]
    rw [h2]
    rfl
  exact ⟨_, _, hs, o2⟩

theorem build_of_walk_error {gs : GlobalState} {md : ast.MethodDef} {retSym : SymbolRef}
    {st0 : BuildState} {e : Err} (hs : CFG.buildStart gs md = .ok (retSym, st0))
    (hw : CFG.walk md.rhs CFG.entry retSym 0 st0 = .error e) :
    build gs md = .error e := by
  unfold CFG.buildStart at hs
  simp only at hs
  obtain ⟨c1, h1, hs⟩ := bind_ok hs
  obtain ⟨c2, h2, hs⟩ := bind_ok hs
  simp only [pure, Except.pure, Except.ok.injEq, Prod.mk.injEq] at hs
  obtain ⟨rfl, rfl⟩ := hs
  have hg : CFG.buildGraph gs md = .error e := by
    unfold CFG.buildGraph
    simp only
    rw [h1]
    simp only [bind, Except.bind]
    rw [h2]
    simp only
    rw [hw]
  unfold build CFG.buildFor
  rw [hg]
  rfl

theorem walk_return_dead {e : ast.Expression} {current : Nat} {target : SymbolRef}
    {loops : Int} {st : BuildState} {ret : Nat} {st2 : BuildState}
    (h : CFG.walk (.Return e) current target loops st = .ok (ret, st2)) :
    ret = CFG.deadBlock := by
  simp only [CFG.walk] at h
  obtain ⟨u, _, h⟩ := bind_ok h
  obtain ⟨r, _, h⟩ := bind_ok h
  obtain ⟨s1, _, h⟩ := bind_ok h
  obtain ⟨s2, _, h⟩ := bind_ok h
  simp only [pure, Except.pure, Except.ok.injEq, Prod.mk.injEq] at h
  exact h.1.symm

theorem error_bind {α β : Type} {m : Except Err α} {f : α → Except Err β} {e : Err}
    (h : m = .error e) : (m >>= f) = .error e := by
  rw [h]
  rfl

theorem ok_bind {α β : Type} {m : Except Err α} {f : α → Except Err β} {a : α}
    (h : m = .ok a) : (m >>= f) = f a := by
  rw [h]
  rfl

/-! ## Claims about `walk` on the dead block -/

/-- C25: `walk` raises whenever it is invoked with the dead block for `current`, the
`cond` of the dead block being `defn_cfg_never`, hence set. Consequently `build`
raises for every method whose body is an `InsSeq` in which a statement before the
last lowers to the dead block (the walk of the statements up to it hands back the
dead block), as it does for `InsSeq([Return(IntLit 1)], IntLit 2)`, and for every
method whose body is a `Send` that has a `Return` for receiver and at least one
argument. -/
theorem walk_raises_on_dead (gs : GlobalState) (md : ast.MethodDef) :
    (∀ (what : ast.Expression) (target : SymbolRef) (loops : Int) (st : BuildState),
      (st.inWhat.blockAt CFG.deadBlock).bexit.cond = GlobalState.defn_cfg_never →
      CFG.walk what CFG.deadBlock target loops st = .error Err.raise) ∧
    (∃ retSym st0, CFG.buildStart gs md = .ok (retSym, st0) ∧
      ∀ (pre : List ast.Expression) (s : ast.Expression) (post : List ast.Expression)
        (e : ast.Expression) (st2 : BuildState),
        md.rhs = .InsSeq (pre ++ s :: post) e →
        CFG.walkStats (pre ++ [s]) CFG.entry 0 st0 = .ok (CFG.deadBlock, st2) →
        build gs md = .error Err.raise) ∧
    build Scenario.gs AfterReturn.md = .error Err.raise ∧
    (∀ (e : ast.Expression) (f : NameRef) (a : ast.Expression) (rest : List ast.Expression)
      (blk : Option ast.Block),
      md.rhs = .Send (.Return e) f (a :: rest) blk → build gs md = .error Err.raise) := by
  obtain ⟨retSym, st0, hs, ho⟩ := buildStart_returns gs md
  have hentry : checkUnset st0.inWhat CFG.entry = .ok () :=
    checkUnset_returns _ _ (ho.2.1 _ (List.mem_cons_self _ _))
      (by
        have := (ho.2.2 CFG.entry (ho.2.1 _ (List.mem_cons_self _ _))).mpr
          ⟨List.mem_cons_self _ _, by decide⟩
        simp [SymbolRef.symbolExists, this])
  refine ⟨walk_dead, ⟨retSym, st0, hs, ?_⟩, by decide, ?_⟩
  · intro pre s post e st2 hrhs hdead
    apply build_of_walk_error hs
    rw [hrhs, CFG.walk, hentry]
    simp only [bind, Except.bind]
    have happ : pre ++ s :: post = (pre ++ [s]) ++ post := by simp
    have hp := walkStats_spec _ _ _ _ _ _ [] hdead ho (Or.inr (List.not_mem_nil _))
    have hd2 : (st2.inWhat.blockAt CFG.deadBlock).bexit.cond = GlobalState.defn_cfg_never := by
      rw [hp.1.1.2.1]
    rw [happ, walkStats_append, hdead]
    simp only [bind, Except.bind]
    cases post with
    | nil =>
      simp only [CFG.walkStats, pure, Except.pure]
      exact walk_dead _ _ _ _ hd2
    | cons x rest =>
      simp only [CFG.walkStats, BuildState.newTemporary]
      rw [walk_dead _ _ _ _ (by exact hd2)]
      rfl
  · intro e f a rest blk hrhs
    apply build_of_walk_error hs
    rw [hrhs, CFG.walk, hentry]
    simp only [bind, Except.bind, BuildState.newTemporary]
    have h2 : 2 ≤ st0.inWhat.basicBlocks.length := ho.1.1
    have hc : CFG.entry < st0.inWhat.basicBlocks.length := ho.2.1 _ (List.mem_cons_self _ _)
    rcases walk_settles (.Return e) CFG.entry
      (st0.gs.newTemporary Names.statTemp st0.inWhat.symbol).1 0
      ⟨(st0.gs.newTemporary Names.statTemp st0.inWhat.symbol).2, st0.inWhat, st0.aliases⟩
      h2 hc with ⟨r, hr⟩ | hr
    · obtain ⟨ret, st1⟩ := r
      have hret := walk_return_dead hr
      subst hret
      have hp := walk_spec _ _ _ _ _ _ _ [] hr (by exact ho) (Or.inr (List.not_mem_nil _))
      have hd1 : (st1.inWhat.blockAt CFG.deadBlock).bexit.cond =
          GlobalState.defn_cfg_never := by
        rw [hp.1.1.2.1]
      rw [hr]
      simp only [CFG.walkArgs, BuildState.newTemporary]
      rw [walk_dead _ _ _ _ (by exact hd1)]
      rfl
    · rw [hr]

/-! ## A `Send` whose operands are leaves -/

theorem appended_nil (c : CFG) (p : Nat) : c.appended p [] = c := by
  unfold CFG.appended
  have : (fun b : BasicBlock => { b with exprs := b.exprs ++ [] }) = id := by
    funext b
    simp
  rw [this, List.modify_id]

theorem appended_appended (c : CFG) (p : Nat) (a b : List Binding) :
    (c.appended p a).appended p b = c.appended p (a ++ b) := by
  unfold CFG.appended
  have e : ((fun x : BasicBlock => { x with exprs := x.exprs ++ b }) ∘
      fun x : BasicBlock => { x with exprs := x.exprs ++ a }) =
      fun x : BasicBlock => { x with exprs := x.exprs ++ (a ++ b) } := by
    funext x
    simp [Function.comp, List.append_assoc]
  simp only [List.modify_modify_eq, e]

theorem emplace_appended (c : CFG) (p : Nat) (bind : SymbolRef) (v : Instruction)
    (hp : p < c.basicBlocks.length) : c.emplace p bind v = .ok (c.appended p [⟨bind, v⟩]) := by
  unfold CFG.emplace
  rw [update_of_lt c _ hp]
  rfl

theorem appended_length (c : CFG) (p : Nat) (bs : List Binding) :
    (c.appended p bs).basicBlocks.length = c.basicBlocks.length := by
  simp [CFG.appended]

theorem appended_blockAt (c : CFG) (p q : Nat) (bs : List Binding)
    (hp : p < c.basicBlocks.length) :
    (c.appended p bs).blockAt q =
      if q = p then { c.blockAt q with exprs := (c.blockAt q).exprs ++ bs } else c.blockAt q :=
  blockAt_modify c p q _ hp

theorem leafValue_inWhat (a : ast.Expression) (st : BuildState) :
    (leafValue a st).2.inWhat = st.inWhat := by
  cases a <;> first | rfl | exact global2Local_inWhat _ _

theorem operandBindings_inWhat (args : List ast.Expression) :
    ∀ st : BuildState, (operandBindings args st).2.inWhat = st.inWhat := by
  induction args with
  | nil => intro st; rfl
  | cons a rest ih =>
    intro st
    simp only [operandBindings]
    rw [ih, leafValue_inWhat]
    rfl

theorem walk_leaf (a : ast.Expression) (ha : IsLeaf a) (current : Nat) (target : SymbolRef)
    (loops : Int) (st : BuildState) (hc : current < st.inWhat.basicBlocks.length)
    (hu : SymbolRef.symbolExists (st.inWhat.blockAt current).bexit.cond = false) :
    CFG.walk a current target loops st =
      .ok (current, { (leafValue a st).2 with
        inWhat := st.inWhat.appended current [⟨target, (leafValue a st).1⟩] }) := by
  have hk := checkUnset_returns _ _ hc hu
  cases a <;> simp only [IsLeaf] at ha
  case Ident s =>
    simp only [CFG.walk, hk, leafValue]
    have e := global2Local_inWhat s st
    simp only [bind, Except.bind, BuildState.onCFG]
    rw [e, emplace_appended _ _ _ _ hc]
    rfl
  all_goals
    simp only [CFG.walk, hk, leafValue]
    simp only [bind, Except.bind, BuildState.onCFG]
    rw [emplace_appended _ _ _ _ hc]
    rfl

theorem global2Local_graph (what : SymbolRef) (st : BuildState) (c2 : CFG)
    (hs : c2.symbol = st.inWhat.symbol) :
    global2Local what { st with inWhat := c2 } =
      ((global2Local what st).1, { (global2Local what st).2 with inWhat := c2 }) := by
  unfold global2Local
  simp only [BuildState.newTemporary, hs]
  split
  · split
    · rfl
    · rfl
  · rfl

theorem leafValue_graph (a : ast.Expression) (st : BuildState) (c2 : CFG)
    (hs : c2.symbol = st.inWhat.symbol) :
    leafValue a { st with inWhat := c2 } =
      ((leafValue a st).1, { (leafValue a st).2 with inWhat := c2 }) := by
  cases a <;> first | rfl | (simp only [leafValue]; rw [global2Local_graph _ _ _ hs])

theorem operandBindings_graph (args : List ast.Expression) :
    ∀ (st : BuildState) (c2 : CFG), c2.symbol = st.inWhat.symbol →
      operandBindings args { st with inWhat := c2 } =
        ((operandBindings args st).1, { (operandBindings args st).2 with inWhat := c2 }) := by
  induction args with
  | nil => intro st c2 _; rfl
  | cons a rest ih =>
    intro st c2 hs
    simp only [operandBindings, BuildState.newTemporary, hs]
    have e1 := leafValue_graph a
      { gs := (st.gs.newTemporary Names.statTemp st.inWhat.symbol).2, inWhat := st.inWhat,
        aliases := st.aliases } c2 hs
    simp only at e1
    rw [e1]
    simp only
    have hs2 : c2.symbol = (leafValue a
      { gs := (st.gs.newTemporary Names.statTemp st.inWhat.symbol).2, inWhat := st.inWhat,
        aliases := st.aliases }).2.inWhat.symbol := by
      rw [leafValue_inWhat]
      exact hs
    rw [ih _ c2 hs2]

theorem appended_symbol (c : CFG) (p : Nat) (bs : List Binding) :
    (c.appended p bs).symbol = c.symbol := rfl

theorem appended_unset (c : CFG) (p : Nat) (bs : List Binding) (q : Nat) :
    ((c.appended p bs).blockAt q).bexit = (c.blockAt q).bexit := by
  by_cases hp : p < c.basicBlocks.length
  · rw [appended_blockAt c p q bs hp]
    split <;> rfl
  · unfold CFG.appended
    rw [List.modify_eq_self (Nat.le_of_not_lt hp)]

theorem walkArgs_leaves (args : List ast.Expression) :
    ∀ (current : Nat) (loops : Int) (acc : List SymbolRef) (st : BuildState),
      (∀ a ∈ args, IsLeaf a) → current < st.inWhat.basicBlocks.length →
      SymbolRef.symbolExists (st.inWhat.blockAt current).bexit.cond = false →
      CFG.walkArgs args current loops acc st =
        .ok (current, acc ++ (operandBindings args st).1.map Binding.bind,
          { (operandBindings args st).2 with
            inWhat := st.inWhat.appended current (operandBindings args st).1 }) := by
  induction args with
  | nil =>
    intro current loops acc st _ _ _
    simp only [CFG.walkArgs, operandBindings, List.map_nil, List.append_nil, appended_nil]
    rfl
  | cons a rest ih =>
    intro current loops acc st hl hc hu
    have ha := hl a (List.mem_cons_self _ _)
    have hrest : ∀ x ∈ rest, IsLeaf x := fun x hx => hl x (List.mem_cons_of_mem _ hx)
    simp only [CFG.walkArgs]
    rw [walk_leaf a ha current _ loops (st.newTemporary Names.statTemp).2 hc hu]
    simp only [bind, Except.bind]
    have hlen : current < ((st.newTemporary Names.statTemp).2.inWhat.appended current
        [⟨(st.newTemporary Names.statTemp).1,
          (leafValue a (st.newTemporary Names.statTemp).2).1⟩]).basicBlocks.length := by
      rw [appended_length]
      exact hc
    have hun : SymbolRef.symbolExists (((st.newTemporary Names.statTemp).2.inWhat.appended
        current [⟨(st.newTemporary Names.statTemp).1,
          (leafValue a (st.newTemporary Names.statTemp).2).1⟩]).blockAt current).bexit.cond
          = false := by
      rw [appended_unset]
      exact hu
    rw [ih current loops _ _ hrest hlen hun]
    have hs : ((st.newTemporary Names.statTemp).2.inWhat.appended current
        [⟨(st.newTemporary Names.statTemp).1,
          (leafValue a (st.newTemporary Names.statTemp).2).1⟩]).symbol =
        (leafValue a (st.newTemporary Names.statTemp).2).2.inWhat.symbol := by
      rw [leafValue_inWhat]
      rfl
    rw [operandBindings_graph rest _ _ hs]
    simp only [operandBindings, List.map_cons, List.append_assoc, List.singleton_append,
      appended_appended]
    rfl

theorem nat_sub_lt {t f n : Nat} (h : t < f + n) (h5 : ¬ t < f) : t - f < n := by omega

theorem nat_lt_of_le {f n m e t : Nat} (h1 : m = n + 1 + e) (h2 : f + m ≤ t) : f + n < t := by
  omega

theorem info_of_extends {gs gs2 : GlobalState} {extra : List Symbol}
    (h : gs2.symbols = gs.symbols ++ extra) {t : SymbolRef}
    (ht : t < GlobalState.firstUserId + gs.symbols.length) : gs2.info t = gs.info t := by
  unfold GlobalState.info
  by_cases h5 : t < GlobalState.firstUserId
  · simp [h5]
  · simp only [h5, if_false]
    have hlt : t - GlobalState.firstUserId < gs.symbols.length := nat_sub_lt ht h5
    rw [h, List.getD_append _ _ _ _ hlt]

theorem global2Local_extends (what : SymbolRef) (st : BuildState) :
    ∃ extra, (global2Local what st).2.gs.symbols = st.gs.symbols ++ extra := by
  unfold global2Local
  simp only [BuildState.newTemporary, GlobalState.newTemporary]
  split
  · split
    · exact ⟨_, rfl⟩
    · exact ⟨[], by simp⟩
  · exact ⟨[], by simp⟩

theorem leafValue_extends (a : ast.Expression) (st : BuildState) :
    ∃ extra, (leafValue a st).2.gs.symbols = st.gs.symbols ++ extra := by
  cases a <;> first | exact global2Local_extends _ _ | exact ⟨[], by simp [leafValue]⟩

theorem leafValue_lowersTo (a : ast.Expression) (ha : IsLeaf a) (st : BuildState) :
    LowersTo a (leafValue a st).1 := by
  cases a <;> simp only [IsLeaf] at ha <;> simp [LowersTo, leafValue]

theorem operandBindings_spec (args : List ast.Expression) :
    ∀ st : BuildState, (∀ a ∈ args, IsLeaf a) →
      (∃ extra, (operandBindings args st).2.gs.symbols = st.gs.symbols ++ extra) ∧
      List.Forall₂ (fun a b => LowersTo a b.value) args (operandBindings args st).1 ∧
      ((operandBindings args st).1.map Binding.bind).Pairwise (· < ·) ∧
      ∀ t ∈ (operandBindings args st).1.map Binding.bind,
        FreshStatTemp st.gs (operandBindings args st).2.gs t := by
  induction args with
  | nil =>
    intro st _
    exact ⟨⟨[], by simp [operandBindings]⟩, List.Forall₂.nil, List.Pairwise.nil,
      fun t ht => by cases ht⟩
  | cons a rest ih =>
    intro st hl
    have ha := hl a (List.mem_cons_self _ _)
    have hrest : ∀ x ∈ rest, IsLeaf x := fun x hx => hl x (List.mem_cons_of_mem _ hx)
    obtain ⟨e1, he1⟩ := leafValue_extends a (st.newTemporary Names.statTemp).2
    obtain ⟨⟨e2, he2⟩, f2, p2, t2⟩ := ih (leafValue a (st.newTemporary Names.statTemp).2).2 hrest
    have hn : (st.newTemporary Names.statTemp).2.gs.symbols = st.gs.symbols ++
        [{ name := Names.statTemp, owner := st.inWhat.symbol, isLocalVariable := true,
           isSyntheticTemporary := true }] := rfl
    have hid : (st.newTemporary Names.statTemp).1 =
        GlobalState.firstUserId + st.gs.symbols.length := rfl
    have hall : (operandBindings (a :: rest) st).2.gs.symbols = st.gs.symbols ++
        ([{ name := Names.statTemp, owner := st.inWhat.symbol, isLocalVariable := true,
            isSyntheticTemporary := true }] ++ e1 ++ e2) := by
      simp only [operandBindings]
      rw [he2, he1, hn]
      simp
    have hlen1 : (leafValue a (st.newTemporary Names.statTemp).2).2.gs.symbols.length =
        st.gs.symbols.length + 1 + e1.length := by
      rw [he1, hn]
      simp only [List.length_append, List.length_singleton]
    refine ⟨⟨_, hall⟩, ?_, ?_, ?_⟩
    · exact List.Forall₂.cons (leafValue_lowersTo a ha _) f2
    · simp only [operandBindings, List.map_cons, List.pairwise_cons]
      refine ⟨fun t ht => ?_, p2⟩
      have := (t2 t ht).1
      rw [hid]
      exact nat_lt_of_le hlen1 this
    · intro t ht
      simp only [operandBindings, List.map_cons, List.mem_cons] at ht
      rcases ht with rfl | ht
      · have hfin : (operandBindings (a :: rest) st).2.gs.symbols =
            (st.newTemporary Names.statTemp).2.gs.symbols ++ (e1 ++ e2) := by
          rw [hall, hn]
          simp
        have hlt : (st.newTemporary Names.statTemp).1 <
            GlobalState.firstUserId + (st.newTemporary Names.statTemp).2.gs.symbols.length := by
          rw [hid, hn]
          simp
        have hinfo := info_of_extends hfin hlt
        have hself : (st.newTemporary Names.statTemp).2.gs.info
            (st.newTemporary Names.statTemp).1 =
            { name := Names.statTemp, owner := st.inWhat.symbol, isLocalVariable := true,
              isSyntheticTemporary := true } := by
          unfold GlobalState.info
          rw [hid, hn]
          simp [GlobalState.firstUserId]
        refine ⟨by rw [hid], ?_, ?_, ?_⟩
        · rw [hall, hid]
          simp
        · rw [hinfo, hself]
        · rw [hinfo, hself]
      · obtain ⟨a1, a2, a3, a4⟩ := t2 t ht
        exact ⟨Nat.le_of_lt (nat_lt_of_le hlen1 a1), a2, a3, a4⟩

theorem walk_send_state (recvE : ast.Expression) (fn : NameRef) (argsE : List ast.Expression)
    (current : Nat) (target : SymbolRef) (loops : Int) (st : BuildState)
    (hr : IsLeaf recvE) (ha : ∀ a ∈ argsE, IsLeaf a)
    (hc : current < st.inWhat.basicBlocks.length)
    (hu : SymbolRef.symbolExists (st.inWhat.blockAt current).bexit.cond = false) :
    CFG.walk (.Send recvE fn argsE none) current target loops st =
      .ok (current, { (operandBindings (recvE :: argsE) st).2 with
        inWhat := st.inWhat.appended current ((operandBindings (recvE :: argsE) st).1 ++
          [⟨target, .Send (st.newTemporary Names.statTemp).1 fn
            (((operandBindings (recvE :: argsE) st).1.map Binding.bind).tail)⟩]) }) := by
  rw [CFG.walk, checkUnset_returns _ _ hc hu]
  simp only [bind, Except.bind]
  rw [walk_leaf recvE hr current _ loops (st.newTemporary Names.statTemp).2 hc hu]
  simp only
  have hlen : current < ((st.newTemporary Names.statTemp).2.inWhat.appended current
      [⟨(st.newTemporary Names.statTemp).1,
        (leafValue recvE (st.newTemporary Names.statTemp).2).1⟩]).basicBlocks.length := by
    rw [appended_length]
    exact hc
  have hun : SymbolRef.symbolExists (((st.newTemporary Names.statTemp).2.inWhat.appended
      current [⟨(st.newTemporary Names.statTemp).1,
        (leafValue recvE (st.newTemporary Names.statTemp).2).1⟩]).blockAt current).bexit.cond
        = false := by
    rw [appended_unset]
    exact hu
  rw [walkArgs_leaves argsE current loops [] _ ha hlen hun]
  have hs : ((st.newTemporary Names.statTemp).2.inWhat.appended current
      [⟨(st.newTemporary Names.statTemp).1,
        (leafValue recvE (st.newTemporary Names.statTemp).2).1⟩]).symbol =
      (leafValue recvE (st.newTemporary Names.statTemp).2).2.inWhat.symbol := by
    rw [leafValue_inWhat]
    rfl
  rw [operandBindings_graph argsE _ _ hs]
  simp only [BuildState.onCFG, bind, Except.bind, List.nil_append, appended_appended]
  rw [emplace_appended _ _ _ _ (by rw [appended_length]; exact hc)]
  simp only [appended_appended, operandBindings, List.map_cons, List.tail_cons,
    List.cons_append, List.append_assoc, List.singleton_append, pure, Except.pure]
  rfl

/-! ## Claims about a `Send` whose operands are leaves -/

/-- C24 (counterexample): `walk` raises on `Send(IntLit 1, foo, [])` when `current` is
the dead block, whose terminator is set: nothing is appended and no block is
returned. -/
theorem walk_send_raises_on_dead :
    IsLeaf (.IntLit 1) ∧
    CFG.walk (.Send (.IntLit 1) Scenario.foo [] none) CFG.deadBlock 9 0
      ⟨Scenario.gs, CFG.new, []⟩ = .error Err.raise := by
  constructor
  · trivial
  · decide

/-- C24 (amended): for `Send(recv, fun, [a_0..a_{n-1}])` without a block, where `recv`
and every `a_i` is a literal, `Self` or `Ident`, and `current` is a block whose
terminator is unset, `walk` returns `current` and has appended to it, in this order,
exactly `r := recv`, `t_0 := a_0`, ..., `t_{n-1} := a_{n-1}`,
`target := Send(r, fun, [t_0..t_{n-1}])` (the bindings `operandBindings` lists, each
with the instruction that stands for the operand), where `r` and the `t_i` are
pairwise distinct symbols that were not in the table and are synthetic temporaries
tagged `statTemp`; it creates no block, installs no terminator and changes no other
block. -/
theorem walk_send_leaves (recvE : ast.Expression) (fn : NameRef)
    (argsE : List ast.Expression) (current : Nat) (target : SymbolRef) (loops : Int)
    (st : BuildState) (hr : IsLeaf recvE) (ha : ∀ a ∈ argsE, IsLeaf a)
    (hc : current < st.inWhat.basicBlocks.length)
    (hu : SymbolRef.symbolExists (st.inWhat.blockAt current).bexit.cond = false) :
    ∃ (r : SymbolRef) (ts : List SymbolRef) (bs : List Binding) (st2 : BuildState),
      CFG.walk (.Send recvE fn argsE none) current target loops st = .ok (current, st2) ∧
      bs = (operandBindings (recvE :: argsE) st).1 ∧
      bs.map Binding.bind = r :: ts ∧ ts.length = argsE.length ∧
      List.Forall₂ (fun a b => LowersTo a b.value) (recvE :: argsE) bs ∧
      (r :: ts).Nodup ∧ (∀ t ∈ r :: ts, FreshStatTemp st.gs st2.gs t) ∧
      st2.inWhat.basicBlocks.length = st.inWhat.basicBlocks.length ∧
      SameHeader st.inWhat st2.inWhat ∧
      ∀ q, st2.inWhat.blockAt q =
        if q = current then
          { st.inWhat.blockAt q with
            exprs := (st.inWhat.blockAt q).exprs ++ bs ++ [⟨target, .Send r fn ts⟩] }
        else st.inWhat.blockAt q := by
  have hall : ∀ a ∈ recvE :: argsE, IsLeaf a := by
    intro a h
    rcases List.mem_cons.mp h with rfl | h
    · exact hr
    · exact ha a h
  obtain ⟨_, f2, p2, t2⟩ := operandBindings_spec (recvE :: argsE) st hall
  have hw := walk_send_state recvE fn argsE current target loops st hr ha hc hu
  refine ⟨(st.newTemporary Names.statTemp).1,
    ((operandBindings (recvE :: argsE) st).1.map Binding.bind).tail,
    (operandBindings (recvE :: argsE) st).1, _, hw, rfl, ?_, ?_, f2, ?_, ?_, ?_, ?_, ?_⟩
  · simp [operandBindings]
  · have := f2.length_eq
    simp only [List.length_tail, List.length_map, ← this, List.length_cons]
    omega
  · have e : (st.newTemporary Names.statTemp).1 ::
        ((operandBindings (recvE :: argsE) st).1.map Binding.bind).tail =
        (operandBindings (recvE :: argsE) st).1.map Binding.bind := by
      simp [operandBindings]
    rw [e]
    exact p2.imp (fun h => Nat.ne_of_lt h)
  · intro t ht
    have e : (st.newTemporary Names.statTemp).1 ::
        ((operandBindings (recvE :: argsE) st).1.map Binding.bind).tail =
        (operandBindings (recvE :: argsE) st).1.map Binding.bind := by
      simp [operandBindings]
    rw [e] at ht
    exact t2 t ht
  · exact appended_length _ _ _
  · exact ⟨rfl, rfl, rfl⟩
  · intro q
    simp only
    rw [appended_blockAt _ _ _ _ hc]
    simp only [List.append_assoc]

/-- Witness of C24 (amended): `1.foo(x)` lowered into the entry block of a new graph. -/
theorem walk_send_leaves_witness :
    IsLeaf (.IntLit 1) ∧ (∀ a ∈ [ast.Expression.Ident Scenario.param], IsLeaf a) ∧
    CFG.entry < (⟨Scenario.gs, CFG.new, []⟩ : BuildState).inWhat.basicBlocks.length ∧
    SymbolRef.symbolExists (CFG.new.blockAt CFG.entry).bexit.cond = false ∧
    ∃ (r : SymbolRef) (ts : List SymbolRef) (bs : List Binding) (st2 : BuildState),
      CFG.walk (.Send (.IntLit 1) Scenario.foo [.Ident Scenario.param] none) CFG.entry 9 0
        ⟨Scenario.gs, CFG.new, []⟩ = .ok (CFG.entry, st2) ∧
      bs = (operandBindings [.IntLit 1, .Ident Scenario.param] ⟨Scenario.gs, CFG.new, []⟩).1 ∧
      bs.map Binding.bind = r :: ts ∧ ts.length = [ast.Expression.Ident Scenario.param].length ∧
      List.Forall₂ (fun a b => LowersTo a b.value) [.IntLit 1, .Ident Scenario.param] bs ∧
      (r :: ts).Nodup ∧ (∀ t ∈ r :: ts, FreshStatTemp Scenario.gs st2.gs t) ∧
      st2.inWhat.basicBlocks.length = CFG.new.basicBlocks.length ∧
      SameHeader CFG.new st2.inWhat ∧
      ∀ q, st2.inWhat.blockAt q =
        if q = CFG.entry then
          { CFG.new.blockAt q with
            exprs := (CFG.new.blockAt q).exprs ++ bs ++ [⟨9, .Send r Scenario.foo ts⟩] }
        else CFG.new.blockAt q :=
  ⟨trivial, by simp [IsLeaf], by decide, by decide,
    walk_send_leaves (.IntLit 1) Scenario.foo [.Ident Scenario.param] CFG.entry 9 0
      ⟨Scenario.gs, CFG.new, []⟩ trivial (by simp [IsLeaf]) (by decide) (by decide)⟩

/-! ## The depth-first post-order -/

theorem unvisited_mono (c : CFG) {V W : List Nat} (h : ∀ q, q ∈ V → q ∈ W) :
    c.unvisited W ≤ c.unvisited V := by
  unfold CFG.unvisited
  apply List.Sublist.length_le
  apply List.monotone_filter_right
  intro q hq
  simp only [decide_eq_true_eq] at hq ⊢
  exact fun hv => hq (h q hv)

theorem unvisited_cons (c : CFG) {V : List Nat} {p : Nat} (hp : p < c.basicBlocks.length)
    (hv : p ∉ V) : c.unvisited (p :: V) < c.unvisited V := by
  unfold CFG.unvisited
  have h1 : (List.range c.basicBlocks.length).filter (fun q => q ∉ p :: V) =
      ((List.range c.basicBlocks.length).filter (fun q => q ∉ V)).filter (fun q => q ≠ p) := by
    rw [List.filter_filter]
    congr 1
    funext q
    simp only [List.mem_cons, not_or, decide_not, Bool.and_eq_true, Bool.not_eq_true',
      decide_eq_false_iff_not, ne_eq, Bool.decide_and]
  rw [h1]
  have hmem : p ∈ (List.range c.basicBlocks.length).filter (fun q => q ∉ V) := by
    simp [List.mem_filter, hp, hv]
  exact (List.length_filter_lt_length_iff_exists (p := fun q => decide (q ≠ p))).mpr
    ⟨p, hmem, by simp⟩

theorem mem_succs (c : CFG) (p y : Nat) :
    y ∈ c.succs p ↔ (c.blockAt p).bexit.thenb = some y ∨ (c.blockAt p).bexit.elseb = some y := by
  simp [CFG.succs, Option.mem_toList]

theorem Reach.trans_reach {c : CFG} {a b d : Nat} (h1 : c.Reach a b) (h2 : c.Reach b d) :
    c.Reach a d := by
  induction h1 with
  | refl p => exact h2
  | step p t q ht _ ih => exact CFG.Reach.step p t d ht (ih h2)

theorem Reach.edge {c : CFG} {a b : Nat} (h : b ∈ c.succs a) : c.Reach a b :=
  CFG.Reach.step a b b h (CFG.Reach.refl b)

/-- What the post-order from `p` holds, given enough fuel: new blocks only, each
once, each reachable from `p`; `p` itself unless it was visited, and then in the last
place; and every successor of a block of the order is in the order or was visited. -/
theorem postOrder_spec (c : CFG) (hv : c.SuccsValid) :
    ∀ (fuel : Nat) (V : List Nat) (p : Nat), p < c.basicBlocks.length →
      c.unvisited V < fuel →
      (c.postOrder fuel V (some p)).Nodup ∧
      (∀ x ∈ c.postOrder fuel V (some p), x ∉ V ∧ x < c.basicBlocks.length ∧ c.Reach p x) ∧
      (p ∈ V ∨ p ∈ c.postOrder fuel V (some p)) ∧
      (∀ x ∈ c.postOrder fuel V (some p), ∀ y ∈ c.succs x,
        y ∈ V ∨ y ∈ c.postOrder fuel V (some p)) ∧
      (p ∉ V → (c.postOrder fuel V (some p)).getLast? = some p) := by
  intro fuel
  induction fuel with
  | zero => intro V p _ h; omega
  | succ k ih =>
    intro V p hp hf
    by_cases hpv : p ∈ V
    · simp only [CFG.postOrder, hpv, if_true]
      exact ⟨List.nodup_nil, fun x hx => (by cases hx), Or.inl trivial,
        fun x hx => (by cases hx), fun h => absurd trivial h⟩
    · obtain ⟨t, e, ht, he, htl, hel⟩ := hv p hp
      have hk1 : c.unvisited (p :: V) < k := by
        have := unvisited_cons c hp hpv
        omega
      obtain ⟨n1, m1, i1, s1, _⟩ := ih (p :: V) t htl hk1
      have hk2 : c.unvisited (c.postOrder k (p :: V) (some t) ++ p :: V) < k := by
        have := unvisited_mono c (V := p :: V)
          (W := c.postOrder k (p :: V) (some t) ++ p :: V)
          (fun q hq => List.mem_append_right _ hq)
        omega
      obtain ⟨n2, m2, i2, s2, _⟩ := ih (c.postOrder k (p :: V) (some t) ++ p :: V) e hel hk2
      simp only [CFG.postOrder, hpv, if_false, ht, he]
      refine ⟨?_, ?_, ?_, ?_, ?_⟩
      · rw [List.nodup_append]
        refine ⟨?_, List.nodup_singleton _, ?_⟩
        · rw [List.nodup_append]
          refine ⟨n1, n2, ?_⟩
          intro x hx1 hx2
          exact (m2 x hx2).1 (List.mem_append_left _ hx1)
        · intro x hx hxp
          rw [List.mem_singleton] at hxp
          subst hxp
          rcases List.mem_append.mp hx with h | h
          · exact (m1 x h).1 (List.mem_cons_self _ _)
          · exact (m2 x h).1 (List.mem_append_right _ (List.mem_cons_self _ _))
      · intro x hx
        rcases List.mem_append.mp hx with h | h
        · rcases List.mem_append.mp h with h | h
          · obtain ⟨a1, a2, a3⟩ := m1 x h
            exact ⟨fun hxv => a1 (List.mem_cons_of_mem _ hxv), a2,
              CFG.Reach.step p t x ((mem_succs c p t).mpr (Or.inl ht)) a3⟩
          · obtain ⟨a1, a2, a3⟩ := m2 x h
            exact ⟨fun hxv => a1 (List.mem_append_right _ (List.mem_cons_of_mem _ hxv)), a2,
              CFG.Reach.step p e x ((mem_succs c p e).mpr (Or.inr he)) a3⟩
        · rw [List.mem_singleton] at h
          subst h
          exact ⟨hpv, hp, CFG.Reach.refl _⟩
      · exact Or.inr (List.mem_append_right _ (List.mem_singleton_self _))
      · have lift1 : ∀ y, (y ∈ p :: V ∨ y ∈ c.postOrder k (p :: V) (some t)) →
            y ∈ V ∨ y ∈ c.postOrder k (p :: V) (some t) ++
              c.postOrder k (c.postOrder k (p :: V) (some t) ++ p :: V) (some e) ++ [p] := by
          rintro y (h | h)
          · rcases List.mem_cons.mp h with rfl | h
            · exact Or.inr (List.mem_append_right _ (List.mem_singleton_self _))
            · exact Or.inl h
          · exact Or.inr (List.mem_append_left _ (List.mem_append_left _ h))
        have lift2 : ∀ y, (y ∈ c.postOrder k (p :: V) (some t) ++ p :: V ∨
            y ∈ c.postOrder k (c.postOrder k (p :: V) (some t) ++ p :: V) (some e)) →
            y ∈ V ∨ y ∈ c.postOrder k (p :: V) (some t) ++
              c.postOrder k (c.postOrder k (p :: V) (some t) ++ p :: V) (some e) ++ [p] := by
          rintro y (h | h)
          · rcases List.mem_append.mp h with h | h
            · exact lift1 y (Or.inr h)
            · exact lift1 y (Or.inl h)
          · exact Or.inr (List.mem_append_left _ (List.mem_append_right _ h))
        intro x hx y hy
        rcases List.mem_append.mp hx with h | h
        · rcases List.mem_append.mp h with h | h
          · exact lift1 y (s1 x h y hy)
          · exact lift2 y (s2 x h y hy)
        · rw [List.mem_singleton] at h
          subst h
          rcases (mem_succs c x y).mp hy with h | h
          · have : y = t := Option.some.inj (h.symm.trans ht)
            subst this
            exact lift1 y i1
          · have : y = e := Option.some.inj (h.symm.trans he)
            subst this
            exact lift2 y i2
      · intro _
        simp

theorem writeAt_nil (target : List (Option Nat)) (nf : Nat) : writeAt target nf [] = target := by
  simp [writeAt]

theorem writeAt_length (target : List (Option Nat)) (nf : Nat) (out : List Nat)
    (h : nf + out.length ≤ target.length) : (writeAt target nf out).length = target.length := by
  simp only [writeAt, List.length_append, List.length_take, List.length_map, List.length_drop]
  omega

theorem writeAt_writeAt (target : List (Option Nat)) (nf : Nat) (o1 o2 : List Nat)
    (h : nf + o1.length + o2.length ≤ target.length) :
    writeAt (writeAt target nf o1) (nf + o1.length) o2 = writeAt target nf (o1 ++ o2) := by
  have h1 : (target.take nf).length = nf := by
    rw [List.length_take]
    omega
  have e1 : (target.take nf ++ o1.map some ++ target.drop (nf + o1.length)).take
      (nf + o1.length) = target.take nf ++ o1.map some := by
    rw [List.take_append_eq_append_take, List.take_of_length_le (by simp [h1])]
    try simp [h1]
  have e2 : (target.take nf ++ o1.map some ++ target.drop (nf + o1.length)).drop
      (nf + o1.length + o2.length) = target.drop (nf + (o1 ++ o2).length) := by
    rw [List.drop_append_eq_append_drop, List.drop_of_length_le (by simp [h1])]
    simp only [List.length_append, List.length_map, h1, List.nil_append, List.drop_drop]
    congr 1
    omega
  unfold writeAt
  rw [e1, e2]
  simp [List.append_assoc]

theorem writeAt_set (target : List (Option Nat)) (nf : Nat) (o : List Nat) (p : Nat)
    (h : nf + o.length < target.length) :
    (writeAt target nf o).set (nf + o.length) (some p) = writeAt target nf (o ++ [p]) := by
  have h1 : (target.take nf).length = nf := by
    rw [List.length_take]
    omega
  have hl : (target.take nf ++ o.map some).length = nf + o.length := by
    simp [h1]
  unfold writeAt
  rw [List.set_append_right _ _ (by rw [hl])]
  rw [hl, Nat.sub_self]
  have hd : target.drop (nf + o.length) =
      target[nf + o.length] :: target.drop (nf + o.length + 1) :=
    List.drop_eq_getElem_cons h
  rw [hd, List.set_cons_zero]
  simp [List.append_assoc, Nat.add_assoc]

theorem fwdVisited_update (c c2 : CFG) (p q : Nat)
    (h : c.update p (fun b => { b with flags := b.flags ||| CFG.FORWARD_TOPO_SORT_VISITED }) =
      .ok c2) :
    c2.fwdVisited q = (decide (q = p) || c.fwdVisited q) := by
  obtain ⟨hp, rfl⟩ := update_ok h
  unfold CFG.fwdVisited
  rw [blockAt_modify c p q _ hp]
  by_cases hq : q = p
  · subst hq
    simp only [if_true, decide_True, Bool.true_or, CFG.FORWARD_TOPO_SORT_VISITED]
    have : ((c.blockAt q).flags ||| 1 <<< 0) &&& 1 <<< 0 = 1 := by
      simp only [Nat.shiftLeft_zero, Nat.and_one_is_mod]
      rw [Nat.or_mod_two_eq_one]
      exact Or.inr rfl
    rw [this]
    rfl
  · simp [hq]

theorem OnlyFlags.bexit_eq {c c2 : CFG} (h : OnlyFlags c c2) (p : Nat) :
    (c2.blockAt p).bexit = (c.blockAt p).bexit := by
  have h5 := congrArg BasicBlock.bexit (h.2 p)
  exact h5

/-- `topoSortFwd` on a graph with valid successors, given enough fuel and room in
`target`: it stores the post-order over the blocks without the flag from `nextFree`
on, returns `nextFree` advanced by their number, and sets the flag of those blocks. -/
theorem topoSortFwd_spec (c0 : CFG) (hv : c0.SuccsValid) :
    ∀ (fuel : Nat) (c : CFG) (target : List (Option Nat)) (nf : Nat) (V : List Nat) (p : Nat),
      OnlyFlags c0 c → (∀ q, q ∈ V ↔ c.fwdVisited q = true) → p < c0.basicBlocks.length →
      c0.unvisited V < fuel → nf + (c0.postOrder fuel V (some p)).length ≤ target.length →
      ∃ c2, CFG.topoSortFwd fuel (c, target, nf) (some p) =
          .ok (c2, writeAt target nf (c0.postOrder fuel V (some p)),
            nf + (c0.postOrder fuel V (some p)).length) ∧
        OnlyFlags c0 c2 ∧
        (∀ q, q ∈ c0.postOrder fuel V (some p) ++ V ↔ c2.fwdVisited q = true) := by
  intro fuel
  induction fuel with
  | zero => intro c target nf V p _ _ _ h; omega
  | succ k ih =>
    intro c target nf V p hof hm hp hf hroom
    have hpc : p < c.basicBlocks.length := by rw [hof.1]; exact hp
    simp only [CFG.topoSortFwd, deref, bind, Except.bind, block_of_lt c hpc, pure, Except.pure]
    by_cases hpv : p ∈ V
    · have hfl : c.fwdVisited p = true := (hm p).mp hpv
      have hfl2 : (c.blockAt p).flags &&& CFG.FORWARD_TOPO_SORT_VISITED ≠ 0 := by
        simpa [CFG.fwdVisited] using hfl
      rw [if_pos hfl2]
      simp only [CFG.postOrder, hpv, if_true, writeAt_nil, List.length_nil, Nat.add_zero,
        List.nil_append]
      exact ⟨c, rfl, hof, hm⟩
    · have hfl : ¬ (c.blockAt p).flags &&& CFG.FORWARD_TOPO_SORT_VISITED ≠ 0 := by
        intro h
        apply hpv
        apply (hm p).mpr
        simpa [CFG.fwdVisited] using h
      rw [if_neg hfl]
      obtain ⟨t, e, ht, he, htl, hel⟩ := hv p hp
      have hbx := hof.bexit_eq p
      obtain ⟨c1, hu⟩ : ∃ c1, c.update p
          (fun b => { b with flags := b.flags ||| CFG.FORWARD_TOPO_SORT_VISITED }) = .ok c1 :=
        ⟨_, update_of_lt c _ hpc⟩
      have hof1 : OnlyFlags c0 c1 := hof.trans_flags (OnlyFlags_update_flags
        (fun f => f ||| CFG.FORWARD_TOPO_SORT_VISITED) hu)
      have hm1 : ∀ q, q ∈ p :: V ↔ c1.fwdVisited q = true := by
        intro q
        rw [fwdVisited_update c c1 p q hu]
        simp only [List.mem_cons, Bool.or_eq_true, decide_eq_true_eq]
        rw [hm q]
      rw [hu]
      simp only
      rw [hbx, ht, he]
      simp only [CFG.postOrder, hpv, if_false, ht, he] at hroom ⊢
      simp only [List.length_append, List.length_singleton] at hroom
      have hk1 : c0.unvisited (p :: V) < k := by
        have := unvisited_cons c0 hp hpv
        omega
      obtain ⟨c2, h2, hof2, hm2⟩ := ih c1 target nf (p :: V) t hof1 hm1 htl hk1 (by omega)
      rw [h2]
      simp only
      have hk2 : c0.unvisited (c0.postOrder k (p :: V) (some t) ++ p :: V) < k := by
        have := unvisited_mono c0 (V := p :: V)
          (W := c0.postOrder k (p :: V) (some t) ++ p :: V)
          (fun q hq => List.mem_append_right _ hq)
        omega
      have hl1 := writeAt_length target nf (c0.postOrder k (p :: V) (some t)) (by omega)
      obtain ⟨c3, h3, hof3, hm3⟩ := ih c2 (writeAt target nf (c0.postOrder k (p :: V) (some t)))
        (nf + (c0.postOrder k (p :: V) (some t)).length)
        (c0.postOrder k (p :: V) (some t) ++ p :: V) e hof2 hm2 hel hk2 (by rw [hl1]; omega)
      rw [h3]
      simp only
      rw [writeAt_writeAt _ _ _ _ (by omega)]
      have hl2 := writeAt_length target nf (c0.postOrder k (p :: V) (some t) ++
        c0.postOrder k (c0.postOrder k (p :: V) (some t) ++ p :: V) (some e))
        (by simp only [List.length_append]; omega)
      refine ⟨c3, ?_, hof3, ?_⟩
      · unfold storeBlock
        simp only
        rw [if_pos (by rw [hl2]; omega)]
        have := writeAt_set target nf (c0.postOrder k (p :: V) (some t) ++
          c0.postOrder k (c0.postOrder k (p :: V) (some t) ++ p :: V) (some e)) p
          (by simp only [List.length_append]; omega)
        simp only [List.length_append, ← Nat.add_assoc] at this
        rw [this]
        simp only [List.length_append, List.length_singleton, ← Nat.add_assoc, pure,
          Except.pure]
      · intro q
        rw [← hm3 q]
        simp only [List.mem_append, List.mem_cons, List.mem_singleton]
        tauto

theorem Reach_lt {c : CFG} (hv : c.SuccsValid) {p q : Nat} (h : c.Reach p q)
    (hp : p < c.basicBlocks.length) : q < c.basicBlocks.length := by
  induction h with
  | refl p => exact hp
  | step p t q ht _ ih =>
    obtain ⟨t1, e1, h1, h2, h3, h4⟩ := hv p hp
    rcases (mem_succs c p t).mp ht with h | h
    · have : t = t1 := Option.some.inj (h.symm.trans h1)
      exact ih (this ▸ h3)
    · have : t = e1 := Option.some.inj (h.symm.trans h2)
      exact ih (this ▸ h4)

theorem length_le_of_nodup_lt {l : List Nat} {n : Nat} (hn : l.Nodup) (hl : ∀ q ∈ l, q < n) :
    l.length ≤ n := by
  have hsub : l ⊆ List.range n := fun q hq => List.mem_range.mpr (hl q hq)
  have := (List.Nodup.subperm hn hsub).length_le
  simpa using this

theorem unvisited_nil_le (c : CFG) : c.unvisited [] ≤ c.basicBlocks.length := by
  unfold CFG.unvisited
  exact (List.length_filter_le _ _).trans (by simp)

/-- The post-order from the entry over a graph without flags lists exactly the blocks
reachable from the entry. -/
theorem postOrder_reach (c : CFG) (hv : c.SuccsValid) (fuel : Nat) (p : Nat)
    (hp : p < c.basicBlocks.length) (hf : c.basicBlocks.length < fuel) (q : Nat) :
    q ∈ c.postOrder fuel [] (some p) ↔ c.Reach p q := by
  obtain ⟨_, m, i, s, _⟩ := postOrder_spec c hv fuel [] p hp
    (lt_of_le_of_lt (unvisited_nil_le c) hf)
  constructor
  · intro h
    exact (m q h).2.2
  · intro h
    have hin : p ∈ c.postOrder fuel [] (some p) := by
      rcases i with h1 | h1
      · cases h1
      · exact h1
    have key : ∀ a b, c.Reach a b → a ∈ c.postOrder fuel [] (some p) →
        b ∈ c.postOrder fuel [] (some p) := by
      intro a b hab
      induction hab with
      | refl a => exact id
      | step a t b ht _ ih =>
        intro ha
        rcases s a ha t ht with h1 | h1
        · cases h1
        · exact ih h1
    exact key p q h hin


theorem room_of_length {c : CFG} (hv : c.SuccsValid) (he : CFG.entry < c.basicBlocks.length)
    {target : List (Option Nat)} (h : c.basicBlocks.length ≤ target.length) :
    ∀ order : List Nat, order.Nodup → (∀ q ∈ order, c.Reach CFG.entry q) →
      order.length ≤ target.length := fun _ hn hr =>
  (length_le_of_nodup_lt hn (fun q hq => Reach_lt hv (hr q hq) he)).trans h

theorem DeadPredecessor_succsValid : DeadPredecessor.graph.SuccsValid := by
  intro q hq
  have h3 : q < 3 := hq
  interval_cases q
  · exact ⟨2, 2, rfl, rfl, by decide, by decide⟩
  · exact ⟨1, 1, rfl, rfl, by decide, by decide⟩
  · exact ⟨1, 1, rfl, rfl, by decide, by decide⟩

/-! ## Claims about `topoSortFwd` -/

/-- C22: `topoSortFwd(target, 0, entry)`, run with enough fuel on a graph whose blocks
all have the flag `FORWARD_TOPO_SORT_VISITED` clear and two successors that are blocks
of the graph, with a `target` that has room for the blocks reachable from the entry,
returns the number `n` of blocks reachable from the entry along `thenb`/`elseb`
edges; `target[0..n)` then holds every reachable block exactly once, in the
depth-first post-order (`thenb` subtree, then `elseb` subtree, then the block), so
the entry is at index `n - 1`; the rest of `target` is as it was and the graph has
changed in the flags at most. -/
theorem topoSortFwd_post_order (c : CFG) (target : List (Option Nat)) (fuel : Nat)
    (hflags : ∀ q < c.basicBlocks.length, c.fwdVisited q = false) (hv : c.SuccsValid)
    (he : CFG.entry < c.basicBlocks.length) (hfuel : c.basicBlocks.length < fuel)
    (hroom : ∀ order : List Nat, order.Nodup → (∀ q ∈ order, c.Reach CFG.entry q) →
      order.length ≤ target.length) :
    ∃ (order : List Nat) (c2 : CFG),
      order.Nodup ∧ (∀ q, q ∈ order ↔ c.Reach CFG.entry q) ∧
      CFG.topoSortFwd fuel (c, target, 0) (some CFG.entry) =
        .ok (c2, order.map some ++ target.drop order.length, order.length) ∧
      order = c.postOrder fuel [] (some CFG.entry) ∧
      order.getLast? = some CFG.entry ∧
      (order.map some ++ target.drop order.length)[order.length - 1]? = some (some CFG.entry) ∧
      OnlyFlags c c2 := by
  have hfu := lt_of_le_of_lt (unvisited_nil_le c) hfuel
  obtain ⟨n1, m1, _, _, l1⟩ := postOrder_spec c hv fuel [] CFG.entry he hfu
  have hr := postOrder_reach c hv fuel CFG.entry he hfuel
  have hm : ∀ q, q ∈ ([] : List Nat) ↔ c.fwdVisited q = true := by
    intro q
    constructor
    · intro h; cases h
    · intro h
      exfalso
      by_cases hq : q < c.basicBlocks.length
      · rw [hflags q hq] at h
        cases h
      · unfold CFG.fwdVisited at h
        rw [blockAt_eq_default c (Nat.le_of_not_lt hq)] at h
        revert h
        decide
  have hroom2 := hroom _ n1 (fun q hq => (hr q).mp hq)
  obtain ⟨c2, h2, hof2, _⟩ := topoSortFwd_spec c hv fuel c target 0 [] CFG.entry
    (OnlyFlags.rfl_flags c) hm he hfu (by omega)
  have hlast := l1 (List.not_mem_nil _)
  refine ⟨_, c2, n1, hr, ?_, rfl, hlast, ?_, hof2⟩
  · rw [h2]
    simp [writeAt]
  · have hne : c.postOrder fuel [] (some CFG.entry) ≠ [] := by
      intro h
      rw [h] at hlast
      cases hlast
    have hpos : 0 < (c.postOrder fuel [] (some CFG.entry)).length :=
      List.length_pos.mpr hne
    rw [List.getElem?_append_left (by simp only [List.length_map]; omega)]
    rw [List.getElem?_map]
    rw [List.getLast?_eq_getElem?] at hlast
    rw [hlast]
    rfl

/-- Witness of C22: the three blocks of `DeadPredecessor.graph` have no flag and valid
successors, and a `target` of three entries has room. -/
theorem topoSortFwd_post_order_witness :
    (∀ q < DeadPredecessor.graph.basicBlocks.length,
      DeadPredecessor.graph.fwdVisited q = false) ∧
    DeadPredecessor.graph.SuccsValid ∧
    CFG.entry < DeadPredecessor.graph.basicBlocks.length ∧
    DeadPredecessor.graph.basicBlocks.length < 4 ∧
    (∀ order : List Nat, order.Nodup →
      (∀ q ∈ order, DeadPredecessor.graph.Reach CFG.entry q) →
      order.length ≤ [(none : Option Nat), none, none].length) ∧
    ∃ (order : List Nat) (c2 : CFG),
      order.Nodup ∧ (∀ q, q ∈ order ↔ DeadPredecessor.graph.Reach CFG.entry q) ∧
      CFG.topoSortFwd 4 (DeadPredecessor.graph, [none, none, none], 0) (some CFG.entry) =
        .ok (c2, order.map some ++ [(none : Option Nat), none, none].drop order.length,
          order.length) ∧
      order = DeadPredecessor.graph.postOrder 4 [] (some CFG.entry) ∧
      order.getLast? = some CFG.entry ∧
      (order.map some ++ [(none : Option Nat), none, none].drop order.length)[order.length - 1]? =
        some (some CFG.entry) ∧
      OnlyFlags DeadPredecessor.graph c2 :=
  ⟨by decide, DeadPredecessor_succsValid, by decide, by decide,
    room_of_length DeadPredecessor_succsValid (by decide) (by decide),
    topoSortFwd_post_order DeadPredecessor.graph [none, none, none] 4 (by decide)
      DeadPredecessor_succsValid (by decide) (by decide)
      (room_of_length DeadPredecessor_succsValid (by decide) (by decide))⟩

/-! ## What a run of `walk` leaves untouched -/

theorem Untouched.rfl_untouched (c : CFG) (x : Nat) : Untouched c c x :=
  ⟨le_refl _, fun _ _ => ⟨rfl, fun _ => rfl, fun _ _ => rfl⟩⟩

theorem Untouched.chain_untouched {a b c : CFG} {x y : Nat} (h1 : Untouched a b x)
    (h2 : Untouched b c y) (hy : y = x ∨ a.basicBlocks.length ≤ y ∨ y = CFG.deadBlock) :
    Untouched a c x := by
  refine ⟨le_trans h1.1 h2.1, fun p hp => ?_⟩
  obtain ⟨a1, a2, a3⟩ := h1.2 p hp
  obtain ⟨b1, b2, b3⟩ := h2.2 p (lt_of_lt_of_le hp h1.1)
  refine ⟨b1.trans a1, fun hd => (b2 hd).trans (a2 hd), fun hx hd => ?_⟩
  have hpy : p ≠ y := by
    rcases hy with e | e | e
    · rw [e]; exact hx
    · omega
    · rw [e]; exact hd
  exact (b3 hpy hd).trans (a3 hx hd)

theorem Untouched.fresh {a b : CFG} {x : Nat} (h : Untouched a b x) (l : Int) :
    Untouched a (b.freshBlock l).2 x := by
  refine ⟨by rw [length_freshBlock]; exact Nat.le_succ_of_le h.1, fun p hp => ?_⟩
  rw [blockAt_freshBlock, if_neg (Nat.ne_of_lt (lt_of_lt_of_le hp h.1))]
  exact h.2 p hp

theorem Untouched.emplaced {a b c : CFG} {x p : Nat} {s : SymbolRef} {v : Instruction}
    (h : Untouched a b x) (hj : b.emplace p s v = .ok c)
    (hp : p = x ∨ a.basicBlocks.length ≤ p ∨ p = CFG.deadBlock) : Untouched a c x := by
  obtain ⟨_, hl, hb⟩ := emplace_ok hj
  refine ⟨by rw [hl]; exact h.1, fun q hq => ?_⟩
  obtain ⟨a1, a2, a3⟩ := h.2 q hq
  rw [hb q]
  split
  · rename_i hqp
    refine ⟨a1, a2, fun hx hd => ?_⟩
    exfalso
    rcases hp with e | e | e
    · exact hx (hqp.trans e)
    · omega
    · exact hd (hqp.trans e)
  · exact ⟨a1, a2, a3⟩

theorem Linked_backEdges {c c2 : CFG} {f : Nat} {cnd : SymbolRef} {t e : Nat} {ts : List Nat}
    (h : Linked c c2 f cnd t e ts) {q : Nat} (hq : q ∉ ts) :
    (c2.blockAt q).backEdges = (c.blockAt q).backEdges := by
  rw [h.2 q]
  simp [List.count_eq_zero_of_not_mem hq]

theorem Untouched.edges {a b c : CFG} {x : Nat} (h : Untouched a b x) (ho : OnlyEdges b c)
    (hb : ∀ q < a.basicBlocks.length, q ≠ CFG.deadBlock →
      (c.blockAt q).backEdges = (b.blockAt q).backEdges) : Untouched a c x := by
  refine ⟨by rw [ho.1]; exact h.1, fun q hq => ?_⟩
  obtain ⟨a1, a2, a3⟩ := h.2 q hq
  obtain ⟨e1, _, e3, _⟩ := ho.2.2 q
  exact ⟨e3.trans a1, fun hd => (hb q hq hd).trans (a2 hd), fun hx hd => e1.trans (a3 hx hd)⟩

theorem Untouched.cjump {a b c : CFG} {x f t e : Nat} {cnd : SymbolRef} (h : Untouched a b x)
    (hj : conditionalJump f cnd t e b = .ok c)
    (ht : a.basicBlocks.length ≤ t ∨ t = CFG.deadBlock)
    (he : a.basicBlocks.length ≤ e ∨ e = CFG.deadBlock) : Untouched a c x := by
  refine h.edges (conditionalJump_onlyEdges hj) (fun q hq hd => ?_)
  by_cases hf : f = CFG.deadBlock
  · subst hf
    simp [conditionalJump, pure, Except.pure] at hj
    rw [hj]
  · refine Linked_backEdges (conditionalJump_ok hj hf).2.2.2.2 ?_
    simp only [List.mem_cons, List.mem_singleton, List.not_mem_nil, or_false, not_or]
    constructor
    · rcases ht with e1 | e1
      · omega
      · rw [e1]; exact hd
    · rcases he with e1 | e1
      · omega
      · rw [e1]; exact hd

theorem Untouched.ujump {a b c : CFG} {x f t : Nat} (h : Untouched a b x)
    (hj : unconditionalJump f t b = .ok c)
    (ht : a.basicBlocks.length ≤ t ∨ t = CFG.deadBlock) : Untouched a c x := by
  refine h.edges (unconditionalJump_onlyEdges hj) (fun q hq hd => ?_)
  by_cases hf : f = CFG.deadBlock
  · subst hf
    simp [unconditionalJump, pure, Except.pure] at hj
    rw [hj]
  · refine Linked_backEdges (unconditionalJump_ok hj hf).2.2.2 ?_
    simp only [List.mem_singleton]
    rcases ht with e1 | e1
    · omega
    · rw [e1]; exact hd

theorem Untouched.djump {a b c : CFG} {x f : Nat} (h : Untouched a b x)
    (hj : jumpToDead f b = .ok c) : Untouched a c x := by
  refine h.edges (jumpToDead_onlyEdges hj) (fun q hq hd => ?_)
  by_cases hf : f = CFG.deadBlock
  · subst hf
    simp [jumpToDead, pure, Except.pure] at hj
    rw [hj]
  · refine Linked_backEdges (jumpToDead_ok hj hf).2.2.2 ?_
    simp only [List.mem_singleton]
    exact hd

theorem Untouched.loaded {a : CFG} {x : Nat} (recv : SymbolRef) (fn : NameRef) (bodyBlock : Nat)
    (hb : a.basicBlocks.length ≤ bodyBlock) (args : List ast.Expression) :
    ∀ (i : Int) (b c : CFG), Untouched a b x →
      loadBlockArgs recv fn bodyBlock args i b = .ok c → Untouched a c x := by
  induction args with
  | nil =>
    intro i b c h hj
    simp only [loadBlockArgs, pure, Except.pure, Except.ok.injEq] at hj
    subst hj
    exact h
  | cons arg rest ih =>
    intro i b c h hj
    cases arg
    case Ident symbol =>
      simp only [loadBlockArgs] at hj
      obtain ⟨c1, hc1, h2⟩ := bind_ok hj
      exact ih _ c1 c (h.emplaced hc1 (Or.inr (Or.inl hb))) h2
    all_goals
      simp only [loadBlockArgs] at hj
      exact ih _ b c h hj

theorem emit_untouched {st st2 : BuildState} {current ret : Nat} {target : SymbolRef}
    {v : Instruction}
    (h : (do
      let st ← st.onCFG (fun c => c.emplace current target v)
      pure (current, st) : Except Err (Nat × BuildState)) = .ok (ret, st2)) :
    Untouched st.inWhat st2.inWhat current := by
  obtain ⟨st1, h1, h2⟩ := bind_ok h
  obtain ⟨c1, hc1, rfl⟩ := onCFG_ok h1
  simp only [pure, Except.pure, Except.ok.injEq, Prod.mk.injEq] at h2
  obtain ⟨rfl, rfl⟩ := h2
  exact (Untouched.rfl_untouched _ _).emplaced hc1 (Or.inl rfl)

theorem Untouched.of_graph {st st0 st2 : BuildState} {cur : Nat}
    (h : Untouched st0.inWhat st2.inWhat cur) (he : st0.inWhat = st.inWhat) :
    Untouched st.inWhat st2.inWhat cur := by
  rw [he] at h
  exact h

mutual
theorem walk_untouched : ∀ (what : ast.Expression) (current : Nat) (target : SymbolRef)
    (loops : Int) (st : BuildState) (ret : Nat) (st2 : BuildState),
    CFG.walk what current target loops st = .ok (ret, st2) →
    Untouched st.inWhat st2.inWhat current
  | .IntLit value, current, target, loops, st, ret, st2, h => by
    simp only [CFG.walk] at h
    obtain ⟨u, hu, h1⟩ := bind_ok h
    exact emit_untouched h1
  | .FloatLit value, current, target, loops, st, ret, st2, h => by
    simp only [CFG.walk] at h
    obtain ⟨u, hu, h1⟩ := bind_ok h
    exact emit_untouched h1
  | .StringLit value, current, target, loops, st, ret, st2, h => by
    simp only [CFG.walk] at h
    obtain ⟨u, hu, h1⟩ := bind_ok h
    exact emit_untouched h1
  | .BoolLit value, current, target, loops, st, ret, st2, h => by
    simp only [CFG.walk] at h
    obtain ⟨u, hu, h1⟩ := bind_ok h
    exact emit_untouched h1
  | .Self value, current, target, loops, st, ret, st2, h => by
    simp only [CFG.walk] at h
    obtain ⟨u, hu, h1⟩ := bind_ok h
    exact emit_untouched h1
  | .BareBlock value, current, target, loops, st, ret, st2, h => by
    simp only [CFG.walk] at h
    obtain ⟨u, hu, h1⟩ := bind_ok h
    exact emit_untouched h1
  | .NotHandled value, current, target, loops, st, ret, st2, h => by
    simp only [CFG.walk] at h
    obtain ⟨u, hu, h1⟩ := bind_ok h
    exact emit_untouched h1
  | .ConstantLit _, current, target, loops, st, ret, st2, h => by
    simp only [CFG.walk] at h
    obtain ⟨_, _, h1⟩ := bind_ok h
    cases h1
  | .Ident symbol, current, target, loops, st, ret, st2, h => by
    simp only [CFG.walk] at h
    obtain ⟨u, hu, h1⟩ := bind_ok h
    have hg := global2Local_inWhat symbol st
    have := @emit_untouched (global2Local symbol st).2 st2 current ret target _ h1
    exact this.of_graph hg
  | .Assign lhs rhs, current, target, loops, st, ret, st2, h => by
    simp only [CFG.walk] at h
    obtain ⟨u, hu, h⟩ := bind_ok h
    obtain ⟨r1, hw1, h⟩ := bind_ok h
    obtain ⟨cont, st1⟩ := r1
    have hin2 := assignTarget_inWhat lhs st
    have p1 := (walk_handed rhs _ _ _ _ cont st1 hw1).of_inWhat hin2
    have u1 := (walk_untouched rhs _ _ _ _ cont st1 hw1).of_graph hin2
    simp only at h
    obtain ⟨st3, h3, h⟩ := bind_ok h
    obtain ⟨c3, hj3, rfl⟩ := onCFG_ok h3
    simp only [pure, Except.pure, Except.ok.injEq, Prod.mk.injEq] at h
    obtain ⟨rfl, rfl⟩ := h
    exact u1.emplaced hj3 p1.range
  | .InsSeq stats expr, current, target, loops, st, ret, st2, h => by
    simp only [CFG.walk] at h
    obtain ⟨u, hu, h⟩ := bind_ok h
    obtain ⟨r1, hw1, h⟩ := bind_ok h
    obtain ⟨cur1, st1⟩ := r1
    have p1 := walkStats_handed stats _ _ _ cur1 st1 hw1 (Or.inr (checkUnset_ok hu))
    have u1 := walkStats_untouched stats _ _ _ cur1 st1 hw1
    have u2 := walk_untouched expr _ _ _ _ ret st2 h
    exact u1.chain_untouched u2 p1.range
  | .Return expr, current, target, loops, st, ret, st2, h => by
    simp only [CFG.walk] at h
    obtain ⟨u, hu, h⟩ := bind_ok h
    simp only [BuildState.newTemporary] at h
    obtain ⟨r1, hw1, h⟩ := bind_ok h
    obtain ⟨cont, st1⟩ := r1
    have p1 : Handed st st1 current cont := (walk_handed expr _ _ _ _ cont st1 hw1).of_inWhat rfl
    have u1 : Untouched st.inWhat st1.inWhat current :=
      (walk_untouched expr _ _ _ _ cont st1 hw1).of_graph rfl
    simp only at h
    obtain ⟨st3, h3, h⟩ := bind_ok h
    obtain ⟨c3, hj3, rfl⟩ := onCFG_ok h3
    obtain ⟨st4, h4, h⟩ := bind_ok h
    obtain ⟨c4, hj4, rfl⟩ := onCFG_ok h4
    simp only [pure, Except.pure, Except.ok.injEq, Prod.mk.injEq] at h
    obtain ⟨rfl, rfl⟩ := h
    exact (u1.emplaced hj3 p1.range).djump hj4
  | .While c b, current, target, loops, st, ret, st2, h => by
    simp only [CFG.walk] at h
    obtain ⟨u, hu, h⟩ := bind_ok h
    simp only [BuildState.freshBlock, BuildState.newTemporary, freshBlock_fst,
      length_freshBlock] at h
    have e1 := length_freshBlock st.inWhat (loops + 1)
    obtain ⟨st1, h1, h⟩ := bind_ok h
    obtain ⟨c1, hj1, rfl⟩ := onCFG_ok h1
    simp only at hj1 h
    have l1 := unconditionalJump_length hj1
    have u1 : Untouched st.inWhat c1 current :=
      ((Untouched.rfl_untouched st.inWhat current).fresh (loops + 1)).ujump hj1
        (Or.inl (le_refl _))
    obtain ⟨r3, hw3, h⟩ := bind_ok h
    obtain ⟨headerEnd, st3⟩ := r3
    have p3 := walk_handed c _ _ _ _ headerEnd st3 hw3
    have w3 := walk_untouched c _ _ _ _ headerEnd st3 hw3
    simp only at h p3 w3
    have u3 : Untouched st.inWhat st3.inWhat current :=
      u1.chain_untouched w3 (Or.inr (Or.inl (le_refl _)))
    have l3 : st.inWhat.basicBlocks.length + 1 ≤ st3.inWhat.basicBlocks.length := by
      have := p3.1.1
      simp only at this
      omega
    obtain ⟨st4, h4, h⟩ := bind_ok h
    obtain ⟨c4, hj4, rfl⟩ := onCFG_ok h4
    simp only at hj4 h
    have l4 := conditionalJump_length hj4
    simp only [length_freshBlock] at l4
    have u4 : Untouched st.inWhat c4 current :=
      ((u3.fresh (loops + 1)).fresh loops).cjump hj4 (Or.inl (by omega)) (Or.inl (by omega))
    obtain ⟨r5, hw5, h⟩ := bind_ok h
    obtain ⟨bodyEnd, st5⟩ := r5
    have p5 := walk_handed b _ _ _ _ bodyEnd st5 hw5
    have w5 := walk_untouched b _ _ _ _ bodyEnd st5 hw5
    simp only at h p5 w5
    have u5 : Untouched st.inWhat st5.inWhat current :=
      u4.chain_untouched w5 (Or.inr (Or.inl (by omega)))
    obtain ⟨st6, h6, h⟩ := bind_ok h
    obtain ⟨c6, hj6, rfl⟩ := onCFG_ok h6
    have u6 : Untouched st.inWhat c6 current := u5.ujump hj6 (Or.inl (le_refl _))
    obtain ⟨st7, h7, h⟩ := bind_ok h
    obtain ⟨c7, hj7, rfl⟩ := onCFG_ok h7
    simp only [pure, Except.pure, Except.ok.injEq, Prod.mk.injEq] at h
    obtain ⟨rfl, rfl⟩ := h
    exact u6.emplaced hj7 (Or.inr (Or.inl (by omega)))
  | .If cond thenp elsep, current, target, loops, st, ret, st2, h => by
    simp only [CFG.walk] at h
    obtain ⟨u, hu, h⟩ := bind_ok h
    simp only [BuildState.freshBlock, BuildState.newTemporary, freshBlock_fst,
      length_freshBlock] at h
    split at h
    · obtain ⟨_, h1, _⟩ := bind_ok h
      cases h1
    obtain ⟨_, _, h⟩ := bind_ok h
    have u0 : Untouched st.inWhat ((st.inWhat.freshBlock loops).2.freshBlock loops).2 current :=
      ((Untouched.rfl_untouched st.inWhat current).fresh loops).fresh loops
    obtain ⟨r3, hw3, h⟩ := bind_ok h
    obtain ⟨cont, st3⟩ := r3
    have p3 := walk_handed cond _ _ _ _ cont st3 hw3
    have w3 := walk_untouched cond _ _ _ _ cont st3 hw3
    simp only at h p3 w3
    have l3 : st.inWhat.basicBlocks.length + 2 ≤ st3.inWhat.basicBlocks.length := by
      have := p3.1.1
      simp only [length_freshBlock] at this
      exact this
    have u3 : Untouched st.inWhat st3.inWhat current := u0.chain_untouched w3 (Or.inl rfl)
    obtain ⟨st4, h4, h⟩ := bind_ok h
    obtain ⟨c4, hj4, rfl⟩ := onCFG_ok h4
    try simp only at hj4
    try simp only at h
    have l4 := conditionalJump_length hj4
    have u4 : Untouched st.inWhat c4 current :=
      u3.cjump hj4 (Or.inl (le_refl _)) (Or.inl (by omega))
    obtain ⟨r5, hw5, h⟩ := bind_ok h
    obtain ⟨thenEnd, st5⟩ := r5
    have p5 := walk_handed thenp _ _ _ _ thenEnd st5 hw5
    have w5 := walk_untouched thenp _ _ _ _ thenEnd st5 hw5
    simp only at h p5 w5
    have l5 : c4.basicBlocks.length ≤ st5.inWhat.basicBlocks.length := p5.1.1
    have u5 : Untouched st.inWhat st5.inWhat current :=
      u4.chain_untouched w5 (Or.inr (Or.inl (le_refl _)))
    obtain ⟨r6, hw6, h⟩ := bind_ok h
    obtain ⟨elseEnd, st6⟩ := r6
    have p6 := walk_handed elsep _ _ _ _ elseEnd st6 hw6
    have w6 := walk_untouched elsep _ _ _ _ elseEnd st6 hw6
    simp only at h p6 w6
    have l6 : st5.inWhat.basicBlocks.length ≤ st6.inWhat.basicBlocks.length := p6.1.1
    have u6 : Untouched st.inWhat st6.inWhat current :=
      u5.chain_untouched w6 (Or.inr (Or.inl (by omega)))
    split at h
    · split at h
      · simp only [pure, Except.pure, Except.ok.injEq, Prod.mk.injEq] at h
        obtain ⟨rfl, rfl⟩ := h
        exact u6
      · rename_i hte
        try rw [if_neg hte] at h
        obtain ⟨st7, h7, h⟩ := bind_ok h
        obtain ⟨c7, hj7, rfl⟩ := onCFG_ok h7
        try simp only at hj7
        try simp only at h
        obtain ⟨st8, h8, h⟩ := bind_ok h
        obtain ⟨c8, hj8, rfl⟩ := onCFG_ok h8
        simp only [pure, Except.pure, Except.ok.injEq, Prod.mk.injEq] at h
        obtain ⟨rfl, rfl⟩ := h
        exact ((u6.fresh loops).ujump hj7 (Or.inl (by omega))).ujump hj8 (Or.inl (by omega))
    · simp only [pure, Except.pure, Except.ok.injEq, Prod.mk.injEq] at h
      obtain ⟨rfl, rfl⟩ := h
      exact u6
  | .Send recvE fn argsE block, current, target, loops, st, ret, st2, h => by
    rw [CFG.walk] at h
    obtain ⟨u, hu, h⟩ := bind_ok h
    simp only [BuildState.newTemporary] at h
    obtain ⟨r1, hw1, h⟩ := bind_ok h
    obtain ⟨cur1, st1⟩ := r1
    have p1 : Handed st st1 current cur1 :=
      (walk_handed recvE _ _ _ _ cur1 st1 hw1).of_inWhat rfl
    have u1 : Untouched st.inWhat st1.inWhat current :=
      (walk_untouched recvE _ _ _ _ cur1 st1 hw1).of_graph rfl
    simp only at h
    obtain ⟨r2, hw2, h⟩ := bind_ok h
    obtain ⟨cur2, args, st2a⟩ := r2
    have p2 := walkArgs_handed argsE _ _ _ _ cur2 args st2a hw2 p1.opened
    have w2 := walkArgs_untouched argsE _ _ _ _ cur2 args st2a hw2
    have p12 : Handed st st2a current cur2 := p1.step_handed p2
    have u2 : Untouched st.inWhat st2a.inWhat current := u1.chain_untouched w2 p1.range
    cases block with
    | none =>
      simp only at h
      obtain ⟨st3, h3, h⟩ := bind_ok h
      obtain ⟨c3, hj3, rfl⟩ := onCFG_ok h3
      simp only [pure, Except.pure, Except.ok.injEq, Prod.mk.injEq] at h
      obtain ⟨rfl, rfl⟩ := h
      exact u2.emplaced hj3 p12.range
    | some blk =>
      obtain ⟨blockArgs, blockBody⟩ := blk
      simp only at h
      simp only [BuildState.freshBlock, BuildState.newTemporary, freshBlock_fst,
        length_freshBlock] at h
      have l2 : st.inWhat.basicBlocks.length ≤ st2a.inWhat.basicBlocks.length := p12.1.1
      obtain ⟨st4, h4, h⟩ := bind_ok h
      obtain ⟨c4, hj4, rfl⟩ := onCFG_ok h4
      simp only at hj4 h
      have u4 : Untouched st.inWhat c4 current :=
        Untouched.loaded _ _ _ (by omega) _ _ _ _
          (((u2.fresh (loops + 1)).fresh loops).fresh (loops + 1)) hj4
      have s4 := SameExits_loadBlockArgs _ _ _ _ _ _ _ hj4
      have l4 : c4.basicBlocks.length = st2a.inWhat.basicBlocks.length + 3 := by
        rw [s4.1]
        simp only [length_freshBlock]
      obtain ⟨st5, h5, h⟩ := bind_ok h
      obtain ⟨c5, hj5, rfl⟩ := onCFG_ok h5
      simp only at hj5 h
      have l5 := conditionalJump_length hj5
      have u5 : Untouched st.inWhat c5 current :=
        u4.cjump hj5 (Or.inl (by omega)) (Or.inl (by omega))
      obtain ⟨st6, h6, h⟩ := bind_ok h
      obtain ⟨c6, hj6, rfl⟩ := onCFG_ok h6
      simp only at hj6 h
      have l6 := unconditionalJump_length hj6
      have u6 : Untouched st.inWhat c6 current := u5.ujump hj6 (Or.inl (by omega))
      obtain ⟨r7, hw7, h⟩ := bind_ok h
      obtain ⟨blockLast, st7⟩ := r7
      have p7 := walk_handed blockBody _ _ _ _ blockLast st7 hw7
      have w7 := walk_untouched blockBody _ _ _ _ blockLast st7 hw7
      simp only at h p7 w7
      have u7 : Untouched st.inWhat st7.inWhat current :=
        u6.chain_untouched w7 (Or.inr (Or.inl (by omega)))
      obtain ⟨st8, h8, h⟩ := bind_ok h
      obtain ⟨c8, hj8, rfl⟩ := onCFG_ok h8
      have u8 : Untouched st.inWhat c8 current := u7.ujump hj8 (Or.inl (by omega))
      obtain ⟨st9, h9, h⟩ := bind_ok h
      obtain ⟨c9, hj9, rfl⟩ := onCFG_ok h9
      simp only [pure, Except.pure, Except.ok.injEq, Prod.mk.injEq] at h
      obtain ⟨rfl, rfl⟩ := h
      exact u8.emplaced hj9 (Or.inr (Or.inl (by omega)))
theorem walkStats_untouched : ∀ (stats : List ast.Expression) (current : Nat)
    (loops : Int) (st : BuildState) (ret : Nat) (st2 : BuildState),
    CFG.walkStats stats current loops st = .ok (ret, st2) →
    Untouched st.inWhat st2.inWhat current
  | [], current, loops, st, ret, st2, h => by
    simp only [CFG.walkStats, pure, Except.pure, Except.ok.injEq, Prod.mk.injEq] at h
    obtain ⟨rfl, rfl⟩ := h
    exact Untouched.rfl_untouched _ _
  | exp :: rest, current, loops, st, ret, st2, h => by
    simp only [CFG.walkStats, BuildState.newTemporary] at h
    obtain ⟨r1, hw1, h⟩ := bind_ok h
    obtain ⟨cur1, st1⟩ := r1
    have p1 : Handed st st1 current cur1 := (walk_handed exp _ _ _ _ cur1 st1 hw1).of_inWhat rfl
    have u1 : Untouched st.inWhat st1.inWhat current :=
      (walk_untouched exp _ _ _ _ cur1 st1 hw1).of_graph rfl
    have u2 := walkStats_untouched rest _ _ _ ret st2 h
    exact u1.chain_untouched u2 p1.range
theorem walkArgs_untouched : ∀ (argsE : List ast.Expression) (current : Nat)
    (loops : Int) (acc : List SymbolRef) (st : BuildState) (ret : Nat) (args : List SymbolRef)
    (st2 : BuildState),
    CFG.walkArgs argsE current loops acc st = .ok (ret, args, st2) →
    Untouched st.inWhat st2.inWhat current
  | [], current, loops, acc, st, ret, args, st2, h => by
    simp only [CFG.walkArgs, pure, Except.pure, Except.ok.injEq, Prod.mk.injEq] at h
    obtain ⟨rfl, _, rfl⟩ := h
    exact Untouched.rfl_untouched _ _
  | exp :: rest, current, loops, acc, st, ret, args, st2, h => by
    simp only [CFG.walkArgs, BuildState.newTemporary] at h
    obtain ⟨r1, hw1, h⟩ := bind_ok h
    obtain ⟨cur1, st1⟩ := r1
    have p1 : Handed st st1 current cur1 := (walk_handed exp _ _ _ _ cur1 st1 hw1).of_inWhat rfl
    have u1 : Untouched st.inWhat st1.inWhat current :=
      (walk_untouched exp _ _ _ _ cur1 st1 hw1).of_graph rfl
    have u2 := walkArgs_untouched rest _ _ _ _ ret args st2 h
    exact u1.chain_untouched u2 p1.range
end

/-! ## The lowering of `While` -/

theorem unconditionalJump_returns_open (c : CFG) (f t : Nat)
    (hf : f = CFG.deadBlock ∨ (f < c.basicBlocks.length ∧ (c.blockAt f).bexit.cond = 0))
    (ht : t < c.basicBlocks.length) : ∃ c2, unconditionalJump f t c = .ok c2 := by
  by_cases hd : f = CFG.deadBlock
  · exact ⟨c, by simp [unconditionalJump, hd, pure, Except.pure]⟩
  · obtain ⟨h1, h2⟩ := hf.resolve_left hd
    obtain ⟨c2, h, _⟩ := unconditionalJump_returns c f t h1 ht hd
      (by simp [SymbolRef.symbolExists, h2])
    exact ⟨c2, h⟩

theorem conditionalJump_returns_open (c : CFG) (f t e : Nat) (cnd : SymbolRef)
    (hf : f = CFG.deadBlock ∨ (f < c.basicBlocks.length ∧ (c.blockAt f).bexit.cond = 0))
    (ht : t < c.basicBlocks.length) (he : e < c.basicBlocks.length) :
    ∃ c2, conditionalJump f cnd t e c = .ok c2 := by
  by_cases hd : f = CFG.deadBlock
  · exact ⟨c, by simp [conditionalJump, hd, pure, Except.pure]⟩
  · obtain ⟨h1, h2⟩ := hf.resolve_left hd
    obtain ⟨c2, h, _⟩ := conditionalJump_returns c f t e cnd h1 ht he hd
      (by simp [SymbolRef.symbolExists, h2])
    exact ⟨c2, h⟩

theorem onCFG_of {st : BuildState} {f : CFG → Except Err CFG} {c : CFG}
    (h : f st.inWhat = .ok c) : st.onCFG f = .ok { st with inWhat := c } := by
  unfold BuildState.onCFG
  rw [h]
  rfl

/-- C23: for `While(cond, body)` lowered by `walk` at loop depth `loops` from a
`current` block that is not the dead block and has no terminator (in a graph that has
its entry and dead blocks): the jump from `current` into the new header is installed;
whenever the walk of `cond` from the header then returns, the branch to the new body
and continue blocks is installed; and whenever the walk of `body` then returns, `walk`
returns the continue block, and in the graph it leaves the header and body blocks
have `outerLoops = loops + 1`, the continue block has `outerLoops = loops`, `current`
has the unconditional jump to the header, the body endpoint (when not dead) has the
unconditional jump back to the header, the `backEdges` of the header are `current` and
(when not dead) the body endpoint, and the bindings of the continue block are exactly
`[target := Nil]`. -/
theorem walk_while (c b : ast.Expression) (current : Nat) (target : SymbolRef) (loops : Int)
    (st : BuildState) (hlen : 2 ≤ st.inWhat.basicBlocks.length)
    (hc : current < st.inWhat.basicBlocks.length) (hd : current ≠ CFG.deadBlock)
    (hu : SymbolRef.symbolExists (st.inWhat.blockAt current).bexit.cond = false) :
    ∃ st1, (st.freshBlock (loops + 1)).2.onCFG
        (unconditionalJump current st.inWhat.basicBlocks.length) = .ok st1 ∧
      ∀ headerEnd st3,
        CFG.walk c st.inWhat.basicBlocks.length (st1.newTemporary Names.whileTemp).1
          (loops + 1) (st1.newTemporary Names.whileTemp).2 = .ok (headerEnd, st3) →
        ∃ st4, ((st3.freshBlock (loops + 1)).2.freshBlock loops).2.onCFG
            (conditionalJump headerEnd (st1.newTemporary Names.whileTemp).1
              st3.inWhat.basicBlocks.length (st3.inWhat.basicBlocks.length + 1)) = .ok st4 ∧
          ∀ bodyEnd st5,
            CFG.walk b st3.inWhat.basicBlocks.length (st4.newTemporary Names.statTemp).1
              (loops + 1) (st4.newTemporary Names.statTemp).2 = .ok (bodyEnd, st5) →
            ∃ st2, CFG.walk (.While c b) current target loops st =
                .ok (st3.inWhat.basicBlocks.length + 1, st2) ∧
              st.inWhat.basicBlocks.length < st3.inWhat.basicBlocks.length ∧
              st3.inWhat.basicBlocks.length + 1 < st2.inWhat.basicBlocks.length ∧
              WhileShape st2.inWhat current st.inWhat.basicBlocks.length
                st3.inWhat.basicBlocks.length (st3.inWhat.basicBlocks.length + 1) bodyEnd
                target loops := by
  have hcu : (st.inWhat.blockAt current).bexit.cond = 0 := by
    simpa [SymbolRef.symbolExists] using hu
  have e0 := length_freshBlock st.inWhat (loops + 1)
  -- the header and the jump into it
  obtain ⟨c1, hj1, _⟩ := unconditionalJump_returns (st.inWhat.freshBlock (loops + 1)).2 current
    st.inWhat.basicBlocks.length (by omega) (by omega) hd
    (by rw [blockAt_freshBlock, if_neg (Nat.ne_of_lt hc)]; exact hu)
  have hl1 := (unconditionalJump_ok hj1 hd).2.2.2
  have l1 : c1.basicBlocks.length = st.inWhat.basicBlocks.length + 1 := by rw [hl1.1, e0]
  refine ⟨{ (st.freshBlock (loops + 1)).2 with inWhat := c1 }, onCFG_of hj1, ?_⟩
  intro headerEnd st3 hw3
  have p3 := walk_handed c _ _ _ _ headerEnd st3 hw3
  have w3 := walk_untouched c _ _ _ _ headerEnd st3 hw3
  simp only [BuildState.newTemporary, BuildState.freshBlock] at p3 w3
  have l3 : c1.basicBlocks.length ≤ st3.inWhat.basicBlocks.length := p3.1.1
  have e3 := length_freshBlock st3.inWhat (loops + 1)
  have e3b := length_freshBlock (st3.inWhat.freshBlock (loops + 1)).2 loops
  -- the branch out of the header
  have hopen3 : headerEnd = CFG.deadBlock ∨
      (headerEnd < ((st3.inWhat.freshBlock (loops + 1)).2.freshBlock loops).2.basicBlocks.length ∧
        (((st3.inWhat.freshBlock (loops + 1)).2.freshBlock loops).2.blockAt
          headerEnd).bexit.cond = 0) := by
    rcases p3.opened with e | ⟨a1, a2⟩
    · exact Or.inl e
    · refine Or.inr ⟨by omega, ?_⟩
      rw [blockAt_freshBlock, if_neg (by omega), blockAt_freshBlock, if_neg (by omega)]
      exact a2
  obtain ⟨c4, hj4⟩ := conditionalJump_returns_open _ headerEnd st3.inWhat.basicBlocks.length
    (st3.inWhat.basicBlocks.length + 1)
    (st.gs.newTemporary Names.whileTemp c1.symbol).1 hopen3 (by omega) (by omega)
  have l4 := conditionalJump_length hj4
  simp only [length_freshBlock] at l4
  refine ⟨{ ((st3.freshBlock (loops + 1)).2.freshBlock loops).2 with inWhat := c4 },
    onCFG_of hj4, ?_⟩
  intro bodyEnd st5 hw5
  have p5 := walk_handed b _ _ _ _ bodyEnd st5 hw5
  have w5 := walk_untouched b _ _ _ _ bodyEnd st5 hw5
  simp only [BuildState.newTemporary, BuildState.freshBlock] at p5 w5
  have l5 : c4.basicBlocks.length ≤ st5.inWhat.basicBlocks.length := p5.1.1
  -- the jump back and the binding in the continue block
  obtain ⟨c6, hj6⟩ := unconditionalJump_returns_open st5.inWhat bodyEnd
    st.inWhat.basicBlocks.length p5.opened (by omega)
  have l6 := unconditionalJump_length hj6
  obtain ⟨c7, hj7, _⟩ := emplace_returns c6 (st3.inWhat.basicBlocks.length + 1) target .Nil
    (by omega)
  have l7 := (emplace_ok hj7).2.1
  refine ⟨{ st5 with inWhat := c7 }, ?_, by omega, by simp only; omega, ?_⟩
  · simp only [CFG.walk]
    rw [ok_bind (checkUnset_returns _ _ hc hu)]
    simp only [BuildState.freshBlock, BuildState.newTemporary, freshBlock_fst,
      length_freshBlock]
    rw [ok_bind (onCFG_of hj1)]
    simp only [BuildState.newTemporary, BuildState.freshBlock] at hw3 hw5
    try simp only
    rw [ok_bind hw3]
    try simp only
    rw [ok_bind (onCFG_of hj4)]
    try simp only
    rw [ok_bind hw5]
    try simp only
    rw [ok_bind (onCFG_of hj6)]
    try simp only
    rw [ok_bind (onCFG_of hj7)]
    rfl
  · have hne : st.inWhat.basicBlocks.length ≠ CFG.deadBlock := by
      simp only [CFG.deadBlock]
      omega
    -- the graph after the jump into the header
    have b1h : c1.blockAt st.inWhat.basicBlocks.length =
        { outerLoops := loops + 1, backEdges := [current] } := by
      rw [hl1.2, blockAt_freshBlock, if_pos rfl, if_neg (Ne.symm (Nat.ne_of_lt hc))]
      simp
    have b1c : (c1.blockAt current).bexit =
        ⟨GlobalState.defn_cfg_always, some st.inWhat.basicBlocks.length,
          some st.inWhat.basicBlocks.length⟩ := by
      rw [hl1.2, if_pos rfl]
    -- up to the end of the walk of the body
    have u5 : Untouched c1 st5.inWhat st.inWhat.basicBlocks.length :=
      (((w3.fresh (loops + 1)).fresh loops).cjump hj4 (Or.inl (by omega))
        (Or.inl (by omega))).chain_untouched w5 (Or.inr (Or.inl (by omega)))
    have k4 : KeepsExits c1 c4 st.inWhat.basicBlocks.length :=
      ((p3.1.chain (KeepsExits_freshBlock _ (loops + 1) headerEnd) (p3.range)).chain
        (KeepsExits_freshBlock _ loops headerEnd) p3.range).chain
        (conditionalJump_exits hj4).1 p3.range
    have k5 : KeepsExits c1 st5.inWhat st.inWhat.basicBlocks.length :=
      k4.chain p5.1 (Or.inr (Or.inl (by omega)))
    have r5 : bodyEnd = st.inWhat.basicBlocks.length ∨ c1.basicBlocks.length ≤ bodyEnd ∨
        bodyEnd = CFG.deadBlock := by
      have hr := p5.range
      simp only at hr
      rcases hr with e | e | e
      · exact Or.inr (Or.inl (by omega))
      · exact Or.inr (Or.inl (by omega))
      · exact Or.inr (Or.inr e)
    have k7 : KeepsExits c1 c7 st.inWhat.basicBlocks.length :=
      (k5.chain (unconditionalJump_exits hj6).1 r5).chain_same (SameExits_emplace hj7)
    have o6 := unconditionalJump_onlyEdges hj6
    have hb7 := (emplace_ok hj7).2.2
    have o4 := conditionalJump_onlyEdges hj4
    -- the new body and continue blocks
    have b4b : (c4.blockAt st3.inWhat.basicBlocks.length).outerLoops = loops + 1 := by
      rw [(o4.2.2 _).2.2.1, blockAt_freshBlock, if_neg (by omega), blockAt_freshBlock,
        if_pos rfl]
    have b4c : (c4.blockAt (st3.inWhat.basicBlocks.length + 1)).outerLoops = loops ∧
        (c4.blockAt (st3.inWhat.basicBlocks.length + 1)).exprs = [] := by
      rw [(o4.2.2 _).2.2.1, (o4.2.2 _).1, blockAt_freshBlock, if_pos (by rw [e3])]
      exact ⟨rfl, rfl⟩
    have x5b := w5.2 st3.inWhat.basicBlocks.length (by omega)
    have x5c := w5.2 (st3.inWhat.basicBlocks.length + 1) (by omega)
    have hcd : st3.inWhat.basicBlocks.length + 1 ≠ CFG.deadBlock := by
      simp only [CFG.deadBlock]
      omega
    refine ⟨?_, ?_, ?_, ?_, ?_, ?_, ?_⟩
    · rw [hb7]
      have := (u5.2 st.inWhat.basicBlocks.length (by omega)).1
      split <;> simp only [(o6.2.2 _).2.2.1, this, b1h]
    · rw [hb7]
      split <;> simp only [(o6.2.2 _).2.2.1, x5b.1, b4b]
    · rw [hb7]
      split <;> simp only [(o6.2.2 _).2.2.1, x5c.1, b4c.1]
    · rw [k7.2 current (by omega) (Or.inl (Nat.ne_of_lt hc)), b1c]
    · intro hbd
      have hl6 := (unconditionalJump_ok hj6 hbd).2.2.2
      rw [(SameExits_emplace hj7).2, hl6.2, if_pos rfl]
    · have hbe5 : (st5.inWhat.blockAt st.inWhat.basicBlocks.length).backEdges = [current] := by
        rw [(u5.2 st.inWhat.basicBlocks.length (by omega)).2.1 hne, b1h]
      have h7 : (c7.blockAt st.inWhat.basicBlocks.length).backEdges =
          (c6.blockAt st.inWhat.basicBlocks.length).backEdges := by
        rw [hb7]
        split <;> rfl
      rw [h7]
      by_cases hbd : bodyEnd = CFG.deadBlock
      · rw [if_pos hbd]
        subst hbd
        simp [unconditionalJump, pure, Except.pure] at hj6
        rw [← hj6, hbe5]
      · rw [if_neg hbd]
        have hl6 := (unconditionalJump_ok hj6 hbd).2.2.2
        rw [hl6.2, hbe5]
        simp
    · rw [hb7, if_pos rfl]
      simp only
      rw [(o6.2.2 _).1, x5c.2.2 (by omega) hcd, b4c.2]
      rfl

/-- Witness of C23: `while true; 1; end` lowered from the entry block of a new graph. -/
theorem walk_while_witness :
    2 ≤ (⟨Scenario.gs, CFG.new, []⟩ : BuildState).inWhat.basicBlocks.length ∧
    CFG.entry < (⟨Scenario.gs, CFG.new, []⟩ : BuildState).inWhat.basicBlocks.length ∧
    CFG.entry ≠ CFG.deadBlock ∧
    SymbolRef.symbolExists
      ((⟨Scenario.gs, CFG.new, []⟩ : BuildState).inWhat.blockAt CFG.entry).bexit.cond = false ∧
    ∃ st1, ((⟨Scenario.gs, CFG.new, []⟩ : BuildState).freshBlock (0 + 1)).2.onCFG
        (unconditionalJump CFG.entry
          (⟨Scenario.gs, CFG.new, []⟩ : BuildState).inWhat.basicBlocks.length) = .ok st1 ∧
      ∀ headerEnd st3,
        CFG.walk (.BoolLit true)
          (⟨Scenario.gs, CFG.new, []⟩ : BuildState).inWhat.basicBlocks.length
          (st1.newTemporary Names.whileTemp).1
          (0 + 1) (st1.newTemporary Names.whileTemp).2 = .ok (headerEnd, st3) →
        ∃ st4, ((st3.freshBlock (0 + 1)).2.freshBlock 0).2.onCFG
            (conditionalJump headerEnd (st1.newTemporary Names.whileTemp).1
              st3.inWhat.basicBlocks.length (st3.inWhat.basicBlocks.length + 1)) = .ok st4 ∧
          ∀ bodyEnd st5,
            CFG.walk (.IntLit 1) st3.inWhat.basicBlocks.length
              (st4.newTemporary Names.statTemp).1
              (0 + 1) (st4.newTemporary Names.statTemp).2 = .ok (bodyEnd, st5) →
            ∃ st2, CFG.walk (.While (.BoolLit true) (.IntLit 1)) CFG.entry 9 0
                ⟨Scenario.gs, CFG.new, []⟩ = .ok (st3.inWhat.basicBlocks.length + 1, st2) ∧
              (⟨Scenario.gs, CFG.new, []⟩ : BuildState).inWhat.basicBlocks.length <
                st3.inWhat.basicBlocks.length ∧
              st3.inWhat.basicBlocks.length + 1 < st2.inWhat.basicBlocks.length ∧
              WhileShape st2.inWhat CFG.entry
                (⟨Scenario.gs, CFG.new, []⟩ : BuildState).inWhat.basicBlocks.length
                st3.inWhat.basicBlocks.length (st3.inWhat.basicBlocks.length + 1) bodyEnd
                9 0 :=
  ⟨by decide, by decide, by decide, by decide,
    walk_while (.BoolLit true) (.IntLit 1) CFG.entry 9 0 ⟨Scenario.gs, CFG.new, []⟩
      (by decide) (by decide) (by decide) (by decide)⟩

/-! ## Graphs without loops -/

theorem succs_of_bexit {c c2 : CFG} {p : Nat} (h : (c2.blockAt p).bexit = (c.blockAt p).bexit) :
    c2.succs p = c.succs p := by
  unfold CFG.succs
  rw [h]

theorem CFG.Ordered.same_terminators {c c2 : CFG} {T : List Nat} (h : c.Ordered T)
    (hs : ∀ p, (c2.blockAt p).bexit = (c.blockAt p).bexit) : c2.Ordered T := by
  have hsu : c2.succs = c.succs := by
    funext p
    exact succs_of_bexit (hs p)
  refine ⟨fun p => ?_, ?_, ?_⟩
  · rw [hs p]
    exact h.1 p
  · rw [hsu]
    exact h.2.1
  · rw [hsu]
    exact h.2.2

theorem CFG.Ordered.new_block {c : CFG} {T : List Nat} (h : c.Ordered T) (l : Int)
    (hT : ∀ p ∈ T, p < c.basicBlocks.length) : (c.freshBlock l).2.Ordered T := by
  have hb : ∀ p ∈ T, ((c.freshBlock l).2.blockAt p).bexit = (c.blockAt p).bexit := by
    intro p hp
    rw [blockAt_freshBlock, if_neg (Nat.ne_of_lt (hT p hp))]
  have hsu : ∀ p ∈ T, (c.freshBlock l).2.succs p = c.succs p := fun p hp =>
    succs_of_bexit (hb p hp)
  refine ⟨fun p => ?_, ?_, ?_⟩
  · rw [blockAt_freshBlock]
    split
    · rename_i hp
      constructor
      · intro hm
        exact absurd (hT p hm) (by omega)
      · intro hx
        exact absurd rfl hx.2
    · exact h.1 p
  · refine h.2.1.imp_of_mem ?_
    intro a b _ hb2 hab
    rw [hsu b hb2]
    exact hab
  · intro p hp
    rw [hsu p hp]
    exact h.2.2 p hp

theorem CFG.Ordered.in_range {c : CFG} {T : List Nat} (h : c.Ordered T) :
    ∀ p ∈ T, p < c.basicBlocks.length := by
  intro p hp
  by_contra hn
  have := ((h.1 p).mp hp).2
  rw [blockAt_eq_default c (Nat.le_of_not_lt hn)] at this
  exact this rfl

theorem CFG.Ordered.new_edge {c c2 : CFG} {T : List Nat} {f : Nat} {cnd : SymbolRef} {t e : Nat}
    {ts : List Nat} (h : c.Ordered T) (hl : Linked c c2 f cnd t e ts) (hf : f ≠ CFG.deadBlock)
    (hu : (c.blockAt f).bexit.cond = 0) (hc : cnd ≠ 0)
    (ht : t = CFG.deadBlock ∨ (c.blockAt t).bexit.cond = 0)
    (he : e = CFG.deadBlock ∨ (c.blockAt e).bexit.cond = 0)
    (htf : t ≠ f) (hef : e ≠ f) : c2.Ordered (T ++ [f]) := by
  have hb : ∀ q, (c2.blockAt q).bexit =
      if q = f then ⟨cnd, some t, some e⟩ else (c.blockAt q).bexit := by
    intro q
    rw [hl.2 q]
  have hfT : f ∉ T := fun hm => ((h.1 f).mp hm).2 hu
  have hnot : ∀ x, (x = CFG.deadBlock ∨ (c.blockAt x).bexit.cond = 0) → x ∉ T := by
    intro x hx hm
    rcases hx with e1 | e1
    · exact ((h.1 x).mp hm).1 e1
    · exact ((h.1 x).mp hm).2 e1
  have hsu : ∀ p, p ≠ f → c2.succs p = c.succs p := by
    intro p hp
    apply succs_of_bexit
    rw [hb p, if_neg hp]
  have hsf : c2.succs f = [t, e] := by
    unfold CFG.succs
    rw [hb f, if_pos rfl]
    rfl
  refine ⟨fun p => ?_, ?_, ?_⟩
  · rw [hb p, List.mem_append, List.mem_singleton]
    by_cases hp : p = f
    · subst hp
      simp only [if_true, or_true, true_iff]
      exact ⟨hf, hc⟩
    · simp only [hp, if_false, or_false]
      exact h.1 p
  · rw [List.pairwise_append]
    refine ⟨?_, List.pairwise_singleton _ _, ?_⟩
    · refine h.2.1.imp_of_mem ?_
      intro a b _ hb2 hab
      have : b ≠ f := fun e1 => hfT (e1 ▸ hb2)
      rw [hsu b this]
      exact hab
    · intro a ha b hb2
      rw [List.mem_singleton] at hb2
      subst hb2
      rw [hsf]
      simp only [List.mem_cons, List.mem_singleton, List.not_mem_nil, or_false, not_or]
      exact ⟨fun e1 => hnot t ht (e1 ▸ ha), fun e1 => hnot e he (e1 ▸ ha)⟩
  · intro p hp
    rcases List.mem_append.mp hp with h1 | h1
    · have : p ≠ f := fun e1 => hfT (e1 ▸ h1)
      rw [hsu p this]
      exact h.2.2 p h1
    · rw [List.mem_singleton] at h1
      subst h1
      rw [hsf]
      simp only [List.mem_cons, List.mem_singleton, List.not_mem_nil, or_false, not_or]
      exact ⟨Ne.symm htf, Ne.symm hef⟩

theorem CFG.Loopless.with_block {c : CFG} (h : c.Loopless) (l : Int) : (c.freshBlock l).2.Loopless := by
  obtain ⟨T, hT⟩ := h
  exact ⟨T, hT.new_block l hT.in_range⟩

theorem CFG.Loopless.with_exits {c c2 : CFG} (h : c.Loopless) (hs : SameExits c c2) :
    c2.Loopless := by
  obtain ⟨T, hT⟩ := h
  exact ⟨T, hT.same_terminators hs.2⟩

theorem CFG.Loopless.with_binding {c c2 : CFG} {p : Nat} {bind : SymbolRef} {v : Instruction}
    (h : c.Loopless) (he : c.emplace p bind v = .ok c2) : c2.Loopless :=
  h.with_exits (SameExits_emplace he)

theorem CFG.Loopless.with_jump {c c2 : CFG} {f t : Nat} (h : c.Loopless)
    (hj : unconditionalJump f t c = .ok c2)
    (ht : t = CFG.deadBlock ∨ (c.blockAt t).bexit.cond = 0) (htf : f ≠ CFG.deadBlock → t ≠ f) :
    c2.Loopless := by
  by_cases hf : f = CFG.deadBlock
  · subst hf
    simp only [unconditionalJump, ne_eq, not_true_eq_false, if_false, pure, Except.pure,
      Except.ok.injEq] at hj
    subst hj
    exact h
  · obtain ⟨T, hT⟩ := h
    obtain ⟨_, _, hu, hl⟩ := unconditionalJump_ok hj hf
    exact ⟨_, hT.new_edge hl hf hu (by decide) ht ht (htf hf) (htf hf)⟩

theorem CFG.Loopless.with_branch {c c2 : CFG} {f t e : Nat} {cnd : SymbolRef} (h : c.Loopless)
    (hj : conditionalJump f cnd t e c = .ok c2) (hc : cnd ≠ 0)
    (ht : t = CFG.deadBlock ∨ (c.blockAt t).bexit.cond = 0)
    (he : e = CFG.deadBlock ∨ (c.blockAt e).bexit.cond = 0)
    (htf : f ≠ CFG.deadBlock → t ≠ f) (hef : f ≠ CFG.deadBlock → e ≠ f) :
    c2.Loopless := by
  by_cases hf : f = CFG.deadBlock
  · subst hf
    simp only [conditionalJump, ne_eq, not_true_eq_false, if_false, pure, Except.pure,
      Except.ok.injEq] at hj
    subst hj
    exact h
  · obtain ⟨T, hT⟩ := h
    obtain ⟨_, _, _, hu, hl⟩ := conditionalJump_ok hj hf
    exact ⟨_, hT.new_edge hl hf hu hc ht he (htf hf) (hef hf)⟩

theorem CFG.Loopless.with_dead_jump {c c2 : CFG} {f : Nat} (h : c.Loopless)
    (hj : jumpToDead f c = .ok c2) : c2.Loopless := by
  by_cases hf : f = CFG.deadBlock
  · subst hf
    simp only [jumpToDead, ne_eq, not_true_eq_false, if_false, pure, Except.pure,
      Except.ok.injEq] at hj
    subst hj
    exact h
  · obtain ⟨T, hT⟩ := h
    obtain ⟨_, _, hu, hl⟩ := jumpToDead_ok hj hf
    exact ⟨_, hT.new_edge hl hf hu (by decide) (Or.inl rfl) (Or.inl rfl) (Ne.symm hf) (Ne.symm hf)⟩

theorem emit_loopless {st st2 : BuildState} {current ret : Nat} {target : SymbolRef}
    {v : Instruction}
    (h : (st.onCFG (fun c => c.emplace current target v) >>= fun st => pure (current, st)) =
      Except.ok (ret, st2))
    (hl : st.inWhat.Loopless) : st2.inWhat.Loopless := by
  obtain ⟨st3, h3, h⟩ := bind_ok h
  obtain ⟨c3, hj3, rfl⟩ := onCFG_ok h3
  simp only [pure, Except.pure, Except.ok.injEq, Prod.mk.injEq] at h
  obtain ⟨rfl, rfl⟩ := h
  exact hl.with_binding hj3

mutual
theorem walk_loopless : ∀ (what : ast.Expression) (current : Nat) (target : SymbolRef)
    (loops : Int) (st : BuildState) (ret : Nat) (st2 : BuildState),
    LoopFree what → CFG.walk what current target loops st = .ok (ret, st2) →
    st.inWhat.Loopless → st2.inWhat.Loopless
  | .IntLit value, current, target, loops, st, ret, st2, _, h, hl => by
    simp only [CFG.walk] at h
    obtain ⟨u, hu, h1⟩ := bind_ok h
    exact emit_loopless h1 hl
  | .FloatLit value, current, target, loops, st, ret, st2, _, h, hl => by
    simp only [CFG.walk] at h
    obtain ⟨u, hu, h1⟩ := bind_ok h
    exact emit_loopless h1 hl
  | .StringLit value, current, target, loops, st, ret, st2, _, h, hl => by
    simp only [CFG.walk] at h
    obtain ⟨u, hu, h1⟩ := bind_ok h
    exact emit_loopless h1 hl
  | .BoolLit value, current, target, loops, st, ret, st2, _, h, hl => by
    simp only [CFG.walk] at h
    obtain ⟨u, hu, h1⟩ := bind_ok h
    exact emit_loopless h1 hl
  | .Self value, current, target, loops, st, ret, st2, _, h, hl => by
    simp only [CFG.walk] at h
    obtain ⟨u, hu, h1⟩ := bind_ok h
    exact emit_loopless h1 hl
  | .BareBlock value, current, target, loops, st, ret, st2, _, h, hl => by
    simp only [CFG.walk] at h
    obtain ⟨u, hu, h1⟩ := bind_ok h
    exact emit_loopless h1 hl
  | .NotHandled value, current, target, loops, st, ret, st2, _, h, hl => by
    simp only [CFG.walk] at h
    obtain ⟨u, hu, h1⟩ := bind_ok h
    exact emit_loopless h1 hl
  | .ConstantLit _, current, target, loops, st, ret, st2, _, h, hl => by
    simp only [CFG.walk] at h
    obtain ⟨_, _, h1⟩ := bind_ok h
    cases h1
  | .Ident symbol, current, target, loops, st, ret, st2, _, h, hl => by
    simp only [CFG.walk] at h
    obtain ⟨u, hu, h1⟩ := bind_ok h
    have hg := global2Local_inWhat symbol st
    exact @emit_loopless (global2Local symbol st).2 st2 current ret target _ h1 (hg ▸ hl)
  | .Assign lhs rhs, current, target, loops, st, ret, st2, hf, h, hl => by
    simp only [CFG.walk] at h
    simp only [LoopFree] at hf
    obtain ⟨u, hu, h⟩ := bind_ok h
    obtain ⟨r1, hw1, h⟩ := bind_ok h
    obtain ⟨cont, st1⟩ := r1
    have hin2 := assignTarget_inWhat lhs st
    have q1 := walk_loopless rhs _ _ _ _ cont st1 hf hw1 (hin2 ▸ hl)
    simp only at h
    obtain ⟨st3, h3, h⟩ := bind_ok h
    obtain ⟨c3, hj3, rfl⟩ := onCFG_ok h3
    simp only [pure, Except.pure, Except.ok.injEq, Prod.mk.injEq] at h
    obtain ⟨rfl, rfl⟩ := h
    exact q1.with_binding hj3
  | .InsSeq stats expr, current, target, loops, st, ret, st2, hf, h, hl => by
    simp only [CFG.walk] at h
    simp only [LoopFree] at hf
    obtain ⟨u, hu, h⟩ := bind_ok h
    obtain ⟨r1, hw1, h⟩ := bind_ok h
    obtain ⟨cur1, st1⟩ := r1
    have q1 := walkStats_loopless stats _ _ _ cur1 st1 hf.1 hw1 hl
    exact walk_loopless expr _ _ _ _ ret st2 hf.2 h q1
  | .Return expr, current, target, loops, st, ret, st2, hf, h, hl => by
    simp only [CFG.walk] at h
    simp only [LoopFree] at hf
    obtain ⟨u, hu, h⟩ := bind_ok h
    simp only [BuildState.newTemporary] at h
    obtain ⟨r1, hw1, h⟩ := bind_ok h
    obtain ⟨cont, st1⟩ := r1
    have q1 : st1.inWhat.Loopless := walk_loopless expr _ _ _ _ cont st1 hf hw1 hl
    simp only at h
    obtain ⟨st3, h3, h⟩ := bind_ok h
    obtain ⟨c3, hj3, rfl⟩ := onCFG_ok h3
    obtain ⟨st4, h4, h⟩ := bind_ok h
    obtain ⟨c4, hj4, rfl⟩ := onCFG_ok h4
    simp only [pure, Except.pure, Except.ok.injEq, Prod.mk.injEq] at h
    obtain ⟨rfl, rfl⟩ := h
    exact (q1.with_binding hj3).with_dead_jump hj4
  | .While c b, current, target, loops, st, ret, st2, hf, h, hl => by
    simp only [LoopFree] at hf
  | .If cond thenp elsep, current, target, loops, st, ret, st2, hf, h, hl => by
    simp only [CFG.walk] at h
    simp only [LoopFree] at hf
    obtain ⟨u, hu, h⟩ := bind_ok h
    have hcur := checkUnset_ok hu
    simp only [BuildState.freshBlock, BuildState.newTemporary, freshBlock_fst,
      length_freshBlock] at h
    split at h
    · obtain ⟨_, h1, _⟩ := bind_ok h
      cases h1
    rename_i hsym
    obtain ⟨_, _, h⟩ := bind_ok h
    have q0 : ((st.inWhat.freshBlock loops).2.freshBlock loops).2.Loopless :=
      (hl.with_block loops).with_block loops
    obtain ⟨r3, hw3, h⟩ := bind_ok h
    obtain ⟨cont, st3⟩ := r3
    have p3 := walk_handed cond _ _ _ _ cont st3 hw3
    have q3 := walk_loopless cond _ _ _ _ cont st3 hf.1 hw3 q0
    simp only at h p3 q3
    have l3 : st.inWhat.basicBlocks.length + 2 ≤ st3.inWhat.basicBlocks.length := by
      have := p3.1.1
      simp only [length_freshBlock] at this
      exact this
    have r3 := p3.range
    simp only [length_freshBlock] at r3
    have ot : (st3.inWhat.blockAt st.inWhat.basicBlocks.length).bexit.cond = 0 := by
      refine (p3.1.unset ?_ (Or.inl (by omega)) ?_).2
      · simp only [length_freshBlock]
        omega
      · rw [blockAt_freshBlock, blockAt_freshBlock]
        simp
    have oe : (st3.inWhat.blockAt (st.inWhat.basicBlocks.length + 1)).bexit.cond = 0 := by
      refine (p3.1.unset ?_ (Or.inl (by omega)) ?_).2
      · simp only [length_freshBlock]
        omega
      · rw [blockAt_freshBlock, if_pos (by rw [length_freshBlock])]
    obtain ⟨st4, h4, h⟩ := bind_ok h
    obtain ⟨c4, hj4, rfl⟩ := onCFG_ok h4
    try simp only at hj4
    try simp only at h
    have l4 := conditionalJump_length hj4
    have q4 : c4.Loopless := by
      refine q3.with_branch hj4 ?_ (Or.inr ot) (Or.inr oe) ?_ ?_
      · intro e0
        rw [e0] at hsym
        simp [SymbolRef.symbolExists] at hsym
      · intro hd
        rcases r3 with e | e | e
        · omega
        · omega
        · exact absurd e hd
      · intro hd
        rcases r3 with e | e | e
        · omega
        · omega
        · exact absurd e hd
    obtain ⟨r5, hw5, h⟩ := bind_ok h
    obtain ⟨thenEnd, st5⟩ := r5
    have p5 := walk_handed thenp _ _ _ _ thenEnd st5 hw5
    have q5 := walk_loopless thenp _ _ _ _ thenEnd st5 hf.2.1 hw5 q4
    simp only at h p5 q5
    obtain ⟨r6, hw6, h⟩ := bind_ok h
    obtain ⟨elseEnd, st6⟩ := r6
    have p6 := walk_handed elsep _ _ _ _ elseEnd st6 hw6
    have q6 := walk_loopless elsep _ _ _ _ elseEnd st6 hf.2.2 hw6 q5
    simp only at h p6 q6
    have l6 : st5.inWhat.basicBlocks.length ≤ st6.inWhat.basicBlocks.length := p6.1.1
    split at h
    · split at h
      · simp only [pure, Except.pure, Except.ok.injEq, Prod.mk.injEq] at h
        obtain ⟨rfl, rfl⟩ := h
        exact q6
      · rename_i hte
        try rw [if_neg hte] at h
        obtain ⟨st7, h7, h⟩ := bind_ok h
        obtain ⟨c7, hj7, rfl⟩ := onCFG_ok h7
        try simp only at hj7
        try simp only at h
        obtain ⟨st8, h8, h⟩ := bind_ok h
        obtain ⟨c8, hj8, rfl⟩ := onCFG_ok h8
        simp only [pure, Except.pure, Except.ok.injEq, Prod.mk.injEq] at h
        obtain ⟨rfl, rfl⟩ := h
        have t5 : thenEnd < st6.inWhat.basicBlocks.length := by
          rcases p5.2 with e | e
          · exact absurd e hte
          · exact lt_of_lt_of_le e.1 l6
        have o7 : ((st6.inWhat.freshBlock loops).2.blockAt
            st6.inWhat.basicBlocks.length).bexit.cond = 0 := by
          rw [blockAt_freshBlock]
          simp
        have q7 : c7.Loopless :=
          (q6.with_block loops).with_jump hj7 (Or.inr o7) (fun _ => by omega)
        obtain ⟨_, _, _, hl7⟩ := unconditionalJump_ok hj7 hte
        have o8 : (c7.blockAt st6.inWhat.basicBlocks.length).bexit.cond = 0 := by
          rw [hl7.2]
          simp only
          rw [if_neg (by omega)]
          exact o7
        refine q7.with_jump hj8 (Or.inr o8) ?_
        intro hd
        rcases p6.2 with e | e
        · exact absurd e hd
        · have := e.1
          omega
    · simp only [pure, Except.pure, Except.ok.injEq, Prod.mk.injEq] at h
      obtain ⟨rfl, rfl⟩ := h
      exact q6
  | .Send recvE fn argsE block, current, target, loops, st, ret, st2, hf, h, hl => by
    rw [CFG.walk] at h
    obtain ⟨u, hu, h⟩ := bind_ok h
    simp only [BuildState.newTemporary] at h
    obtain ⟨r1, hw1, h⟩ := bind_ok h
    obtain ⟨cur1, st1⟩ := r1
    cases block with
    | some blk => simp only [LoopFree] at hf
    | none =>
      simp only [LoopFree] at hf
      have q1 : st1.inWhat.Loopless := walk_loopless recvE _ _ _ _ cur1 st1 hf.1 hw1 hl
      simp only at h
      obtain ⟨r2, hw2, h⟩ := bind_ok h
      obtain ⟨cur2, args, st2a⟩ := r2
      have q2 := walkArgs_loopless argsE _ _ _ _ cur2 args st2a hf.2 hw2 q1
      simp only at h
      obtain ⟨st3, h3, h⟩ := bind_ok h
      obtain ⟨c3, hj3, rfl⟩ := onCFG_ok h3
      simp only [pure, Except.pure, Except.ok.injEq, Prod.mk.injEq] at h
      obtain ⟨rfl, rfl⟩ := h
      exact q2.with_binding hj3
theorem walkStats_loopless : ∀ (stats : List ast.Expression) (current : Nat)
    (loops : Int) (st : BuildState) (ret : Nat) (st2 : BuildState),
    LoopFreeList stats → CFG.walkStats stats current loops st = .ok (ret, st2) →
    st.inWhat.Loopless → st2.inWhat.Loopless
  | [], current, loops, st, ret, st2, _, h, hl => by
    simp only [CFG.walkStats, pure, Except.pure, Except.ok.injEq, Prod.mk.injEq] at h
    obtain ⟨rfl, rfl⟩ := h
    exact hl
  | exp :: rest, current, loops, st, ret, st2, hf, h, hl => by
    simp only [CFG.walkStats, BuildState.newTemporary] at h
    simp only [LoopFreeList] at hf
    obtain ⟨r1, hw1, h⟩ := bind_ok h
    obtain ⟨cur1, st1⟩ := r1
    have q1 : st1.inWhat.Loopless := walk_loopless exp _ _ _ _ cur1 st1 hf.1 hw1 hl
    exact walkStats_loopless rest _ _ _ ret st2 hf.2 h q1
theorem walkArgs_loopless : ∀ (argsE : List ast.Expression) (current : Nat)
    (loops : Int) (acc : List SymbolRef) (st : BuildState) (ret : Nat) (args : List SymbolRef)
    (st2 : BuildState),
    LoopFreeList argsE → CFG.walkArgs argsE current loops acc st = .ok (ret, args, st2) →
    st.inWhat.Loopless → st2.inWhat.Loopless
  | [], current, loops, acc, st, ret, args, st2, _, h, hl => by
    simp only [CFG.walkArgs, pure, Except.pure, Except.ok.injEq, Prod.mk.injEq] at h
    obtain ⟨rfl, _, rfl⟩ := h
    exact hl
  | exp :: rest, current, loops, acc, st, ret, args, st2, hf, h, hl => by
    simp only [CFG.walkArgs, BuildState.newTemporary] at h
    simp only [LoopFreeList] at hf
    obtain ⟨r1, hw1, h⟩ := bind_ok h
    obtain ⟨cur1, st1⟩ := r1
    have q1 : st1.inWhat.Loopless := walk_loopless exp _ _ _ _ cur1 st1 hf.1 hw1 hl
    exact walkArgs_loopless rest _ _ _ _ ret args st2 hf.2 h q1
end

theorem Before.append_after {α : Type} {l : List α} {y x : α} (h : Before l y x) (m : List α) :
    Before (l ++ m) y x := by
  obtain ⟨l1, l2, rfl, hy, hx⟩ := h
  exact ⟨l1, l2 ++ m, by simp, hy, List.mem_append_left _ hx⟩

theorem Before.append_before {α : Type} {l : List α} {y x : α} (h : Before l y x)
    (m : List α) : Before (m ++ l) y x := by
  obtain ⟨l1, l2, rfl, hy, hx⟩ := h
  exact ⟨m ++ l1, l2, by simp, List.mem_append_right _ hy, hx⟩

/-- In a list without repetitions, an element that comes before another has the
smaller index, whatever the indices at which the two are found. -/
theorem Before.index_lt {l : List Nat} {y x : Nat} (h : Before l y x) (hn : l.Nodup) :
    (∃ i j : Nat, l[j]? = some y ∧ l[i]? = some x) ∧
    ∀ i j : Nat, l[j]? = some y → l[i]? = some x → j < i := by
  obtain ⟨l1, l2, rfl, hy, hx⟩ := h
  obtain ⟨j0, hj0⟩ := List.mem_iff_getElem?.mp hy
  obtain ⟨i0, hi0⟩ := List.mem_iff_getElem?.mp hx
  have hj0l : j0 < l1.length := by
    by_contra hc
    rw [List.getElem?_eq_none (Nat.le_of_not_lt hc)] at hj0
    cases hj0
  have e1 : (l1 ++ l2)[j0]? = some y := by
    rw [List.getElem?_append_left hj0l]
    exact hj0
  have e2 : (l1 ++ l2)[l1.length + i0]? = some x := by
    rw [List.getElem?_append_right (by omega)]
    simpa using hi0
  refine ⟨⟨_, _, e1, e2⟩, fun i j hj hi => ?_⟩
  have hjl : j < (l1 ++ l2).length := by
    by_contra hc
    rw [List.getElem?_eq_none (Nat.le_of_not_lt hc)] at hj
    cases hj
  have hil : i < (l1 ++ l2).length := by
    by_contra hc
    rw [List.getElem?_eq_none (Nat.le_of_not_lt hc)] at hi
    cases hi
  have ej : j = j0 := List.getElem?_inj hjl hn (hj.trans e1.symm)
  have ei : i = l1.length + i0 := List.getElem?_inj hil hn (hi.trans e2.symm)
  omega

theorem succs_of_unset {c : CFG} (hg : c.Good) {p : Nat} (h : (c.blockAt p).bexit.cond = 0) :
    c.succs p = [] := by
  obtain ⟨h1, h2⟩ := hg.2.2.1 p h
  simp [CFG.succs, h1, h2]

theorem succs_dead {c : CFG} (hg : c.Good) : c.succs CFG.deadBlock = [CFG.deadBlock, CFG.deadBlock] := by
  simp [CFG.succs, hg.2.1]

/-- From a block outside the list of `CFG.Ordered` only blocks outside it are reached. -/
theorem CFG.Ordered.outside {c : CFG} {T : List Nat} (h : c.Ordered T) (hg : c.Good) {a b : Nat}
    (hr : c.Reach a b) : a ∉ T → b ∉ T := by
  induction hr with
  | refl p => exact id
  | step p t q ht _ ih =>
    intro hp
    apply ih
    have hp2 : ¬ (p ≠ CFG.deadBlock ∧ (c.blockAt p).bexit.cond ≠ 0) := fun hx => hp ((h.1 p).mpr hx)
    by_cases hd : p = CFG.deadBlock
    · subst hd
      rw [succs_dead hg] at ht
      simp only [List.mem_cons, List.mem_singleton, List.not_mem_nil, or_false, or_self] at ht
      subst ht
      exact hp
    · have hu : (c.blockAt p).bexit.cond = 0 := by
        by_contra hx
        exact hp2 ⟨hd, hx⟩
      rw [succs_of_unset hg hu] at ht
      cases ht

theorem CFG.Ordered.edge_rank {c : CFG} {T : List Nat} (h : c.Ordered T) {a b : Nat}
    (ha : a ∈ T) (hb : b ∈ c.succs a) : T.indexOf a < T.indexOf b := by
  by_cases hbT : b ∈ T
  · have ia := List.indexOf_lt_length.mpr ha
    have ib := List.indexOf_lt_length.mpr hbT
    have ga : T[T.indexOf a] = a := List.getElem_indexOf ia
    have gb : T[T.indexOf b] = b := List.getElem_indexOf ib
    rcases Nat.lt_trichotomy (T.indexOf a) (T.indexOf b) with h1 | h1 | h1
    · exact h1
    · exfalso
      have : a = b := by
        rw [← ga, ← gb]
        simp only [h1]
      subst this
      exact h.2.2 a ha hb
    · exfalso
      have := List.pairwise_iff_getElem.mp h.2.1 _ _ ib ia h1
      rw [ga, gb] at this
      exact this hb
  · rw [List.indexOf_eq_length.mpr hbT]
    exact List.indexOf_lt_length.mpr ha

theorem CFG.Ordered.reach_rank {c : CFG} {T : List Nat} (h : c.Ordered T) (hg : c.Good)
    {a b : Nat} (hr : c.Reach a b) : T.indexOf a ≤ T.indexOf b := by
  induction hr with
  | refl p => exact le_refl _
  | step p t q ht hq ih =>
    by_cases hp : p ∈ T
    · exact le_trans (Nat.le_of_lt (h.edge_rank hp ht)) ih
    · have := h.outside hg (CFG.Reach.step p t q ht hq) hp
      rw [List.indexOf_eq_length.mpr this]
      exact List.indexOf_le_length

/-- A graph whose blocks can be listed in the way of `CFG.Ordered` has no cycle but the
self-loop of the dead block. -/
theorem CFG.Loopless.acyclic {c : CFG} (h : c.Loopless) (hg : c.Good) :
    ∀ x y, x ≠ CFG.deadBlock → y ∈ c.succs x → ¬ c.Reach y x := by
  obtain ⟨T, hT⟩ := h
  intro x y hx hy hr
  have hxT : x ∈ T := by
    rw [hT.1 x]
    refine ⟨hx, fun hu => ?_⟩
    rw [succs_of_unset hg hu] at hy
    cases hy
  have h1 := hT.edge_rank hxT hy
  have h2 := hT.reach_rank hg hr
  omega

/-- In the post-order over a graph without cycles, every successor of a block of the
order other than the dead block was visited before or comes before the block. -/
theorem postOrder_before (c : CFG) (hv : c.SuccsValid)
    (hac : ∀ x y, x ≠ CFG.deadBlock → y ∈ c.succs x → ¬ c.Reach y x) :
    ∀ (fuel : Nat) (V : List Nat) (p : Nat), p < c.basicBlocks.length →
      c.unvisited V < fuel →
      ∀ x ∈ c.postOrder fuel V (some p), x ≠ CFG.deadBlock → ∀ y ∈ c.succs x,
        y ∈ V ∨ Before (c.postOrder fuel V (some p)) y x := by
  intro fuel
  induction fuel with
  | zero => intro V p _ h; omega
  | succ k ih =>
    intro V p hp hf
    by_cases hpv : p ∈ V
    · simp only [CFG.postOrder, hpv, if_true]
      exact fun x hx => (by cases hx)
    · obtain ⟨t, e, ht, he, htl, hel⟩ := hv p hp
      have hk1 : c.unvisited (p :: V) < k := by
        have := unvisited_cons c hp hpv
        omega
      obtain ⟨n1, m1, i1, s1, _⟩ := postOrder_spec c hv k (p :: V) t htl hk1
      have b1 := ih (p :: V) t htl hk1
      have hk2 : c.unvisited (c.postOrder k (p :: V) (some t) ++ p :: V) < k := by
        have := unvisited_mono c (V := p :: V)
          (W := c.postOrder k (p :: V) (some t) ++ p :: V)
          (fun q hq => List.mem_append_right _ hq)
        omega
      obtain ⟨n2, m2, i2, s2, _⟩ :=
        postOrder_spec c hv k (c.postOrder k (p :: V) (some t) ++ p :: V) e hel hk2
      have b2 := ih (c.postOrder k (p :: V) (some t) ++ p :: V) e hel hk2
      have hpt : t ∈ c.succs p := (mem_succs c p t).mpr (Or.inl ht)
      have hpe : e ∈ c.succs p := (mem_succs c p e).mpr (Or.inr he)
      simp only [CFG.postOrder, hpv, if_false, ht, he]
      intro x hx hxd y hy
      rcases List.mem_append.mp hx with h | h
      · rcases List.mem_append.mp h with h | h
        · rcases b1 x h hxd y hy with g | g
          · rcases List.mem_cons.mp g with g | g
            · exfalso
              subst g
              exact hac x y hxd hy (CFG.Reach.step y t x hpt (m1 x h).2.2)
            · exact Or.inl g
          · exact Or.inr ((g.append_after _).append_after _)
        · rcases b2 x h hxd y hy with g | g
          · rcases List.mem_append.mp g with g | g
            · exact Or.inr (Before.append_after ⟨_, _, rfl, g, h⟩ _)
            · rcases List.mem_cons.mp g with g | g
              · exfalso
                subst g
                exact hac x y hxd hy (CFG.Reach.step y e x hpe (m2 x h).2.2)
              · exact Or.inl g
          · exact Or.inr ((g.append_before _).append_after _)
      · rw [List.mem_singleton] at h
        subst h
        have self : ∀ z, z ∈ c.succs x → z ≠ x := by
          intro z hz e0
          subst e0
          exact hac z z hxd hz (CFG.Reach.refl _)
        rcases (mem_succs c x y).mp hy with h | h
        · have : y = t := Option.some.inj (h.symm.trans ht)
          subst this
          rcases i1 with g | g
          · rcases List.mem_cons.mp g with g | g
            · exact absurd g (self y hy)
            · exact Or.inl g
          · exact Or.inr ⟨_, _, rfl, List.mem_append_left _ g, List.mem_singleton_self _⟩
        · have : y = e := Option.some.inj (h.symm.trans he)
          subst this
          rcases i2 with g | g
          · rcases List.mem_append.mp g with g | g
            · exact Or.inr ⟨_, _, rfl, List.mem_append_left _ g, List.mem_singleton_self _⟩
            · rcases List.mem_cons.mp g with g | g
              · exact absurd g (self y hy)
              · exact Or.inl g
          · exact Or.inr ⟨_, _, rfl, List.mem_append_right _ g, List.mem_singleton_self _⟩

/-! ## The forward sort of a graph without loops -/

theorem Unsorted_emplace {c c2 : CFG} {p : Nat} {b : SymbolRef} {v : Instruction}
    (hp : c.Unsorted) (he : c.emplace p b v = .ok c2) : c2.Unsorted := by
  refine ⟨?_, fun q => ?_⟩
  · have : SameHeader c c2 := by
      unfold CFG.emplace at he
      exact update_header he
    rw [this.2.1]
    exact hp.1
  · rw [(emplace_ok he).2.2 q]
    split
    · exact hp.2 q
    · exact hp.2 q

theorem Unsorted_loadArguments (selfSym : SymbolRef) (methodName : NameRef)
    (args : List SymbolRef) :
    ∀ (i : Int) (c c2 : CFG), loadArguments selfSym methodName args i c = .ok c2 →
      c.Unsorted → c2.Unsorted := by
  induction args with
  | nil =>
    intro i c c2 h hp
    simp only [loadArguments, pure, Except.pure, Except.ok.injEq] at h
    subst h
    exact hp
  | cons a rest ih =>
    intro i c c2 h hp
    simp only [loadArguments] at h
    obtain ⟨c1, h1, h2⟩ := bind_ok h
    exact ih _ _ _ h2 (Unsorted_emplace hp h1)

theorem Loopless_loadArguments (selfSym : SymbolRef) (methodName : NameRef)
    (args : List SymbolRef) :
    ∀ (i : Int) (c c2 : CFG), loadArguments selfSym methodName args i c = .ok c2 →
      c.Loopless → c2.Loopless := by
  induction args with
  | nil =>
    intro i c c2 h hp
    simp only [loadArguments, pure, Except.pure, Except.ok.injEq] at h
    subst h
    exact hp
  | cons a rest ih =>
    intro i c c2 h hp
    simp only [loadArguments] at h
    obtain ⟨c1, h1, h2⟩ := bind_ok h
    exact ih _ _ _ h2 (hp.with_binding h1)

theorem walk_unsorted {what : ast.Expression} {current : Nat} {target : SymbolRef}
    {loops : Int} {st : BuildState} {ret : Nat} {st2 : BuildState}
    (h : CFG.walk what current target loops st = .ok (ret, st2))
    (hp : st.inWhat.Unsorted) : st2.inWhat.Unsorted := by
  refine walk_preserves (fun st => st.inWhat.Unsorted) ?_ ?_ ?_ ?_ ?_ what current target loops
    st ret st2 h hp
  · intro st n hp
    exact hp
  · intro st l hp
    refine ⟨hp.1, fun p => ?_⟩
    simp only [BuildState.freshBlock]
    rw [blockAt_freshBlock]
    split
    · rfl
    · exact hp.2 p
  · intro st w hp
    show (global2Local w st).2.inWhat.Unsorted
    rw [global2Local_inWhat]
    exact hp
  · intro st p b v c2 hp _ he
    exact Unsorted_emplace hp he
  · intro st c2 hp he
    refine ⟨?_, fun q => ?_⟩
    · show c2.forwardsTopoSort = []
      rw [he.2.1.2.1]
      exact hp.1
    · show (c2.blockAt q).flags = 0
      rw [(he.2.2 q).2.2.2]
      exact hp.2 q

theorem Unsorted_new (s : SymbolRef) : ({ CFG.new with symbol := s } : CFG).Unsorted := by
  refine ⟨rfl, fun p => ?_⟩
  rcases p with _ | _ | p <;> rfl

theorem Ordered_new (s : SymbolRef) : ({ CFG.new with symbol := s } : CFG).Ordered [] := by
  refine ⟨fun p => ?_, List.Pairwise.nil, fun p hp => by cases hp⟩
  simp only [List.not_mem_nil, false_iff, not_and, not_not]
  intro hp
  rcases p with _ | _ | p
  · rfl
  · exact absurd rfl hp
  · rfl

/-- The graph `buildFor` has before the three passes: nothing sorted yet, and no
cycle if the body has no loop. -/
theorem buildGraph_unsorted {gs gs2 : GlobalState} {md : ast.MethodDef} {c : CFG}
    (h : CFG.buildGraph gs md = .ok (gs2, c)) :
    c.Unsorted ∧ (LoopFree md.rhs → c.Loopless) := by
  unfold CFG.buildGraph at h
  simp only at h
  obtain ⟨c1, h1, h⟩ := bind_ok h
  obtain ⟨c2, h2, h⟩ := bind_ok h
  obtain ⟨r3, h3, h⟩ := bind_ok h
  obtain ⟨cont, st3⟩ := r3
  simp only at h
  obtain ⟨st4, h4, h⟩ := bind_ok h
  obtain ⟨c4, hj4, rfl⟩ := onCFG_ok h4
  obtain ⟨st5, h5, h⟩ := bind_ok h
  obtain ⟨c5, hj5, rfl⟩ := onCFG_ok h5
  obtain ⟨c6, h6, h⟩ := bind_ok h
  simp only [pure, Except.pure, Except.ok.injEq, Prod.mk.injEq] at h
  obtain ⟨rfl, rfl⟩ := h
  obtain ⟨hp6, rfl⟩ := update_ok h6
  have hb6 := blockAt_modify c5 CFG.entry
  constructor
  · have u2 := Unsorted_loadArguments _ _ _ _ _ _ h2
      (Unsorted_emplace (Unsorted_new md.symbol) h1)
    have u3 : st3.inWhat.Unsorted := walk_unsorted h3 u2
    have u4 : c4.Unsorted := Unsorted_emplace u3 hj4
    have e5 := jumpToDead_onlyEdges hj5
    refine ⟨?_, fun q => ?_⟩
    · show c5.forwardsTopoSort = []
      rw [e5.2.1.2.1]
      exact u4.1
    · rw [hb6 q _ hp6]
      have : (c5.blockAt q).flags = 0 := by
        rw [(e5.2.2 q).2.2.2]
        exact u4.2 q
      split
      · exact this
      · exact this
  · intro hf
    have q2 := Loopless_loadArguments _ _ _ _ _ _ h2
      (CFG.Loopless.with_binding ⟨[], Ordered_new md.symbol⟩ h1)
    have q3 : st3.inWhat.Loopless := walk_loopless _ _ _ _ _ _ _ hf h3 q2
    have q5 : c5.Loopless := (q3.with_binding hj4).with_dead_jump hj5
    obtain ⟨T, hT⟩ := q5
    refine ⟨T, hT.same_terminators (fun q => ?_)⟩
    rw [hb6 q _ hp6]
    split <;> rfl

theorem visitEdges_header {visit : SortState → Nat → Except Err SortState}
    (hv : ∀ s s2 e, visit s e = .ok s2 → SameHeader s.1 s2.1) (edges : List Nat) :
    ∀ (s s2 : SortState), visitEdges visit edges s = .ok s2 → SameHeader s.1 s2.1 := by
  induction edges with
  | nil =>
    intro s s2 h
    simp [visitEdges, pure, Except.pure] at h
    subst h
    exact ⟨rfl, rfl, rfl⟩
  | cons e rest ih =>
    intro s s2 h
    simp only [visitEdges, bind, Except.bind] at h
    split at h
    · cases h
    · rename_i s1 h1
      exact (hv _ _ _ h1).after_header (ih _ _ h)

theorem visitOuterEdges_header {visit : SortState → Nat → Except Err SortState}
    (hv : ∀ s s2 e, visit s e = .ok s2 → SameHeader s.1 s2.1) (outerLoops : Int)
    (edges : List Nat) :
    ∀ (i : Nat) (s : SortState) (r : Nat × List Nat × SortState),
      visitOuterEdges visit outerLoops edges i s = .ok r → SameHeader s.1 r.2.2.1 := by
  induction edges with
  | nil =>
    intro i s r h
    simp [visitOuterEdges, pure, Except.pure] at h
    subst h
    exact ⟨rfl, rfl, rfl⟩
  | cons e rest ih =>
    intro i s r h
    simp only [visitOuterEdges, bind, Except.bind, pure, Except.pure] at h
    split at h
    · cases h
    · split at h
      · split at h
        · cases h
        · rename_i s1 h1
          exact (hv _ _ _ h1).after_header (ih _ _ _ h)
      · cases h
        exact ⟨rfl, rfl, rfl⟩

theorem topoSortBwd_header (fuel : Nat) :
    ∀ (s s2 : SortState) (cur : Option Nat), CFG.topoSortBwd fuel s cur = .ok s2 →
      SameHeader s.1 s2.1 := by
  induction fuel with
  | zero =>
    intro s s2 cur h
    simp [CFG.topoSortBwd, throw, throwThe, MonadExceptOf.throw] at h
  | succ k ih =>
    intro s s2 cur h
    simp only [CFG.topoSortBwd, bind, Except.bind, pure, Except.pure] at h
    split at h
    · cases h
    · split at h
      · cases h
      · split at h
        · cases h
          exact ⟨rfl, rfl, rfl⟩
        · split at h
          · cases h
          · rename_i c1 hc1
            have h1 := update_header hc1
            have hv : ∀ (s s2 : SortState) (e : Nat),
                CFG.topoSortBwd k s (some e) = .ok s2 → SameHeader s.1 s2.1 :=
              fun s s2 e hh => ih s s2 (some e) hh
            split at h
            · cases h
            · rename_i r hr
              have h2 := visitOuterEdges_header hv _ _ _ _ _ hr
              split at h
              · split at h
                · cases h
                · rename_i s3 hs3
                  have h3 := storeBlock_ok hs3
                  have h4 := visitEdges_header hv _ _ _ h
                  rw [h3] at h4
                  exact h1.after_header (h2.after_header h4)
              · split at h
                · cases h
                · rename_i s3 hs3
                  have h4 := visitEdges_header hv _ _ _ hs3
                  have h3 := storeBlock_ok h
                  rw [h3]
                  exact h1.after_header (h2.after_header h4)

theorem postOrder_congr {c c2 : CFG} (h : ∀ p, (c2.blockAt p).bexit = (c.blockAt p).bexit) :
    ∀ (fuel : Nat) (V : List Nat) (p : Option Nat), c2.postOrder fuel V p = c.postOrder fuel V p := by
  intro fuel
  induction fuel with
  | zero => intro V p; rfl
  | succ k ih =>
    intro V p
    cases p with
    | none => rfl
    | some p =>
      simp only [CFG.postOrder]
      rw [h p, ih, ih]

theorem Reach_congr {c c2 : CFG} (h : ∀ p, (c2.blockAt p).bexit = (c.blockAt p).bexit)
    {a b : Nat} (hr : c.Reach a b) : c2.Reach a b := by
  induction hr with
  | refl p => exact CFG.Reach.refl p
  | step p t q ht _ ih =>
    refine CFG.Reach.step p t q ?_ ih
    rw [succs_of_bexit (h p)]
    exact ht

theorem getElem?_stored (out : List Nat) (m i p : Nat) :
    (out.map some ++ List.replicate m none)[i]? = some (some p) ↔ out[i]? = some p := by
  by_cases hi : i < out.length
  · rw [List.getElem?_append_left (by simpa using hi), List.getElem?_map]
    rw [List.getElem?_eq_getElem hi]
    simp
  · have hi2 : out.length ≤ i := Nat.le_of_not_lt hi
    rw [List.getElem?_append_right (by simpa using hi2), List.getElem?_eq_none hi2]
    simp only [List.length_map, reduceCtorEq, iff_false]
    intro hx
    have := List.getElem?_mem hx
    rw [List.mem_replicate] at this
    cases this.2

/-- The forward sort of a graph that has no flag set and valid successors: the
post-order from the entry, then null pointers up to the number of blocks. -/
theorem sorted_forwards (cs : CFG) (r1 : SortState) (hv : cs.SuccsValid)
    (hflags : ∀ q, (cs.blockAt q).flags = 0) (he : CFG.entry < cs.basicBlocks.length)
    (h1 : CFG.topoSortFwd (cs.basicBlocks.length + 1)
      (cs, resizeTarget [] cs.basicBlocks.length, 0) (some CFG.entry) = .ok r1) :
    r1.2.1 = (cs.postOrder (cs.basicBlocks.length + 1) [] (some CFG.entry)).map some ++
      List.replicate (cs.basicBlocks.length -
        (cs.postOrder (cs.basicBlocks.length + 1) [] (some CFG.entry)).length) none := by
  have hfuel : cs.basicBlocks.length < cs.basicBlocks.length + 1 := Nat.lt_succ_self _
  have hfu := lt_of_le_of_lt (unvisited_nil_le cs) hfuel
  obtain ⟨n1, m1, _, _, _⟩ := postOrder_spec cs hv _ [] CFG.entry he hfu
  have hm : ∀ q, q ∈ ([] : List Nat) ↔ cs.fwdVisited q = true := by
    intro q
    constructor
    · intro h; cases h
    · intro h
      exfalso
      unfold CFG.fwdVisited at h
      rw [hflags q] at h
      revert h
      decide
  have hlen : (resizeTarget [] cs.basicBlocks.length).length = cs.basicBlocks.length := by
    simp [resizeTarget]
  have hroom := length_le_of_nodup_lt n1 (fun q hq => (m1 q hq).2.1)
  obtain ⟨c2, h2, _, _⟩ := topoSortFwd_spec cs hv _ cs (resizeTarget [] cs.basicBlocks.length)
    0 [] CFG.entry (OnlyFlags.rfl_flags cs) hm he hfu (by omega)
  rw [h2] at h1
  cases h1
  simp [writeAt, resizeTarget]

theorem fillInTopoSorts_forwards {c c2 : CFG} (h : c.fillInTopoSorts = .ok c2)
    (hu : c.Unsorted) (hv : c.SuccsValid) (he : CFG.entry < c.basicBlocks.length) :
    c2.forwardsTopoSort =
      (c.postOrder (c.basicBlocks.length + 1) [] (some CFG.entry)).map some ++
      List.replicate (c.basicBlocks.length -
        (c.postOrder (c.basicBlocks.length + 1) [] (some CFG.entry)).length) none := by
  unfold CFG.fillInTopoSorts at h
  simp only [bind, Except.bind, pure, Except.pure] at h
  split at h
  · cases h
  · rename_i r1 h1
    split at h
    · cases h
    · rename_i r2 h2
      cases h
      have hh := topoSortBwd_header _ _ _ _ h2
      have e1 : r2.1.forwardsTopoSort = r1.2.1 := hh.2.1
      show r2.1.forwardsTopoSort = _
      rw [e1]
      have hb : ∀ fts p, (CFG.mk c.symbol (c.basicBlocks.map
          (fun bb => { bb with backEdges := sortBackEdges c bb.backEdges }))
          fts c.backwardsTopoSort).blockAt p =
          { c.blockAt p with backEdges := sortBackEdges c (c.blockAt p).backEdges } :=
        fun fts p => blockAt_map (CFG.mk c.symbol c.basicBlocks fts c.backwardsTopoSort) _
          (by simp [sortBackEdges]) p
      have hbx : ∀ p, ((CFG.mk c.symbol (c.basicBlocks.map
          (fun bb => { bb with backEdges := sortBackEdges c bb.backEdges }))
          [] c.backwardsTopoSort).blockAt p).bexit =
          (c.blockAt p).bexit := fun p => by rw [hb [] p]
      rw [hu.1] at h1
      have := sorted_forwards _ r1 (fun q hq => by
          rw [hbx q]
          simp only [List.length_map] at hq ⊢
          exact hv q hq)
        (fun q => by rw [hb [] q]; exact hu.2 q) (by simpa using he) h1
      rw [this, postOrder_congr hbx]
      simp only [List.length_map]

/-! ## C13: the forward sort of a method without loops -/

/-- C13 (counterexample): in the graph `build` returns for S1, a method without `While`
and without `Send`, the entry is reachable and has the dead block as `thenb`, and the
entry is not at a smaller index of `forwardsTopoSort` than the dead block. -/
theorem build_forwards_entry_after_dead :
    LoopFree S1.md.rhs ∧ build Scenario.gs S1.md = .ok S1.cfg ∧
    CFG.entry ≠ CFG.deadBlock ∧ S1.cfg.Reach CFG.entry CFG.entry ∧
    (S1.cfg.blockAt CFG.entry).bexit.thenb = some CFG.deadBlock ∧
    S1.cfg.forwardsTopoSort[1]? = some (some CFG.entry) ∧
    S1.cfg.forwardsTopoSort[0]? = some (some CFG.deadBlock) ∧
    ∀ i j : Nat, S1.cfg.forwardsTopoSort[i]? = some (some CFG.entry) →
      S1.cfg.forwardsTopoSort[j]? = some (some CFG.deadBlock) → ¬ i < j := by
  refine ⟨by simp [S1.md, LoopFree, LoopFreeList], S1_build, by decide, CFG.Reach.refl _,
    rfl, rfl, rfl, ?_⟩
  intro i j hi hj
  rcases i with _ | _ | i
  · exact absurd hi (by decide)
  · rcases j with _ | j
    · omega
    · rcases j with _ | j
      · exact absurd hj (by decide)
      · simp [S1.cfg] at hj
  · simp [S1.cfg] at hi

/-- C13 (amended): for every CFG returned by `build` from a method containing no
`While` and no `Send` with a block, every non-dead block reachable from the entry has a
larger index in `forwardsTopoSort` than its `thenb` and than its `elseb`: the block and
its two successors are in `forwardsTopoSort`, and wherever they are found there the
index of the successor is the smaller one. -/
theorem build_forwards_after_successors (gs : GlobalState) (md : ast.MethodDef) (c : CFG)
    (h : build gs md = .ok c) (hf : LoopFree md.rhs) (p : Nat) (hp : p ≠ CFG.deadBlock)
    (hr : c.Reach CFG.entry p) :
    ∃ t e, (c.blockAt p).bexit.thenb = some t ∧ (c.blockAt p).bexit.elseb = some e ∧
      (∃ i : Nat, c.forwardsTopoSort[i]? = some (some p)) ∧
      (∃ j : Nat, c.forwardsTopoSort[j]? = some (some t)) ∧
      (∃ k : Nat, c.forwardsTopoSort[k]? = some (some e)) ∧
      ∀ i j : Nat, c.forwardsTopoSort[i]? = some (some p) →
        (c.forwardsTopoSort[j]? = some (some t) ∨ c.forwardsTopoSort[j]? = some (some e)) →
        j < i := by
  obtain ⟨gs1, c1, h1, hl, hb⟩ := build_frames h
  obtain ⟨gs1b, c1b, c2, c3, gs4, h1b, h2, h3, h4⟩ := build_stages h
  rw [h1] at h1b
  cases h1b
  obtain ⟨ho, _⟩ := buildGraph_spec h1
  obtain ⟨hu, hll⟩ := buildGraph_unsorted h1
  have hg : c1.Good := ho.1
  have hv : c1.SuccsValid := by
    intro q hq
    apply hg.2.2.2.1 q
    intro h0
    exact (List.not_mem_nil _) (((ho.2.2 q hq).mp h0).1)
  have he : CFG.entry < c1.basicBlocks.length := by
    have := hg.1
    simp only [CFG.entry]
    omega
  have hfts : c.forwardsTopoSort = c2.forwardsTopoSort := by
    rw [(fillInBlockArguments_blocks h4).2.1]
    exact ((dealias_frame gs1 c2).1 c3 h3).2.1.2.1
  rw [hfts, fillInTopoSorts_forwards h2 hu hv he]
  have hfuel : c1.basicBlocks.length < c1.basicBlocks.length + 1 := Nat.lt_succ_self _
  have hfu := lt_of_le_of_lt (unvisited_nil_le c1) hfuel
  obtain ⟨n1, m1, _, _, _⟩ := postOrder_spec c1 hv _ [] CFG.entry he hfu
  have hr1 : c1.Reach CFG.entry p := Reach_congr (fun q => ((hb q).1).symm) hr
  have hpin := (postOrder_reach c1 hv _ CFG.entry he hfuel p).mpr hr1
  obtain ⟨t, e, ht, hee, _, _⟩ := hv p (m1 p hpin).2.1
  have hbef := postOrder_before c1 hv ((hll hf).acyclic hg) _ [] CFG.entry he hfu p hpin hp
  have bt : Before _ t p :=
    (hbef t ((mem_succs c1 p t).mpr (Or.inl ht))).resolve_left (List.not_mem_nil _)
  have be : Before _ e p :=
    (hbef e ((mem_succs c1 p e).mpr (Or.inr hee))).resolve_left (List.not_mem_nil _)
  obtain ⟨⟨i1, j1, a1, a2⟩, u1⟩ := bt.index_lt n1
  obtain ⟨⟨i2, j2, a3, a4⟩, u2⟩ := be.index_lt n1
  refine ⟨t, e, by rw [(hb p).1]; exact ht, by rw [(hb p).1]; exact hee, ⟨i1, ?_⟩, ⟨j1, ?_⟩,
    ⟨j2, ?_⟩, ?_⟩
  · rw [getElem?_stored]
    exact a2
  · rw [getElem?_stored]
    exact a1
  · rw [getElem?_stored]
    exact a3
  · intro i j hi hj
    rw [getElem?_stored] at hi
    rw [getElem?_stored, getElem?_stored] at hj
    rcases hj with hj | hj
    · exact u1 i j hj hi
    · exact u2 i j hj hi

/-- Witness of C13: S5, `if c then x = 1 else x = 2 end; x`, has no loop, `build`
returns its graph, and the entry of that graph is reachable and not the dead block. -/
theorem build_forwards_after_successors_witness :
    build Scenario.gs S5.md = .ok S5.cfg ∧ LoopFree S5.md.rhs ∧
    CFG.entry ≠ CFG.deadBlock ∧ S5.cfg.Reach CFG.entry CFG.entry ∧
    ∃ t e, (S5.cfg.blockAt CFG.entry).bexit.thenb = some t ∧
      (S5.cfg.blockAt CFG.entry).bexit.elseb = some e ∧
      (∃ i : Nat, S5.cfg.forwardsTopoSort[i]? = some (some CFG.entry)) ∧
      (∃ j : Nat, S5.cfg.forwardsTopoSort[j]? = some (some t)) ∧
      (∃ k : Nat, S5.cfg.forwardsTopoSort[k]? = some (some e)) ∧
      ∀ i j : Nat, S5.cfg.forwardsTopoSort[i]? = some (some CFG.entry) →
        (S5.cfg.forwardsTopoSort[j]? = some (some t) ∨
          S5.cfg.forwardsTopoSort[j]? = some (some e)) →
        j < i :=
  ⟨S5_build, by simp [S5.md, LoopFree, LoopFreeList], by decide, CFG.Reach.refl _,
    build_forwards_after_successors Scenario.gs S5.md S5.cfg S5_build
      (by simp [S5.md, LoopFree, LoopFreeList]) CFG.entry (by decide) (CFG.Reach.refl _)⟩

end cfg
end ruby_typer
